import Mathlib

/-!
# Dense matrix container, determinant engine and random matrix generator

A shallow embedding of `matrix.hpp` (namespace `matrix`, class template `Matrix<T>`).

* The class `Matrix<T>` is the structure `Mat T` (the name `Matrix` is taken by the
  mathematical matrices the results are compared with).  The buffer `arr_` is a list in
  row-major order; the class invariant "the buffer holds `nRows_ * nCols_` elements" is a
  field of the structure.
* A pointer into the buffer is its offset, so `fakeRows[i] = arr_ + nCols_ * i` is the
  number `nCols_ * i`.
* Every unchecked access (`arr_[k]`, `rows[i][cols[k]]`) that falls outside its allocation
  is undefined behaviour in the source; the embedding reports it as `Err.rawAccess`.
* The element arithmetic comes in two layers.  In the first one floating-point elements
  (`double`) are taken as exact, they are rationals, and integer elements are mathematical
  integers: what holds of the algorithm is stated there.  In the second one (`F64` and the
  definitions named `Machine.*`) `double` is IEEE 754 binary64 with round to nearest, ties to
  even, and `int` is the 32-bit integers, an operation whose result is not representable
  being reported as `Err.intOverflow`: what the program computes is evaluated there, and
  the results that hold of the rounded run are proved there.
* `new T[n]` does not initialise its elements: the constructor `Matrix (nRows, nCols)`
  takes the content the new allocation happens to hold as the argument `fresh`.
* `size_t` values are natural numbers; the one place where the source subtracts from a
  `size_t` (`size - 1` in `rndMatr`) wraps modulo `2 ^ 64` explicitly.
-/

namespace matrix

/-- The failures of the container and of the engine: the four error kinds the source
throws, `rawAccess` for an unchecked access outside the allocation, and `intOverflow` for
an `int` operation or conversion whose result is not representable. -/
inductive Err where
  | outOfRange
  | dimensionMismatch
  | notSquare
  | divideByZero
  | rawAccess
  | intOverflow
  deriving DecidableEq, Repr

instance instDecidableEqExcept {ε α : Type} [DecidableEq ε] [DecidableEq α] :
    DecidableEq (Except ε α)
  | .ok a, .ok b =>
    if h : a = b then isTrue (congrArg Except.ok h)
    else isFalse (fun h2 => h (Except.ok.inj h2))
  | .error a, .error b =>
    if h : a = b then isTrue (congrArg Except.error h)
    else isFalse (fun h2 => h (Except.error.inj h2))
  | .ok _, .error _ => isFalse (fun h => Except.noConfusion h)
  | .error _, .ok _ => isFalse (fun h => Except.noConfusion h)

/-- The constant `const double EPSILON = 10E-15`. -/
def EPSILON : ℚ := 10 / 10 ^ 15

/-- The class `Matrix<T>`: `nRows_`, `nCols_` and the row-major buffer `arr_`. -/
structure Mat (T : Type) where
  nRows_ : Nat
  nCols_ : Nat
  arr_ : List T
  hsize : arr_.length = nRows_ * nCols_
  deriving DecidableEq

/-- An unchecked read `buf[i]`. -/
def rawGet {T : Type} (buf : List T) (i : Nat) : Except Err T :=
  match buf[i]? with
  | some v => .ok v
  | none => .error .rawAccess

/-- An unchecked write `buf[i] = v` into a plain array. -/
def rawPut {T : Type} (buf : List T) (i : Nat) (v : T) : Except Err (List T) :=
  if i < buf.length then .ok (buf.set i v) else .error .rawAccess

/-- An unchecked write `arr_[i] = v` into the buffer of a matrix. -/
def Mat.rawSet {T : Type} (m : Mat T) (i : Nat) (v : T) : Except Err (Mat T) :=
  if i < m.arr_.length then
    .ok ⟨m.nRows_, m.nCols_, m.arr_.set i v, by rw [List.length_set]; exact m.hsize⟩
  else .error .rawAccess

/-- The iterations of a counted loop: `fuel` iterations starting at index `i`. -/
def forLoop {σ : Type} (body : Nat → σ → Except Err σ) : Nat → Nat → σ → Except Err σ
  | 0, _, s => .ok s
  | fuel + 1, i, s =>
    match body i s with
    | .ok s1 => forLoop body fuel (i + 1) s1
    | .error e => .error e

/-- The loop `for (i = lo; i < hi; ++i) body`, which runs `hi - lo` times. -/
def forRange {σ : Type} (lo hi : Nat) (body : Nat → σ → Except Err σ) (s : σ) :
    Except Err σ :=
  forLoop body (hi - lo) lo s

/-! ## Construction, copies and element access -/

/-- `Matrix (nRows, nCols)`: the buffer is `new T[nRows * nCols]`, left uninitialised;
slot `k` holds `fresh k`. -/
def Mat.ctor {T : Type} (fresh : Nat → T) (nRows nCols : Nat) : Mat T :=
  ⟨nRows, nCols, (List.range (nRows * nCols)).map fresh, by simp⟩

/-- The copy constructor `Matrix (const Matrix<T> &other)`: slot `i` of the new buffer
receives `data[i]`, for every `i` below `nRows_ * nCols_`. -/
def Mat.copy {T : Type} (other : Mat T) : Mat T :=
  ⟨other.nRows_, other.nCols_,
    List.ofFn (fun i : Fin (other.nRows_ * other.nCols_) =>
      other.arr_.get (i.cast other.hsize.symm)),
    by simp⟩

/-- The row view `Proxy`: the offset of the row in the buffer and the column count. -/
structure Proxy where
  row_ : Nat
  proxynCols_ : Nat

/-- The checked row access `operator[] (row)`. -/
def Mat.row {T : Type} (m : Mat T) (row : Nat) : Except Err Proxy :=
  if row ≥ m.nRows_ then .error .outOfRange else .ok ⟨m.nCols_ * row, m.nCols_⟩

/-- Reading `m[i][j]` through the row view. -/
def Mat.get {T : Type} (m : Mat T) (i j : Nat) : Except Err T :=
  match m.row i with
  | .error e => .error e
  | .ok p => if j ≥ p.proxynCols_ then .error .outOfRange else rawGet m.arr_ (p.row_ + j)

/-- Writing `m[i][j] = v` through the row view. -/
def Mat.set {T : Type} (m : Mat T) (i j : Nat) (v : T) : Except Err (Mat T) :=
  match m.row i with
  | .error e => .error e
  | .ok p => if j ≥ p.proxynCols_ then .error .outOfRange else m.rawSet (p.row_ + j) v

/-- The converting copy constructor `Matrix (const Matrix<otherT> &other)`:
`arr_[i * nCols_ + j] = other[i][j]`, each element converted by `conv`. -/
def Mat.convert {S T : Type} (fresh : Nat → T) (conv : S → T) (other : Mat S) :
    Except Err (Mat T) :=
  forRange 0 other.nRows_ (fun i m =>
    forRange 0 other.nCols_ (fun j m =>
      match other.get i j with
      | .error e => .error e
      | .ok v => m.rawSet (i * other.nCols_ + j) (conv v)) m)
    (Mat.ctor fresh other.nRows_ other.nCols_)

/-- The member `transpose ()`: `transArr[j * nRows_ + i] = arr_[i * nCols_ + j]` into a
new `nCols_ x nRows_` matrix, which then replaces `*this`. -/
def Mat.transpose {T : Type} (fresh : Nat → T) (m : Mat T) : Except Err (Mat T) :=
  forRange 0 m.nRows_ (fun i trans =>
    forRange 0 m.nCols_ (fun j trans =>
      match rawGet m.arr_ (i * m.nCols_ + j) with
      | .error e => .error e
      | .ok v => trans.rawSet (j * m.nRows_ + i) v) trans)
    (Mat.ctor fresh m.nCols_ m.nRows_)

/-- The free function `operator~`: transpose a copy of the argument, return it by value. -/
def Mat.tilde {T : Type} (fresh : Nat → T) (m : Mat T) : Except Err (Mat T) :=
  match m.copy.transpose fresh with
  | .error e => .error e
  | .ok other => .ok other.copy

/-! ## The determinant engine -/

/-- The array built by `createFakeRows`: `fakeRows[i] = arr_ + nCols_ * i`. -/
def createFakeRows {T : Type} (m : Mat T) : List Nat :=
  (List.range m.nRows_).map (fun i => m.nCols_ * i)

/-- The array built by `createFakeCols`: `fakeCols[i] = i`. -/
def createFakeCols {T : Type} (m : Mat T) : List Nat :=
  (List.range m.nCols_).map (fun i => i)

/-- The read `rows[i][cols[k]]`. -/
def elemAt (m : Mat ℚ) (rows cols : List Nat) (i k : Nat) : Except Err ℚ :=
  match rawGet rows i with
  | .error e => .error e
  | .ok r =>
    match rawGet cols k with
    | .error e => .error e
    | .ok c => rawGet m.arr_ (r + c)

/-- The write `rows[i][cols[k]] = v`. -/
def elemSet (m : Mat ℚ) (rows cols : List Nat) (i k : Nat) (v : ℚ) : Except Err (Mat ℚ) :=
  match rawGet rows i with
  | .error e => .error e
  | .ok r =>
    match rawGet cols k with
    | .error e => .error e
    | .ok c => m.rawSet (r + c) v

/-- The member `maxSubColElem`: the row with the largest `std::abs` in column `nCol`,
among the rows from `nCol` on. -/
def maxSubColElem (m : Mat ℚ) (rows cols : List Nat) (nCol : Nat) : Except Err Nat :=
  forRange (nCol + 1) m.nRows_ (fun i maxRow =>
    match elemAt m rows cols maxRow nCol with
    | .error e => .error e
    | .ok a =>
      match elemAt m rows cols i nCol with
      | .error e => .error e
      | .ok b => .ok (if |a| < |b| then i else maxRow)) nCol

/-- The member `maxSubRowElem`: the column with the largest `std::abs` in row `nRow`,
among the columns from `nRow` on. -/
def maxSubRowElem (m : Mat ℚ) (rows cols : List Nat) (nRow : Nat) : Except Err Nat :=
  forRange (nRow + 1) m.nCols_ (fun i maxCol =>
    match elemAt m rows cols nRow maxCol with
    | .error e => .error e
    | .ok a =>
      match elemAt m rows cols nRow i with
      | .error e => .error e
      | .ok b => .ok (if |a| < |b| then i else maxCol)) nRow

/-- The call `std::swap (xs[i], xs[j])` on a plain array. -/
def swapEntries (xs : List Nat) (i j : Nat) : Except Err (List Nat) :=
  match rawGet xs i with
  | .error e => .error e
  | .ok a =>
    match rawGet xs j with
    | .error e => .error e
    | .ok b =>
      match rawPut xs i b with
      | .error e => .error e
      | .ok ys => rawPut ys j a

/-- The member `fakeSwapWithBiggest`: returns the sign and the two order arrays. -/
def fakeSwapWithBiggest (m : Mat ℚ) (fakeRows fakeCols : List Nat) (index : Nat)
    (param : Bool) : Except Err (Int × List Nat × List Nat) :=
  match (if param then maxSubColElem m fakeRows fakeCols index
         else maxSubRowElem m fakeRows fakeCols index) with
  | .error e => .error e
  | .ok withMax =>
    if withMax ≠ index then
      if param then
        match swapEntries fakeRows index withMax with
        | .error e => .error e
        | .ok fr => .ok (-1, fr, fakeCols)
      else
        match swapEntries fakeCols index withMax with
        | .error e => .error e
        | .ok fc => .ok (-1, fakeRows, fc)
    else .ok (1, fakeRows, fakeCols)

/-- The member `countDet`: the product of the diagonal in the order of the two arrays,
negated unless `sign == 1`. -/
def countDet (m : Mat ℚ) (rows cols : List Nat) (sign : Int) : Except Err ℚ :=
  match elemAt m rows cols 0 0 with
  | .error e => .error e
  | .ok d0 =>
    match forRange 1 m.nCols_ (fun i det =>
        match elemAt m rows cols i i with
        | .error e => .error e
        | .ok x => .ok (det * x)) d0 with
    | .error e => .error e
    | .ok det => .ok (if sign = 1 then det else -det)

/-- The innermost loop of `fakeGauss`:
`for (k = i + 1; k < nCols_; ++k) fakeRows[j][fakeCols[k]] -= del * fakeRows[i][fakeCols[k]]`,
with exact elements (`Machine.eliminateRow` is the same loop in `double`). -/
def eliminateRow (rows cols : List Nat) (i j : Nat) (del : ℚ) (m : Mat ℚ) :
    Except Err (Mat ℚ) :=
  forRange (i + 1) m.nCols_ (fun k sup =>
    match elemAt sup rows cols i k with
    | .error e => .error e
    | .ok b =>
      match elemAt sup rows cols j k with
      | .error e => .error e
      | .ok a => elemSet sup rows cols j k (a - del * b)) m

/-- The loop over the rows `j > i` of `fakeGauss`: `del = fakeRows[j][fakeCols[i]] / max`,
then the innermost loop. -/
def eliminateBelow (rows cols : List Nat) (i : Nat) (max : ℚ) (m : Mat ℚ) :
    Except Err (Mat ℚ) :=
  forRange (i + 1) m.nRows_ (fun j sup =>
    match elemAt sup rows cols j i with
    | .error e => .error e
    | .ok x => eliminateRow rows cols i j (x / max) sup) m

/-- The local state of `fakeGauss`: the sign, the matrix being eliminated and the two
order arrays. -/
structure GaussState where
  sign : Int
  support : Mat ℚ
  fakeRows : List Nat
  fakeCols : List Nat
  deriving DecidableEq

/-- How the main loop of `fakeGauss` ends: by the early `return T{}` at step `i` on the
pivot `pivot`, or after its last iteration. -/
inductive GaussOutcome where
  | singular (i : Nat) (pivot : ℚ)
  | completed (st : GaussState)
  deriving DecidableEq

/-- The main loop `for (i = 0; i < nRows_; ++i)` of `fakeGauss`, `fuel` iterations from
step `i`. -/
def fakeGaussLoop : Nat → Nat → GaussState → Except Err GaussOutcome
  | 0, _, st => .ok (.completed st)
  | fuel + 1, i, st =>
    match fakeSwapWithBiggest st.support st.fakeRows st.fakeCols i true with
    | .error e => .error e
    | .ok (s1, rows1, cols1) =>
      match fakeSwapWithBiggest st.support rows1 cols1 i false with
      | .error e => .error e
      | .ok (s2, rows2, cols2) =>
        match elemAt st.support rows2 cols2 i i with
        | .error e => .error e
        | .ok pivot =>
          if |pivot| ≤ EPSILON then .ok (.singular i pivot)
          else
            match eliminateBelow rows2 cols2 i pivot st.support with
            | .error e => .error e
            | .ok sup => fakeGaussLoop fuel (i + 1) ⟨st.sign * s1 * s2, sup, rows2, cols2⟩

/-- The run of the main loop of `fakeGauss` on `m`. -/
def fakeGaussRun (m : Mat ℚ) : Except Err GaussOutcome :=
  fakeGaussLoop m.nRows_ 0 ⟨1, m, createFakeRows m, createFakeCols m⟩

/-- The member `fakeGauss`. -/
def fakeGauss (m : Mat ℚ) : Except Err ℚ :=
  match fakeGaussRun m with
  | .error e => .error e
  | .ok (.singular _ _) => .ok 0
  | .ok (.completed st) => countDet st.support st.fakeRows st.fakeCols st.sign

/-- The member `det (std::false_type)`, the path of the floating-point element types. -/
def detFalseType (m : Mat ℚ) : Except Err ℚ :=
  fakeGauss m.copy

/-- The member `det ()` of `Matrix<double>`. -/
def det (m : Mat ℚ) : Except Err ℚ :=
  if m.nRows_ ≠ m.nCols_ then .error .notSquare else detFalseType m

/-- The C function `round`: to the nearest integer, halfway cases away from zero. -/
def round (x : ℚ) : ℤ :=
  if 0 ≤ x then ⌊x + 1 / 2⌋ else -⌊-x + 1 / 2⌋

/-- The member `det (std::true_type)`, the path of the integer element types: a
`Matrix<double>` copy, its `det ()`, and `round`, with exact elements
(`Machine.detTrueType` is the same member in `double` and 32-bit `int`). -/
def detTrueType (fresh : Nat → ℚ) (m : Mat ℤ) : Except Err ℤ :=
  match Mat.convert fresh (fun z : ℤ => (z : ℚ)) m with
  | .error e => .error e
  | .ok support =>
    match det support with
    | .error e => .error e
    | .ok d => .ok (round d)

/-- The member `det ()` of `Matrix<int>`. -/
def detInt (fresh : Nat → ℚ) (m : Mat ℤ) : Except Err ℤ :=
  if m.nRows_ ≠ m.nCols_ then .error .notSquare else detTrueType fresh m

/-! ## The random matrix generator -/

/-- The value of the `size_t` expression `size - 1`, which wraps when `size` is zero. -/
def sizeMinusOne (size : Nat) : Nat :=
  if size = 0 then 2 ^ 64 - 1 else size - 1

/-- The first loop of `rndMatr`: `rndMtrx[i][i] = 1` and, above the diagonal,
`rndMtrx[i][j] = randUpperTriangle (generator)`, for the rows before `size - 1`. -/
def fillUpper (randUpperTriangle : Nat → Nat → ℤ) (size : Nat) (rndMtrx : Mat ℤ) :
    Except Err (Mat ℤ) :=
  forRange 0 (sizeMinusOne size) (fun i m =>
    match m.set i i 1 with
    | .error e => .error e
    | .ok m1 => forRange (i + 1) size (fun j m2 => m2.set i j (randUpperTriangle i j)) m1)
    rndMtrx

/-- The second loop of `rndMatr`: `rndMtrx[i][j] += randCoef * rndMtrx[0][j]` for the rows
from 1 on, in unbounded integers (`Machine.mixRows` is the same loop in 32-bit `int`). -/
def mixRows (rowCoef : Nat → ℤ) (size : Nat) (rndMtrx : Mat ℤ) : Except Err (Mat ℤ) :=
  forRange 1 size (fun i m =>
    forRange 0 size (fun j m2 =>
      match m2.get 0 j with
      | .error e => .error e
      | .ok b =>
        match m2.get i j with
        | .error e => .error e
        | .ok a => m2.set i j (a + rowCoef i * b)) m) rndMtrx

/-- The third loop of `rndMatr`: `rndMtrx[j][i] += randCoef * rndMtrx[j][size - 1]` for the
columns before `size - 1`, in unbounded integers (`Machine.mixCols` is the same loop in
32-bit `int`). -/
def mixCols (colCoef : Nat → ℤ) (size : Nat) (rndMtrx : Mat ℤ) : Except Err (Mat ℤ) :=
  forRange 0 (sizeMinusOne size) (fun i m =>
    forRange 0 size (fun j m2 =>
      match m2.get j (sizeMinusOne size) with
      | .error e => .error e
      | .ok b =>
        match m2.get j i with
        | .error e => .error e
        | .ok a => m2.set j i (a + colCoef i * b)) m) rndMtrx

/-- The member `rndMatr` for an integer element type.  The draws of the generator are
arguments: `randUpperTriangle i j` is the value drawn for the element `(i, j)` above the
diagonal, `rowCoef i` the coefficient drawn for row `i` and `colCoef i` the one drawn for
column `i`; `fresh` is the content of the uninitialised buffer of `rndMtrx`. -/
def rndMatr (fresh : Nat → ℤ) (randUpperTriangle : Nat → Nat → ℤ) (rowCoef colCoef : Nat → ℤ)
    (size : Nat) (det : ℤ) : Except Err (Mat ℤ) :=
  match fillUpper randUpperTriangle size (Mat.ctor fresh size size) with
  | .error e => .error e
  | .ok upper =>
    match upper.set (sizeMinusOne size) (sizeMinusOne size) det with
    | .error e => .error e
    | .ok tri =>
      match mixRows rowCoef size tri with
      | .error e => .error e
      | .ok mixedRows => mixCols colCoef size mixedRows

/-- The static member `randomMatrix` of `Matrix<int>`. -/
def randomMatrix (fresh : Nat → ℤ) (randUpperTriangle : Nat → Nat → ℤ)
    (rowCoef colCoef : Nat → ℤ) (size : Nat) (det : ℤ) : Except Err (Mat ℤ) :=
  rndMatr fresh randUpperTriangle rowCoef colCoef size det

/-! ## The other members of the container -/

/-- `Matrix (nRows, nCols, val)`: the buffer `new T[nRows * nCols]`, then
`std::fill_n (arr_, nRows_ * nCols_, val)`, which assigns `val` to the slots
`0 .. nRows_ * nCols_ - 1` in turn. -/
def Mat.ctorFill {T : Type} (fresh : Nat → T) (nRows nCols : Nat) (val : T) :
    Except Err (Mat T) :=
  forRange 0 (nRows * nCols) (fun k m => m.rawSet k val) (Mat.ctor fresh nRows nCols)

/-- The member `operator+=`; the value is `*this` after the call.  The throw comes before
every write, so a failure leaves `*this` as it was. -/
def Mat.addAssign {T : Type} [Add T] (m other : Mat T) : Except Err (Mat T) :=
  if m.nCols_ ≠ other.nCols_ ∨ m.nRows_ ≠ other.nRows_ then .error .dimensionMismatch
  else
    forRange 0 m.nRows_ (fun i acc =>
      forRange 0 m.nCols_ (fun j acc2 =>
        match rawGet other.arr_ (i * m.nCols_ + j) with
        | .error e => .error e
        | .ok b =>
          match rawGet acc2.arr_ (i * m.nCols_ + j) with
          | .error e => .error e
          | .ok a => acc2.rawSet (i * m.nCols_ + j) (a + b)) acc) m

/-- The free function `operator+`: a copy of `first`, `+= second`, returned by value. -/
def Mat.add {T : Type} [Add T] (first second : Mat T) : Except Err (Mat T) :=
  match first.copy.addAssign second with
  | .error e => .error e
  | .ok result => .ok result.copy

/-- The member `mul`; the value is `*this` after the call.  `fresh` is the content of the
uninitialised `temporary_m`, `freshB` that of the buffer `transpose` allocates for `B`. -/
def Mat.mul {T : Type} [Zero T] [Add T] [Mul T] (fresh freshB : Nat → T) (m other : Mat T) :
    Except Err (Mat T) :=
  if m.nCols_ ≠ other.nRows_ then .error .dimensionMismatch
  else
    match other.copy.transpose freshB with
    | .error e => .error e
    | .ok B =>
      forRange 0 m.nRows_ (fun i tmp =>
        forRange 0 other.nCols_ (fun j tmp2 =>
          match forRange 0 other.nRows_ (fun k temporary_sum =>
              match rawGet m.arr_ (i * m.nCols_ + j) with
              | .error e => .error e
              | .ok a =>
                match rawGet B.arr_ (j * other.nCols_ + k) with
                | .error e => .error e
                | .ok b => .ok (temporary_sum + a * b)) 0 with
          | .error e => .error e
          | .ok temporary_sum => tmp2.set i j temporary_sum) tmp)
        (Mat.ctor fresh m.nRows_ other.nCols_)

/-- The member `operator*=`. -/
def Mat.mulAssign {T : Type} [Zero T] [Add T] [Mul T] (fresh freshB : Nat → T)
    (m other : Mat T) : Except Err (Mat T) :=
  Mat.mul fresh freshB m other

/-- The free function `operator*`: a copy of `first`, `*= second`, returned by value. -/
def Mat.times {T : Type} [Zero T] [Add T] [Mul T] (fresh freshB : Nat → T)
    (first second : Mat T) : Except Err (Mat T) :=
  match Mat.mulAssign fresh freshB first.copy second with
  | .error e => .error e
  | .ok result => .ok result.copy

/-- The three data members of a `Matrix` object, for the members that hand a buffer over:
`arr_` is `none` for the null pointer. -/
structure Fields (T : Type) where
  nRows_ : Nat
  nCols_ : Nat
  arr_ : Option (List T)
  deriving DecidableEq

/-- The data members of a matrix that owns its buffer. -/
def Mat.fields {T : Type} (m : Mat T) : Fields T :=
  ⟨m.nRows_, m.nCols_, some m.arr_⟩

/-- The member `nullify`: `arr_ = nullptr; nCols_ = 0; nRows_ = 0`. -/
def Fields.nullify {T : Type} (o : Fields T) : Fields T :=
  let o1 : Fields T := ⟨o.nRows_, o.nCols_, none⟩
  let o2 : Fields T := ⟨o1.nRows_, 0, o1.arr_⟩
  ⟨0, o2.nCols_, o2.arr_⟩

/-- The move constructor `Matrix (Matrix<T> &&other)`: the members of the new object are
initialised from those of `other`, then `other.nullify ()`.  The value is the new object
and `other` after the call. -/
def Fields.moveCtor {T : Type} (other : Fields T) : Fields T × Fields T :=
  (⟨other.nRows_, other.nCols_, other.arr_⟩, other.nullify)

/-- The move assignment `operator= (Matrix<T> &&other)` on two distinct objects (for
`this == &other` it returns at once): `std::swap (other.arr_, arr_)`,
`std::swap (nRows_, other.nRows_)`, `std::swap (nCols_, other.nCols_)`.  The value is
`*this` and `other` after the call. -/
def Fields.moveAssign {T : Type} (this other : Fields T) : Fields T × Fields T :=
  let this1 : Fields T := ⟨this.nRows_, this.nCols_, other.arr_⟩
  let other1 : Fields T := ⟨other.nRows_, other.nCols_, this.arr_⟩
  let this2 : Fields T := ⟨other1.nRows_, this1.nCols_, this1.arr_⟩
  let other2 : Fields T := ⟨this1.nRows_, other1.nCols_, other1.arr_⟩
  let this3 : Fields T := ⟨this2.nRows_, other2.nCols_, this2.arr_⟩
  let other3 : Fields T := ⟨other2.nRows_, this2.nCols_, other2.arr_⟩
  (this3, other3)

/-! ## Binary floating-point arithmetic

The element type `double` as IEEE 754 binary64 with round-to-nearest-even, every operation
rounded on its own. -/

/-- A value of type `double`: a finite value `(-1)^neg * mag` with `mag ≥ 0` (zero has a
sign), an infinity, or a NaN. -/
inductive F64 where
  | fin (neg : Bool) (mag : ℚ)
  | inf (neg : Bool)
  | nan
  deriving DecidableEq

/-- The power `2 ^ e` for an integer exponent. -/
def pow2 (e : ℤ) : ℚ :=
  if 0 ≤ e then ((2 ^ e.toNat : ℕ) : ℚ) else 1 / ((2 ^ (-e).toNat : ℕ) : ℚ)

/-- The search for the exponent of the leading bit: the steps tried, and the exponent found
so far. -/
def log2Aux (n : Nat) : List Nat → Nat → Nat
  | [], acc => acc
  | b :: bs, acc => log2Aux n bs (if 2 ^ (acc + b) ≤ n then acc + b else acc)

/-- The exponent `e` with `2 ^ e ≤ n < 2 ^ (e + 1)`, for `1 ≤ n < 2 ^ 8192`. -/
def natLog2 (n : Nat) : Nat :=
  log2Aux n [4096, 2048, 1024, 512, 256, 128, 64, 32, 16, 8, 4, 2, 1] 0

/-- The exponent `e` with `2 ^ e ≤ q < 2 ^ (e + 1)`, for `q > 0`: the difference of the
exponents of numerator and denominator is tried first, then one less. -/
def floorLog2 (q : ℚ) : ℤ :=
  let e0 : ℤ := (natLog2 q.num.natAbs : ℤ) - (natLog2 q.den : ℤ)
  if pow2 e0 ≤ q ∧ q < pow2 (e0 + 1) then e0
  else if pow2 (e0 - 1) ≤ q ∧ q < pow2 e0 then e0 - 1
  else Int.log 2 q

/-- The integer nearest to `x ≥ 0`, the even one of two at the same distance. -/
def roundHalfEven (x : ℚ) : ℤ :=
  if x - ⌊x⌋ < 1 / 2 then ⌊x⌋
  else if 1 / 2 < x - ⌊x⌋ then ⌊x⌋ + 1
  else if ⌊x⌋ % 2 = 0 then ⌊x⌋ else ⌊x⌋ + 1

/-- The binary64 magnitude nearest to `q > 0` (53 significant bits, least exponent `-1022`,
so the spacing is `2 ^ (e - 52)`); `none` when the result is beyond the largest finite
value. -/
def roundMag (q : ℚ) : Option ℚ :=
  let quantum := pow2 (max (floorLog2 q) (-1022) - 52)
  let r : ℚ := (roundHalfEven (q / quantum) : ℚ) * quantum
  if pow2 1024 ≤ r then none else some r

/-- The `double` nearest to the real number `q`; `zneg` is the sign of a zero result. -/
def F64.ofRat (zneg : Bool) (q : ℚ) : F64 :=
  if q = 0 then .fin zneg 0
  else
    match roundMag |q| with
    | none => .inf (decide (q < 0))
    | some r => .fin (decide (q < 0)) r

/-- The real value of a finite `double`. -/
def F64.val (neg : Bool) (mag : ℚ) : ℚ := if neg then -mag else mag

/-- The conversion of an `int` to `double`. -/
def F64.ofInt (z : ℤ) : F64 := F64.ofRat false (z : ℚ)

/-- The unary minus of `double`. -/
def F64.neg : F64 → F64
  | .fin s a => .fin (!s) a
  | .inf s => .inf (!s)
  | .nan => .nan

/-- The function `std::abs` on `double`. -/
def F64.abs : F64 → F64
  | .fin _ a => .fin false a
  | .inf _ => .inf false
  | .nan => .nan

/-- The operator `-` of `double`. -/
def F64.sub : F64 → F64 → F64
  | .nan, _ => .nan
  | _, .nan => .nan
  | .inf s, .inf t => if s = t then .nan else .inf s
  | .inf s, .fin _ _ => .inf s
  | .fin _ _, .inf t => .inf (!t)
  | .fin s a, .fin t b =>
    F64.ofRat (s && !t && decide (a = 0) && decide (b = 0)) (F64.val s a - F64.val t b)

/-- The operator `*` of `double`. -/
def F64.mul : F64 → F64 → F64
  | .nan, _ => .nan
  | _, .nan => .nan
  | .inf s, .inf t => .inf (xor s t)
  | .inf s, .fin t b => if b = 0 then .nan else .inf (xor s t)
  | .fin s a, .inf t => if a = 0 then .nan else .inf (xor s t)
  | .fin s a, .fin t b =>
    match roundMag (a * b) with
    | none => .inf (xor s t)
    | some r => .fin (xor s t) (if a * b = 0 then 0 else r)

/-- The operator `/` of `double`. -/
def F64.div : F64 → F64 → F64
  | .nan, _ => .nan
  | _, .nan => .nan
  | .inf _, .inf _ => .nan
  | .inf s, .fin t _ => .inf (xor s t)
  | .fin s _, .inf t => .fin (xor s t) 0
  | .fin s a, .fin t b =>
    if b = 0 then (if a = 0 then .nan else .inf (xor s t))
    else
      match roundMag (a / b) with
      | none => .inf (xor s t)
      | some r => .fin (xor s t) (if a = 0 then 0 else r)

/-- The operator `<` of `double`: false when an operand is a NaN. -/
def F64.lt : F64 → F64 → Bool
  | .nan, _ => false
  | _, .nan => false
  | .inf s, .inf t => s && !t
  | .inf s, .fin _ _ => s
  | .fin _ _, .inf t => !t
  | .fin s a, .fin t b => decide (F64.val s a < F64.val t b)

/-- The operator `<=` of `double`: false when an operand is a NaN. -/
def F64.le : F64 → F64 → Bool
  | .nan, _ => false
  | _, .nan => false
  | .inf s, .inf t => s || !t
  | .inf s, .fin _ _ => s
  | .fin _ _, .inf t => !t
  | .fin s a, .fin t b => decide (F64.val s a ≤ F64.val t b)

/-- The constant `EPSILON = 10E-15` as the compiler stores it. -/
def F64.EPSILON : F64 := F64.ofRat false (10 / 10 ^ 15)

/-! ## The engine and the generator in machine arithmetic

The same members once more, with `double` as binary64 (`F64`) and `int` as the 32-bit
integers; what differs from the definitions above is the arithmetic alone. -/

/-- The read `rows[i][cols[k]]`. -/
def Machine.elemAt (m : Mat F64) (rows cols : List Nat) (i k : Nat) : Except Err F64 :=
  match rawGet rows i with
  | .error e => .error e
  | .ok r =>
    match rawGet cols k with
    | .error e => .error e
    | .ok c => rawGet m.arr_ (r + c)

/-- The write `rows[i][cols[k]] = v`. -/
def Machine.elemSet (m : Mat F64) (rows cols : List Nat) (i k : Nat) (v : F64) :
    Except Err (Mat F64) :=
  match rawGet rows i with
  | .error e => .error e
  | .ok r =>
    match rawGet cols k with
    | .error e => .error e
    | .ok c => m.rawSet (r + c) v

/-- The member `maxSubColElem`. -/
def Machine.maxSubColElem (m : Mat F64) (rows cols : List Nat) (nCol : Nat) : Except Err Nat :=
  forRange (nCol + 1) m.nRows_ (fun i maxRow =>
    match Machine.elemAt m rows cols maxRow nCol with
    | .error e => .error e
    | .ok a =>
      match Machine.elemAt m rows cols i nCol with
      | .error e => .error e
      | .ok b => .ok (if F64.lt (F64.abs a) (F64.abs b) then i else maxRow)) nCol

/-- The member `maxSubRowElem`. -/
def Machine.maxSubRowElem (m : Mat F64) (rows cols : List Nat) (nRow : Nat) : Except Err Nat :=
  forRange (nRow + 1) m.nCols_ (fun i maxCol =>
    match Machine.elemAt m rows cols nRow maxCol with
    | .error e => .error e
    | .ok a =>
      match Machine.elemAt m rows cols nRow i with
      | .error e => .error e
      | .ok b => .ok (if F64.lt (F64.abs a) (F64.abs b) then i else maxCol)) nRow

/-- The member `fakeSwapWithBiggest`: returns the sign and the two order arrays. -/
def Machine.fakeSwapWithBiggest (m : Mat F64) (fakeRows fakeCols : List Nat) (index : Nat)
    (param : Bool) : Except Err (Int × List Nat × List Nat) :=
  match (if param then Machine.maxSubColElem m fakeRows fakeCols index
         else Machine.maxSubRowElem m fakeRows fakeCols index) with
  | .error e => .error e
  | .ok withMax =>
    if withMax ≠ index then
      if param then
        match swapEntries fakeRows index withMax with
        | .error e => .error e
        | .ok fr => .ok (-1, fr, fakeCols)
      else
        match swapEntries fakeCols index withMax with
        | .error e => .error e
        | .ok fc => .ok (-1, fakeRows, fc)
    else .ok (1, fakeRows, fakeCols)

/-- The member `countDet`. -/
def Machine.countDet (m : Mat F64) (rows cols : List Nat) (sign : Int) : Except Err F64 :=
  match Machine.elemAt m rows cols 0 0 with
  | .error e => .error e
  | .ok d0 =>
    match forRange 1 m.nCols_ (fun i det =>
        match Machine.elemAt m rows cols i i with
        | .error e => .error e
        | .ok x => .ok (F64.mul det x)) d0 with
    | .error e => .error e
    | .ok det => .ok (if sign = 1 then det else F64.neg det)

/-- The innermost loop of `fakeGauss`:
`fakeRows[j][fakeCols[k]] -= del * fakeRows[i][fakeCols[k]]`, the product rounded before
the difference. -/
def Machine.eliminateRow (rows cols : List Nat) (i j : Nat) (del : F64) (m : Mat F64) :
    Except Err (Mat F64) :=
  forRange (i + 1) m.nCols_ (fun k sup =>
    match Machine.elemAt sup rows cols i k with
    | .error e => .error e
    | .ok b =>
      match Machine.elemAt sup rows cols j k with
      | .error e => .error e
      | .ok a => Machine.elemSet sup rows cols j k (F64.sub a (F64.mul del b))) m

/-- The loop over the rows `j > i` of `fakeGauss`: `del = fakeRows[j][fakeCols[i]] / max`,
then the innermost loop. -/
def Machine.eliminateBelow (rows cols : List Nat) (i : Nat) (max : F64) (m : Mat F64) :
    Except Err (Mat F64) :=
  forRange (i + 1) m.nRows_ (fun j sup =>
    match Machine.elemAt sup rows cols j i with
    | .error e => .error e
    | .ok x => Machine.eliminateRow rows cols i j (F64.div x max) sup) m

/-- The local state of `fakeGauss`. -/
structure Machine.GaussState where
  sign : Int
  support : Mat F64
  fakeRows : List Nat
  fakeCols : List Nat
  deriving DecidableEq

/-- How the main loop of `fakeGauss` ends: by the early `return T{}` at step `i` on the
pivot `pivot`, or after its last iteration. -/
inductive Machine.GaussOutcome where
  | singular (i : Nat) (pivot : F64)
  | completed (st : Machine.GaussState)
  deriving DecidableEq

/-- The main loop of `fakeGauss`, `fuel` iterations from step `i`. -/
def Machine.fakeGaussLoop : Nat → Nat → Machine.GaussState → Except Err Machine.GaussOutcome
  | 0, _, st => .ok (.completed st)
  | fuel + 1, i, st =>
    match Machine.fakeSwapWithBiggest st.support st.fakeRows st.fakeCols i true with
    | .error e => .error e
    | .ok (s1, rows1, cols1) =>
      match Machine.fakeSwapWithBiggest st.support rows1 cols1 i false with
      | .error e => .error e
      | .ok (s2, rows2, cols2) =>
        match Machine.elemAt st.support rows2 cols2 i i with
        | .error e => .error e
        | .ok pivot =>
          if F64.le (F64.abs pivot) F64.EPSILON then .ok (.singular i pivot)
          else
            match Machine.eliminateBelow rows2 cols2 i pivot st.support with
            | .error e => .error e
            | .ok sup =>
              Machine.fakeGaussLoop fuel (i + 1) ⟨st.sign * s1 * s2, sup, rows2, cols2⟩

/-- The run of the main loop of `fakeGauss` on `m`. -/
def Machine.fakeGaussRun (m : Mat F64) : Except Err Machine.GaussOutcome :=
  Machine.fakeGaussLoop m.nRows_ 0 ⟨1, m, createFakeRows m, createFakeCols m⟩

/-- The member `fakeGauss`; `T{}` is `+0.0`. -/
def Machine.fakeGauss (m : Mat F64) : Except Err F64 :=
  match Machine.fakeGaussRun m with
  | .error e => .error e
  | .ok (.singular _ _) => .ok (.fin false 0)
  | .ok (.completed st) => Machine.countDet st.support st.fakeRows st.fakeCols st.sign

/-- The member `det (std::false_type)`. -/
def Machine.detFalseType (m : Mat F64) : Except Err F64 :=
  Machine.fakeGauss m.copy

/-- The member `det ()` of `Matrix<double>`. -/
def Machine.det (m : Mat F64) : Except Err F64 :=
  if m.nRows_ ≠ m.nCols_ then .error .notSquare else Machine.detFalseType m

/-- The C function `round` on `double`: to the nearest integer, halfway cases away from
zero. -/
def Machine.round : F64 → F64
  | .fin s a => .fin s ((⌊a + 1 / 2⌋ : ℤ) : ℚ)
  | .inf s => .inf s
  | .nan => .nan

/-- The conversion of a `double` to `int`: the fractional part is dropped; a value outside
the range of `int` is undefined behaviour. -/
def Machine.toInt : F64 → Except Err ℤ
  | .fin s a =>
    if (if s then -⌊a⌋ else ⌊a⌋) < -2 ^ 31 ∨ 2 ^ 31 ≤ (if s then -⌊a⌋ else ⌊a⌋) then
      .error .intOverflow
    else .ok (if s then -⌊a⌋ else ⌊a⌋)
  | .inf _ => .error .intOverflow
  | .nan => .error .intOverflow

/-- The member `det (std::true_type)`: a `Matrix<double>` copy, its `det ()`, `round`, and
the conversion of the result to `int`. -/
def Machine.detTrueType (fresh : Nat → F64) (m : Mat ℤ) : Except Err ℤ :=
  match Mat.convert fresh F64.ofInt m with
  | .error e => .error e
  | .ok support =>
    match Machine.det support with
    | .error e => .error e
    | .ok d => Machine.toInt (Machine.round d)

/-- The member `det ()` of `Matrix<int>`. -/
def Machine.detInt (fresh : Nat → F64) (m : Mat ℤ) : Except Err ℤ :=
  if m.nRows_ ≠ m.nCols_ then .error .notSquare else Machine.detTrueType fresh m

/-- The result of an `int` operation: undefined behaviour when it is not representable. -/
def Machine.int (z : ℤ) : Except Err ℤ :=
  if z < -2 ^ 31 ∨ 2 ^ 31 ≤ z then .error .intOverflow else .ok z

/-- The statement `x += randCoef * y` on `int`. -/
def Machine.addMul (x randCoef y : ℤ) : Except Err ℤ :=
  match Machine.int (randCoef * y) with
  | .error e => .error e
  | .ok p => Machine.int (x + p)

/-- The second loop of `rndMatr`: `rndMtrx[i][j] += randCoef * rndMtrx[0][j]`. -/
def Machine.mixRows (rowCoef : Nat → ℤ) (size : Nat) (rndMtrx : Mat ℤ) : Except Err (Mat ℤ) :=
  forRange 1 size (fun i m =>
    forRange 0 size (fun j m2 =>
      match m2.get 0 j with
      | .error e => .error e
      | .ok b =>
        match m2.get i j with
        | .error e => .error e
        | .ok a =>
          match Machine.addMul a (rowCoef i) b with
          | .error e => .error e
          | .ok v => m2.set i j v) m) rndMtrx

/-- The third loop of `rndMatr`: `rndMtrx[j][i] += randCoef * rndMtrx[j][size - 1]`. -/
def Machine.mixCols (colCoef : Nat → ℤ) (size : Nat) (rndMtrx : Mat ℤ) : Except Err (Mat ℤ) :=
  forRange 0 (sizeMinusOne size) (fun i m =>
    forRange 0 size (fun j m2 =>
      match m2.get j (sizeMinusOne size) with
      | .error e => .error e
      | .ok b =>
        match m2.get j i with
        | .error e => .error e
        | .ok a =>
          match Machine.addMul a (colCoef i) b with
          | .error e => .error e
          | .ok v => m2.set j i v) m) rndMtrx

/-- The member `rndMatr` of `Matrix<int>`, the draws and the content of the new buffer
being arguments as above. -/
def Machine.rndMatr (fresh : Nat → ℤ) (randUpperTriangle : Nat → Nat → ℤ)
    (rowCoef colCoef : Nat → ℤ) (size : Nat) (det : ℤ) : Except Err (Mat ℤ) :=
  match fillUpper randUpperTriangle size (Mat.ctor fresh size size) with
  | .error e => .error e
  | .ok upper =>
    match upper.set (sizeMinusOne size) (sizeMinusOne size) det with
    | .error e => .error e
    | .ok tri =>
      match Machine.mixRows rowCoef size tri with
      | .error e => .error e
      | .ok mixedRows => Machine.mixCols colCoef size mixedRows

/-- The static member `randomMatrix` of `Matrix<int>`. -/
def Machine.randomMatrix (fresh : Nat → ℤ) (randUpperTriangle : Nat → Nat → ℤ)
    (rowCoef colCoef : Nat → ℤ) (size : Nat) (det : ℤ) : Except Err (Mat ℤ) :=
  Machine.rndMatr fresh randUpperTriangle rowCoef colCoef size det

/-! ## Notions used to state the results -/

/-- The element the engine addresses at position `(r, c)` of the order arrays. -/
def view (m : Mat ℚ) (rows cols : List Nat) (r c : Nat) : ℚ :=
  m.arr_.getD (rows.getD r 0 + cols.getD c 0) 0

/-- The row-order array of an `n x n` matrix: `n` distinct row starts. -/
structure RowsOk (n : Nat) (rows : List Nat) : Prop where
  len : rows.length = n
  phys : ∀ r, r < n → ∃ p, p < n ∧ rows.getD r 0 = n * p
  inj : ∀ r r2, r < n → r2 < n → rows.getD r 0 = rows.getD r2 0 → r = r2

/-- The column-order array of an `n x n` matrix: `n` distinct column numbers. -/
structure ColsOk (n : Nat) (cols : List Nat) : Prop where
  len : cols.length = n
  bound : ∀ c, c < n → cols.getD c 0 < n
  inj : ∀ c c2, c < n → c2 < n → cols.getD c 0 = cols.getD c2 0 → c = c2

/-- The matrix being eliminated is `n x n` and both order arrays are in order. -/
structure EngineOk (n : Nat) (m : Mat ℚ) (rows cols : List Nat) : Prop where
  nrows : m.nRows_ = n
  ncols : m.nCols_ = n
  rows : RowsOk n rows
  cols : ColsOk n cols

/-- The matrix still to be reduced at step `i`: the elements seen through the order
arrays, with zero below the diagonal in the columns before `i` (the source leaves those
elements as they are and never reads them again). -/
def reduced (n i : Nat) (V : Nat → Nat → ℚ) : Matrix (Fin n) (Fin n) ℚ :=
  Matrix.of fun r c => if c.val < i ∧ c.val < r.val then 0 else V r.val c.val

/-- The element stored for row `i`, column `j`: slot `nCols_ * i + j` of the buffer. -/
def Mat.entry {T : Type} [Zero T] (m : Mat T) (i j : Nat) : T :=
  m.arr_.getD (m.nCols_ * i + j) 0

/-- The square matrix of mathematics held by a container with `nRows_ = nCols_`. -/
def Mat.toMatrix {T : Type} [Zero T] (m : Mat T) : Matrix (Fin m.nRows_) (Fin m.nRows_) T :=
  Matrix.of fun i j => m.entry i.val j.val

/-- The mathematical (Leibniz) determinant of a square container. -/
def Mat.mathDet {T : Type} [CommRing T] (m : Mat T) : T :=
  m.toMatrix.det

/-- The container `m` is `n x n` and holds the element `g a b` at row `a`, column `b`. -/
def Mat.Holds (n : Nat) (m : Mat ℤ) (g : Nat → Nat → ℤ) : Prop :=
  m.nRows_ = n ∧ m.nCols_ = n ∧ ∀ a b, a < n → b < n → m.entry a b = g a b

/-- The elements of `rndMtrx` when the first loop of `rndMatr` has finished the rows
before `i`: ones on the diagonal and the draws above it in those rows, the content of the
allocation everywhere else. -/
def upperStage (n : Nat) (fresh : Nat → ℤ) (U : Nat → Nat → ℤ) (i a b : Nat) : ℤ :=
  if a < i then (if b = a then 1 else if a < b then U a b else fresh (n * a + b))
  else fresh (n * a + b)

/-- The elements of `rndMtrx` inside row `i` of the first loop, before column `j`. -/
def upperRowStage (n : Nat) (fresh : Nat → ℤ) (U : Nat → Nat → ℤ) (i j a b : Nat) : ℤ :=
  if a = i then (if b = i then 1 else if i < b ∧ b < j then U i b else fresh (n * a + b))
  else upperStage n fresh U i a b

/-- The elements of `rndMtrx` after `rndMtrx[size - 1][size - 1] = det`. -/
def triangleStage (n : Nat) (fresh : Nat → ℤ) (U : Nat → Nat → ℤ) (d : ℤ) (a b : Nat) : ℤ :=
  if a = n - 1 ∧ b = n - 1 then d else upperStage n fresh U (n - 1) a b

/-- The elements after the second loop has finished the rows before `i`. -/
def rowStage (T : Nat → Nat → ℤ) (rc : Nat → ℤ) (i a b : Nat) : ℤ :=
  if 1 ≤ a ∧ a < i then T a b + rc a * T 0 b else T a b

/-- The elements inside row `i` of the second loop, before column `j`. -/
def rowInnerStage (T : Nat → Nat → ℤ) (rc : Nat → ℤ) (i j a b : Nat) : ℤ :=
  if a = i ∧ b < j then T a b + rc a * T 0 b else rowStage T rc i a b

/-- The elements after the third loop has finished the columns before `i`. -/
def colStage (n : Nat) (R : Nat → Nat → ℤ) (cc : Nat → ℤ) (i a b : Nat) : ℤ :=
  if b < i then R a b + cc b * R a (n - 1) else R a b

/-- The elements inside column `i` of the third loop, before row `j`. -/
def colInnerStage (n : Nat) (R : Nat → Nat → ℤ) (cc : Nat → ℤ) (i j a b : Nat) : ℤ :=
  if b = i ∧ a < j then R a b + cc b * R a (n - 1) else colStage n R cc i a b

/-! ## Concrete matrices -/

/-- The `n x n` identity matrix: ones on the diagonal, zeros elsewhere. -/
def identityMat (T : Type) [Zero T] [One T] (n : Nat) : Mat T :=
  ⟨n, n, (List.range (n * n)).map (fun k => if k / n = k % n then 1 else 0), by simp⟩

/-- A `2 x 2` matrix of rationals, row by row. -/
def mat22 (a b c d : ℚ) : Mat ℚ := ⟨2, 2, [a, b, c, d], rfl⟩

/-- A `2 x 2` matrix of integers, row by row. -/
def mat22Int (a b c d : ℤ) : Mat ℤ := ⟨2, 2, [a, b, c, d], rfl⟩

/-- An uninitialised buffer that holds `1` in slot 2 and `0` elsewhere. -/
def freshOneAtTwo (k : Nat) : ℤ := if k = 2 then 1 else 0

/-! ## The outcome of a run and matrices of machine numbers -/

/-- The run of `det ()` on a `Matrix<double>`, elements taken as exact, ends by the early
return of `fakeGauss`: some step meets a pivot with `|pivot| ≤ EPSILON`. -/
def EarlyReturn (m : Mat ℚ) : Prop :=
  ∃ k p, fakeGaussRun m.copy = .ok (.singular k p) ∧ |p| ≤ EPSILON

/-- The same for `det ()` on a `Matrix<int>`: the run on its `Matrix<double>` copy. -/
def EarlyReturnInt (fresh : Nat → ℚ) (m : Mat ℤ) : Prop :=
  ∃ support, Mat.convert fresh (fun z : ℤ => (z : ℚ)) m = .ok support ∧ EarlyReturn support

/-- The run of `fakeGauss` on a matrix `m` whose row `z` is zero: it ends by the early
return at a step `k` on a pivot `p` within `EPSILON`, which is `0` when `k` is the last
step; in every state the run has after some number `j` of iterations row `z` of the working
copy is zero, and if the row exchange of the next step puts row `z` at the pivot position
`j` (the entry `rows1[j]` is the start `nCols_ * z` of row `z`) the run returns at that
step, on the pivot `0`. -/
def ZeroRowRun (m : Mat ℚ) (z : Nat) : Prop :=
  ∃ k p, fakeGaussRun m = .ok (.singular k p) ∧ k < m.nRows_ ∧ |p| ≤ EPSILON ∧
    (k + 1 = m.nRows_ → p = 0) ∧
    ∀ j st, fakeGaussLoop j 0 ⟨1, m, createFakeRows m, createFakeCols m⟩
        = .ok (.completed st) →
      (∀ c, c < m.nCols_ → st.support.entry z c = 0) ∧
      ∀ s1 rows1 cols1,
        fakeSwapWithBiggest st.support st.fakeRows st.fakeCols j true
          = .ok (s1, rows1, cols1) →
        rows1.getD j 0 = m.nCols_ * z → k = j ∧ p = 0

/-- The run of `fakeGauss` on a matrix `m` whose column `c` is zero: as `ZeroRowRun`, with
column `c` of the working copy zero in every state, and the return on the pivot `0` at a
step whose two exchanges put column `c` at the pivot position (`cols2[j]` is `c`). -/
def ZeroColRun (m : Mat ℚ) (c : Nat) : Prop :=
  ∃ k p, fakeGaussRun m = .ok (.singular k p) ∧ k < m.nRows_ ∧ |p| ≤ EPSILON ∧
    (k + 1 = m.nRows_ → p = 0) ∧
    ∀ j st, fakeGaussLoop j 0 ⟨1, m, createFakeRows m, createFakeCols m⟩
        = .ok (.completed st) →
      (∀ r, r < m.nRows_ → st.support.entry r c = 0) ∧
      ∀ s1 rows1 cols1 s2 rows2 cols2,
        fakeSwapWithBiggest st.support st.fakeRows st.fakeCols j true
          = .ok (s1, rows1, cols1) →
        fakeSwapWithBiggest st.support rows1 cols1 j false = .ok (s2, rows2, cols2) →
        cols2.getD j 0 = c → k = j ∧ p = 0

/-- The `double` a decimal literal with the value `q ≥ 0` denotes. -/
def F64.lit (q : ℚ) : F64 := F64.ofRat false q

/-- The real number a finite `double` stands for (zero for an infinity or a NaN). -/
def F64.toRat : F64 → ℚ
  | .fin s a => F64.val s a
  | .inf _ => 0
  | .nan => 0

/-- A `2 x 2` matrix of `double`, row by row. -/
def mat22F (a b c d : F64) : Mat F64 := ⟨2, 2, [a, b, c, d], rfl⟩

/-- A `3 x 3` matrix of `double`, row by row. -/
def mat33F (a b c d e f g h i : F64) : Mat F64 := ⟨3, 3, [a, b, c, d, e, f, g, h, i], rfl⟩

/-- A `double` that is a finite value (neither an infinity nor a NaN). -/
def F64.IsFinite : F64 → Prop
  | .fin _ a => 0 ≤ a
  | .inf _ => False
  | .nan => False

/-- Half the spacing of the subnormal `double`s, `2 ^ (-1075)`: the largest error of a
rounding near zero. -/
def F64.eta : ℚ := 1 / 2 ^ 1075

/-- The error of one rounding of a real number of absolute value `q`: at most
`q / 2 ^ 53 + 2 ^ (-1075)`. -/
def F64.err (q : ℚ) : ℚ := q / 2 ^ 53 + F64.eta

/-- The element the engine addresses at position `(r, c)` of the order arrays, in machine
arithmetic. -/
def Machine.view (m : Mat F64) (rows cols : List Nat) (r c : Nat) : F64 :=
  m.arr_.getD (rows.getD r 0 + cols.getD c 0) F64.nan

/-- The matrix being eliminated in machine arithmetic is `n x n` and both order arrays are
in order. -/
structure Machine.EngineOk (n : Nat) (m : Mat F64) (rows cols : List Nat) : Prop where
  nrows : m.nRows_ = n
  ncols : m.nCols_ = n
  rows : RowsOk n rows
  cols : ColsOk n cols

/-- The value `double{}`, `+0.0`. -/
instance : Zero F64 := ⟨.fin false 0⟩

/-- A `double` that is a zero, `+0.0` or `-0.0`. -/
def F64.IsZero (x : F64) : Prop := x = .fin false 0 ∨ x = .fin true 0

/-- Whether a `double` is a zero can be computed. -/
instance F64.decIsZero (x : F64) : Decidable x.IsZero :=
  inferInstanceAs (Decidable (x = .fin false 0 ∨ x = .fin true 0))

/-- Whether a `double` is finite can be computed. -/
instance F64.decIsFinite (x : F64) : Decidable x.IsFinite :=
  match x with
  | .fin _ a => inferInstanceAs (Decidable (0 ≤ a))
  | .inf _ => isFalse id
  | .nan => isFalse id

/-- Whether the working copy of `fakeGauss` on `m` in machine arithmetic holds an infinity
or a NaN in the state the run has after `j` iterations of the main loop (false if the run
has ended before). -/
def Machine.overflowsAt (m : Mat F64) (j : Nat) : Bool :=
  match Machine.fakeGaussLoop j 0 ⟨1, m, createFakeRows m, createFakeCols m⟩ with
  | .ok (.completed st) => st.support.arr_.any (fun x => !decide x.IsFinite)
  | _ => false

/-- The run of `fakeGauss` on `m` in machine arithmetic meets an infinity or a NaN: the
working copy holds one in some state the run goes through. -/
def Machine.Overflows (m : Mat F64) : Prop :=
  ∃ j, j ≤ m.nRows_ ∧ Machine.overflowsAt m j = true

/-- Whether a run meets an infinity or a NaN can be computed. -/
instance Machine.decOverflows (m : Mat F64) : Decidable (Machine.Overflows m) :=
  inferInstanceAs (Decidable (∃ j, j ≤ m.nRows_ ∧ Machine.overflowsAt m j = true))

/-! ## Counted loops and index arithmetic -/

theorem forLoop_inv {σ : Type} (body : Nat → σ → Except Err σ) (P : Nat → σ → Prop) :
    ∀ (fuel i : Nat) (s : σ), P i s →
      (∀ k t, i ≤ k → k < i + fuel → P k t → ∃ t2, body k t = .ok t2 ∧ P (k + 1) t2) →
      ∃ s2, forLoop body fuel i s = .ok s2 ∧ P (i + fuel) s2 := by
  intro fuel
  induction fuel with
  | zero => intro i s hP _; exact ⟨s, rfl, by simpa using hP⟩
  | succ f ih =>
    intro i s hP hstep
    obtain ⟨t, ht, hPt⟩ := hstep i s (le_refl i) (by omega) hP
    obtain ⟨s2, hs2, hP2⟩ := ih (i + 1) t hPt (fun k u hk1 hk2 hu =>
      hstep k u (by omega) (by omega) hu)
    refine ⟨s2, ?_, ?_⟩
    · simp only [forLoop, ht]; exact hs2
    · have : i + (f + 1) = i + 1 + f := by omega
      rw [this]; exact hP2

theorem forRange_inv {σ : Type} (body : Nat → σ → Except Err σ) (P : Nat → σ → Prop)
    (lo hi : Nat) (s : σ) (hle : lo ≤ hi) (h0 : P lo s)
    (hstep : ∀ k t, lo ≤ k → k < hi → P k t → ∃ t2, body k t = .ok t2 ∧ P (k + 1) t2) :
    ∃ s2, forRange lo hi body s = .ok s2 ∧ P hi s2 := by
  obtain ⟨s2, h1, h2⟩ := forLoop_inv body P (hi - lo) lo s h0 (fun k t hk1 hk2 hP =>
    hstep k t hk1 (by omega) hP)
  refine ⟨s2, h1, ?_⟩
  have : lo + (hi - lo) = hi := by omega
  rw [this] at h2; exact h2

theorem forRange_empty {σ : Type} (body : Nat → σ → Except Err σ) (lo hi : Nat) (s : σ)
    (h : hi ≤ lo) : forRange lo hi body s = .ok s := by
  have : hi - lo = 0 := by omega
  simp [forRange, this, forLoop]

theorem rawGet_eq {T : Type} (buf : List T) (i : Nat) (d : T) (h : i < buf.length) :
    rawGet buf i = .ok (buf.getD i d) := by
  simp [rawGet, List.getD_eq_getElem?_getD, List.getElem?_eq_getElem h]

theorem index_lt {n p q : Nat} (hp : p < n) (hq : q < n) : n * p + q < n * n := by
  calc n * p + q < n * p + n := by omega
    _ = n * (p + 1) := by ring
    _ ≤ n * n := Nat.mul_le_mul_left n hp

theorem index_inj {n p q p2 q2 : Nat} (hq : q < n) (hq2 : q2 < n)
    (h : n * p + q = n * p2 + q2) : p = p2 ∧ q = q2 := by
  have hn : 0 < n := by omega
  have h1 : (n * p + q) / n = p := by
    rw [Nat.mul_add_div hn]
    simp [Nat.div_eq_of_lt hq]
  have h2 : (n * p2 + q2) / n = p2 := by
    rw [Nat.mul_add_div hn]
    simp [Nat.div_eq_of_lt hq2]
  have hp : p = p2 := by rw [← h1, ← h2, h]
  subst hp
  exact ⟨rfl, by omega⟩

/-! ## Element access through the order arrays -/

theorem EngineOk.length_arr {n : Nat} {m : Mat ℚ} {rows cols : List Nat}
    (h : EngineOk n m rows cols) : m.arr_.length = n * n := by
  rw [m.hsize, h.nrows, h.ncols]

theorem EngineOk.addr_lt {n : Nat} {m : Mat ℚ} {rows cols : List Nat}
    (h : EngineOk n m rows cols) {r c : Nat} (hr : r < n) (hc : c < n) :
    rows.getD r 0 + cols.getD c 0 < m.arr_.length := by
  obtain ⟨p, hp, hrp⟩ := h.rows.phys r hr
  rw [h.length_arr, hrp]
  exact matrix.index_lt hp (h.cols.bound c hc)

theorem EngineOk.index_eq_iff {n : Nat} {m : Mat ℚ} {rows cols : List Nat}
    (h : EngineOk n m rows cols) {r c j k : Nat} (hr : r < n) (hc : c < n)
    (hj : j < n) (hk : k < n) :
    rows.getD j 0 + cols.getD k 0 = rows.getD r 0 + cols.getD c 0 ↔ r = j ∧ c = k := by
  constructor
  · intro he
    obtain ⟨p, _, hrp⟩ := h.rows.phys r hr
    obtain ⟨p2, _, hjp⟩ := h.rows.phys j hj
    rw [hrp, hjp] at he
    obtain ⟨h1, h2⟩ := index_inj (h.cols.bound k hk) (h.cols.bound c hc) he
    refine ⟨h.rows.inj r j hr hj ?_, h.cols.inj c k hc hk h2.symm⟩
    rw [hrp, hjp, h1]
  · rintro ⟨rfl, rfl⟩; rfl

theorem elemAt_ok {n : Nat} {m : Mat ℚ} {rows cols : List Nat}
    (h : EngineOk n m rows cols) {r c : Nat} (hr : r < n) (hc : c < n) :
    elemAt m rows cols r c = .ok (view m rows cols r c) := by
  have h1 : rawGet rows r = .ok (rows.getD r 0) := rawGet_eq rows r 0 (by rw [h.rows.len]; exact hr)
  have h2 : rawGet cols c = .ok (cols.getD c 0) := rawGet_eq cols c 0 (by rw [h.cols.len]; exact hc)
  simp only [elemAt, h1, h2, view]
  exact rawGet_eq _ _ 0 (h.addr_lt hr hc)

theorem elemSet_ok {n : Nat} {m : Mat ℚ} {rows cols : List Nat}
    (h : EngineOk n m rows cols) {j k : Nat} (hj : j < n) (hk : k < n) (v : ℚ) :
    ∃ m2, elemSet m rows cols j k v = .ok m2 ∧ EngineOk n m2 rows cols ∧
      ∀ r c, r < n → c < n →
        view m2 rows cols r c = if r = j ∧ c = k then v else view m rows cols r c := by
  have h1 : rawGet rows j = .ok (rows.getD j 0) := rawGet_eq rows j 0 (by rw [h.rows.len]; exact hj)
  have h2 : rawGet cols k = .ok (cols.getD k 0) := rawGet_eq cols k 0 (by rw [h.cols.len]; exact hk)
  have hlt := h.addr_lt hj hk
  refine ⟨⟨m.nRows_, m.nCols_, m.arr_.set (rows.getD j 0 + cols.getD k 0) v,
    by rw [List.length_set]; exact m.hsize⟩, ?_, ?_, ?_⟩
  · simp only [elemSet, h1, h2, Mat.rawSet, hlt, if_true]
  · exact ⟨h.nrows, h.ncols, h.rows, h.cols⟩
  · intro r c hr hc
    simp only [view, List.getD_eq_getElem?_getD, List.getElem?_set]
    by_cases he : rows.getD j 0 + cols.getD k 0 = rows.getD r 0 + cols.getD c 0
    · obtain ⟨rfl, rfl⟩ := (h.index_eq_iff hr hc hj hk).1 he
      have hlt2 := hlt
      simp only [List.getD_eq_getElem?_getD] at hlt2
      simp [hlt2]
    · have hne : ¬ (r = j ∧ c = k) := fun hh => he ((h.index_eq_iff hr hc hj hk).2 hh)
      simp only [List.getD_eq_getElem?_getD] at he
      simp [he, hne]

/-! ## The pivot search and the exchange of two entries -/

theorem maxSubColElem_ok {n : Nat} {m : Mat ℚ} {rows cols : List Nat}
    (h : EngineOk n m rows cols) {i : Nat} (hi : i < n) :
    ∃ mx, maxSubColElem m rows cols i = .ok mx ∧ i ≤ mx ∧ mx < n ∧
      (∀ r, i ≤ r → r < n → |view m rows cols r i| ≤ |view m rows cols mx i|) ∧
      (∀ r, i ≤ r → r < mx → |view m rows cols r i| < |view m rows cols mx i|) := by
  have key := forRange_inv
    (fun k maxRow =>
      match elemAt m rows cols maxRow i with
      | .error e => .error e
      | .ok a =>
        match elemAt m rows cols k i with
        | .error e => .error e
        | .ok b => .ok (if |a| < |b| then k else maxRow))
    (fun k mx => i ≤ mx ∧ mx < k ∧
      (∀ r, i ≤ r → r < k → |view m rows cols r i| ≤ |view m rows cols mx i|) ∧
      (∀ r, i ≤ r → r < mx → |view m rows cols r i| < |view m rows cols mx i|))
    (i + 1) n i (by omega)
    ⟨le_refl i, by omega, fun r h1 h2 => by
      have : r = i := by omega
      rw [this], fun r h1 h2 => by omega⟩
    (by
      rintro k mx hk1 hk2 ⟨h1, h2, h3, h4⟩
      have e1 := elemAt_ok h (show mx < n by omega) hi
      have e2 := elemAt_ok h hk2 hi
      simp only [e1, e2]
      refine ⟨_, rfl, ?_⟩
      by_cases hlt : |view m rows cols mx i| < |view m rows cols k i|
      · simp only [hlt, if_true]
        refine ⟨by omega, by omega, ?_, ?_⟩
        · intro r hr1 hr2
          by_cases hrk : r = k
          · rw [hrk]
          · exact le_of_lt (lt_of_le_of_lt (h3 r hr1 (by omega)) hlt)
        · intro r hr1 hr2
          exact lt_of_le_of_lt (h3 r hr1 hr2) hlt
      · simp only [hlt, if_false]
        refine ⟨h1, by omega, ?_, h4⟩
        intro r hr1 hr2
        by_cases hrk : r = k
        · rw [hrk]; exact not_lt.1 hlt
        · exact h3 r hr1 (by omega))
  obtain ⟨mx, hmx, h1, h2, h3, h4⟩ := key
  refine ⟨mx, ?_, h1, h2, h3, h4⟩
  simp only [maxSubColElem, h.nrows]; exact hmx

theorem maxSubRowElem_ok {n : Nat} {m : Mat ℚ} {rows cols : List Nat}
    (h : EngineOk n m rows cols) {i : Nat} (hi : i < n) :
    ∃ mx, maxSubRowElem m rows cols i = .ok mx ∧ i ≤ mx ∧ mx < n ∧
      (∀ c, i ≤ c → c < n → |view m rows cols i c| ≤ |view m rows cols i mx|) ∧
      (∀ c, i ≤ c → c < mx → |view m rows cols i c| < |view m rows cols i mx|) := by
  have key := forRange_inv
    (fun k maxCol =>
      match elemAt m rows cols i maxCol with
      | .error e => .error e
      | .ok a =>
        match elemAt m rows cols i k with
        | .error e => .error e
        | .ok b => .ok (if |a| < |b| then k else maxCol))
    (fun k mx => i ≤ mx ∧ mx < k ∧
      (∀ c, i ≤ c → c < k → |view m rows cols i c| ≤ |view m rows cols i mx|) ∧
      (∀ c, i ≤ c → c < mx → |view m rows cols i c| < |view m rows cols i mx|))
    (i + 1) n i (by omega)
    ⟨le_refl i, by omega, fun r h1 h2 => by
      have : r = i := by omega
      rw [this], fun r h1 h2 => by omega⟩
    (by
      rintro k mx hk1 hk2 ⟨h1, h2, h3, h4⟩
      have e1 := elemAt_ok h hi (show mx < n by omega)
      have e2 := elemAt_ok h hi hk2
      simp only [e1, e2]
      refine ⟨_, rfl, ?_⟩
      by_cases hlt : |view m rows cols i mx| < |view m rows cols i k|
      · simp only [hlt, if_true]
        refine ⟨by omega, by omega, ?_, ?_⟩
        · intro r hr1 hr2
          by_cases hrk : r = k
          · rw [hrk]
          · exact le_of_lt (lt_of_le_of_lt (h3 r hr1 (by omega)) hlt)
        · intro r hr1 hr2
          exact lt_of_le_of_lt (h3 r hr1 hr2) hlt
      · simp only [hlt, if_false]
        refine ⟨h1, by omega, ?_, h4⟩
        intro r hr1 hr2
        by_cases hrk : r = k
        · rw [hrk]; exact not_lt.1 hlt
        · exact h3 r hr1 (by omega))
  obtain ⟨mx, hmx, h1, h2, h3, h4⟩ := key
  refine ⟨mx, ?_, h1, h2, h3, h4⟩
  simp only [maxSubRowElem, h.ncols]; exact hmx

theorem swapEntries_ok {n : Nat} {xs : List Nat} (hlen : xs.length = n) {i j : Nat}
    (hi : i < n) (hj : j < n) :
    ∃ ys, swapEntries xs i j = .ok ys ∧ ys.length = n ∧
      ∀ r, ys.getD r 0 = xs.getD (Equiv.swap i j r) 0 := by
  have h1 : rawGet xs i = .ok (xs.getD i 0) := rawGet_eq xs i 0 (by omega)
  have h2 : rawGet xs j = .ok (xs.getD j 0) := rawGet_eq xs j 0 (by omega)
  refine ⟨(xs.set i (xs.getD j 0)).set j (xs.getD i 0), ?_, by simp [hlen], ?_⟩
  · simp only [swapEntries, h1, h2, rawPut, hlen, hi, if_true, List.length_set, hj]
  · intro r
    simp only [List.getD_eq_getElem?_getD, List.getElem?_set, List.length_set, hlen, hi, hj,
      if_true, Equiv.swap_apply_def]
    by_cases h3 : j = r
    · subst h3
      by_cases h4 : j = i
      · subst h4; simp
      · simp [h4]
    · by_cases h4 : i = r
      · subst h4; simp [h3]
      · have h5 : ¬ r = i := fun hh => h4 hh.symm
        have h6 : ¬ r = j := fun hh => h3 hh.symm
        simp [h3, h4, h5, h6]

theorem swap_lt {n i j r : Nat} (hi : i < n) (hj : j < n) (hr : r < n) :
    Equiv.swap i j r < n := by
  rw [Equiv.swap_apply_def]
  split_ifs <;> assumption

theorem RowsOk.swap_rows {n : Nat} {rows rows2 : List Nat} (h : RowsOk n rows) {i j : Nat}
    (hi : i < n) (hj : j < n) (hlen : rows2.length = n)
    (hget : ∀ r, rows2.getD r 0 = rows.getD (Equiv.swap i j r) 0) : RowsOk n rows2 := by
  refine ⟨hlen, ?_, ?_⟩
  · intro r hr
    rw [hget]
    exact h.phys _ (swap_lt hi hj hr)
  · intro r r2 hr hr2 he
    rw [hget, hget] at he
    exact (Equiv.swap i j).injective (h.inj _ _ (swap_lt hi hj hr) (swap_lt hi hj hr2) he)

theorem ColsOk.swap_cols {n : Nat} {cols cols2 : List Nat} (h : ColsOk n cols) {i j : Nat}
    (hi : i < n) (hj : j < n) (hlen : cols2.length = n)
    (hget : ∀ r, cols2.getD r 0 = cols.getD (Equiv.swap i j r) 0) : ColsOk n cols2 := by
  refine ⟨hlen, ?_, ?_⟩
  · intro r hr
    rw [hget]
    exact h.bound _ (swap_lt hi hj hr)
  · intro r r2 hr hr2 he
    rw [hget, hget] at he
    exact (Equiv.swap i j).injective (h.inj _ _ (swap_lt hi hj hr) (swap_lt hi hj hr2) he)

/-! ## One step of `fakeGauss` -/

theorem fakeSwap_rows_ok {n : Nat} {m : Mat ℚ} {rows cols : List Nat}
    (h : EngineOk n m rows cols) {i : Nat} (hi : i < n) :
    ∃ mx rows2, fakeSwapWithBiggest m rows cols i true
        = .ok ((if mx = i then 1 else -1), rows2, cols) ∧
      i ≤ mx ∧ mx < n ∧
      (∀ r, i ≤ r → r < n → |view m rows cols r i| ≤ |view m rows cols mx i|) ∧
      (∀ r, i ≤ r → r < mx → |view m rows cols r i| < |view m rows cols mx i|) ∧
      EngineOk n m rows2 cols ∧
      (∀ r, rows2.getD r 0 = rows.getD (Equiv.swap i mx r) 0) := by
  obtain ⟨mx, hmx, h1, h2, h3, h4⟩ := maxSubColElem_ok h hi
  by_cases he : mx = i
  · refine ⟨mx, rows, ?_, h1, h2, h3, h4, h, ?_⟩
    · simp [fakeSwapWithBiggest, hmx, he]
    · intro r; rw [he, Equiv.swap_self]; rfl
  · obtain ⟨ys, hys, hlen, hget⟩ := swapEntries_ok h.rows.len hi h2 (j := mx)
    refine ⟨mx, ys, ?_, h1, h2, h3, h4, ⟨h.nrows, h.ncols, h.rows.swap_rows hi h2 hlen hget, h.cols⟩,
      hget⟩
    simp [fakeSwapWithBiggest, hmx, he, hys]

theorem fakeSwap_cols_ok {n : Nat} {m : Mat ℚ} {rows cols : List Nat}
    (h : EngineOk n m rows cols) {i : Nat} (hi : i < n) :
    ∃ mx cols2, fakeSwapWithBiggest m rows cols i false
        = .ok ((if mx = i then 1 else -1), rows, cols2) ∧
      i ≤ mx ∧ mx < n ∧
      (∀ c, i ≤ c → c < n → |view m rows cols i c| ≤ |view m rows cols i mx|) ∧
      (∀ c, i ≤ c → c < mx → |view m rows cols i c| < |view m rows cols i mx|) ∧
      EngineOk n m rows cols2 ∧
      (∀ c, cols2.getD c 0 = cols.getD (Equiv.swap i mx c) 0) := by
  obtain ⟨mx, hmx, h1, h2, h3, h4⟩ := maxSubRowElem_ok h hi
  by_cases he : mx = i
  · refine ⟨mx, cols, ?_, h1, h2, h3, h4, h, ?_⟩
    · simp [fakeSwapWithBiggest, hmx, he]
    · intro r; rw [he, Equiv.swap_self]; rfl
  · obtain ⟨ys, hys, hlen, hget⟩ := swapEntries_ok h.cols.len hi h2 (j := mx)
    refine ⟨mx, ys, ?_, h1, h2, h3, h4, ⟨h.nrows, h.ncols, h.rows, h.cols.swap_cols hi h2 hlen hget⟩,
      hget⟩
    simp [fakeSwapWithBiggest, hmx, he, hys]

theorem eliminateRow_ok {n : Nat} {m : Mat ℚ} {rows cols : List Nat}
    (h : EngineOk n m rows cols) {i j : Nat} (hij : i < j) (hj : j < n) (del : ℚ) :
    ∃ m2, eliminateRow rows cols i j del m = .ok m2 ∧ EngineOk n m2 rows cols ∧
      ∀ r c, r < n → c < n →
        view m2 rows cols r c =
          if r = j ∧ i < c then view m rows cols r c - del * view m rows cols i c
          else view m rows cols r c := by
  have key := forRange_inv
    (fun k sup =>
      match elemAt sup rows cols i k with
      | .error e => .error e
      | .ok b =>
        match elemAt sup rows cols j k with
        | .error e => .error e
        | .ok a => elemSet sup rows cols j k (a - del * b))
    (fun k sup => EngineOk n sup rows cols ∧
      ∀ r c, r < n → c < n →
        view sup rows cols r c =
          if r = j ∧ i < c ∧ c < k then view m rows cols r c - del * view m rows cols i c
          else view m rows cols r c)
    (i + 1) n m (by omega)
    ⟨h, fun r c _ _ => by
      have : ¬ (r = j ∧ i < c ∧ c < i + 1) := by omega
      simp only [this, if_false]⟩
    (by
      rintro k sup hk1 hk2 ⟨hs, hv⟩
      have e1 := elemAt_ok hs (show i < n by omega) hk2
      have e2 := elemAt_ok hs hj hk2
      obtain ⟨m2, hm2, hok, hview⟩ := elemSet_ok hs hj hk2
        (view sup rows cols j k - del * view sup rows cols i k)
      simp only [e1, e2]
      refine ⟨m2, hm2, hok, ?_⟩
      intro r c hr hc
      rw [hview r c hr hc]
      by_cases hrc : r = j ∧ c = k
      · obtain ⟨rfl, rfl⟩ := hrc
        have v1 : view sup rows cols r c = view m rows cols r c := by
          rw [hv r c hr hc, if_neg (by omega)]
        have v2 : view sup rows cols i c = view m rows cols i c := by
          rw [hv i c (by omega) hc, if_neg (by omega)]
        rw [if_pos ⟨rfl, rfl⟩, if_pos ⟨rfl, by omega, by omega⟩, v1, v2]
      · simp only [hrc, if_false, hv r c hr hc]
        by_cases hc2 : r = j ∧ i < c ∧ c < k
        · have : r = j ∧ i < c ∧ c < k + 1 := ⟨hc2.1, hc2.2.1, by omega⟩
          simp only [hc2, this, and_self, if_true]
        · have : ¬ (r = j ∧ i < c ∧ c < k + 1) := by
            rintro ⟨a, b, c2⟩
            by_cases hck : c = k
            · exact hrc ⟨a, hck⟩
            · exact hc2 ⟨a, b, by omega⟩
          simp only [hc2, this, if_false])
  obtain ⟨m2, hm2, hok, hview⟩ := key
  refine ⟨m2, ?_, hok, ?_⟩
  · simp only [eliminateRow, h.ncols]; exact hm2
  · intro r c hr hc
    rw [hview r c hr hc]
    by_cases hc2 : r = j ∧ i < c
    · have : r = j ∧ i < c ∧ c < n := ⟨hc2.1, hc2.2, hc⟩
      simp only [hc2, this, and_self, if_true]
    · have : ¬ (r = j ∧ i < c ∧ c < n) := fun hh => hc2 ⟨hh.1, hh.2.1⟩
      simp only [hc2, this, if_false]

theorem eliminateBelow_ok {n : Nat} {m : Mat ℚ} {rows cols : List Nat}
    (h : EngineOk n m rows cols) {i : Nat} (hi : i < n) (pivot : ℚ) :
    ∃ m2, eliminateBelow rows cols i pivot m = .ok m2 ∧ EngineOk n m2 rows cols ∧
      ∀ r c, r < n → c < n →
        view m2 rows cols r c =
          if i < r ∧ i < c then
            view m rows cols r c - view m rows cols r i / pivot * view m rows cols i c
          else view m rows cols r c := by
  have key := forRange_inv
    (fun j sup =>
      match elemAt sup rows cols j i with
      | .error e => .error e
      | .ok x => eliminateRow rows cols i j (x / pivot) sup)
    (fun j sup => EngineOk n sup rows cols ∧
      ∀ r c, r < n → c < n →
        view sup rows cols r c =
          if i < r ∧ r < j ∧ i < c then
            view m rows cols r c - view m rows cols r i / pivot * view m rows cols i c
          else view m rows cols r c)
    (i + 1) n m (by omega)
    ⟨h, fun r c _ _ => by
      have : ¬ (i < r ∧ r < i + 1 ∧ i < c) := by omega
      simp only [this, if_false]⟩
    (by
      rintro j sup hj1 hj2 ⟨hs, hv⟩
      have e1 := elemAt_ok hs hj2 hi
      obtain ⟨m2, hm2, hok, hview⟩ := eliminateRow_ok hs (show i < j by omega) hj2
        (view sup rows cols j i / pivot)
      simp only [e1]
      refine ⟨m2, hm2, hok, ?_⟩
      intro r c hr hc
      rw [hview r c hr hc]
      by_cases hrc : r = j ∧ i < c
      · obtain ⟨rfl, hic⟩ := hrc
        have v1 : view sup rows cols r c = view m rows cols r c := by
          rw [hv r c hr hc, if_neg (by omega)]
        have v2 : view sup rows cols r i = view m rows cols r i := by
          rw [hv r i hr hi, if_neg (by omega)]
        have v3 : view sup rows cols i c = view m rows cols i c := by
          rw [hv i c hi hc, if_neg (by omega)]
        rw [if_pos ⟨rfl, hic⟩, if_pos ⟨by omega, by omega, hic⟩, v1, v2, v3]
      · simp only [hrc, if_false, hv r c hr hc]
        by_cases hc2 : i < r ∧ r < j ∧ i < c
        · have : i < r ∧ r < j + 1 ∧ i < c := ⟨hc2.1, by omega, hc2.2.2⟩
          simp only [hc2, this, and_self, if_true]
        · have : ¬ (i < r ∧ r < j + 1 ∧ i < c) := by
            rintro ⟨a, b, c2⟩
            by_cases hck : r = j
            · exact hrc ⟨hck, c2⟩
            · exact hc2 ⟨a, by omega, c2⟩
          simp only [hc2, this, if_false])
  obtain ⟨m2, hm2, hok, hview⟩ := key
  refine ⟨m2, ?_, hok, ?_⟩
  · simp only [eliminateBelow, h.nrows]; exact hm2
  · intro r c hr hc
    rw [hview r c hr hc]
    by_cases hc2 : i < r ∧ i < c
    · have : i < r ∧ r < n ∧ i < c := ⟨hc2.1, hr, hc2.2⟩
      simp only [hc2, this, and_self, if_true]
    · have : ¬ (i < r ∧ r < n ∧ i < c) := fun hh => hc2 ⟨hh.1, hh.2.2⟩
      simp only [hc2, this, if_false]

/-! ## The determinant of the matrix still to be reduced -/

theorem fin_swap_val {n : Nat} (a b x : Fin n) :
    (Equiv.swap a b x).val = Equiv.swap a.val b.val x.val := by
  simp only [Equiv.swap_apply_def, Fin.ext_iff]
  split_ifs <;> rfl

theorem sign_swap_eq {n : Nat} (a b : Fin n) :
    ((Equiv.Perm.sign (Equiv.swap a b) : ℤˣ) : ℚ) = if b.val = a.val then 1 else -1 := by
  by_cases h : b.val = a.val
  · have : a = b := Fin.ext h.symm
    subst this
    simp
  · have : a ≠ b := fun hh => h (by rw [hh])
    rw [Equiv.Perm.sign_swap this]
    simp [h]

theorem reduced_swap_rows {n i mx : Nat} (hi : i < n) (h1 : i ≤ mx) (h2 : mx < n)
    (V V2 : Nat → Nat → ℚ)
    (hV : ∀ r c, r < n → c < n → V2 r c = V (Equiv.swap i mx r) c) :
    (reduced n i V2).det = (if mx = i then 1 else -1) * (reduced n i V).det := by
  have hsub : reduced n i V2 = (reduced n i V).submatrix (Equiv.swap ⟨i, hi⟩ ⟨mx, h2⟩) id := by
    ext r c
    simp only [reduced, Matrix.of_apply, Matrix.submatrix_apply, id, fin_swap_val]
    rw [hV r.val c.val r.isLt c.isLt]
    by_cases hc : c.val < i
    · have : c.val < r.val ↔ c.val < Equiv.swap i mx r.val := by
        rw [Equiv.swap_apply_def]
        split_ifs <;> omega
      simp only [hc, true_and, this]
    · simp only [hc, false_and, if_false]
  rw [hsub, Matrix.det_permute, sign_swap_eq]

theorem reduced_swap_cols {n i mx : Nat} (hi : i < n) (h1 : i ≤ mx) (h2 : mx < n)
    (V V2 : Nat → Nat → ℚ)
    (hV : ∀ r c, r < n → c < n → V2 r c = V r (Equiv.swap i mx c)) :
    (reduced n i V2).det = (if mx = i then 1 else -1) * (reduced n i V).det := by
  have hsub : reduced n i V2 = (reduced n i V).submatrix id (Equiv.swap ⟨i, hi⟩ ⟨mx, h2⟩) := by
    ext r c
    simp only [reduced, Matrix.of_apply, Matrix.submatrix_apply, id, fin_swap_val]
    rw [hV r.val c.val r.isLt c.isLt]
    by_cases hc : c.val < i
    · have : Equiv.swap i mx c.val = c.val := by
        rw [Equiv.swap_apply_def]
        split_ifs <;> omega
      rw [this]
    · have h3 : ¬ Equiv.swap i mx c.val < i := by
        rw [Equiv.swap_apply_def]
        split_ifs <;> omega
      simp only [hc, h3, false_and, if_false]
  rw [hsub, Matrix.det_permute', sign_swap_eq]

theorem reduced_eliminate {n i : Nat} (hi : i < n) (V V2 : Nat → Nat → ℚ)
    (hp : V i i ≠ 0)
    (hV : ∀ r c, r < n → c < n →
      V2 r c = if i < r ∧ i < c then V r c - V r i / V i i * V i c else V r c) :
    (reduced n (i + 1) V2).det = (reduced n i V).det := by
  apply Matrix.det_eq_of_forall_row_eq_smul_add_const
    (fun r : Fin n => if i < r.val then -(V r.val i / V i i) else 0) ⟨i, hi⟩
  · simp
  · intro r c
    simp only [reduced, Matrix.of_apply]
    rw [hV r.val c.val r.isLt c.isLt]
    by_cases hr : i < r.val
    · rcases Nat.lt_trichotomy c.val i with hc | hc | hc
      · have a1 : c.val < i + 1 ∧ c.val < r.val := by omega
        have a2 : c.val < i ∧ c.val < r.val := by omega
        have a3 : c.val < i ∧ c.val < i := by omega
        simp only [a1, a2, a3, and_self, if_true, mul_zero, add_zero]
      · have a1 : c.val < i + 1 ∧ c.val < r.val := by omega
        have a2 : ¬ (c.val < i ∧ c.val < r.val) := by omega
        have a3 : ¬ (c.val < i ∧ c.val < i) := by omega
        simp only [a1, a2, a3, and_self, if_true, if_false, hr, hc]
        field_simp
      · have a1 : ¬ (c.val < i + 1 ∧ c.val < r.val) := by omega
        have a2 : ¬ (c.val < i ∧ c.val < r.val) := by omega
        have a3 : ¬ (c.val < i ∧ c.val < i) := by omega
        have a4 : i < r.val ∧ i < c.val := ⟨hr, hc⟩
        simp only [a1, a2, a3, a4, and_self, if_true, if_false, hr]
        ring
    · have a0 : ¬ (i < r.val ∧ i < c.val) := fun hh => hr hh.1
      rw [if_neg a0, if_neg hr, zero_mul, add_zero]
      by_cases hc : c.val < i ∧ c.val < r.val
      · have a1 : c.val < i + 1 ∧ c.val < r.val := by omega
        simp only [hc, a1, and_self, if_true]
      · have a1 : ¬ (c.val < i + 1 ∧ c.val < r.val) := by omega
        simp only [hc, a1, if_false]

theorem reduced_zero_row {n i : Nat} (hi : i < n) (V : Nat → Nat → ℚ)
    (hz : ∀ c, i ≤ c → c < n → V i c = 0) : (reduced n i V).det = 0 := by
  apply Matrix.det_eq_zero_of_row_eq_zero ⟨i, hi⟩
  intro c
  simp only [reduced, Matrix.of_apply]
  by_cases hc : c.val < i
  · simp [hc]
  · simp only [hc, false_and, if_false]
    exact hz c.val (by omega) c.isLt

theorem reduced_final {n : Nat} (V : Nat → Nat → ℚ) :
    (reduced n n V).det = ∏ t in Finset.range n, V t t := by
  rw [Matrix.det_of_upperTriangular]
  · rw [← Fin.prod_univ_eq_prod_range (fun t => V t t) n]
    apply Finset.prod_congr rfl
    intro t _
    simp [reduced]
  · intro r c hrc
    simp only [id] at hrc
    have h1 : c.val < r.val := hrc
    simp only [reduced, Matrix.of_apply]
    rw [if_pos ⟨c.isLt, h1⟩]

/-! ## The main loop of `fakeGauss` -/

theorem EPSILON_pos : 0 < EPSILON := by
  unfold EPSILON; norm_num

theorem swap_fix_lt {i mx t : Nat} (h1 : i ≤ mx) (ht : t < i) : Equiv.swap i mx t = t := by
  rw [Equiv.swap_apply_def]
  split_ifs <;> omega

theorem signFactor_sq (b : Prop) [Decidable b] (x : ℚ) :
    (((if b then 1 else -1 : ℤ) : ℚ)) * ((if b then 1 else -1) * x) = x := by
  by_cases h : b <;> simp [h]

theorem fakeGaussLoop_ok {n : Nat} (D : ℚ) :
    ∀ (fuel i : Nat) (st : GaussState), i + fuel = n →
      EngineOk n st.support st.fakeRows st.fakeCols →
      (st.sign = 1 ∨ st.sign = -1) →
      (st.sign : ℚ) * (reduced n i (view st.support st.fakeRows st.fakeCols)).det = D →
      (∀ t, t < i → EPSILON < |view st.support st.fakeRows st.fakeCols t t|) →
      (∃ k p, fakeGaussLoop fuel i st = .ok (.singular k p) ∧ k < n ∧ |p| ≤ EPSILON ∧
        (p = 0 → D = 0)) ∨
      (∃ st2, fakeGaussLoop fuel i st = .ok (.completed st2) ∧
        EngineOk n st2.support st2.fakeRows st2.fakeCols ∧
        (st2.sign = 1 ∨ st2.sign = -1) ∧
        (st2.sign : ℚ) * (reduced n n (view st2.support st2.fakeRows st2.fakeCols)).det = D ∧
        ∀ t, t < n → EPSILON < |view st2.support st2.fakeRows st2.fakeCols t t|) := by
  intro fuel
  induction fuel with
  | zero =>
    intro i st hn hok hsign hdet hpiv
    have : i = n := by omega
    subst this
    exact Or.inr ⟨st, rfl, hok, hsign, hdet, hpiv⟩
  | succ f ih =>
    intro i st hn hok hsign hdet hpiv
    have hi : i < n := by omega
    obtain ⟨mx1, rows1, hsw1, a1, a2, a3, _, hok1, hget1⟩ := fakeSwap_rows_ok hok hi
    obtain ⟨mx2, cols2, hsw2, b1, b2, b3, _, hok2, hget2⟩ := fakeSwap_cols_ok hok1 hi
    have hV1 : ∀ r c, view st.support rows1 st.fakeCols r c
        = view st.support st.fakeRows st.fakeCols (Equiv.swap i mx1 r) c := by
      intro r c; simp only [view, hget1]
    have hV2 : ∀ r c, view st.support rows1 cols2 r c
        = view st.support rows1 st.fakeCols r (Equiv.swap i mx2 c) := by
      intro r c; simp only [view, hget2]
    have hd1 := reduced_swap_rows hi a1 a2 (view st.support st.fakeRows st.fakeCols)
      (view st.support rows1 st.fakeCols) (fun r c _ _ => hV1 r c)
    have hd2 := reduced_swap_cols hi b1 b2 (view st.support rows1 st.fakeCols)
      (view st.support rows1 cols2) (fun r c _ _ => hV2 r c)
    have hpe := elemAt_ok hok2 hi hi
    have hpv : view st.support rows1 cols2 i i = view st.support rows1 st.fakeCols i mx2 := by
      rw [hV2, Equiv.swap_apply_left]
    by_cases hle : |view st.support rows1 cols2 i i| ≤ EPSILON
    · left
      refine ⟨i, view st.support rows1 cols2 i i, ?_, hi, hle, ?_⟩
      · simp only [fakeGaussLoop, hsw1, hsw2, hpe, hle, if_true]
      · intro hp0
        have hz : (reduced n i (view st.support rows1 st.fakeCols)).det = 0 := by
          apply reduced_zero_row hi
          intro c hc1 hc2
          have := b3 c hc1 hc2
          rw [← hpv, hp0, abs_zero] at this
          exact abs_eq_zero.1 (le_antisymm this (abs_nonneg _))
        rw [← hdet]
        have h5 := signFactor_sq (mx1 = i)
          ((reduced n i (view st.support st.fakeRows st.fakeCols)).det)
        rw [← hd1, hz, mul_zero] at h5
        rw [← h5, mul_zero]
    · obtain ⟨sup3, hel, hok3, hV3⟩ := eliminateBelow_ok hok2 hi (view st.support rows1 cols2 i i)
      have hpos : EPSILON < |view st.support rows1 cols2 i i| := not_le.1 hle
      have hne : view st.support rows1 cols2 i i ≠ 0 := by
        intro h0
        rw [h0, abs_zero] at hpos
        exact absurd hpos (not_lt.2 (le_of_lt EPSILON_pos))
      have hd3 := reduced_eliminate hi (view st.support rows1 cols2) (view sup3 rows1 cols2) hne hV3
      have step := ih (i + 1) ⟨st.sign * (if mx1 = i then 1 else -1) * (if mx2 = i then 1 else -1),
        sup3, rows1, cols2⟩ (by omega) hok3
        (by
          show st.sign * (if mx1 = i then 1 else -1) * (if mx2 = i then 1 else -1) = 1 ∨
            st.sign * (if mx1 = i then 1 else -1) * (if mx2 = i then 1 else -1) = -1
          rcases hsign with h | h <;> rw [h] <;> split_ifs <;> simp)
        (by
          show ((st.sign * (if mx1 = i then 1 else -1) * (if mx2 = i then 1 else -1) : ℤ) : ℚ)
            * (reduced n (i + 1) (view sup3 rows1 cols2)).det = D
          rw [hd3, hd2, hd1, ← hdet]
          push_cast
          by_cases e1 : mx1 = i <;> by_cases e2 : mx2 = i <;> simp [e1, e2])
        (by
          intro t ht
          show EPSILON < |view sup3 rows1 cols2 t t|
          rw [hV3 t t (by omega) (by omega), if_neg (by omega)]
          by_cases hti : t = i
          · rw [hti]; exact hpos
          · have hlt : t < i := by omega
            rw [hV2, hV1, swap_fix_lt b1 hlt, swap_fix_lt a1 hlt]
            exact hpiv t hlt)
      have hunf : fakeGaussLoop (f + 1) i st = fakeGaussLoop f (i + 1)
          ⟨st.sign * (if mx1 = i then 1 else -1) * (if mx2 = i then 1 else -1),
            sup3, rows1, cols2⟩ := by
        simp only [fakeGaussLoop, hsw1, hsw2, hpe, hle, if_false, hel]
      rw [hunf]
      exact step

theorem Mat.ext_arr {T : Type} {a b : Mat T} (h1 : a.nRows_ = b.nRows_)
    (h2 : a.nCols_ = b.nCols_) (h3 : a.arr_ = b.arr_) : a = b := by
  cases a; cases b
  simp only at h1 h2 h3
  subst h1; subst h2; subst h3
  rfl

theorem Mat.copy_eq {T : Type} (m : Mat T) : m.copy = m := by
  refine Mat.ext_arr (a := m.copy) (b := m) rfl rfl ?_
  apply List.ext_getElem
  · simp [Mat.copy, m.hsize]
  · intro k h1 h2
    simp [Mat.copy]

theorem countDet_ok {n : Nat} {m : Mat ℚ} {rows cols : List Nat}
    (h : EngineOk n m rows cols) (hn : 0 < n) (sign : Int) :
    countDet m rows cols sign =
      .ok (if sign = 1 then ∏ t in Finset.range n, view m rows cols t t
           else -∏ t in Finset.range n, view m rows cols t t) := by
  have key := forRange_inv
    (fun i det =>
      match elemAt m rows cols i i with
      | .error e => .error e
      | .ok x => .ok (det * x))
    (fun k d => d = ∏ t in Finset.range k, view m rows cols t t)
    1 n (view m rows cols 0 0) (by omega) (by simp)
    (by
      intro k d hk1 hk2 hd
      have e1 := elemAt_ok h hk2 hk2
      simp only [e1]
      exact ⟨_, rfl, by rw [Finset.prod_range_succ, hd]⟩)
  obtain ⟨d, hd1, hd2⟩ := key
  have e0 := elemAt_ok h hn hn
  simp only [countDet, e0, h.ncols, hd1, hd2]

theorem createFakeRows_getD {T : Type} (m : Mat T) {r : Nat} (hr : r < m.nRows_) :
    (createFakeRows m).getD r 0 = m.nCols_ * r := by
  simp [createFakeRows, List.getD_eq_getElem?_getD, List.getElem?_range hr]

theorem createFakeCols_getD {T : Type} (m : Mat T) {c : Nat} (hc : c < m.nCols_) :
    (createFakeCols m).getD c 0 = c := by
  simp [createFakeCols, List.getD_eq_getElem?_getD, List.getElem?_range hc]

theorem engineOk_init (m : Mat ℚ) (hsq : m.nRows_ = m.nCols_) :
    EngineOk m.nRows_ m (createFakeRows m) (createFakeCols m) := by
  refine ⟨rfl, hsq.symm, ⟨by simp [createFakeRows], ?_, ?_⟩, ⟨by simp [createFakeCols, hsq], ?_, ?_⟩⟩
  · intro r hr
    exact ⟨r, hr, by rw [createFakeRows_getD m hr, hsq]⟩
  · intro r r2 hr hr2 he
    rw [createFakeRows_getD m hr, createFakeRows_getD m hr2] at he
    have hpos : 0 < m.nCols_ := by omega
    exact Nat.eq_of_mul_eq_mul_left hpos he
  · intro c hc
    rw [createFakeCols_getD m (by omega)]; exact hc
  · intro c c2 hc hc2 he
    rw [createFakeCols_getD m (by omega), createFakeCols_getD m (by omega)] at he
    exact he

theorem reduced_init (m : Mat ℚ) (hsq : m.nRows_ = m.nCols_) :
    reduced m.nRows_ 0 (view m (createFakeRows m) (createFakeCols m)) = m.toMatrix := by
  ext r c
  simp only [reduced, Matrix.of_apply, Mat.toMatrix, Mat.entry, Nat.not_lt_zero, false_and,
    if_false, view]
  rw [createFakeRows_getD m r.isLt, createFakeCols_getD m (by have := c.isLt; omega)]

/-- The result of the elimination on a square matrix with at least one row: either the
run stops at a pivot within the tolerance and `fakeGauss` gives zero, or it completes and
`fakeGauss` gives the mathematical determinant, which is then not zero. -/
theorem fakeGauss_spec (m : Mat ℚ) (hsq : m.nRows_ = m.nCols_) (hpos : 0 < m.nRows_) :
    (∃ k p, fakeGaussRun m = .ok (.singular k p) ∧ k < m.nRows_ ∧ |p| ≤ EPSILON ∧
      (p = 0 → m.mathDet = 0) ∧ fakeGauss m = .ok 0) ∨
    (∃ st, fakeGaussRun m = .ok (.completed st) ∧ fakeGauss m = .ok m.mathDet ∧
      m.mathDet ≠ 0) := by
  have hinit := engineOk_init m hsq
  rcases fakeGaussLoop_ok (n := m.nRows_) m.mathDet m.nRows_ 0
      ⟨1, m, createFakeRows m, createFakeCols m⟩ (by omega) hinit (Or.inl rfl)
      (by
        show ((1 : ℤ) : ℚ) * (reduced m.nRows_ 0 (view m (createFakeRows m) (createFakeCols m))).det
          = m.mathDet
        rw [reduced_init m hsq]; simp [Mat.mathDet])
      (fun t ht => by omega) with ⟨k, p, hrun, hk, hp, hz⟩ | ⟨st, hrun, hok, hsign, hdet, hpiv⟩
  · left
    refine ⟨k, p, hrun, hk, hp, hz, ?_⟩
    simp only [fakeGauss, fakeGaussRun, hrun]
  · right
    have hcd := countDet_ok hok hpos st.sign
    rw [reduced_final] at hdet
    have hval : (if st.sign = 1 then ∏ t in Finset.range m.nRows_,
          view st.support st.fakeRows st.fakeCols t t
        else -∏ t in Finset.range m.nRows_, view st.support st.fakeRows st.fakeCols t t)
        = m.mathDet := by
      rcases hsign with h | h
      · rw [h] at hdet; simp only [h, if_true]; simpa using hdet
      · rw [h] at hdet
        have : ¬ ((-1 : ℤ) = 1) := by decide
        simp only [h, this, if_false]; simpa using hdet
    refine ⟨st, hrun, ?_, ?_⟩
    · simp only [fakeGauss, fakeGaussRun, hrun, hcd, hval]
    · have hprod : (∏ t in Finset.range m.nRows_,
          view st.support st.fakeRows st.fakeCols t t) ≠ 0 := by
        rw [Finset.prod_ne_zero_iff]
        intro t ht
        have := hpiv t (Finset.mem_range.1 ht)
        intro h0
        rw [h0, abs_zero] at this
        exact absurd this (not_lt.2 (le_of_lt EPSILON_pos))
      rw [← hdet]
      rcases hsign with h | h <;> rw [h] <;> simpa using hprod

/-! ## Nested loops that fill a buffer: `transpose` and the converting copy -/

theorem Mat.rawSet_ok {T : Type} (t : Mat T) {k : Nat} (hk : k < t.arr_.length) (v : T) :
    ∃ t2, t.rawSet k v = .ok t2 ∧ t2.nRows_ = t.nRows_ ∧ t2.nCols_ = t.nCols_ ∧
      t2.arr_ = t.arr_.set k v :=
  ⟨⟨t.nRows_, t.nCols_, t.arr_.set k v, by rw [List.length_set]; exact t.hsize⟩,
    by simp only [Mat.rawSet, hk, if_true], rfl, rfl, rfl⟩

theorem rawGet_of_getElem? {T : Type} {buf : List T} {i : Nat} {v : T} (h : buf[i]? = some v) :
    rawGet buf i = .ok v := by
  simp only [rawGet, h]

/-- Two nested counted loops that write `v i j` at slot `idx i j`, distinct slots for
distinct index pairs, leave exactly these values in the written slots. -/
theorem fill_nested {T : Type} (R C : Nat) (idx : Nat → Nat → Nat) (v : Nat → Nat → T)
    (body : Nat → Nat → Mat T → Except Err (Mat T)) (t0 : Mat T)
    (hbody : ∀ i j t, i < R → j < C → body i j t = t.rawSet (idx i j) (v i j))
    (hidx : ∀ i j, i < R → j < C → idx i j < t0.arr_.length)
    (hinj : ∀ i j i2 j2, i < R → j < C → i2 < R → j2 < C → idx i j = idx i2 j2 →
      i = i2 ∧ j = j2) :
    ∃ t, forRange 0 R (fun i t => forRange 0 C (fun j t => body i j t) t) t0 = .ok t ∧
      t.nRows_ = t0.nRows_ ∧ t.nCols_ = t0.nCols_ ∧
      ∀ i j, i < R → j < C → t.arr_[idx i j]? = some (v i j) := by
  have key := forRange_inv
    (fun i t => forRange 0 C (fun j t => body i j t) t)
    (fun i t => t.nRows_ = t0.nRows_ ∧ t.nCols_ = t0.nCols_ ∧
      t.arr_.length = t0.arr_.length ∧
      ∀ a b, a < i → a < R → b < C → t.arr_[idx a b]? = some (v a b))
    0 R t0 (Nat.zero_le R) ⟨rfl, rfl, rfl, fun a b ha => by omega⟩
    (by
      rintro i t _ hi ⟨d1, d2, d3, hdone⟩
      have inner := forRange_inv (fun j t => body i j t)
        (fun j u => u.nRows_ = t0.nRows_ ∧ u.nCols_ = t0.nCols_ ∧
          u.arr_.length = t0.arr_.length ∧
          (∀ a b, a < i → a < R → b < C → u.arr_[idx a b]? = some (v a b)) ∧
          ∀ b, b < j → b < C → u.arr_[idx i b]? = some (v i b))
        0 C t (Nat.zero_le C) ⟨d1, d2, d3, hdone, fun b hb => by omega⟩
        (by
          rintro j u _ hj ⟨e1, e2, e3, hrows, hcur⟩
          have hlt : idx i j < u.arr_.length := by rw [e3]; exact hidx i j hi hj
          obtain ⟨u2, hu2, f1, f2, f3⟩ := Mat.rawSet_ok u hlt (v i j)
          refine ⟨u2, (hbody i j u hi hj).trans hu2, by rw [f1, e1], by rw [f2, e2],
            by rw [f3, List.length_set, e3], ?_, ?_⟩
          · intro a b ha haR hb
            have hne : idx i j ≠ idx a b := fun hh => by
              have := (hinj i j a b hi hj haR hb hh).1
              omega
            rw [f3, List.getElem?_set, if_neg hne]
            exact hrows a b ha haR hb
          · intro b hb hbC
            rw [f3, List.getElem?_set]
            by_cases hbj : b = j
            · subst hbj; simp [hlt]
            · have hne : idx i j ≠ idx i b := fun hh => hbj (hinj i j i b hi hj hi hbC hh).2.symm
              rw [if_neg hne]
              exact hcur b (by omega) hbC)
      obtain ⟨u, hu, g1, g2, g3, hrows, hcur⟩ := inner
      refine ⟨u, hu, g1, g2, g3, ?_⟩
      intro a b ha haR hb
      by_cases hai : a = i
      · subst hai; exact hcur b hb hb
      · exact hrows a b (by omega) haR hb)
  obtain ⟨t, ht, d1, d2, _, hall⟩ := key
  exact ⟨t, ht, d1, d2, fun i j hi hj => hall i j hi hi hj⟩

theorem mul_add_lt {R C i j : Nat} (hi : i < R) (hj : j < C) : i * C + j < R * C := by
  calc i * C + j < i * C + C := by omega
    _ = (i + 1) * C := by ring
    _ ≤ R * C := Nat.mul_le_mul_right C hi

theorem Mat.transpose_ok {T : Type} (fresh : Nat → T) (m : Mat T) :
    ∃ t, m.transpose fresh = .ok t ∧ t.nRows_ = m.nCols_ ∧ t.nCols_ = m.nRows_ ∧
      ∀ i j, i < m.nRows_ → j < m.nCols_ →
        t.arr_[j * m.nRows_ + i]? = m.arr_[i * m.nCols_ + j]? := by
  have hval : ∀ i j, i < m.nRows_ → j < m.nCols_ →
      ∃ v, m.arr_[i * m.nCols_ + j]? = some v := by
    intro i j hi hj
    have : i * m.nCols_ + j < m.arr_.length := by rw [m.hsize]; exact mul_add_lt hi hj
    exact ⟨_, List.getElem?_eq_getElem this⟩
  have hR : ∀ i, i < m.nRows_ → 0 < m.nRows_ := fun i hi => by omega
  obtain ⟨t, ht, d1, d2, hall⟩ := fill_nested m.nRows_ m.nCols_
    (fun i j => j * m.nRows_ + i)
    (fun i j => match m.arr_[i * m.nCols_ + j]? with
      | some v => v
      | none => fresh 0)
    (fun i j trans =>
      match rawGet m.arr_ (i * m.nCols_ + j) with
      | .error e => .error e
      | .ok v => trans.rawSet (j * m.nRows_ + i) v)
    (Mat.ctor fresh m.nCols_ m.nRows_)
    (by
      intro i j t hi hj
      obtain ⟨v, hv⟩ := hval i j hi hj
      simp only [rawGet_of_getElem? hv, hv])
    (by
      intro i j hi hj
      simp only [Mat.ctor, List.length_map, List.length_range]
      exact mul_add_lt hj hi)
    (by
      intro i j i2 j2 hi _ hi2 _ he
      have he2 : m.nRows_ * j + i = m.nRows_ * j2 + i2 := by
        rw [Nat.mul_comm m.nRows_ j, Nat.mul_comm m.nRows_ j2]; exact he
      obtain ⟨h1, h2⟩ := index_inj hi hi2 he2
      exact ⟨h2, h1⟩)
  refine ⟨t, ht, d1, d2, ?_⟩
  intro i j hi hj
  obtain ⟨v, hv⟩ := hval i j hi hj
  have := hall i j hi hj
  simp only [hv] at this
  rw [this, hv]

theorem Mat.get_ok {S : Type} (other : Mat S) {i j : Nat} (hi : i < other.nRows_)
    (hj : j < other.nCols_) :
    ∃ v, other.arr_[i * other.nCols_ + j]? = some v ∧ other.get i j = .ok v := by
  have hlt : i * other.nCols_ + j < other.arr_.length := by
    rw [other.hsize]; exact mul_add_lt hi hj
  refine ⟨_, List.getElem?_eq_getElem hlt, ?_⟩
  have h1 : ¬ i ≥ other.nRows_ := by omega
  have h2 : ¬ j ≥ other.nCols_ := by omega
  simp only [Mat.get, Mat.row, h1, h2, if_false]
  apply rawGet_of_getElem?
  rw [Nat.mul_comm other.nCols_ i]
  exact List.getElem?_eq_getElem hlt

theorem Mat.convert_ok {S T : Type} (fresh : Nat → T) (conv : S → T) (other : Mat S) :
    Mat.convert fresh conv other =
      .ok ⟨other.nRows_, other.nCols_, other.arr_.map conv, by simp [other.hsize]⟩ := by
  obtain ⟨t, ht, d1, d2, hall⟩ := fill_nested other.nRows_ other.nCols_
    (fun i j => i * other.nCols_ + j)
    (fun i j => match other.arr_[i * other.nCols_ + j]? with
      | some v => conv v
      | none => fresh 0)
    (fun i j m =>
      match other.get i j with
      | .error e => .error e
      | .ok v => m.rawSet (i * other.nCols_ + j) (conv v))
    (Mat.ctor fresh other.nRows_ other.nCols_)
    (by
      intro i j t hi hj
      obtain ⟨v, hv, hg⟩ := Mat.get_ok other hi hj
      simp only [hg, hv])
    (by
      intro i j hi hj
      simp only [Mat.ctor, List.length_map, List.length_range]
      exact mul_add_lt hi hj)
    (by
      intro i j i2 j2 _ hj _ hj2 he
      have he2 : other.nCols_ * i + j = other.nCols_ * i2 + j2 := by
        rw [Nat.mul_comm other.nCols_ i, Nat.mul_comm other.nCols_ i2]; exact he
      exact index_inj hj hj2 he2)
  have hconv : Mat.convert fresh conv other = .ok t := ht
  rw [hconv]
  congr 1
  have e1 : t.nRows_ = other.nRows_ := d1
  have e2 : t.nCols_ = other.nCols_ := d2
  refine Mat.ext_arr e1 e2 ?_
  apply List.ext_getElem?
  intro k
  by_cases hk : k < other.nRows_ * other.nCols_
  · have hC : 0 < other.nCols_ := by
      rcases Nat.eq_zero_or_pos other.nCols_ with h0 | h0
      · rw [h0] at hk; omega
      · exact h0
    have hj : k % other.nCols_ < other.nCols_ := Nat.mod_lt _ hC
    have hi : k / other.nCols_ < other.nRows_ := by
      rw [Nat.div_lt_iff_lt_mul hC]; exact hk
    have hkk : k / other.nCols_ * other.nCols_ + k % other.nCols_ = k := by
      rw [Nat.mul_comm]; exact Nat.div_add_mod k other.nCols_
    have := hall _ _ hi hj
    simp only [hkk] at this
    have hlt : k < other.arr_.length := by rw [other.hsize]; exact hk
    rw [this, List.getElem?_eq_getElem hlt]
    simp [List.getElem?_eq_getElem hlt]
  · have h1 : t.arr_.length ≤ k := by rw [t.hsize, e1, e2]; omega
    have h2 : (List.map conv other.arr_).length ≤ k := by
      rw [List.length_map, other.hsize]; omega
    rw [List.getElem?_eq_none h1, List.getElem?_eq_none h2]

/-! ## The two paths of `det ()` -/

theorem det_congr_size {a b : Nat} (h : a = b) (A : Matrix (Fin a) (Fin a) ℚ)
    (B : Matrix (Fin b) (Fin b) ℚ)
    (hAB : ∀ i j (hi : i < a) (hj : j < a), A ⟨i, hi⟩ ⟨j, hj⟩ = B ⟨i, h ▸ hi⟩ ⟨j, h ▸ hj⟩) :
    A.det = B.det := by
  subst h
  congr 1
  ext i j
  exact hAB i.val j.val i.isLt j.isLt

theorem det_spec (m : Mat ℚ) (hsq : m.nRows_ = m.nCols_) (hpos : 0 < m.nRows_) :
    det m = .ok 0 ∨ (det m = .ok m.mathDet ∧ m.mathDet ≠ 0) := by
  have h1 : det m = fakeGauss m := by
    have : ¬ m.nRows_ ≠ m.nCols_ := fun h => h hsq
    simp only [det, this, if_false, detFalseType, Mat.copy_eq]
  rw [h1]
  rcases fakeGauss_spec m hsq hpos with ⟨_, _, _, _, _, _, h⟩ | ⟨_, _, h, hne⟩
  · exact Or.inl h
  · exact Or.inr ⟨h, hne⟩

theorem round_zero : round 0 = 0 := by
  decide!

theorem round_intCast (z : ℤ) : round (z : ℚ) = z := by
  unfold round
  have h1 : ⌊(z : ℚ) + 1 / 2⌋ = z := by
    rw [Int.floor_eq_iff]
    constructor <;> norm_num
  have h2 : ⌊-(z : ℚ) + 1 / 2⌋ = -z := by
    rw [Int.floor_eq_iff]
    constructor <;> push_cast <;> norm_num
  split_ifs
  · exact h1
  · rw [h2]; ring

theorem mathDet_convert (m : Mat ℤ) :
    (⟨m.nRows_, m.nCols_, m.arr_.map (fun z : ℤ => (z : ℚ)), by simp [m.hsize]⟩ : Mat ℚ).mathDet
      = ((m.mathDet : ℤ) : ℚ) := by
  simp only [Mat.mathDet]
  have h := RingHom.map_det (Int.castRingHom ℚ) m.toMatrix
  simp only [eq_intCast] at h
  rw [h]
  congr 1
  ext i j
  simp only [Mat.toMatrix, Mat.entry, Matrix.of_apply, List.getD_eq_getElem?_getD,
    List.getElem?_map,
    RingHom.mapMatrix_apply, Matrix.map_apply, eq_intCast]
  cases m.arr_[m.nCols_ * i.val + j.val]? <;> simp

theorem detInt_spec (fresh : Nat → ℚ) (m : Mat ℤ) (hsq : m.nRows_ = m.nCols_)
    (hpos : 0 < m.nRows_) :
    detInt fresh m = .ok 0 ∨ (detInt fresh m = .ok m.mathDet ∧ m.mathDet ≠ 0) := by
  have hns : ¬ m.nRows_ ≠ m.nCols_ := fun h => h hsq
  rcases det_spec ⟨m.nRows_, m.nCols_, m.arr_.map (fun z : ℤ => (z : ℚ)), by simp [m.hsize]⟩
    hsq hpos with h | ⟨h, hne⟩
  · left
    simp only [detInt, hns, if_false, detTrueType, Mat.convert_ok, h, round_zero]
  · right
    rw [mathDet_convert] at h hne
    refine ⟨?_, fun h0 => hne (by rw [h0]; simp)⟩
    simp only [detInt, hns, if_false, detTrueType, Mat.convert_ok, h, round_intCast]

/-! ## The identity matrix -/

theorem EPSILON_lt_one : EPSILON < 1 := by
  unfold EPSILON; norm_num

theorem fakeGaussLoop_identity {n : Nat} :
    ∀ (fuel i : Nat) (st : GaussState), i + fuel = n →
      EngineOk n st.support st.fakeRows st.fakeCols →
      (∀ r c, r < n → c < n →
        view st.support st.fakeRows st.fakeCols r c = if r = c then 1 else 0) →
      ∃ st2, fakeGaussLoop fuel i st = .ok (.completed st2) := by
  intro fuel
  induction fuel with
  | zero => intro i st _ _ _; exact ⟨st, rfl⟩
  | succ f ih =>
    intro i st hn hok hid
    have hi : i < n := by omega
    obtain ⟨mx1, rows1, hsw1, a1, a2, _, a4, hok1, hget1⟩ := fakeSwap_rows_ok hok hi
    have hmx1 : mx1 = i := by
      by_contra hne
      have h := a4 i (le_refl i) (by omega)
      rw [hid i i hi hi, hid mx1 i a2 hi, if_pos rfl, if_neg hne] at h
      norm_num at h
    subst hmx1
    have hV1 : ∀ r c, view st.support rows1 st.fakeCols r c
        = view st.support st.fakeRows st.fakeCols r c := by
      intro r c; simp only [view, hget1, Equiv.swap_self, Equiv.refl_apply]
    obtain ⟨mx2, cols2, hsw2, b1, b2, _, b4, hok2, hget2⟩ := fakeSwap_cols_ok hok1 a2
    have hmx2 : mx2 = mx1 := by
      by_contra hne
      have h := b4 mx1 (le_refl mx1) (by omega)
      have hne2 : ¬ mx1 = mx2 := fun hh => hne hh.symm
      rw [hV1, hV1, hid mx1 mx1 hi hi, hid mx1 mx2 hi b2, if_pos rfl, if_neg hne2] at h
      norm_num at h
    subst hmx2
    have hV2 : ∀ r c, view st.support rows1 cols2 r c
        = view st.support st.fakeRows st.fakeCols r c := by
      intro r c
      rw [← hV1]
      simp only [view, hget2, Equiv.swap_self, Equiv.refl_apply]
    have hpe := elemAt_ok hok2 hi hi
    have hp1 : view st.support rows1 cols2 mx2 mx2 = 1 := by
      rw [hV2, hid mx2 mx2 hi hi, if_pos rfl]
    have hle : ¬ |view st.support rows1 cols2 mx2 mx2| ≤ EPSILON := by
      rw [hp1, abs_one]; exact not_le.2 EPSILON_lt_one
    obtain ⟨sup3, hel, hok3, hV3⟩ := eliminateBelow_ok hok2 hi (view st.support rows1 cols2 mx2 mx2)
    have hid3 : ∀ r c, r < n → c < n → view sup3 rows1 cols2 r c = if r = c then 1 else 0 := by
      intro r c hr hc
      rw [hV3 r c hr hc]
      by_cases hrc : mx2 < r ∧ mx2 < c
      · have hne : ¬ r = mx2 := by omega
        rw [if_pos hrc, hV2 r mx2, hid r mx2 hr hi, if_neg hne, hV2 r c, hid r c hr hc]
        simp
      · rw [if_neg hrc, hV2 r c, hid r c hr hc]
    have hunf : fakeGaussLoop (f + 1) mx2 st = fakeGaussLoop f (mx2 + 1)
        ⟨st.sign * (if mx2 = mx2 then 1 else -1) * (if mx2 = mx2 then 1 else -1),
          sup3, rows1, cols2⟩ := by
      simp only [fakeGaussLoop, hsw1, hsw2, hpe, hle, if_false, hel]
    rw [hunf]
    exact ih (mx2 + 1) _ (by omega) hok3 hid3

theorem Mat.mathDet_eq {T : Type} [CommRing T] (m : Mat T) {n : Nat} (h : m.nRows_ = n) :
    m.mathDet = (Matrix.of fun (i j : Fin n) => m.entry i.val j.val).det := by
  subst h; rfl

theorem det_eq_fakeGauss (m : Mat ℚ) (hsq : m.nRows_ = m.nCols_) : det m = fakeGauss m := by
  have : ¬ m.nRows_ ≠ m.nCols_ := fun h => h hsq
  simp only [det, this, if_false, detFalseType, Mat.copy_eq]

theorem det_empty (m : Mat ℚ) (hr : m.nRows_ = 0) (hc : m.nCols_ = 0) :
    det m = .error .rawAccess := by
  rw [det_eq_fakeGauss m (hr.trans hc.symm)]
  simp [fakeGauss, fakeGaussRun, hr, fakeGaussLoop, countDet, elemAt, createFakeRows, rawGet]

theorem det_notSquare (m : Mat ℚ) (h : m.nRows_ ≠ m.nCols_) : det m = .error .notSquare := by
  simp [det, h]

theorem detInt_empty (fresh : Nat → ℚ) (m : Mat ℤ) (hr : m.nRows_ = 0) (hc : m.nCols_ = 0) :
    detInt fresh m = .error .rawAccess := by
  have hns : ¬ m.nRows_ ≠ m.nCols_ := fun h => h (by rw [hr, hc])
  have h := det_empty ⟨m.nRows_, m.nCols_, m.arr_.map (fun z : ℤ => (z : ℚ)),
    by simp [m.hsize]⟩ hr hc
  simp only [detInt, hns, if_false, detTrueType, Mat.convert_ok, h]

theorem run_singular_of_mathDet_zero (m : Mat ℚ) (hsq : m.nRows_ = m.nCols_)
    (hpos : 0 < m.nRows_) (hz : m.mathDet = 0) :
    ∃ k p, fakeGaussRun m = .ok (.singular k p) ∧ |p| ≤ EPSILON ∧ fakeGauss m = .ok 0 := by
  rcases fakeGauss_spec m hsq hpos with ⟨k, p, h1, _, h2, _, h3⟩ | ⟨_, _, _, hne⟩
  · exact ⟨k, p, h1, h2, h3⟩
  · exact absurd hz hne

theorem identityMat_entry (T : Type) [Zero T] [One T] {n i j : Nat} (hi : i < n) (hj : j < n) :
    (identityMat T n).entry i j = if i = j then 1 else 0 := by
  have hlt : n * i + j < n * n := index_lt hi hj
  have hn : 0 < n := by omega
  have h1 : (n * i + j) / n = i := by
    rw [Nat.mul_add_div hn]; simp [Nat.div_eq_of_lt hj]
  have h2 : (n * i + j) % n = j := by
    rw [Nat.mul_add_mod]; exact Nat.mod_eq_of_lt hj
  simp only [Mat.entry, identityMat, List.getD_eq_getElem?_getD, List.getElem?_map,
    List.getElem?_range hlt, Option.map_some', Option.getD_some, h1, h2]

theorem identityMat_mathDet (n : Nat) : (identityMat ℚ n).mathDet = 1 := by
  have h : (identityMat ℚ n).toMatrix = 1 := by
    ext i j
    simp only [Mat.toMatrix, Matrix.of_apply]
    rw [identityMat_entry ℚ (n := n) i.isLt j.isLt, Matrix.one_apply]
    simp only [Fin.ext_iff]
  rw [Mat.mathDet, h, Matrix.det_one]

theorem det_identity_pos (n : Nat) (hn : 0 < n) : det (identityMat ℚ n) = .ok 1 := by
  have hsq : (identityMat ℚ n).nRows_ = (identityMat ℚ n).nCols_ := rfl
  rw [det_eq_fakeGauss _ hsq]
  obtain ⟨st2, hst2⟩ := fakeGaussLoop_identity (n := n) n 0
    ⟨1, identityMat ℚ n, createFakeRows (identityMat ℚ n), createFakeCols (identityMat ℚ n)⟩
    (by omega) (engineOk_init (identityMat ℚ n) hsq)
    (by
      intro r c hr hc
      show view (identityMat ℚ n) _ _ r c = _
      simp only [view]
      rw [createFakeRows_getD (identityMat ℚ n) (show r < (identityMat ℚ n).nRows_ from hr),
        createFakeCols_getD (identityMat ℚ n) (show c < (identityMat ℚ n).nCols_ from hc)]
      exact identityMat_entry ℚ hr hc)
  rcases fakeGauss_spec (identityMat ℚ n) hsq hn with ⟨k, p, h1, _⟩ | ⟨_, _, h, _⟩
  · have hrun : fakeGaussRun (identityMat ℚ n) = .ok (.completed st2) := hst2
    rw [hrun] at h1
    cases h1
  · rw [h, identityMat_mathDet]

theorem convert_identityMat (n : Nat) :
    (⟨(identityMat ℤ n).nRows_, (identityMat ℤ n).nCols_,
      (identityMat ℤ n).arr_.map (fun z : ℤ => (z : ℚ)),
      by simp [(identityMat ℤ n).hsize]⟩ : Mat ℚ) = identityMat ℚ n := by
  refine Mat.ext_arr rfl rfl ?_
  simp only [identityMat, List.map_map]
  apply List.map_congr_left
  intro k _
  simp only [Function.comp]
  split_ifs <;> simp

theorem detInt_identity_pos (fresh : Nat → ℚ) (n : Nat) (hn : 0 < n) :
    detInt fresh (identityMat ℤ n) = .ok 1 := by
  have hns : ¬ (identityMat ℤ n).nRows_ ≠ (identityMat ℤ n).nCols_ := fun h => h rfl
  have h1 : round 1 = 1 := by decide!
  simp only [detInt, hns, if_false, detTrueType, Mat.convert_ok, convert_identityMat,
    det_identity_pos n hn, h1]

theorem mathDet_zero_of_zero_line {T : Type} [CommRing T] (m : Mat T)
    (h : (∃ r, r < m.nRows_ ∧ ∀ c, c < m.nRows_ → m.entry r c = 0) ∨
      (∃ c, c < m.nRows_ ∧ ∀ r, r < m.nRows_ → m.entry r c = 0)) : m.mathDet = 0 := by
  rcases h with ⟨r, hr, hz⟩ | ⟨c, hc, hz⟩
  · apply Matrix.det_eq_zero_of_row_eq_zero ⟨r, hr⟩
    intro j
    simp only [Mat.toMatrix, Matrix.of_apply]
    exact hz j.val j.isLt
  · apply Matrix.det_eq_zero_of_column_eq_zero ⟨c, hc⟩
    intro i
    simp only [Mat.toMatrix, Matrix.of_apply]
    exact hz i.val i.isLt

theorem det_value (m : Mat ℚ) (hsq : m.nRows_ = m.nCols_) (hpos : 0 < m.nRows_) :
    ∃ a, det m = .ok a ∧ (a = 0 ∨ a = m.mathDet) := by
  rcases det_spec m hsq hpos with h | ⟨h, _⟩
  · exact ⟨0, h, Or.inl rfl⟩
  · exact ⟨m.mathDet, h, Or.inr rfl⟩

theorem detInt_value (fresh : Nat → ℚ) (m : Mat ℤ) (hsq : m.nRows_ = m.nCols_)
    (hpos : 0 < m.nRows_) : ∃ a, detInt fresh m = .ok a ∧ (a = 0 ∨ a = m.mathDet) := by
  rcases detInt_spec fresh m hsq hpos with h | ⟨h, _⟩
  · exact ⟨0, h, Or.inl rfl⟩
  · exact ⟨m.mathDet, h, Or.inr rfl⟩

/-- Two returned values, each zero or its exact value, where the exact values differ by the
factor `f`: they differ by `f` as soon as neither is zero. -/
theorem values_agree {K : Type} [Ring K] {x y : Except Err K} {D f : K}
    (hx : ∃ a, x = .ok a ∧ (a = 0 ∨ a = D)) (hy : ∃ b, y = .ok b ∧ (b = 0 ∨ b = f * D)) :
    ∃ a b, x = .ok a ∧ y = .ok b ∧ (a = 0 ∨ a = D) ∧ (b = 0 ∨ b = f * D) ∧
      (a ≠ 0 → b ≠ 0 → b = f * a) := by
  obtain ⟨a, ha, ha2⟩ := hx
  obtain ⟨b, hb, hb2⟩ := hy
  refine ⟨a, b, ha, hb, ha2, hb2, ?_⟩
  intro hane hbne
  rcases ha2 with h1 | h1
  · exact absurd h1 hane
  · rcases hb2 with h2 | h2
    · exact absurd h2 hbne
    · rw [h2, h1]

theorem det_zero_of_mathDet_zero (m : Mat ℚ) (hsq : m.nRows_ = m.nCols_) (hpos : 0 < m.nRows_)
    (hz : m.mathDet = 0) : det m = .ok 0 := by
  rcases det_spec m hsq hpos with h | ⟨_, hne⟩
  · exact h
  · exact absurd hz hne

theorem detInt_zero_of_mathDet_zero (fresh : Nat → ℚ) (m : Mat ℤ) (hsq : m.nRows_ = m.nCols_)
    (hpos : 0 < m.nRows_) (hz : m.mathDet = 0) : detInt fresh m = .ok 0 := by
  rcases detInt_spec fresh m hsq hpos with h | ⟨_, hne⟩
  · exact h
  · exact absurd hz hne

/-! ## The claims about `det ()` -/

/-- C2: a square matrix with at least one row whose mathematical determinant is zero
makes `det ()` return exactly zero, without an error, on the floating-point path
(elements taken as exact) and on the integer path. -/
theorem det_singular_returns_zero :
    (∀ m : Mat ℚ, m.nRows_ = m.nCols_ → 0 < m.nRows_ → m.mathDet = 0 → det m = .ok 0) ∧
    (∀ (fresh : Nat → ℚ) (m : Mat ℤ), m.nRows_ = m.nCols_ → 0 < m.nRows_ → m.mathDet = 0 →
      detInt fresh m = .ok 0) :=
  ⟨det_zero_of_mathDet_zero, detInt_zero_of_mathDet_zero⟩

/-- The witness of C2: `[[1,2],[2,4]]` on both paths. -/
theorem det_singular_returns_zero_witness :
    ((mat22 1 2 2 4).mathDet = 0 ∧ det (mat22 1 2 2 4) = .ok 0) ∧
    ((mat22Int 1 2 2 4).mathDet = 0 ∧ detInt (fun _ => 0) (mat22Int 1 2 2 4) = .ok 0) :=
  ⟨⟨by decide!, det_singular_returns_zero.1 (mat22 1 2 2 4) rfl (by decide) (by decide!)⟩,
    ⟨by decide!, det_singular_returns_zero.2 (fun _ => 0) (mat22Int 1 2 2 4) rfl (by decide)
      (by decide!)⟩⟩

/-! ## The random matrix generator on a buffer with a zero lower triangle -/

theorem Mat.Holds.congr {n : Nat} {m : Mat ℤ} {g g2 : Nat → Nat → ℤ} (h : Mat.Holds n m g)
    (hg : ∀ a b, a < n → b < n → g a b = g2 a b) : Mat.Holds n m g2 :=
  ⟨h.1, h.2.1, fun a b ha hb => (h.2.2 a b ha hb).trans (hg a b ha hb)⟩

theorem Mat.Holds.get {n : Nat} {m : Mat ℤ} {g : Nat → Nat → ℤ} (h : Mat.Holds n m g)
    {i j : Nat} (hi : i < n) (hj : j < n) : m.get i j = .ok (g i j) := by
  obtain ⟨v, hv, hg⟩ := Mat.get_ok m (show i < m.nRows_ by rw [h.1]; exact hi)
    (show j < m.nCols_ by rw [h.2.1]; exact hj)
  rw [hg, ← h.2.2 i j hi hj]
  simp only [Mat.entry, List.getD_eq_getElem?_getD, Nat.mul_comm m.nCols_ i, hv, Option.getD_some]

theorem Mat.Holds.set {n : Nat} {m : Mat ℤ} {g : Nat → Nat → ℤ} (h : Mat.Holds n m g)
    {i j : Nat} (hi : i < n) (hj : j < n) (v : ℤ) :
    ∃ m2, m.set i j v = .ok m2 ∧
      Mat.Holds n m2 (fun a b => if a = i ∧ b = j then v else g a b) := by
  have hlt : m.nCols_ * i + j < m.arr_.length := by
    rw [m.hsize, h.1, h.2.1]; exact index_lt hi hj
  obtain ⟨m2, hm2, d1, d2, harr⟩ := Mat.rawSet_ok m hlt v
  have h1 : ¬ i ≥ m.nRows_ := by rw [h.1]; omega
  have h2 : ¬ j ≥ m.nCols_ := by rw [h.2.1]; omega
  refine ⟨m2, by simp only [Mat.set, Mat.row, h1, h2, if_false]; exact hm2,
    d1.trans h.1, d2.trans h.2.1, ?_⟩
  intro a b ha hb
  simp only [Mat.entry, harr, d2, List.getD_eq_getElem?_getD, List.getElem?_set]
  by_cases he : m.nCols_ * i + j = m.nCols_ * a + b
  · have hab : i = a ∧ j = b := by
      rw [h.2.1] at he
      exact index_inj hj hb he
    obtain ⟨rfl, rfl⟩ := hab
    simp [hlt]
  · have hne : ¬ (a = i ∧ b = j) := by
      rintro ⟨rfl, rfl⟩; exact he rfl
    rw [if_neg he, if_neg hne]
    have := h.2.2 a b ha hb
    simp only [Mat.entry, List.getD_eq_getElem?_getD] at this
    exact this

theorem Mat.ctor_holds (fresh : Nat → ℤ) (n : Nat) :
    Mat.Holds n (Mat.ctor fresh n n) (fun a b => fresh (n * a + b)) := by
  refine ⟨rfl, rfl, ?_⟩
  intro a b ha hb
  have hlt : n * a + b < n * n := index_lt ha hb
  simp [Mat.entry, Mat.ctor, List.getD_eq_getElem?_getD, List.getElem?_range hlt]

theorem sizeMinusOne_pos {n : Nat} (hn : 0 < n) : sizeMinusOne n = n - 1 := by
  have : ¬ n = 0 := by omega
  simp only [sizeMinusOne, this, if_false]

theorem rndMatr_upper (fresh : Nat → ℤ) (U : Nat → Nat → ℤ) (n : Nat) (hn : 0 < n) :
    ∃ m, fillUpper U n (Mat.ctor fresh n n) = .ok m ∧
      Mat.Holds n m (upperStage n fresh U (n - 1)) := by
  simp only [fillUpper, sizeMinusOne_pos hn]
  apply forRange_inv _ (fun i m => Mat.Holds n m (upperStage n fresh U i)) 0 (n - 1) _
    (Nat.zero_le _)
  · refine (Mat.ctor_holds fresh n).congr ?_
    intro a b _ _
    simp [upperStage]
  · intro i m _ hi hm
    obtain ⟨m1, hm1, hh1⟩ := hm.set (show i < n by omega) (show i < n by omega) 1
    simp only [hm1]
    have inner := forRange_inv (fun j m2 => m2.set i j (U i j))
      (fun j m2 => Mat.Holds n m2 (upperRowStage n fresh U i j)) (i + 1) n m1 (by omega)
      (hh1.congr (by
        intro a b _ _
        simp only [upperRowStage, upperStage]
        split_ifs <;> first | rfl | omega))
      (by
        intro j m2 hj1 hj2 hm2
        obtain ⟨m3, hm3, hh3⟩ := hm2.set (show i < n by omega) hj2 (U i j)
        refine ⟨m3, hm3, hh3.congr ?_⟩
        intro a b _ _
        simp only [upperRowStage, upperStage]
        split_ifs <;> first | rfl | omega | simp_all)
    obtain ⟨m4, hm4, hh4⟩ := inner
    refine ⟨m4, hm4, hh4.congr ?_⟩
    intro a b _ hb
    simp only [upperRowStage, upperStage]
    split_ifs <;> first | rfl | omega | simp_all

theorem rndMatr_rows (T : Nat → Nat → ℤ) (rc : Nat → ℤ) (n : Nat) (hn : 0 < n) (m0 : Mat ℤ)
    (h0 : Mat.Holds n m0 T) :
    ∃ m, mixRows rc n m0 = .ok m ∧ Mat.Holds n m (rowStage T rc n) := by
  simp only [mixRows]
  apply forRange_inv _ (fun i m => Mat.Holds n m (rowStage T rc i)) 1 n _ (by omega)
  · refine h0.congr ?_
    intro a b _ _
    simp only [rowStage]
    split_ifs <;> first | rfl | omega
  · intro i m hi1 hi2 hm
    have inner := forRange_inv (fun j m2 =>
        match m2.get 0 j with
        | .error e => .error e
        | .ok b =>
          match m2.get i j with
          | .error e => .error e
          | .ok a => m2.set i j (a + rc i * b))
      (fun j m2 => Mat.Holds n m2 (rowInnerStage T rc i j)) 0 n m (Nat.zero_le n)
      (hm.congr (by
        intro a b _ _
        simp only [rowInnerStage]
        split_ifs <;> first | rfl | omega))
      (by
        intro j m2 _ hj2 hm2
        have g0 := hm2.get hn hj2
        have g1 := hm2.get hi2 hj2
        obtain ⟨m3, hm3, hh3⟩ := hm2.set hi2 hj2
          (rowInnerStage T rc i j i j + rc i * rowInnerStage T rc i j 0 j)
        simp only [g0, g1]
        refine ⟨m3, hm3, hh3.congr ?_⟩
        intro a b _ _
        simp only [rowInnerStage, rowStage]
        split_ifs <;> first | rfl | omega | simp_all)
    obtain ⟨m4, hm4, hh4⟩ := inner
    refine ⟨m4, hm4, hh4.congr ?_⟩
    intro a b _ hb
    simp only [rowInnerStage, rowStage]
    split_ifs <;> first | rfl | omega

theorem rndMatr_cols (R : Nat → Nat → ℤ) (cc : Nat → ℤ) (n : Nat) (hn : 0 < n) (m0 : Mat ℤ)
    (h0 : Mat.Holds n m0 R) :
    ∃ m, mixCols cc n m0 = .ok m ∧ Mat.Holds n m (colStage n R cc (n - 1)) := by
  simp only [mixCols, sizeMinusOne_pos hn]
  apply forRange_inv _ (fun i m => Mat.Holds n m (colStage n R cc i)) 0 (n - 1) _
    (Nat.zero_le _)
  · refine h0.congr ?_
    intro a b _ _
    simp only [colStage]
    split_ifs <;> first | rfl | omega
  · intro i m _ hi2 hm
    have hin : i < n := by omega
    have inner := forRange_inv (fun j m2 =>
        match m2.get j (n - 1) with
        | .error e => .error e
        | .ok b =>
          match m2.get j i with
          | .error e => .error e
          | .ok a => m2.set j i (a + cc i * b))
      (fun j m2 => Mat.Holds n m2 (colInnerStage n R cc i j)) 0 n m (Nat.zero_le n)
      (hm.congr (by
        intro a b _ _
        simp only [colInnerStage]
        split_ifs <;> first | rfl | omega))
      (by
        intro j m2 _ hj2 hm2
        have g0 := hm2.get hj2 (show n - 1 < n by omega)
        have g1 := hm2.get hj2 hin
        obtain ⟨m3, hm3, hh3⟩ := hm2.set hj2 hin
          (colInnerStage n R cc i j j i + cc i * colInnerStage n R cc i j j (n - 1))
        simp only [g0, g1]
        refine ⟨m3, hm3, hh3.congr ?_⟩
        intro a b _ _
        simp only [colInnerStage, colStage]
        split_ifs <;> first | rfl | omega | simp_all)
    obtain ⟨m4, hm4, hh4⟩ := inner
    refine ⟨m4, hm4, hh4.congr ?_⟩
    intro a b ha _
    simp only [colInnerStage, colStage]
    split_ifs <;> first | rfl | omega

theorem rndMatr_holds (fresh : Nat → ℤ) (U : Nat → Nat → ℤ) (rc cc : Nat → ℤ) (n : Nat)
    (hn : 0 < n) (d : ℤ) :
    ∃ m, rndMatr fresh U rc cc n d = .ok m ∧
      Mat.Holds n m (colStage n (rowStage (triangleStage n fresh U d) rc n) cc (n - 1)) := by
  have hs := sizeMinusOne_pos hn
  obtain ⟨m1, hm1, hh1⟩ := rndMatr_upper fresh U n hn
  obtain ⟨m2, hm2, hh2⟩ := hh1.set (show n - 1 < n by omega) (show n - 1 < n by omega) d
  have hh2t : Mat.Holds n m2 (triangleStage n fresh U d) := hh2.congr (fun a b _ _ => rfl)
  obtain ⟨m3, hm3, hh3⟩ := rndMatr_rows (triangleStage n fresh U d) rc n hn m2 hh2t
  obtain ⟨m4, hm4, hh4⟩ := rndMatr_cols (rowStage (triangleStage n fresh U d) rc n) cc n hn m3 hh3
  refine ⟨m4, ?_, hh4⟩
  simp only [rndMatr, hs, hm1, hm2, hm3, hm4]

theorem triangle_det (fresh : Nat → ℤ) (U : Nat → Nat → ℤ) (k : Nat) (d : ℤ)
    (hz : ∀ a b, b < a → a < k + 1 → fresh ((k + 1) * a + b) = 0) :
    (Matrix.of fun (i j : Fin (k + 1)) => triangleStage (k + 1) fresh U d i.val j.val).det = d := by
  rw [Matrix.det_of_upperTriangular]
  · rw [Fin.prod_univ_castSucc]
    have h1 : ∀ i : Fin k, (Matrix.of fun (i j : Fin (k + 1)) =>
        triangleStage (k + 1) fresh U d i.val j.val) i.castSucc i.castSucc = 1 := by
      intro i
      have hi := i.isLt
      simp only [Matrix.of_apply, triangleStage, upperStage, Fin.coe_castSucc,
        Nat.add_sub_cancel]
      split_ifs <;> first | rfl | omega
    have h2 : (Matrix.of fun (i j : Fin (k + 1)) =>
        triangleStage (k + 1) fresh U d i.val j.val) (Fin.last k) (Fin.last k) = d := by
      simp [triangleStage]
    rw [h2, Finset.prod_congr rfl (fun i _ => h1 i)]
    simp
  · intro r c hrc
    have h1 : c.val < r.val := hrc
    have hr := r.isLt
    simp only [Matrix.of_apply, triangleStage, upperStage, Nat.add_sub_cancel]
    have hzero := hz r.val c.val h1 hr
    split_ifs <;> first | exact hzero | omega

/-- When the slots below the diagonal of the uninitialised buffer happen to hold zero,
`randomMatrix (size, d)` with `size ≥ 1` returns a `size x size` matrix whose
mathematical determinant is `d`, for every outcome of the draws. -/
theorem randomMatrix_det_of_zero_lower (fresh : Nat → ℤ) (U : Nat → Nat → ℤ)
    (rc cc : Nat → ℤ) (n : Nat) (hn : 0 < n) (d : ℤ)
    (hz : ∀ a b, b < a → a < n → fresh (n * a + b) = 0) :
    ∃ m, randomMatrix fresh U rc cc n d = .ok m ∧ m.nRows_ = n ∧ m.nCols_ = n ∧
      m.mathDet = d := by
  obtain ⟨m, hm, hh⟩ := rndMatr_holds fresh U rc cc n hn d
  refine ⟨m, hm, hh.1, hh.2.1, ?_⟩
  rw [Mat.mathDet_eq m hh.1]
  obtain ⟨k, rfl⟩ : ∃ k, n = k + 1 := ⟨n - 1, by omega⟩
  have e1 : (Matrix.of fun (i j : Fin (k + 1)) => m.entry i.val j.val).det
      = (Matrix.of fun (i j : Fin (k + 1)) =>
          rowStage (triangleStage (k + 1) fresh U d) rc (k + 1) i.val j.val).det := by
    rw [← Matrix.det_transpose, ← Matrix.det_transpose (Matrix.of fun (i j : Fin (k + 1)) =>
      rowStage (triangleStage (k + 1) fresh U d) rc (k + 1) i.val j.val)]
    apply Matrix.det_eq_of_forall_row_eq_smul_add_const
      (fun j : Fin (k + 1) => if j.val < k then cc j.val else 0) (Fin.last k)
    · simp
    · intro j i
      have hj := j.isLt
      simp only [Matrix.transpose_apply, Matrix.of_apply, hh.2.2 i.val j.val i.isLt j.isLt,
        colStage, Nat.add_sub_cancel, Fin.val_last]
      split_ifs <;> simp
  have e2 : (Matrix.of fun (i j : Fin (k + 1)) =>
        rowStage (triangleStage (k + 1) fresh U d) rc (k + 1) i.val j.val).det
      = (Matrix.of fun (i j : Fin (k + 1)) =>
          triangleStage (k + 1) fresh U d i.val j.val).det := by
    apply Matrix.det_eq_of_forall_row_eq_smul_add_const
      (fun i : Fin (k + 1) => if 1 ≤ i.val then rc i.val else 0) 0
    · simp
    · intro i j
      have hi := i.isLt
      simp only [Matrix.of_apply, rowStage, Fin.val_zero]
      split_ifs <;> first | rfl | omega
  rw [e1, e2, triangle_det fresh U k d hz]

/-- An instance of the result on a zeroed buffer: size 3, target 10. -/
theorem randomMatrix_det_of_zero_lower_witness :
    ∃ m, randomMatrix (fun _ => 0) (fun _ _ => 3) (fun _ => 2) (fun _ => -1) 3 10 = .ok m ∧
      m.nRows_ = 3 ∧ m.nCols_ = 3 ∧ m.mathDet = 10 :=
  randomMatrix_det_of_zero_lower (fun _ => 0) (fun _ _ => 3) (fun _ => 2) (fun _ => -1) 3
    (by decide) 10 (fun _ _ _ _ => rfl)



/-! ## The claims about the pivot tolerance, the failures and the generator -/

/-- C10: `det ()` gives `NotSquare` exactly on the matrices with `nRows_ != nCols_` and a
value on every square matrix with at least one row, but on the empty `0 x 0` matrix
`countDet` reads `rows[0][cols[0]]` outside the two zero-length arrays. -/
theorem det_failure_cases :
    (∀ m : Mat ℚ, m.nRows_ ≠ m.nCols_ → det m = .error .notSquare) ∧
    (∀ m : Mat ℚ, m.nRows_ = m.nCols_ → 0 < m.nRows_ → ∃ v, det m = .ok v) ∧
    (∀ m : Mat ℚ, m.nRows_ = 0 → m.nCols_ = 0 → det m = .error .rawAccess) ∧
    det (Mat.ctor (fun _ => 0) 0 0) = .error .rawAccess ∧
    detInt (fun _ => 0) (Mat.ctor (fun _ => 0) 0 0) = .error .rawAccess := by
  refine ⟨det_notSquare, ?_, det_empty, det_empty _ rfl rfl, detInt_empty _ _ rfl rfl⟩
  intro m hsq hpos
  obtain ⟨a, ha, _⟩ := det_value m hsq hpos
  exact ⟨a, ha⟩

/-- C6: `det ()` of the `n x n` identity matrix is 1 on both paths for every `n ≥ 1`, but
for `n = 0` it is an access outside the allocation, on both paths. -/
theorem det_identity_cases :
    (∀ n, 0 < n → det (identityMat ℚ n) = .ok 1) ∧
    (∀ (fresh : Nat → ℚ) n, 0 < n → detInt fresh (identityMat ℤ n) = .ok 1) ∧
    det (identityMat ℚ 0) = .error .rawAccess ∧
    (∀ fresh : Nat → ℚ, detInt fresh (identityMat ℤ 0) = .error .rawAccess) :=
  ⟨det_identity_pos, detInt_identity_pos, det_empty _ rfl rfl,
    fun fresh => detInt_empty fresh _ rfl rfl⟩

theorem detInt_run_spec (fresh : Nat → ℚ) (m : Mat ℤ) (hsq : m.nRows_ = m.nCols_)
    (hpos : 0 < m.nRows_) :
    (detInt fresh m = .ok m.mathDet ∧ m.mathDet ≠ 0) ∨
    (detInt fresh m = .ok 0 ∧ ∃ support k p,
      Mat.convert fresh (fun z : ℤ => (z : ℚ)) m = .ok support ∧
      fakeGaussRun support.copy = .ok (.singular k p) ∧ |p| ≤ EPSILON) := by
  have hns : ¬ m.nRows_ ≠ m.nCols_ := fun h => h hsq
  have hd := det_eq_fakeGauss (⟨m.nRows_, m.nCols_, m.arr_.map (fun z : ℤ => (z : ℚ)),
      by simp [m.hsize]⟩ : Mat ℚ) hsq
  rcases fakeGauss_spec ⟨m.nRows_, m.nCols_, m.arr_.map (fun z : ℤ => (z : ℚ)),
      by simp [m.hsize]⟩ hsq hpos with ⟨k, p, h1, _, h2, _, h3⟩ | ⟨_, _, h, hne⟩
  · right
    refine ⟨?_, _, k, p, Mat.convert_ok fresh _ m, by rw [Mat.copy_eq]; exact h1, h2⟩
    simp only [detInt, hns, if_false, detTrueType, Mat.convert_ok, hd, h3, round_zero]
  · left
    rw [mathDet_convert] at h hne
    refine ⟨?_, fun h0 => hne (by rw [h0]; simp)⟩
    simp only [detInt, hns, if_false, detTrueType, Mat.convert_ok, hd, h, round_intCast]

/-- C1: `randomMatrix (2, 1)` on a buffer whose uninitialised slot `[1][0]` holds 1, with
the draw 1 above the diagonal and both coefficients 0, returns `[[1,1],[1,1]]`, whose
determinant is 0 and not 1: `rndMatr` never writes the elements below the diagonal. -/
theorem randomMatrix_uninitialised :
    randomMatrix freshOneAtTwo (fun _ _ => 1) (fun _ => 0) (fun _ => 0) 2 1
      = .ok (mat22Int 1 1 1 1) ∧
    (mat22Int 1 1 1 1).mathDet = 0 := by
  decide!

/-- The uninitialised buffer seen through `det ()`: `randomMatrix (3, 10)` on a buffer whose
uninitialised slots all hold 1, with the draws 1 above the diagonal and all coefficients
0, returns the matrix `[[1,1,1],[1,1,1],[1,1,10]]`, on which `det ()` returns 0. -/
theorem det_randomMatrix_uninitialised :
    (randomMatrix (fun _ => 1) (fun _ _ => 1) (fun _ => 0) (fun _ => 0) 3 10).map
      (fun m => m.arr_) = .ok [1, 1, 1, 1, 1, 1, 1, 1, 10] ∧
    (match randomMatrix (fun _ => 1) (fun _ _ => 1) (fun _ => 0) (fun _ => 0) 3 10 with
      | .ok m => detInt (fun _ => 0) m
      | .error e => .error e) = .ok 0 := by
  decide!

/-! ## Element access, transposition, addition and construction -/

theorem Mat.set_ok {T : Type} (m : Mat T) {i j : Nat} (hi : i < m.nRows_)
    (hj : j < m.nCols_) (v : T) :
    ∃ m2, m.set i j v = .ok m2 ∧ m2.nRows_ = m.nRows_ ∧ m2.nCols_ = m.nCols_ ∧
      m2.arr_ = m.arr_.set (i * m.nCols_ + j) v := by
  have hlt : i * m.nCols_ + j < m.arr_.length := by
    rw [m.hsize]; exact mul_add_lt hi hj
  obtain ⟨m2, h1, h2, h3, h4⟩ := Mat.rawSet_ok m hlt v
  refine ⟨m2, ?_, h2, h3, h4⟩
  have e1 : ¬ i ≥ m.nRows_ := by omega
  have e2 : ¬ j ≥ m.nCols_ := by omega
  simp only [Mat.set, Mat.row, e1, e2, if_false]
  rw [Nat.mul_comm m.nCols_ i]
  exact h1

theorem Mat.get_outOfRange {T : Type} (m : Mat T) (i j : Nat) :
    m.get i j = .error .outOfRange ↔ (i ≥ m.nRows_ ∨ j ≥ m.nCols_) := by
  constructor
  · intro h
    by_contra hc
    push_neg at hc
    obtain ⟨v, _, hv⟩ := Mat.get_ok m hc.1 hc.2
    rw [hv] at h
    cases h
  · intro h
    by_cases h1 : i ≥ m.nRows_
    · simp only [Mat.get, Mat.row, h1, if_true]
    · have h2 : j ≥ m.nCols_ := by
        rcases h with h | h
        · exact absurd h h1
        · exact h
      simp only [Mat.get, Mat.row, h1, h2, if_false, if_true]

theorem Mat.set_outOfRange {T : Type} (m : Mat T) (i j : Nat) (v : T) :
    m.set i j v = .error .outOfRange ↔ (i ≥ m.nRows_ ∨ j ≥ m.nCols_) := by
  constructor
  · intro h
    by_contra hc
    push_neg at hc
    obtain ⟨m2, hm2, _⟩ := Mat.set_ok m hc.1 hc.2 v
    rw [hm2] at h
    cases h
  · intro h
    by_cases h1 : i ≥ m.nRows_
    · simp only [Mat.set, Mat.row, h1, if_true]
    · have h2 : j ≥ m.nCols_ := by
        rcases h with h | h
        · exact absurd h h1
        · exact h
      simp only [Mat.set, Mat.row, h1, h2, if_false, if_true]

/-- C11: the access `m[i][j]` fails with `outOfRange` exactly when `i ≥ R` or `j ≥ C`, the
row check coming first (taking row `i ≥ R` already fails, whatever `j` is); for `i < R` and
`j < C` the read yields the element at position `i * C + j` of the buffer and the write
replaces exactly that element, leaving the dimensions as they were. -/
theorem element_access {T : Type} (m : Mat T) (i j : Nat) (v : T) :
    (i ≥ m.nRows_ → m.row i = .error .outOfRange) ∧
    (m.get i j = .error .outOfRange ↔ (i ≥ m.nRows_ ∨ j ≥ m.nCols_)) ∧
    (m.set i j v = .error .outOfRange ↔ (i ≥ m.nRows_ ∨ j ≥ m.nCols_)) ∧
    (i < m.nRows_ → j < m.nCols_ →
      ∃ h : i * m.nCols_ + j < m.arr_.length,
        m.get i j = .ok (m.arr_.get ⟨i * m.nCols_ + j, h⟩) ∧
        ∃ m2, m.set i j v = .ok m2 ∧ m2.nRows_ = m.nRows_ ∧ m2.nCols_ = m.nCols_ ∧
          m2.arr_ = m.arr_.set (i * m.nCols_ + j) v) := by
  refine ⟨?_, Mat.get_outOfRange m i j, Mat.set_outOfRange m i j v, ?_⟩
  · intro h
    simp only [Mat.row, h, if_true]
  · intro hi hj
    have hlt : i * m.nCols_ + j < m.arr_.length := by
      rw [m.hsize]; exact mul_add_lt hi hj
    refine ⟨hlt, ?_, Mat.set_ok m hi hj v⟩
    obtain ⟨w, hw1, hw2⟩ := Mat.get_ok m hi hj
    rw [hw2]
    rw [List.getElem?_eq_getElem hlt] at hw1
    simp only [List.get_eq_getElem]
    injection hw1 with hw1
    rw [hw1]

/-- C11 at a `2 x 2` matrix of integers: `m[1][0]` is slot 2, `m[2][0]` and `m[1][2]` fail. -/
theorem element_access_witness :
    (mat22Int 5 6 7 8).get 1 0 = .ok 7 ∧
    (mat22Int 5 6 7 8).get 2 0 = .error .outOfRange ∧
    (mat22Int 5 6 7 8).get 1 2 = .error .outOfRange ∧
    (mat22Int 5 6 7 8).row 2 = .error .outOfRange ∧
    ∃ m2, (mat22Int 5 6 7 8).set 1 0 9 = .ok m2 ∧ m2.arr_ = [5, 6, 9, 8] := by
  obtain ⟨h0, h1, _, h3⟩ := element_access (mat22Int 5 6 7 8) 1 0 9
  obtain ⟨_, hg, m2, hs, _, _, ha⟩ := h3 (by decide) (by decide)
  refine ⟨hg, ?_, ?_, ?_, m2, hs, ha⟩
  · exact ((element_access (mat22Int 5 6 7 8) 2 0 9).2.1).2 (Or.inl (by decide))
  · exact ((element_access (mat22Int 5 6 7 8) 1 2 9).2.1).2 (Or.inr (by decide))
  · exact (element_access (mat22Int 5 6 7 8) 2 0 9).1 (by decide)

/-- C13: `transpose ()` of an `R x C` matrix succeeds with a `C x R` matrix `t` such that
`t[j][i]` and `m[i][j]` are both in range and equal, for all `i < R`, `j < C`; `operator~`,
which works on a copy of its argument, returns the same matrix `t`. -/
theorem transpose_entries {T : Type} (fresh fresh2 : Nat → T) (m : Mat T) :
    ∃ t, m.transpose fresh = .ok t ∧ t.nRows_ = m.nCols_ ∧ t.nCols_ = m.nRows_ ∧
      (∀ i j, i < m.nRows_ → j < m.nCols_ →
        ∃ v, m.get i j = .ok v ∧ t.get j i = .ok v) ∧
      ∃ t2, Mat.tilde fresh2 m = .ok t2 ∧ t2.nRows_ = t.nRows_ ∧ t2.nCols_ = t.nCols_ ∧
        ∀ i j, i < m.nRows_ → j < m.nCols_ →
          ∃ v, m.get i j = .ok v ∧ t2.get j i = .ok v := by
  have main : ∀ fr : Nat → T, ∃ t, m.transpose fr = .ok t ∧ t.nRows_ = m.nCols_ ∧
      t.nCols_ = m.nRows_ ∧ ∀ i j, i < m.nRows_ → j < m.nCols_ →
        ∃ v, m.get i j = .ok v ∧ t.get j i = .ok v := by
    intro fr
    obtain ⟨t, ht, d1, d2, hall⟩ := Mat.transpose_ok fr m
    refine ⟨t, ht, d1, d2, ?_⟩
    intro i j hi hj
    obtain ⟨v, hv1, hv2⟩ := Mat.get_ok m hi hj
    obtain ⟨w, hw1, hw2⟩ := Mat.get_ok t (i := j) (j := i) (by omega) (by omega)
    refine ⟨v, hv2, ?_⟩
    rw [hw2]
    have := hall i j hi hj
    rw [d2] at hw1
    rw [hw1, hv1] at this
    injection this with this
    rw [this]
  obtain ⟨t, ht, d1, d2, hall⟩ := main fresh
  obtain ⟨t2, ht2, e1, e2, hall2⟩ := main fresh2
  refine ⟨t, ht, d1, d2, hall, t2, ?_, by omega, by omega, hall2⟩
  simp only [Mat.tilde, Mat.copy_eq, ht2]

/-- C13 at the `1 x 2` matrix `(5 6)`: the transpose is the `2 x 1` matrix with rows `5`
and `6`. -/
theorem transpose_entries_witness :
    ∃ t, (⟨1, 2, [5, 6], rfl⟩ : Mat ℤ).transpose (fun _ => 0) = .ok t ∧
      t.nRows_ = 2 ∧ t.nCols_ = 1 ∧ t.get 1 0 = .ok 6 := by
  obtain ⟨t, ht, d1, d2, hall, _⟩ :=
    transpose_entries (fun _ => 0) (fun _ => 0) (⟨1, 2, [5, 6], rfl⟩ : Mat ℤ)
  obtain ⟨v, hv1, hv2⟩ := hall 0 1 (by decide) (by decide)
  have hv : v = 6 := by
    have h6 : (⟨1, 2, [5, 6], rfl⟩ : Mat ℤ).get 0 1 = .ok 6 := by decide
    rw [h6] at hv1
    injection hv1 with hv1
    exact hv1.symm
  rw [hv] at hv2
  exact ⟨t, ht, d1, d2, hv2⟩

/-- Two nested counted loops whose body replaces the slot `idx i j` by a function of its
content, for distinct index pairs, leave in each slot the image of the original content. -/
theorem modify_nested {T : Type} (R C : Nat) (idx : Nat → Nat → Nat) (f : Nat → Nat → T → T)
    (body : Nat → Nat → Mat T → Except Err (Mat T)) (t0 : Mat T)
    (hbody : ∀ i j t x, i < R → j < C → t.arr_[idx i j]? = some x →
      body i j t = t.rawSet (idx i j) (f i j x))
    (hidx : ∀ i j, i < R → j < C → idx i j < t0.arr_.length)
    (hinj : ∀ i j i2 j2, i < R → j < C → i2 < R → j2 < C → idx i j = idx i2 j2 →
      i = i2 ∧ j = j2) :
    ∃ t, forRange 0 R (fun i t => forRange 0 C (fun j t => body i j t) t) t0 = .ok t ∧
      t.nRows_ = t0.nRows_ ∧ t.nCols_ = t0.nCols_ ∧
      ∀ i j, i < R → j < C →
        ∃ x, t0.arr_[idx i j]? = some x ∧ t.arr_[idx i j]? = some (f i j x) := by
  have key := forRange_inv
    (fun i t => forRange 0 C (fun j t => body i j t) t)
    (fun i t => t.nRows_ = t0.nRows_ ∧ t.nCols_ = t0.nCols_ ∧
      t.arr_.length = t0.arr_.length ∧
      (∀ a b, a < i → a < R → b < C →
        ∃ x, t0.arr_[idx a b]? = some x ∧ t.arr_[idx a b]? = some (f a b x)) ∧
      ∀ a b, i ≤ a → a < R → b < C → t.arr_[idx a b]? = t0.arr_[idx a b]?)
    0 R t0 (Nat.zero_le R) ⟨rfl, rfl, rfl, fun a b ha => by omega, fun _ _ _ _ _ => rfl⟩
    (by
      rintro i t _ hi ⟨d1, d2, d3, hdone, hrest⟩
      have inner := forRange_inv (fun j t => body i j t)
        (fun j u => u.nRows_ = t0.nRows_ ∧ u.nCols_ = t0.nCols_ ∧
          u.arr_.length = t0.arr_.length ∧
          (∀ a b, a < i → a < R → b < C →
            ∃ x, t0.arr_[idx a b]? = some x ∧ u.arr_[idx a b]? = some (f a b x)) ∧
          (∀ b, b < j → b < C →
            ∃ x, t0.arr_[idx i b]? = some x ∧ u.arr_[idx i b]? = some (f i b x)) ∧
          (∀ b, j ≤ b → b < C → u.arr_[idx i b]? = t0.arr_[idx i b]?) ∧
          ∀ a b, i < a → a < R → b < C → u.arr_[idx a b]? = t0.arr_[idx a b]?)
        0 C t (Nat.zero_le C)
        ⟨d1, d2, d3, hdone, fun b hb => by omega, fun b _ hb => hrest i b (le_refl i) hi hb,
          fun a b ha haR hb => hrest a b (by omega) haR hb⟩
        (by
          rintro j u _ hj ⟨e1, e2, e3, hrows, hcur, hnext, hlater⟩
          have hlt0 : idx i j < t0.arr_.length := hidx i j hi hj
          have hlt : idx i j < u.arr_.length := by rw [e3]; exact hlt0
          have hx : u.arr_[idx i j]? = some (t0.arr_.get ⟨idx i j, hlt0⟩) := by
            rw [hnext j (le_refl j) hj, List.getElem?_eq_getElem hlt0]
            rfl
          obtain ⟨u2, hu2, f1, f2, f3⟩ :=
            Mat.rawSet_ok u hlt (f i j (t0.arr_.get ⟨idx i j, hlt0⟩))
          refine ⟨u2, (hbody i j u _ hi hj hx).trans hu2, by rw [f1, e1], by rw [f2, e2],
            by rw [f3, List.length_set, e3], ?_, ?_, ?_, ?_⟩
          · intro a b ha haR hb
            have hne : idx i j ≠ idx a b := fun hh => by
              have := (hinj i j a b hi hj haR hb hh).1
              omega
            rw [f3, List.getElem?_set, if_neg hne]
            exact hrows a b ha haR hb
          · intro b hb hbC
            rw [f3, List.getElem?_set]
            by_cases hbj : b = j
            · subst hbj
              refine ⟨t0.arr_.get ⟨idx i b, hlt0⟩, ?_, by simp [hlt]⟩
              rw [List.getElem?_eq_getElem hlt0]
              rfl
            · have hne : idx i j ≠ idx i b := fun hh => hbj (hinj i j i b hi hj hi hbC hh).2.symm
              rw [if_neg hne]
              exact hcur b (by omega) hbC
          · intro b hb hbC
            have hne : idx i j ≠ idx i b := fun hh => by
              have := (hinj i j i b hi hj hi hbC hh).2
              omega
            rw [f3, List.getElem?_set, if_neg hne]
            exact hnext b (by omega) hbC
          · intro a b ha haR hb
            have hne : idx i j ≠ idx a b := fun hh => by
              have := (hinj i j a b hi hj haR hb hh).1
              omega
            rw [f3, List.getElem?_set, if_neg hne]
            exact hlater a b ha haR hb)
      obtain ⟨u, hu, g1, g2, g3, hrows, hcur, _, hlater⟩ := inner
      refine ⟨u, hu, g1, g2, g3, ?_, ?_⟩
      · intro a b ha haR hb
        by_cases hai : a = i
        · subst hai; exact hcur b hb hb
        · exact hrows a b (by omega) haR hb
      · intro a b ha haR hb
        exact hlater a b (by omega) haR hb)
  obtain ⟨t, ht, d1, d2, _, hall, _⟩ := key
  exact ⟨t, ht, d1, d2, fun i j hi hj => hall i j hi hi hj⟩

theorem Mat.addAssign_ok {T : Type} [Add T] (a b : Mat T) (hr : a.nRows_ = b.nRows_)
    (hc : a.nCols_ = b.nCols_) :
    ∃ r, a.addAssign b = .ok r ∧ r.nRows_ = a.nRows_ ∧ r.nCols_ = a.nCols_ ∧
      ∀ i j, i < a.nRows_ → j < a.nCols_ →
        ∃ x y, a.get i j = .ok x ∧ b.get i j = .ok y ∧ r.get i j = .ok (x + y) := by
  have hb : ∀ i j, i < a.nRows_ → j < a.nCols_ → i * a.nCols_ + j < b.arr_.length := by
    intro i j hi hj
    rw [b.hsize, ← hr, ← hc]; exact mul_add_lt hi hj
  obtain ⟨t, ht, d1, d2, hall⟩ := modify_nested a.nRows_ a.nCols_
    (fun i j => i * a.nCols_ + j)
    (fun i j x => match b.arr_[i * a.nCols_ + j]? with
      | some y => x + y
      | none => x)
    (fun i j acc2 =>
      match rawGet b.arr_ (i * a.nCols_ + j) with
      | .error e => .error e
      | .ok y =>
        match rawGet acc2.arr_ (i * a.nCols_ + j) with
        | .error e => .error e
        | .ok x => acc2.rawSet (i * a.nCols_ + j) (x + y))
    a
    (by
      intro i j t x hi hj hx
      have hy := List.getElem?_eq_getElem (hb i j hi hj)
      simp only [rawGet, hy, hx])
    (by
      intro i j hi hj
      rw [a.hsize]; exact mul_add_lt hi hj)
    (by
      intro i j i2 j2 hi hj hi2 hj2 h
      have hC : 0 < a.nCols_ := by omega
      have e1 : (i * a.nCols_ + j) / a.nCols_ = i := by
        rw [Nat.add_comm, Nat.add_mul_div_right _ _ hC, Nat.div_eq_of_lt hj, Nat.zero_add]
      have e2 : (i2 * a.nCols_ + j2) / a.nCols_ = i2 := by
        rw [Nat.add_comm, Nat.add_mul_div_right _ _ hC, Nat.div_eq_of_lt hj2, Nat.zero_add]
      simp only at h
      have hi' : i = i2 := by rw [← e1, ← e2, h]
      subst hi'
      exact ⟨rfl, by omega⟩)
  refine ⟨t, ?_, d1, d2, ?_⟩
  · have hne : ¬ (a.nCols_ ≠ b.nCols_ ∨ a.nRows_ ≠ b.nRows_) := by
      rintro (h | h)
      · exact h hc
      · exact h hr
    simp only [Mat.addAssign, hne, if_false]
    exact ht
  · intro i j hi hj
    obtain ⟨x, hx1, hx2⟩ := Mat.get_ok a hi hj
    obtain ⟨y, hy1, hy2⟩ := Mat.get_ok b (i := i) (j := j) (by omega) (by omega)
    obtain ⟨z, hz1, hz2⟩ := Mat.get_ok t (i := i) (j := j) (by omega) (by omega)
    refine ⟨x, y, hx2, hy2, ?_⟩
    rw [hz2]
    obtain ⟨x2, hx3, hx4⟩ := hall i j hi hj
    rw [hx1] at hx3
    injection hx3 with hx3
    rw [← hc] at hy1
    rw [hy1] at hx4
    rw [d2, hx4] at hz1
    injection hz1 with hz1
    rw [← hz1, hx3]

/-- C14: `A += B` fails with `dimensionMismatch` exactly when the row counts or the column
counts differ (the check precedes every write, so `A` is then as before); otherwise it
succeeds, `A` keeps its dimensions and every element becomes `A[i][j] + B[i][j]`; `B` is
only read. -/
theorem addAssign_spec {T : Type} [Add T] (a b : Mat T) :
    (a.addAssign b = .error .dimensionMismatch ↔
      (a.nRows_ ≠ b.nRows_ ∨ a.nCols_ ≠ b.nCols_)) ∧
    (a.nRows_ = b.nRows_ → a.nCols_ = b.nCols_ →
      ∃ r, a.addAssign b = .ok r ∧ r.nRows_ = a.nRows_ ∧ r.nCols_ = a.nCols_ ∧
        ∀ i j, i < a.nRows_ → j < a.nCols_ →
          ∃ x y, a.get i j = .ok x ∧ b.get i j = .ok y ∧ r.get i j = .ok (x + y)) := by
  refine ⟨?_, Mat.addAssign_ok a b⟩
  constructor
  · intro h
    by_contra hcon
    push_neg at hcon
    obtain ⟨r, hr, _⟩ := Mat.addAssign_ok a b hcon.1 hcon.2
    rw [hr] at h
    cases h
  · intro h
    have hne : a.nCols_ ≠ b.nCols_ ∨ a.nRows_ ≠ b.nRows_ := h.symm
    simp only [Mat.addAssign, hne, if_true]

/-- C14 at two `2 x 2` matrices of integers, and at a `2 x 2` and a `1 x 2` matrix. -/
theorem addAssign_spec_witness :
    (∃ r, (mat22Int 1 0 0 1).addAssign (mat22Int 1 2 3 4) = .ok r ∧ r.get 1 1 = .ok 5) ∧
    (mat22Int 1 0 0 1).addAssign (⟨1, 2, [1, 2], rfl⟩ : Mat ℤ) = .error .dimensionMismatch := by
  constructor
  · obtain ⟨r, hr, _, _, hall⟩ :=
      (addAssign_spec (mat22Int 1 0 0 1) (mat22Int 1 2 3 4)).2 rfl rfl
    obtain ⟨x, y, hx, hy, hxy⟩ := hall 1 1 (by decide) (by decide)
    have hx1 : (mat22Int 1 0 0 1).get 1 1 = .ok 1 := by decide
    have hy1 : (mat22Int 1 2 3 4).get 1 1 = .ok 4 := by decide
    rw [hx1] at hx
    rw [hy1] at hy
    injection hx with hx
    injection hy with hy
    rw [← hx, ← hy] at hxy
    exact ⟨r, hr, hxy⟩
  · exact (addAssign_spec (mat22Int 1 0 0 1) (⟨1, 2, [1, 2], rfl⟩ : Mat ℤ)).1.2
      (Or.inl (by decide))

theorem Mat.ctorFill_ok {T : Type} (fresh : Nat → T) (rows cols : Nat) (v : T) :
    ∃ m, Mat.ctorFill fresh rows cols v = .ok m ∧ m.nRows_ = rows ∧ m.nCols_ = cols ∧
      m.arr_ = List.replicate (rows * cols) v := by
  obtain ⟨m, hm, d1, d2, d3, hall⟩ := forRange_inv
    (fun k (t : Mat T) => t.rawSet k v)
    (fun k t => t.nRows_ = rows ∧ t.nCols_ = cols ∧ t.arr_.length = rows * cols ∧
      ∀ a, a < k → t.arr_[a]? = some v)
    0 (rows * cols) (Mat.ctor fresh rows cols) (Nat.zero_le _)
    ⟨rfl, rfl, (Mat.ctor fresh rows cols).hsize, fun a ha => by omega⟩
    (by
      rintro k t _ hk ⟨e1, e2, e3, hdone⟩
      obtain ⟨t2, ht2, f1, f2, f3⟩ := Mat.rawSet_ok t (k := k) (by omega) v
      refine ⟨t2, ht2, by rw [f1, e1], by rw [f2, e2], by rw [f3, List.length_set, e3], ?_⟩
      intro a ha
      rw [f3, List.getElem?_set]
      by_cases hak : k = a
      · subst hak
        have : k < t.arr_.length := by omega
        simp [this]
      · rw [if_neg hak]
        exact hdone a (by omega))
  refine ⟨m, hm, d1, d2, ?_⟩
  apply List.ext_getElem
  · rw [d3, List.length_replicate]
  · intro k h1 h2
    have := hall k (by omega)
    rw [List.getElem?_eq_getElem h1] at this
    injection this with this
    rw [this, List.getElem_replicate]

theorem Mat.ctor_get {T : Type} (fresh : Nat → T) (rows cols : Nat) {i j : Nat}
    (hi : i < rows) (hj : j < cols) :
    (Mat.ctor fresh rows cols).get i j = .ok (fresh (i * cols + j)) := by
  obtain ⟨w, hw1, hw2⟩ := Mat.get_ok (Mat.ctor fresh rows cols) (i := i) (j := j) hi hj
  rw [hw2]
  have hlt : i * cols + j < rows * cols := mul_add_lt hi hj
  have e : (Mat.ctor fresh rows cols).arr_[i * cols + j]? = some (fresh (i * cols + j)) := by
    simp [Mat.ctor, hlt]
  have e2 : (Mat.ctor fresh rows cols).nCols_ = cols := rfl
  rw [e2, e] at hw1
  injection hw1 with hw1
  rw [hw1]

/-- C16: `Matrix (rows, cols, v)` is a `rows x cols` matrix whose every element is `v`, also
with `rows = 0` or `cols = 0`; `Matrix (rows, cols)` is a `rows x cols` matrix, too, but its
element at row `i`, column `j` is whatever the allocation held in slot `i * cols + j`: on an
allocation that holds `7` the element of `Matrix (1, 1)` is `7`, not zero. -/
theorem ctor_elements {T : Type} (fresh : Nat → T) (rows cols : Nat) (v : T) :
    (∃ m, Mat.ctorFill fresh rows cols v = .ok m ∧ m.nRows_ = rows ∧ m.nCols_ = cols ∧
      m.arr_.length = rows * cols ∧
      ∀ i j, i < rows → j < cols → m.get i j = .ok v) ∧
    ((Mat.ctor fresh rows cols).nRows_ = rows ∧ (Mat.ctor fresh rows cols).nCols_ = cols ∧
      (Mat.ctor fresh rows cols).arr_.length = rows * cols ∧
      ∀ i j, i < rows → j < cols →
        (Mat.ctor fresh rows cols).get i j = .ok (fresh (i * cols + j))) ∧
    (Mat.ctor (fun _ => (7 : ℤ)) 1 1).get 0 0 = .ok 7 ∧
    (Mat.ctor (fun _ => (7 : ℤ)) 1 1).get 0 0 ≠ .ok 0 := by
  refine ⟨?_, ⟨rfl, rfl, (Mat.ctor fresh rows cols).hsize, ?_⟩, by decide, by decide⟩
  · obtain ⟨m, hm, d1, d2, d3⟩ := Mat.ctorFill_ok fresh rows cols v
    refine ⟨m, hm, d1, d2, by rw [d3, List.length_replicate], ?_⟩
    intro i j hi hj
    obtain ⟨w, hw1, hw2⟩ := Mat.get_ok m (i := i) (j := j) (by omega) (by omega)
    rw [hw2]
    have hlt : i * cols + j < rows * cols := mul_add_lt hi hj
    rw [d2, d3, List.getElem?_replicate, if_pos hlt] at hw1
    injection hw1 with hw1
    rw [hw1]
  · intro i j hi hj
    exact Mat.ctor_get fresh rows cols hi hj

/-- C12: on the `2 x 2` unit matrix `A` and `B` with rows `(1 2)`, `(3 4)` both `A *= B`
and `A * B` yield the matrix with rows `(4 0)`, `(0 6)` and not `B`; on a `1 x 1` matrix
`A` and a `1 x 2` matrix `B` the product reads outside the buffer of `A`. -/
theorem mul_wrong_entries :
    (∃ r, Mat.mulAssign (fun _ => 0) (fun _ => 0) (mat22Int 1 0 0 1) (mat22Int 1 2 3 4) = .ok r ∧
      r.nRows_ = 2 ∧ r.nCols_ = 2 ∧ r.arr_ = [4, 0, 0, 6]) ∧
    (∃ r, Mat.times (fun _ => 0) (fun _ => 0) (mat22Int 1 0 0 1) (mat22Int 1 2 3 4) = .ok r ∧
      r.nRows_ = 2 ∧ r.nCols_ = 2 ∧ r.arr_ = [4, 0, 0, 6]) ∧
    Mat.mulAssign (fun _ => 0) (fun _ => 0) (⟨1, 1, [5], rfl⟩ : Mat ℤ) ⟨1, 2, [1, 2], rfl⟩ =
      .error .rawAccess ∧
    Mat.times (fun _ => 0) (fun _ => 0) (⟨1, 1, [5], rfl⟩ : Mat ℤ) ⟨1, 2, [1, 2], rfl⟩ =
      .error .rawAccess := by
  refine ⟨⟨⟨2, 2, [4, 0, 0, 6], rfl⟩, by decide!, rfl, rfl, rfl⟩,
    ⟨⟨2, 2, [4, 0, 0, 6], rfl⟩, by decide!, rfl, rfl, rfl⟩, by decide!, by decide!⟩

/-- C15: the move constructor gives the new object the dimensions and the buffer of the
source and leaves the source with `0` rows, `0` columns and the null pointer; the move
assignment exchanges the members of the two objects, so the destination gets the dimensions
and the buffer of the source and the source gets those the destination had: it is left
empty exactly when the destination was empty before. -/
theorem move_semantics {T : Type} (D S : Fields T) :
    (S.moveCtor).1 = S ∧ (S.moveCtor).2 = ⟨0, 0, none⟩ ∧
    (D.moveAssign S).1 = S ∧ (D.moveAssign S).2 = D ∧
    ((D.moveAssign S).2 = ⟨0, 0, none⟩ ↔ D = ⟨0, 0, none⟩) := by
  refine ⟨rfl, rfl, rfl, rfl, ?_⟩
  have h : (D.moveAssign S).2 = D := rfl
  rw [h]

/-- C15, counterexample: after the move assignment of a `2 x 2` matrix into a `1 x 1` matrix
that holds `7`, the source is the `1 x 1` matrix that holds `7`, with its buffer. -/
theorem moveAssign_source_counterexample :
    ((mat22Int 1 2 3 4).fields.moveAssign (mat22Int 5 6 7 8).fields).1 =
        (mat22Int 5 6 7 8).fields ∧
    ((⟨1, 1, [7], rfl⟩ : Mat ℤ).fields.moveAssign (mat22Int 5 6 7 8).fields).2 =
        ⟨1, 1, some [7]⟩ ∧
    ((⟨1, 1, [7], rfl⟩ : Mat ℤ).fields.moveAssign (mat22Int 5 6 7 8).fields).2 ≠
        ⟨0, 0, none⟩ := by
  refine ⟨rfl, rfl, ?_⟩
  decide

theorem detInt_fresh (fresh fresh2 : Nat → ℚ) (m : Mat ℤ) :
    detInt fresh m = detInt fresh2 m := by
  simp only [detInt, detTrueType, Mat.convert_ok]

/-- C17: on integer elements `det ()` returns `6` for the matrix with rows `(2 0)`, `(0 3)`,
`0` for the rows `(1 2)`, `(2 4)` and `-1` for the rows `(0 1)`, `(1 0)`, whatever the
buffer of the floating-point copy held before. -/
theorem detInt_examples (fresh : Nat → ℚ) :
    detInt fresh (mat22Int 2 0 0 3) = .ok 6 ∧
    detInt fresh (mat22Int 1 2 2 4) = .ok 0 ∧
    detInt fresh (mat22Int 0 1 1 0) = .ok (-1) := by
  rw [detInt_fresh fresh (fun _ => 0) (mat22Int 2 0 0 3),
    detInt_fresh fresh (fun _ => 0) (mat22Int 1 2 2 4),
    detInt_fresh fresh (fun _ => 0) (mat22Int 0 1 1 0)]
  exact ⟨by decide!, by decide!, by decide!⟩

/-! ## One step of the elimination -/

theorem list_eq_of_getD {n : Nat} {xs ys : List Nat} (hx : xs.length = n) (hy : ys.length = n)
    (h : ∀ r, ys.getD r 0 = xs.getD r 0) : ys = xs := by
  apply List.ext_getElem
  · rw [hx, hy]
  · intro k h1 h2
    have := h k
    rw [List.getD_eq_getElem _ _ h1, List.getD_eq_getElem _ _ h2] at this
    exact this

theorem swap_range {i mx k : Nat} (h1 : i ≤ mx) (hk : i ≤ k) : i ≤ Equiv.swap i mx k := by
  by_cases e1 : k = i
  · rw [e1, Equiv.swap_apply_left]; exact h1
  · by_cases e2 : k = mx
    · rw [e2, Equiv.swap_apply_right]
    · rw [Equiv.swap_apply_of_ne_of_ne e1 e2]; exact hk

/-- C18: in a state of the elimination of an `n x n` matrix and at a step `i < n`,
`maxSubColElem` returns the least row `mr` in `[i, n)` that maximises `|e[r][i]|` in the
current logical order and `fakeSwapWithBiggest` (column search) exchanges the entries `i`
and `mr` of the row array, with sign `-1` when `mr ≠ i`, and returns the arrays as they
were with sign `+1` when `mr = i`; on the result `maxSubRowElem` returns the least column
`mc` in `[i, n)` that maximises `|e[i][k]|` and `fakeSwapWithBiggest` (row search) does the
same with the column array; after both, the pivot `e[i][i]` has the largest absolute value
of logical row `i` over the columns `i .. n - 1`. -/
theorem pivot_search {n : Nat} {m : Mat ℚ} {rows cols : List Nat}
    (h : EngineOk n m rows cols) {i : Nat} (hi : i < n) :
    ∃ mr rows2 mc cols2,
      maxSubColElem m rows cols i = .ok mr ∧ i ≤ mr ∧ mr < n ∧
      (∀ r, i ≤ r → r < n → |view m rows cols r i| ≤ |view m rows cols mr i|) ∧
      (∀ r, i ≤ r → r < mr → |view m rows cols r i| < |view m rows cols mr i|) ∧
      fakeSwapWithBiggest m rows cols i true = .ok ((if mr = i then 1 else -1), rows2, cols) ∧
      rows2.length = n ∧ (∀ r, rows2.getD r 0 = rows.getD (Equiv.swap i mr r) 0) ∧
      (mr = i → rows2 = rows) ∧
      maxSubRowElem m rows2 cols i = .ok mc ∧ i ≤ mc ∧ mc < n ∧
      (∀ c, i ≤ c → c < n → |view m rows2 cols i c| ≤ |view m rows2 cols i mc|) ∧
      (∀ c, i ≤ c → c < mc → |view m rows2 cols i c| < |view m rows2 cols i mc|) ∧
      fakeSwapWithBiggest m rows2 cols i false
        = .ok ((if mc = i then 1 else -1), rows2, cols2) ∧
      cols2.length = n ∧ (∀ c, cols2.getD c 0 = cols.getD (Equiv.swap i mc c) 0) ∧
      (mc = i → cols2 = cols) ∧
      ∀ k, i ≤ k → k < n → |view m rows2 cols2 i k| ≤ |view m rows2 cols2 i i| := by
  obtain ⟨mr, hmr, a1, a2, a3, a4⟩ := maxSubColElem_ok h hi
  obtain ⟨mx1, rows2, hsw1, b1, b2, b3, b4, hok1, hget1⟩ := fakeSwap_rows_ok h hi
  have e1 : mx1 = mr := by
    rcases Nat.lt_trichotomy mx1 mr with hlt | heq | hgt
    · exact absurd (a4 mx1 b1 hlt) (not_lt.2 (b3 mr a1 a2))
    · exact heq
    · exact absurd (b4 mr a1 hgt) (not_lt.2 (a3 mx1 b1 b2))
  subst e1
  obtain ⟨mc, hmc, c1, c2, c3, c4⟩ := maxSubRowElem_ok hok1 hi
  obtain ⟨mx2, cols2, hsw2, d1, d2, d3, d4, hok2, hget2⟩ := fakeSwap_cols_ok hok1 hi
  have e2 : mx2 = mc := by
    rcases Nat.lt_trichotomy mx2 mc with hlt | heq | hgt
    · exact absurd (c4 mx2 d1 hlt) (not_lt.2 (d3 mc c1 c2))
    · exact heq
    · exact absurd (d4 mc c1 hgt) (not_lt.2 (c3 mx2 d1 d2))
  subst e2
  refine ⟨mx1, rows2, mx2, cols2, hmr, a1, a2, a3, a4, hsw1, hok1.rows.len, hget1, ?_,
    hmc, c1, c2, c3, c4, hsw2, hok2.cols.len, hget2, ?_, ?_⟩
  · intro he
    apply list_eq_of_getD h.rows.len hok1.rows.len
    intro r
    rw [hget1 r, he, Equiv.swap_self]
    rfl
  · intro he
    apply list_eq_of_getD h.cols.len hok2.cols.len
    intro c
    rw [hget2 c, he, Equiv.swap_self]
    rfl
  · intro k hk1 hk2
    have hV : ∀ c, view m rows2 cols2 i c = view m rows2 cols i (Equiv.swap i mx2 c) := by
      intro c; simp only [view, hget2]
    rw [hV k, hV i, Equiv.swap_apply_left]
    exact c3 _ (swap_range c1 hk1) (swap_lt hi c2 hk2)

/-- C18 at the first step on the matrix with rows `(1 2)`, `(3 4)`. -/
theorem pivot_search_witness :
    EngineOk (mat22 1 2 3 4).nRows_ (mat22 1 2 3 4) (createFakeRows (mat22 1 2 3 4))
      (createFakeCols (mat22 1 2 3 4)) ∧
    maxSubColElem (mat22 1 2 3 4) [0, 2] [0, 1] 0 = .ok 1 ∧
    fakeSwapWithBiggest (mat22 1 2 3 4) [0, 2] [0, 1] 0 true = .ok (-1, [2, 0], [0, 1]) ∧
    maxSubRowElem (mat22 1 2 3 4) [2, 0] [0, 1] 0 = .ok 1 ∧
    fakeSwapWithBiggest (mat22 1 2 3 4) [2, 0] [0, 1] 0 false = .ok (-1, [2, 0], [1, 0]) ∧
    ∃ mr rows2 mc cols2,
      fakeSwapWithBiggest (mat22 1 2 3 4) (createFakeRows (mat22 1 2 3 4))
        (createFakeCols (mat22 1 2 3 4)) 0 true
        = .ok ((if mr = 0 then 1 else -1), rows2, createFakeCols (mat22 1 2 3 4)) ∧
      fakeSwapWithBiggest (mat22 1 2 3 4) rows2 (createFakeCols (mat22 1 2 3 4)) 0 false
        = .ok ((if mc = 0 then 1 else -1), rows2, cols2) ∧
      ∀ k, 0 ≤ k → k < 2 →
        |view (mat22 1 2 3 4) rows2 cols2 0 k| ≤ |view (mat22 1 2 3 4) rows2 cols2 0 0| := by
  refine ⟨engineOk_init (mat22 1 2 3 4) rfl, by decide!, by decide!, by decide!, by decide!, ?_⟩
  obtain ⟨mr, rows2, mc, cols2, _, _, _, _, _, h1, _, _, _, _, _, _, _, _, h2, _, _, _, h3⟩ :=
    pivot_search (engineOk_init (mat22 1 2 3 4) rfl) (i := 0) (by decide)
  exact ⟨mr, rows2, mc, cols2, h1, h2, h3⟩

/-- C19: step `i` of the main loop in a state of the elimination of an `n x n` matrix: both
exchanges succeed, and when the pivot `p = e[i][i]` after them has `|p| > EPSILON` the step
goes on to step `i + 1` with a working copy, still `n x n`, in which every element at a
logical row `j > i` and a logical column `k > i` is `e[j][k] - e[j][i] / p * e[i][k]` (the
values before the subtraction) and every element of the logical rows `0 .. i` and of the
logical columns `0 .. i` is as before; the order arrays are those after the exchanges. -/
theorem elimination_step {n : Nat} (fuel i : Nat) (st : GaussState)
    (hok : EngineOk n st.support st.fakeRows st.fakeCols) (hi : i < n) :
    ∃ s1 s2 rows2 cols2,
      fakeSwapWithBiggest st.support st.fakeRows st.fakeCols i true
        = .ok (s1, rows2, st.fakeCols) ∧
      fakeSwapWithBiggest st.support rows2 st.fakeCols i false = .ok (s2, rows2, cols2) ∧
      (EPSILON < |view st.support rows2 cols2 i i| →
        ∃ sup2, eliminateBelow rows2 cols2 i (view st.support rows2 cols2 i i) st.support
            = .ok sup2 ∧
          fakeGaussLoop (fuel + 1) i st
            = fakeGaussLoop fuel (i + 1) ⟨st.sign * s1 * s2, sup2, rows2, cols2⟩ ∧
          sup2.nRows_ = n ∧ sup2.nCols_ = n ∧ sup2.arr_.length = st.support.arr_.length ∧
          ∀ r c, r < n → c < n →
            view sup2 rows2 cols2 r c =
              if i < r ∧ i < c then
                view st.support rows2 cols2 r c
                  - view st.support rows2 cols2 r i / view st.support rows2 cols2 i i
                    * view st.support rows2 cols2 i c
              else view st.support rows2 cols2 r c) := by
  obtain ⟨mx1, rows1, hsw1, _, _, _, _, hok1, _⟩ := fakeSwap_rows_ok hok hi
  obtain ⟨mx2, cols2, hsw2, _, _, _, _, hok2, _⟩ := fakeSwap_cols_ok hok1 hi
  refine ⟨_, _, rows1, cols2, hsw1, hsw2, ?_⟩
  intro hpos
  obtain ⟨sup3, hel, hok3, hV3⟩ := eliminateBelow_ok hok2 hi (view st.support rows1 cols2 i i)
  have hpe := elemAt_ok hok2 hi hi
  have hle : ¬ |view st.support rows1 cols2 i i| ≤ EPSILON := not_le.2 hpos
  refine ⟨sup3, hel, ?_, hok3.nrows, hok3.ncols, ?_, hV3⟩
  · simp only [fakeGaussLoop, hsw1, hsw2, hpe, hle, if_false, hel]
  · rw [hok3.length_arr, hok2.length_arr]

/-- C19 at the first step on the matrix with rows `(1 2)`, `(3 4)`: the pivot is `4` and the
one element below and to the right of it becomes `1 - 2 / 4 * 3`. -/
theorem elimination_step_witness :
    EngineOk 2 (mat22 1 2 3 4) (createFakeRows (mat22 1 2 3 4))
      (createFakeCols (mat22 1 2 3 4)) ∧
    eliminateBelow [2, 0] [1, 0] 0 4 (mat22 1 2 3 4) = .ok (mat22 (-1 / 2) 2 3 4) ∧
    ∃ s1 s2 rows2 cols2,
      fakeSwapWithBiggest (mat22 1 2 3 4) (createFakeRows (mat22 1 2 3 4))
        (createFakeCols (mat22 1 2 3 4)) 0 true
        = .ok (s1, rows2, createFakeCols (mat22 1 2 3 4)) ∧
      fakeSwapWithBiggest (mat22 1 2 3 4) rows2 (createFakeCols (mat22 1 2 3 4)) 0 false
        = .ok (s2, rows2, cols2) ∧
      (EPSILON < |view (mat22 1 2 3 4) rows2 cols2 0 0| →
        ∃ sup2, eliminateBelow rows2 cols2 0 (view (mat22 1 2 3 4) rows2 cols2 0 0)
            (mat22 1 2 3 4) = .ok sup2 ∧
          ∀ r c, r < 2 → c < 2 →
            view sup2 rows2 cols2 r c =
              if 0 < r ∧ 0 < c then
                view (mat22 1 2 3 4) rows2 cols2 r c
                  - view (mat22 1 2 3 4) rows2 cols2 r 0 / view (mat22 1 2 3 4) rows2 cols2 0 0
                    * view (mat22 1 2 3 4) rows2 cols2 0 c
              else view (mat22 1 2 3 4) rows2 cols2 r c) := by
  refine ⟨engineOk_init (mat22 1 2 3 4) rfl, by decide!, ?_⟩
  obtain ⟨s1, s2, rows2, cols2, h1, h2, h3⟩ :=
    elimination_step (n := 2) 1 0
      ⟨1, mat22 1 2 3 4, createFakeRows (mat22 1 2 3 4), createFakeCols (mat22 1 2 3 4)⟩
      (engineOk_init (mat22 1 2 3 4) rfl) (by decide)
  refine ⟨s1, s2, rows2, cols2, h1, h2, ?_⟩
  intro hp
  obtain ⟨sup2, g1, _, _, _, _, g2⟩ := h3 hp
  exact ⟨sup2, g1, g2⟩

/-- C20: for a square matrix `M` with at least one row whose elimination meets no pivot
with `|pivot| ≤ EPSILON` (the main loop does not end by the early return), the main loop
completes, every diagonal pivot of the final state is above `EPSILON` in absolute value,
the accumulated sign is `+1` or `-1`, `fakeGauss` returns the sign times the product of the
diagonal pivots in the final logical order, and this value is the Leibniz determinant of
`M`. -/
theorem fakeGauss_completed (m : Mat ℚ) (hsq : m.nRows_ = m.nCols_) (hpos : 0 < m.nRows_)
    (hno : ∀ k p, fakeGaussRun m ≠ .ok (.singular k p)) :
    ∃ st, fakeGaussRun m = .ok (.completed st) ∧
      (st.sign = 1 ∨ st.sign = -1) ∧
      (∀ t, t < m.nRows_ → EPSILON < |view st.support st.fakeRows st.fakeCols t t|) ∧
      fakeGauss m = .ok ((st.sign : ℚ) *
        ∏ t in Finset.range m.nRows_, view st.support st.fakeRows st.fakeCols t t) ∧
      fakeGauss m = .ok m.mathDet := by
  have hinit := engineOk_init m hsq
  rcases fakeGaussLoop_ok (n := m.nRows_) m.mathDet m.nRows_ 0
      ⟨1, m, createFakeRows m, createFakeCols m⟩ (by omega) hinit (Or.inl rfl)
      (by
        show ((1 : ℤ) : ℚ) * (reduced m.nRows_ 0 (view m (createFakeRows m) (createFakeCols m))).det
          = m.mathDet
        rw [reduced_init m hsq]; simp [Mat.mathDet])
      (fun t ht => by omega) with ⟨k, p, hrun2, _⟩ | ⟨st, hrun, hok, hsign, hdet, hpiv⟩
  · exact absurd hrun2 (hno k p)
  · have hrun2 : fakeGaussRun m = .ok (.completed st) := hrun
    have hcd := countDet_ok hok hpos st.sign
    rw [reduced_final] at hdet
    have hval : (if st.sign = 1 then ∏ t in Finset.range m.nRows_,
          view st.support st.fakeRows st.fakeCols t t
        else -∏ t in Finset.range m.nRows_, view st.support st.fakeRows st.fakeCols t t)
        = (st.sign : ℚ) *
          ∏ t in Finset.range m.nRows_, view st.support st.fakeRows st.fakeCols t t := by
      rcases hsign with h | h
      · simp only [h, if_true]; simp
      · have : ¬ ((-1 : ℤ) = 1) := by decide
        simp only [h, this, if_false]; simp
    have hfg : fakeGauss m = .ok ((st.sign : ℚ) *
        ∏ t in Finset.range m.nRows_, view st.support st.fakeRows st.fakeCols t t) := by
      simp only [fakeGauss, hrun2, hcd, hval]
    refine ⟨st, hrun2, hsign, hpiv, hfg, ?_⟩
    rw [hfg, hdet]

/-- C20 on the matrix with rows `(1 2)`, `(3 4)`: the run completes with the pivots `4` and
`-1 / 2` and the sign `+1` after two exchanges, and the value is `-2`. -/
theorem fakeGauss_completed_witness :
    fakeGaussRun (mat22 1 2 3 4) = .ok (.completed ⟨1, mat22 (-1 / 2) 2 3 4, [2, 0], [1, 0]⟩) ∧
    fakeGauss (mat22 1 2 3 4) = .ok (-2) ∧
    ∃ st, fakeGaussRun (mat22 1 2 3 4) = .ok (.completed st) ∧
      fakeGauss (mat22 1 2 3 4) = .ok (mat22 1 2 3 4).mathDet := by
  have hrun : fakeGaussRun (mat22 1 2 3 4)
      = .ok (.completed ⟨1, mat22 (-1 / 2) 2 3 4, [2, 0], [1, 0]⟩) := by decide!
  obtain ⟨st, h1, _, _, _, h2⟩ := fakeGauss_completed (mat22 1 2 3 4) rfl (by decide)
    (fun k p h => by rw [hrun] at h; cases h)
  exact ⟨hrun, by decide!, st, h1, h2⟩

/-! ## The order arrays along the run -/

theorem perm_of_getD_inj {n : Nat} {xs ys : List Nat} (hlen : xs.length = n)
    (hinj : ∀ r r2, r < n → r2 < n → xs.getD r 0 = xs.getD r2 0 → r = r2)
    (hylen : ys.length = n)
    (hmem : ∀ r, r < n → xs.getD r 0 ∈ ys) : xs.Perm ys := by
  have hnd : xs.Nodup := by
    rw [List.nodup_iff_injective_get]
    intro a b hab
    have ha : a.val < n := by rw [← hlen]; exact a.isLt
    have hb : b.val < n := by rw [← hlen]; exact b.isLt
    apply Fin.ext
    apply hinj a.val b.val ha hb
    rw [List.getD_eq_getElem _ _ a.isLt, List.getD_eq_getElem _ _ b.isLt]
    simpa [List.get_eq_getElem] using hab
  have hsub : xs ⊆ ys := by
    intro a ha
    obtain ⟨k, hk, hka⟩ := List.getElem_of_mem ha
    have := hmem k (by rw [← hlen]; exact hk)
    rw [List.getD_eq_getElem _ _ hk, hka] at this
    exact this
  exact (List.subperm_of_subset hnd hsub).perm_of_length_le (by rw [hlen, hylen])

theorem RowsOk.perm_rows {n : Nat} {rows : List Nat} (h : RowsOk n rows) :
    rows.Perm ((List.range n).map (fun i => n * i)) := by
  apply perm_of_getD_inj h.len h.inj
  · simp
  · intro r hr
    obtain ⟨p, hp, hrp⟩ := h.phys r hr
    rw [hrp]
    exact List.mem_map.2 ⟨p, List.mem_range.2 hp, rfl⟩

theorem ColsOk.perm_cols {n : Nat} {cols : List Nat} (h : ColsOk n cols) :
    cols.Perm ((List.range n).map (fun i => i)) := by
  apply perm_of_getD_inj h.len h.inj
  · simp
  · intro c hc
    rw [List.map_id']
    exact List.mem_range.2 (h.bound c hc)

theorem EngineOk.perm_arrays {n : Nat} {m0 m : Mat ℚ} {rows cols : List Nat}
    (h : EngineOk n m rows cols) (h1 : m0.nRows_ = n) (h2 : m0.nCols_ = n) :
    rows.Perm (createFakeRows m0) ∧ cols.Perm (createFakeCols m0) := by
  simp only [createFakeRows, createFakeCols, h1, h2]
  exact ⟨h.rows.perm_rows, h.cols.perm_cols⟩

/-- The first `k` iterations of a run of `fuel ≥ k` iterations from a state in order: either
they end in the early return, and then so does the run, or they leave a state in order
from which the run goes on. -/
theorem fakeGaussLoop_prefix {n : Nat} :
    ∀ (k fuel i : Nat) (st : GaussState), k ≤ fuel → i + fuel ≤ n →
      EngineOk n st.support st.fakeRows st.fakeCols →
      (∃ j p, fakeGaussLoop k i st = .ok (.singular j p) ∧ i ≤ j ∧ j < i + k ∧
        fakeGaussLoop fuel i st = .ok (.singular j p)) ∨
      (∃ st2, fakeGaussLoop k i st = .ok (.completed st2) ∧
        EngineOk n st2.support st2.fakeRows st2.fakeCols ∧
        fakeGaussLoop fuel i st = fakeGaussLoop (fuel - k) (i + k) st2) := by
  intro k
  induction k with
  | zero =>
    intro fuel i st _ _ hok
    exact Or.inr ⟨st, rfl, hok, rfl⟩
  | succ k ih =>
    intro fuel i st hk hn hok
    obtain ⟨f, rfl⟩ : ∃ f, fuel = f + 1 := ⟨fuel - 1, by omega⟩
    have hi : i < n := by omega
    obtain ⟨mx1, rows1, hsw1, _, _, _, _, hok1, _⟩ := fakeSwap_rows_ok hok hi
    obtain ⟨mx2, cols2, hsw2, _, _, _, _, hok2, _⟩ := fakeSwap_cols_ok hok1 hi
    have hpe := elemAt_ok hok2 hi hi
    by_cases hle : |view st.support rows1 cols2 i i| ≤ EPSILON
    · left
      refine ⟨i, view st.support rows1 cols2 i i, ?_, le_refl i, by omega, ?_⟩
      · simp only [fakeGaussLoop, hsw1, hsw2, hpe, hle, if_true]
      · simp only [fakeGaussLoop, hsw1, hsw2, hpe, hle, if_true]
    · obtain ⟨sup3, hel, hok3, _⟩ := eliminateBelow_ok hok2 hi (view st.support rows1 cols2 i i)
      have hunf : ∀ g, fakeGaussLoop (g + 1) i st = fakeGaussLoop g (i + 1)
          ⟨st.sign * (if mx1 = i then 1 else -1) * (if mx2 = i then 1 else -1),
            sup3, rows1, cols2⟩ := by
        intro g
        simp only [fakeGaussLoop, hsw1, hsw2, hpe, hle, if_false, hel]
      rw [hunf k, hunf f]
      rcases ih f (i + 1) ⟨st.sign * (if mx1 = i then 1 else -1) * (if mx2 = i then 1 else -1),
        sup3, rows1, cols2⟩ (by omega) (by omega) hok3 with
        ⟨j, p, h1, h2, h3, h4⟩ | ⟨st2, h1, h2, h3⟩
      · exact Or.inl ⟨j, p, h1, by omega, by omega, h4⟩
      · refine Or.inr ⟨st2, h1, h2, ?_⟩
        rw [h3]
        have e1 : f + 1 - (k + 1) = f - k := by omega
        have e2 : i + (k + 1) = i + 1 + k := by omega
        rw [e1, e2]

theorem EngineOk.access {n : Nat} {m : Mat ℚ} {rows cols : List Nat}
    (h : EngineOk n m rows cols) {r c : Nat} (hr : r < n) (hc : c < n) :
    ∃ a b, rawGet rows r = .ok a ∧ rawGet cols c = .ok b ∧ a + b < m.arr_.length := by
  refine ⟨rows.getD r 0, cols.getD c 0, rawGet_eq rows r 0 (by rw [h.rows.len]; exact hr),
    rawGet_eq cols c 0 (by rw [h.cols.len]; exact hc), ?_⟩
  obtain ⟨p, hp, hrp⟩ := h.rows.phys r hr
  rw [hrp, h.length_arr]
  exact index_lt hp (h.cols.bound c hc)

/-- C21: for a square `n x n` matrix with `n ≥ 1`, `fakeGauss` returns a value, so no read
or write of the pivot search, the elimination or the final product leaves its array; and
for every `k ≤ n` the first `k` iterations of the main loop either end in the early return
(and so does the run) or leave a state from which the run goes on, in which the row array
is a permutation of the `n` row starts, the column array a permutation of `0 .. n - 1`, the
working buffer has `n * n` elements and every `rows[r][cols[c]]` with `r, c < n` lies
inside it; in iteration `k < n` each of the two exchanges succeeds, swaps two entries of
its array and leaves a permutation again, with the same bound on the addresses. -/
theorem order_arrays_in_range (m : Mat ℚ) (hsq : m.nRows_ = m.nCols_) (hpos : 0 < m.nRows_) :
    (∃ v, fakeGauss m = .ok v) ∧
    ∀ k, k ≤ m.nRows_ →
      (∃ j p, j < k ∧
        fakeGaussLoop k 0 ⟨1, m, createFakeRows m, createFakeCols m⟩ = .ok (.singular j p) ∧
        fakeGaussRun m = .ok (.singular j p)) ∨
      (∃ st, fakeGaussLoop k 0 ⟨1, m, createFakeRows m, createFakeCols m⟩
          = .ok (.completed st) ∧
        fakeGaussRun m = fakeGaussLoop (m.nRows_ - k) k st ∧
        st.fakeRows.Perm (createFakeRows m) ∧ st.fakeCols.Perm (createFakeCols m) ∧
        st.support.arr_.length = m.nRows_ * m.nRows_ ∧
        (∀ r c, r < m.nRows_ → c < m.nRows_ →
          ∃ a b, rawGet st.fakeRows r = .ok a ∧ rawGet st.fakeCols c = .ok b ∧
            a + b < st.support.arr_.length) ∧
        (k < m.nRows_ → ∃ s1 rows1 s2 cols2 mr mc,
          fakeSwapWithBiggest st.support st.fakeRows st.fakeCols k true
            = .ok (s1, rows1, st.fakeCols) ∧
          (∀ r, rows1.getD r 0 = st.fakeRows.getD (Equiv.swap k mr r) 0) ∧
          rows1.Perm (createFakeRows m) ∧
          fakeSwapWithBiggest st.support rows1 st.fakeCols k false = .ok (s2, rows1, cols2) ∧
          (∀ c, cols2.getD c 0 = st.fakeCols.getD (Equiv.swap k mc c) 0) ∧
          cols2.Perm (createFakeCols m) ∧
          ∀ r c, r < m.nRows_ → c < m.nRows_ →
            ∃ a b, rawGet rows1 r = .ok a ∧ rawGet cols2 c = .ok b ∧
              a + b < st.support.arr_.length)) := by
  constructor
  · rcases fakeGauss_spec m hsq hpos with ⟨_, _, _, _, _, _, h⟩ | ⟨_, _, h, _⟩
    · exact ⟨_, h⟩
    · exact ⟨_, h⟩
  · intro k hk
    rcases fakeGaussLoop_prefix (n := m.nRows_) k m.nRows_ 0
        ⟨1, m, createFakeRows m, createFakeCols m⟩ hk (by omega) (engineOk_init m hsq) with
      ⟨j, p, h1, _, h3, h4⟩ | ⟨st, h1, hok, h3⟩
    · exact Or.inl ⟨j, p, by omega, h1, h4⟩
    · refine Or.inr ⟨st, h1, ?_, (hok.perm_arrays rfl hsq.symm).1,
        (hok.perm_arrays rfl hsq.symm).2, hok.length_arr,
        fun r c hr hc => hok.access hr hc, ?_⟩
      · rw [Nat.zero_add] at h3
        exact h3
      · intro hkn
        obtain ⟨mr, rows1, hsw1, _, _, _, _, hok1, hget1⟩ := fakeSwap_rows_ok hok hkn
        obtain ⟨mc, cols2, hsw2, _, _, _, _, hok2, hget2⟩ := fakeSwap_cols_ok hok1 hkn
        exact ⟨_, rows1, _, cols2, mr, mc, hsw1, hget1,
          (hok1.perm_arrays rfl hsq.symm).1, hsw2, hget2,
          (hok2.perm_arrays rfl hsq.symm).2, fun r c hr hc => hok2.access hr hc⟩

/-- C21 on the matrix with rows `(1 2)`, `(3 4)`: the run ends with the row array `[2, 0]`
and the column array `[1, 0]`, which are permutations of `[0, 2]` and of `[0, 1]`. -/
theorem order_arrays_in_range_witness :
    (mat22 1 2 3 4).nRows_ = (mat22 1 2 3 4).nCols_ ∧ 0 < (mat22 1 2 3 4).nRows_ ∧
    (∃ v, fakeGauss (mat22 1 2 3 4) = .ok v) ∧
    fakeGaussRun (mat22 1 2 3 4)
      = .ok (.completed ⟨1, mat22 (-1 / 2) 2 3 4, [2, 0], [1, 0]⟩) ∧
    [2, 0].Perm (createFakeRows (mat22 1 2 3 4)) ∧
    [1, 0].Perm (createFakeCols (mat22 1 2 3 4)) := by
  have hrun : fakeGaussLoop 2 0 ⟨1, mat22 1 2 3 4, createFakeRows (mat22 1 2 3 4),
      createFakeCols (mat22 1 2 3 4)⟩
      = .ok (.completed ⟨1, mat22 (-1 / 2) 2 3 4, [2, 0], [1, 0]⟩) := by decide!
  obtain ⟨hv, hall⟩ := order_arrays_in_range (mat22 1 2 3 4) rfl (by decide)
  refine ⟨rfl, by decide, hv, hrun, ?_⟩
  rcases hall 2 (le_refl 2) with ⟨j, p, _, h, _⟩ | ⟨st, h, _, hr, hc, _⟩
  · rw [hrun] at h
    cases h
  · rw [hrun] at h
    injection h with h
    injection h with h
    subst h
    exact ⟨hr, hc⟩

/-! ## The pivot tolerance in machine arithmetic and with exact elements -/

theorem Machine.singular_le :
    ∀ (fuel i : Nat) (st : Machine.GaussState) (k : Nat) (p : F64),
      Machine.fakeGaussLoop fuel i st = .ok (.singular k p) →
      F64.le (F64.abs p) F64.EPSILON = true := by
  intro fuel
  induction fuel with
  | zero =>
    intro i st k p h
    simp only [Machine.fakeGaussLoop] at h
    cases h
  | succ f ih =>
    intro i st k p h
    simp only [Machine.fakeGaussLoop] at h
    split at h
    · cases h
    · split at h
      · cases h
      · split at h
        · cases h
        · split at h
          · injection h with h
            injection h with h1 h2
            subst h2
            assumption
          · split at h
            · cases h
            · exact ih _ _ _ _ h

theorem Machine.det_of_singular (m : Mat F64) (hsq : m.nRows_ = m.nCols_) (k : Nat) (p : F64)
    (h : Machine.fakeGaussRun m.copy = .ok (.singular k p)) :
    F64.le (F64.abs p) F64.EPSILON = true ∧ Machine.det m = .ok (.fin false 0) := by
  refine ⟨Machine.singular_le _ _ _ k p h, ?_⟩
  have hns : ¬ m.nRows_ ≠ m.nCols_ := fun h2 => h2 hsq
  simp only [Machine.det, hns, if_false, Machine.detFalseType, Machine.fakeGauss, h]

theorem Machine.detInt_of_singular (fresh : Nat → F64) (m : Mat ℤ)
    (hsq : m.nRows_ = m.nCols_) (support : Mat F64) (k : Nat) (p : F64)
    (hc : Mat.convert fresh F64.ofInt m = .ok support)
    (h : Machine.fakeGaussRun support.copy = .ok (.singular k p)) :
    F64.le (F64.abs p) F64.EPSILON = true ∧ Machine.detInt fresh m = .ok 0 := by
  have hns : ¬ m.nRows_ ≠ m.nCols_ := fun h2 => h2 hsq
  have hsq2 : support.nRows_ = support.nCols_ := by
    rw [Mat.convert_ok] at hc
    injection hc with hc
    rw [← hc]
    exact hsq
  obtain ⟨h1, h2⟩ := Machine.det_of_singular support hsq2 k p h
  refine ⟨h1, ?_⟩
  simp only [Machine.detInt, hns, if_false, Machine.detTrueType, hc, h2]
  decide!

theorem det_outcome (m : Mat ℚ) (hsq : m.nRows_ = m.nCols_) (hpos : 0 < m.nRows_) :
    (EarlyReturn m → det m = .ok 0) ∧
    (¬ EarlyReturn m → det m = .ok m.mathDet ∧ m.mathDet ≠ 0) := by
  rw [det_eq_fakeGauss m hsq]
  rcases fakeGauss_spec m hsq hpos with ⟨k, p, h1, _, h2, _, h3⟩ | ⟨st, h1, h2, h3⟩
  · refine ⟨fun _ => h3, fun hne => absurd ⟨k, p, ?_, h2⟩ hne⟩
    rw [Mat.copy_eq]; exact h1
  · refine ⟨?_, fun _ => ⟨h2, h3⟩⟩
    rintro ⟨k, p, hk, _⟩
    rw [Mat.copy_eq, h1] at hk
    cases hk

theorem detInt_outcome (fresh : Nat → ℚ) (m : Mat ℤ) (hsq : m.nRows_ = m.nCols_)
    (hpos : 0 < m.nRows_) :
    (EarlyReturnInt fresh m → detInt fresh m = .ok 0) ∧
    (¬ EarlyReturnInt fresh m → detInt fresh m = .ok m.mathDet ∧ m.mathDet ≠ 0) := by
  have hns : ¬ m.nRows_ ≠ m.nCols_ := fun h => h hsq
  obtain ⟨h1, h2⟩ := det_outcome
    ⟨m.nRows_, m.nCols_, m.arr_.map (fun z : ℤ => (z : ℚ)), by simp [m.hsize]⟩ hsq hpos
  constructor
  · rintro ⟨support, hc, he⟩
    rw [Mat.convert_ok] at hc
    injection hc with hc
    subst hc
    simp only [detInt, hns, if_false, detTrueType, Mat.convert_ok, h1 he, round_zero]
  · intro hne
    have hne2 : ¬ EarlyReturn
        ⟨m.nRows_, m.nCols_, m.arr_.map (fun z : ℤ => (z : ℚ)), by simp [m.hsize]⟩ :=
      fun he => hne ⟨_, Mat.convert_ok fresh _ m, he⟩
    obtain ⟨h3, h4⟩ := h2 hne2
    rw [mathDet_convert] at h3 h4
    refine ⟨?_, fun h0 => h4 (by rw [h0]; simp)⟩
    simp only [detInt, hns, if_false, detTrueType, Mat.convert_ok, h3, round_intCast]

theorem RowsOk.surj_rows {n : Nat} {rows : List Nat} (h : RowsOk n rows) {z : Nat} (hz : z < n) :
    ∃ r, r < n ∧ rows.getD r 0 = n * z := by
  have hmem : n * z ∈ rows :=
    (h.perm_rows.mem_iff).2 (List.mem_map.2 ⟨z, List.mem_range.2 hz, rfl⟩)
  obtain ⟨k, hk, hkz⟩ := List.getElem_of_mem hmem
  exact ⟨k, by rw [← h.len]; exact hk, by rw [List.getD_eq_getElem _ _ hk, hkz]⟩

theorem ColsOk.surj_cols {n : Nat} {cols : List Nat} (h : ColsOk n cols) {c : Nat} (hc : c < n) :
    ∃ t, t < n ∧ cols.getD t 0 = c := by
  have hmem : c ∈ cols :=
    (h.perm_cols.mem_iff).2 (List.mem_map.2 ⟨c, List.mem_range.2 hc, rfl⟩)
  obtain ⟨k, hk, hkz⟩ := List.getElem_of_mem hmem
  exact ⟨k, by rw [← h.len]; exact hk, by rw [List.getD_eq_getElem _ _ hk, hkz]⟩

/-- The run from a state in which the row `z` of the buffer is zero and has not been a
pivot row yet: the row stays zero, the run ends in the early return, and a step that
selects the row as its pivot row, as the last step does, returns on the pivot `0`. -/
theorem zeroRow_run {n z : Nat} (hz : z < n) :
    ∀ (fuel i : Nat) (st : GaussState), i + fuel = n →
      EngineOk n st.support st.fakeRows st.fakeCols →
      (∀ c, c < n → st.support.arr_.getD (n * z + c) 0 = 0) →
      (∀ r, r < i → st.fakeRows.getD r 0 ≠ n * z) →
      ∃ k p, fakeGaussLoop fuel i st = .ok (.singular k p) ∧ i ≤ k ∧ k < n ∧
        |p| ≤ EPSILON ∧ (k + 1 = n → p = 0) ∧
        ∀ j st2, fakeGaussLoop j i st = .ok (.completed st2) →
          (st2.support.nCols_ = n ∧ ∀ c, c < n → st2.support.arr_.getD (n * z + c) 0 = 0) ∧
          ∀ s1 rows1 cols1,
            fakeSwapWithBiggest st2.support st2.fakeRows st2.fakeCols (i + j) true
              = .ok (s1, rows1, cols1) →
            rows1.getD (i + j) 0 = n * z → k = i + j ∧ p = 0 := by
  intro fuel
  induction fuel with
  | zero =>
    intro i st hn hok _ hnot
    obtain ⟨r, hr, hrz⟩ := hok.rows.surj_rows hz
    exact absurd hrz (hnot r (by omega))
  | succ f ih =>
    intro i st hn hok hzero hnot
    have hi : i < n := by omega
    obtain ⟨mx1, rows1, hsw1, a1, _, _, _, hok1, hget1⟩ := fakeSwap_rows_ok hok hi
    obtain ⟨mx2, cols2, hsw2, b1, _, _, _, hok2, hget2⟩ := fakeSwap_cols_ok hok1 hi
    have hpe := elemAt_ok hok2 hi hi
    have hold : ∀ r, r < i → rows1.getD r 0 ≠ n * z := by
      intro r hr
      rw [hget1 r, swap_fix_lt a1 hr]
      exact hnot r hr
    have hzero0 : ∀ j st2, fakeGaussLoop j i st = .ok (.completed st2) → j = 0 →
        (st2.support.nCols_ = n ∧ ∀ c, c < n → st2.support.arr_.getD (n * z + c) 0 = 0) ∧
        ∀ s1 rows1b cols1b,
          fakeSwapWithBiggest st2.support st2.fakeRows st2.fakeCols (i + j) true
            = .ok (s1, rows1b, cols1b) → rows1b = rows1 := by
      intro j st2 hj hj0
      subst hj0
      simp only [fakeGaussLoop] at hj
      injection hj with hj
      injection hj with hj
      subst hj
      refine ⟨⟨hok.ncols, hzero⟩, ?_⟩
      intro s1 rows1b cols1b hsw
      rw [Nat.add_zero, hsw1] at hsw
      injection hsw with hsw
      injection hsw with _ hsw
      injection hsw with hsw _
      exact hsw.symm
    by_cases hsel : rows1.getD i 0 = n * z
    · have hp0 : view st.support rows1 cols2 i i = 0 := by
        simp only [view, hsel]
        exact hzero _ (hok2.cols.bound i hi)
      have hle : |view st.support rows1 cols2 i i| ≤ EPSILON := by
        rw [hp0, abs_zero]; exact le_of_lt EPSILON_pos
      have hunf : ∀ g, fakeGaussLoop (g + 1) i st
          = .ok (.singular i (view st.support rows1 cols2 i i)) := by
        intro g
        simp only [fakeGaussLoop, hsw1, hsw2, hpe, hle, if_true]
      refine ⟨i, view st.support rows1 cols2 i i, hunf f, le_refl i, hi, hle,
        fun _ => hp0, ?_⟩
      intro j st2 hj
      cases j with
      | zero =>
        obtain ⟨e1, _⟩ := hzero0 0 st2 hj rfl
        exact ⟨e1, fun _ _ _ _ _ => ⟨rfl, hp0⟩⟩
      | succ g =>
        rw [hunf g] at hj
        cases hj
    · by_cases hle : |view st.support rows1 cols2 i i| ≤ EPSILON
      · have hunf : ∀ g, fakeGaussLoop (g + 1) i st
            = .ok (.singular i (view st.support rows1 cols2 i i)) := by
          intro g
          simp only [fakeGaussLoop, hsw1, hsw2, hpe, hle, if_true]
        refine ⟨i, view st.support rows1 cols2 i i, hunf f, le_refl i, hi, hle, ?_, ?_⟩
        · intro hlast
          obtain ⟨r, hr, hrz⟩ := hok1.rows.surj_rows hz
          by_cases hri : r = i
          · rw [hri] at hrz; exact absurd hrz hsel
          · exact absurd hrz (hold r (by omega))
        · intro j st2 hj
          cases j with
          | zero =>
            obtain ⟨e1, e2⟩ := hzero0 0 st2 hj rfl
            refine ⟨e1, ?_⟩
            intro s1 rows1b cols1b hsw hb
            rw [e2 s1 rows1b cols1b hsw] at hb
            exact absurd hb hsel
          | succ g =>
            rw [hunf g] at hj
            cases hj
      · obtain ⟨sup3, hel, hok3, hV3⟩ :=
          eliminateBelow_ok hok2 hi (view st.support rows1 cols2 i i)
        have hunf : ∀ g, fakeGaussLoop (g + 1) i st = fakeGaussLoop g (i + 1)
            ⟨st.sign * (if mx1 = i then 1 else -1) * (if mx2 = i then 1 else -1),
              sup3, rows1, cols2⟩ := by
          intro g
          simp only [fakeGaussLoop, hsw1, hsw2, hpe, hle, if_false, hel]
        have hzero3 : ∀ c, c < n → sup3.arr_.getD (n * z + c) 0 = 0 := by
          intro c hc
          obtain ⟨rz, hrz1, hrz2⟩ := hok1.rows.surj_rows hz
          obtain ⟨cl, hcl1, hcl2⟩ := hok2.cols.surj_cols hc
          have hv := hV3 rz cl hrz1 hcl1
          have hrow : ∀ x, x < n → view st.support rows1 cols2 rz x = 0 := by
            intro x hx
            simp only [view, hrz2]
            exact hzero _ (hok2.cols.bound x hx)
          rw [hrow cl hcl1, hrow i hi] at hv
          simp only [zero_div, zero_mul, sub_zero, ite_self] at hv
          simp only [view, hrz2, hcl2] at hv
          exact hv
        have hnot3 : ∀ r, r < i + 1 → rows1.getD r 0 ≠ n * z := by
          intro r hr
          by_cases hri : r = i
          · rw [hri]; exact hsel
          · exact hold r (by omega)
        obtain ⟨k, p, h1, h2, h3, h4, h5, h6⟩ := ih (i + 1)
          ⟨st.sign * (if mx1 = i then 1 else -1) * (if mx2 = i then 1 else -1),
            sup3, rows1, cols2⟩ (by omega) hok3 hzero3 hnot3
        refine ⟨k, p, by rw [hunf f]; exact h1, by omega, h3, h4, h5, ?_⟩
        intro j st2 hj
        cases j with
        | zero =>
          obtain ⟨e1, e2⟩ := hzero0 0 st2 hj rfl
          refine ⟨e1, ?_⟩
          intro s1 rows1b cols1b hsw hb
          rw [e2 s1 rows1b cols1b hsw] at hb
          exact absurd hb hsel
        | succ g =>
          rw [hunf g] at hj
          obtain ⟨e1, e2⟩ := h6 g st2 hj
          refine ⟨e1, ?_⟩
          intro s1 rows1b cols1b hsw hb
          have e : i + 1 + g = i + (g + 1) := by omega
          rw [e] at e2
          exact e2 s1 rows1b cols1b hsw hb

/-- The run from a state in which the column `c0` of the buffer is zero and has not been a
pivot column yet: the column stays zero, the run ends in the early return, and a step that
selects the column as its pivot column, as the last step does, returns on the pivot `0`. -/
theorem zeroCol_run {n c0 : Nat} (hc0 : c0 < n) :
    ∀ (fuel i : Nat) (st : GaussState), i + fuel = n →
      EngineOk n st.support st.fakeRows st.fakeCols →
      (∀ r, r < n → st.support.arr_.getD (n * r + c0) 0 = 0) →
      (∀ t, t < i → st.fakeCols.getD t 0 ≠ c0) →
      ∃ k p, fakeGaussLoop fuel i st = .ok (.singular k p) ∧ i ≤ k ∧ k < n ∧
        |p| ≤ EPSILON ∧ (k + 1 = n → p = 0) ∧
        ∀ j st2, fakeGaussLoop j i st = .ok (.completed st2) →
          (st2.support.nCols_ = n ∧
            ∀ r, r < n → st2.support.arr_.getD (n * r + c0) 0 = 0) ∧
          ∀ s1 rows1 cols1 s2 rows2 cols2,
            fakeSwapWithBiggest st2.support st2.fakeRows st2.fakeCols (i + j) true
              = .ok (s1, rows1, cols1) →
            fakeSwapWithBiggest st2.support rows1 cols1 (i + j) false
              = .ok (s2, rows2, cols2) →
            cols2.getD (i + j) 0 = c0 → k = i + j ∧ p = 0 := by
  intro fuel
  induction fuel with
  | zero =>
    intro i st hn hok _ hnot
    obtain ⟨t, ht, htz⟩ := hok.cols.surj_cols hc0
    exact absurd htz (hnot t (by omega))
  | succ f ih =>
    intro i st hn hok hzero hnot
    have hi : i < n := by omega
    obtain ⟨mx1, rows1, hsw1, a1, _, _, _, hok1, hget1⟩ := fakeSwap_rows_ok hok hi
    obtain ⟨mx2, cols2, hsw2, b1, _, _, _, hok2, hget2⟩ := fakeSwap_cols_ok hok1 hi
    have hpe := elemAt_ok hok2 hi hi
    have hold : ∀ t, t < i → cols2.getD t 0 ≠ c0 := by
      intro t ht
      rw [hget2 t, swap_fix_lt b1 ht]
      exact hnot t ht
    have hcol : ∀ x, x < n → ∀ cl, cols2.getD cl 0 = c0 →
        view st.support rows1 cols2 x cl = 0 := by
      intro x hx cl hcl
      obtain ⟨px, hpx, hpx2⟩ := hok1.rows.phys x hx
      simp only [view, hcl, hpx2]
      exact hzero px hpx
    have hzero0 : ∀ j st2, fakeGaussLoop j i st = .ok (.completed st2) → j = 0 →
        (st2.support.nCols_ = n ∧
          ∀ r, r < n → st2.support.arr_.getD (n * r + c0) 0 = 0) ∧
        ∀ s1 rows1b cols1b s2 rows2b cols2b,
          fakeSwapWithBiggest st2.support st2.fakeRows st2.fakeCols (i + j) true
            = .ok (s1, rows1b, cols1b) →
          fakeSwapWithBiggest st2.support rows1b cols1b (i + j) false
            = .ok (s2, rows2b, cols2b) → cols2b = cols2 := by
      intro j st2 hj hj0
      subst hj0
      simp only [fakeGaussLoop] at hj
      injection hj with hj
      injection hj with hj
      subst hj
      refine ⟨⟨hok.ncols, hzero⟩, ?_⟩
      intro s1 rows1b cols1b s2 rows2b cols2b hswa hswb
      rw [Nat.add_zero, hsw1] at hswa
      injection hswa with hswa
      injection hswa with _ hswa
      injection hswa with hr hc
      subst hr
      subst hc
      rw [Nat.add_zero, hsw2] at hswb
      injection hswb with hswb
      injection hswb with _ hswb
      injection hswb with _ hswb
      exact hswb.symm
    by_cases hsel : cols2.getD i 0 = c0
    · have hp0 : view st.support rows1 cols2 i i = 0 := hcol i hi i hsel
      have hle : |view st.support rows1 cols2 i i| ≤ EPSILON := by
        rw [hp0, abs_zero]; exact le_of_lt EPSILON_pos
      have hunf : ∀ g, fakeGaussLoop (g + 1) i st
          = .ok (.singular i (view st.support rows1 cols2 i i)) := by
        intro g
        simp only [fakeGaussLoop, hsw1, hsw2, hpe, hle, if_true]
      refine ⟨i, view st.support rows1 cols2 i i, hunf f, le_refl i, hi, hle,
        fun _ => hp0, ?_⟩
      intro j st2 hj
      cases j with
      | zero =>
        obtain ⟨e1, _⟩ := hzero0 0 st2 hj rfl
        exact ⟨e1, fun _ _ _ _ _ _ _ _ _ => ⟨rfl, hp0⟩⟩
      | succ g =>
        rw [hunf g] at hj
        cases hj
    · by_cases hle : |view st.support rows1 cols2 i i| ≤ EPSILON
      · have hunf : ∀ g, fakeGaussLoop (g + 1) i st
            = .ok (.singular i (view st.support rows1 cols2 i i)) := by
          intro g
          simp only [fakeGaussLoop, hsw1, hsw2, hpe, hle, if_true]
        refine ⟨i, view st.support rows1 cols2 i i, hunf f, le_refl i, hi, hle, ?_, ?_⟩
        · intro hlast
          obtain ⟨t, ht, htz⟩ := hok2.cols.surj_cols hc0
          by_cases hti : t = i
          · rw [hti] at htz; exact absurd htz hsel
          · exact absurd htz (hold t (by omega))
        · intro j st2 hj
          cases j with
          | zero =>
            obtain ⟨e1, e2⟩ := hzero0 0 st2 hj rfl
            refine ⟨e1, ?_⟩
            intro s1 rows1b cols1b s2 rows2b cols2b hswa hswb hb
            rw [e2 s1 rows1b cols1b s2 rows2b cols2b hswa hswb] at hb
            exact absurd hb hsel
          | succ g =>
            rw [hunf g] at hj
            cases hj
      · obtain ⟨sup3, hel, hok3, hV3⟩ :=
          eliminateBelow_ok hok2 hi (view st.support rows1 cols2 i i)
        have hunf : ∀ g, fakeGaussLoop (g + 1) i st = fakeGaussLoop g (i + 1)
            ⟨st.sign * (if mx1 = i then 1 else -1) * (if mx2 = i then 1 else -1),
              sup3, rows1, cols2⟩ := by
          intro g
          simp only [fakeGaussLoop, hsw1, hsw2, hpe, hle, if_false, hel]
        have hzero3 : ∀ r, r < n → sup3.arr_.getD (n * r + c0) 0 = 0 := by
          intro r hr
          obtain ⟨rl, hrl1, hrl2⟩ := hok1.rows.surj_rows hr
          obtain ⟨cl, hcl1, hcl2⟩ := hok2.cols.surj_cols hc0
          have hv := hV3 rl cl hrl1 hcl1
          rw [hcol rl hrl1 cl hcl2, hcol i hi cl hcl2] at hv
          simp only [mul_zero, sub_zero, ite_self] at hv
          simp only [view, hrl2, hcl2] at hv
          exact hv
        have hnot3 : ∀ t, t < i + 1 → cols2.getD t 0 ≠ c0 := by
          intro t ht
          by_cases hti : t = i
          · rw [hti]; exact hsel
          · exact hold t (by omega)
        obtain ⟨k, p, h1, h2, h3, h4, h5, h6⟩ := ih (i + 1)
          ⟨st.sign * (if mx1 = i then 1 else -1) * (if mx2 = i then 1 else -1),
            sup3, rows1, cols2⟩ (by omega) hok3 hzero3 hnot3
        refine ⟨k, p, by rw [hunf f]; exact h1, by omega, h3, h4, h5, ?_⟩
        intro j st2 hj
        cases j with
        | zero =>
          obtain ⟨e1, e2⟩ := hzero0 0 st2 hj rfl
          refine ⟨e1, ?_⟩
          intro s1 rows1b cols1b s2 rows2b cols2b hswa hswb hb
          rw [e2 s1 rows1b cols1b s2 rows2b cols2b hswa hswb] at hb
          exact absurd hb hsel
        | succ g =>
          rw [hunf g] at hj
          obtain ⟨e1, e2⟩ := h6 g st2 hj
          refine ⟨e1, ?_⟩
          intro s1 rows1b cols1b s2 rows2b cols2b hswa hswb hb
          have e : i + 1 + g = i + (g + 1) := by omega
          rw [e] at e2
          exact e2 s1 rows1b cols1b s2 rows2b cols2b hswa hswb hb

theorem zeroRowRun_of (m : Mat ℚ) (z : Nat) (hsq : m.nRows_ = m.nCols_) (hz : z < m.nRows_)
    (hrow : ∀ c, c < m.nCols_ → m.entry z c = 0) : ZeroRowRun m z := by
  obtain ⟨k, p, h1, _, h3, h4, h5, h6⟩ := zeroRow_run (n := m.nRows_) hz m.nRows_ 0
    ⟨1, m, createFakeRows m, createFakeCols m⟩ (by omega) (engineOk_init m hsq)
    (fun c hc => by
      have := hrow c (by rw [← hsq]; exact hc)
      simp only [Mat.entry, ← hsq] at this
      exact this)
    (fun r hr => by omega)
  refine ⟨k, p, h1, h3, h4, h5, ?_⟩
  intro j st hj
  obtain ⟨⟨e0, e1⟩, e2⟩ := h6 j st hj
  refine ⟨?_, ?_⟩
  · intro c hc
    simp only [Mat.entry, e0]
    exact e1 c (by rw [hsq]; exact hc)
  · intro s1 rows1 cols1 hsw hsel
    rw [Nat.zero_add] at e2
    rw [← hsq] at hsel
    exact e2 s1 rows1 cols1 hsw hsel

theorem zeroColRun_of (m : Mat ℚ) (c0 : Nat) (hsq : m.nRows_ = m.nCols_) (hc0 : c0 < m.nCols_)
    (hcol : ∀ r, r < m.nRows_ → m.entry r c0 = 0) : ZeroColRun m c0 := by
  obtain ⟨k, p, h1, _, h3, h4, h5, h6⟩ := @zeroCol_run m.nRows_ c0
    (by rw [hsq]; exact hc0) m.nRows_ 0
    ⟨1, m, createFakeRows m, createFakeCols m⟩ (by omega) (engineOk_init m hsq)
    (fun r hr => by
      have := hcol r hr
      simp only [Mat.entry, ← hsq] at this
      exact this)
    (fun r hr => by omega)
  refine ⟨k, p, h1, h3, h4, h5, ?_⟩
  intro j st hj
  obtain ⟨⟨e0, e1⟩, e2⟩ := h6 j st hj
  refine ⟨?_, ?_⟩
  · intro r hr
    simp only [Mat.entry, e0]
    exact e1 r hr
  · intro s1 rows1 cols1 s2 rows2 cols2 hswa hswb hsel
    rw [Nat.zero_add] at e2
    exact e2 s1 rows1 cols1 s2 rows2 cols2 hswa hswb hsel

theorem fakeGauss_of_singular (m : Mat ℚ) (k : Nat) (p : ℚ)
    (h : fakeGaussRun m = .ok (.singular k p)) : fakeGauss m = .ok 0 := by
  simp only [fakeGauss, h]

theorem convert_entry (fresh : Nat → ℚ) (m : Mat ℤ) :
    ∃ support, Mat.convert fresh (fun z : ℤ => (z : ℚ)) m = .ok support ∧
      support.nRows_ = m.nRows_ ∧ support.nCols_ = m.nCols_ ∧
      ∀ i j, support.entry i j = ((m.entry i j : ℤ) : ℚ) := by
  refine ⟨_, Mat.convert_ok fresh _ m, rfl, rfl, ?_⟩
  intro i j
  simp only [Mat.entry, List.getD_eq_getElem?_getD, List.getElem?_map]
  cases m.arr_[m.nCols_ * i + j]? <;> simp

/-! ## The generator in 32-bit arithmetic -/

theorem forLoop_refine {σ : Type} (body body2 : Nat → σ → Except Err σ)
    (h : ∀ k s, body2 k s = body k s ∨ body2 k s = .error .intOverflow) :
    ∀ (fuel i : Nat) (s : σ), forLoop body2 fuel i s = forLoop body fuel i s ∨
      forLoop body2 fuel i s = .error .intOverflow := by
  intro fuel
  induction fuel with
  | zero => intro i s; exact Or.inl rfl
  | succ f ih =>
    intro i s
    rcases h i s with h1 | h1
    · simp only [forLoop, h1]
      cases hb : body i s with
      | error e => exact Or.inl rfl
      | ok t => exact ih (i + 1) t
    · right
      simp only [forLoop, h1]

theorem forRange_refine {σ : Type} (body body2 : Nat → σ → Except Err σ) (lo hi : Nat) (s : σ)
    (h : ∀ k s, body2 k s = body k s ∨ body2 k s = .error .intOverflow) :
    forRange lo hi body2 s = forRange lo hi body s ∨
      forRange lo hi body2 s = .error .intOverflow :=
  forLoop_refine body body2 h (hi - lo) lo s

theorem addMul_cases (x c y : ℤ) :
    Machine.addMul x c y = .ok (x + c * y) ∨ Machine.addMul x c y = .error .intOverflow := by
  unfold Machine.addMul Machine.int
  by_cases h1 : c * y < -2 ^ 31 ∨ 2 ^ 31 ≤ c * y
  · right
    rw [if_pos h1]
  · by_cases h2 : x + c * y < -2 ^ 31 ∨ 2 ^ 31 ≤ x + c * y
    · right
      rw [if_neg h1]
      show (if x + c * y < -2 ^ 31 ∨ 2 ^ 31 ≤ x + c * y then _ else _) = _
      rw [if_pos h2]
    · left
      rw [if_neg h1]
      show (if x + c * y < -2 ^ 31 ∨ 2 ^ 31 ≤ x + c * y then _ else _) = _
      rw [if_neg h2]

theorem addMul_ok {x c y : ℤ} (h1 : -2 ^ 31 ≤ c * y ∧ c * y < 2 ^ 31)
    (h2 : -2 ^ 31 ≤ x + c * y ∧ x + c * y < 2 ^ 31) :
    Machine.addMul x c y = .ok (x + c * y) := by
  have e1 : ¬ (c * y < -2 ^ 31 ∨ 2 ^ 31 ≤ c * y) := by
    rintro (h | h)
    · exact absurd h1.1 (not_le.mpr h)
    · exact absurd h1.2 (not_lt.mpr h)
  have e2 : ¬ (x + c * y < -2 ^ 31 ∨ 2 ^ 31 ≤ x + c * y) := by
    rintro (h | h)
    · exact absurd h2.1 (not_le.mpr h)
    · exact absurd h2.2 (not_lt.mpr h)
  unfold Machine.addMul Machine.int
  rw [if_neg e1]
  show (if x + c * y < -2 ^ 31 ∨ 2 ^ 31 ≤ x + c * y then _ else _) = _
  rw [if_neg e2]

theorem mixRows_refine (rc : Nat → ℤ) (n : Nat) (m : Mat ℤ) :
    Machine.mixRows rc n m = mixRows rc n m ∨ Machine.mixRows rc n m = .error .intOverflow := by
  unfold Machine.mixRows mixRows
  apply forRange_refine
  intro i s
  apply forRange_refine
  intro j s2
  cases h0 : s2.get 0 j with
  | error e => exact Or.inl rfl
  | ok b =>
    cases h1 : s2.get i j with
    | error e => exact Or.inl rfl
    | ok a =>
      rcases addMul_cases a (rc i) b with h | h
      · left; simp only [h]
      · right; simp only [h]

theorem mixCols_refine (cc : Nat → ℤ) (n : Nat) (m : Mat ℤ) :
    Machine.mixCols cc n m = mixCols cc n m ∨ Machine.mixCols cc n m = .error .intOverflow := by
  unfold Machine.mixCols mixCols
  apply forRange_refine
  intro i s
  apply forRange_refine
  intro j s2
  cases h0 : s2.get j (sizeMinusOne n) with
  | error e => exact Or.inl rfl
  | ok b =>
    cases h1 : s2.get j i with
    | error e => exact Or.inl rfl
    | ok a =>
      rcases addMul_cases a (cc i) b with h | h
      · left; simp only [h]
      · right; simp only [h]

/-- The generator in 32-bit arithmetic either meets an overflow or does what the generator
in unbounded integers does. -/
theorem randomMatrix_refine (fresh : Nat → ℤ) (U : Nat → Nat → ℤ) (rc cc : Nat → ℤ)
    (n : Nat) (d : ℤ) :
    Machine.randomMatrix fresh U rc cc n d = randomMatrix fresh U rc cc n d ∨
      Machine.randomMatrix fresh U rc cc n d = .error .intOverflow := by
  unfold Machine.randomMatrix Machine.rndMatr randomMatrix rndMatr
  cases h0 : fillUpper U n (Mat.ctor fresh n n) with
  | error e => exact Or.inl rfl
  | ok upper =>
    dsimp only
    cases h1 : upper.set (sizeMinusOne n) (sizeMinusOne n) d with
    | error e => exact Or.inl rfl
    | ok tri =>
      dsimp only
      rcases mixRows_refine rc n tri with h | h
      · simp only [h]
        cases h2 : mixRows rc n tri with
        | error e => exact Or.inl rfl
        | ok mixed => exact mixCols_refine cc n mixed
      · right; simp only [h]

/-- The value `z` is representable in `int`. -/
theorem int_ok {z : ℤ} (h : -2 ^ 31 ≤ z ∧ z < 2 ^ 31) : Machine.int z = .ok z := by
  have e1 : ¬ (z < -2 ^ 31 ∨ 2 ^ 31 ≤ z) := by
    rintro (h1 | h1)
    · exact absurd h.1 (not_le.mpr h1)
    · exact absurd h.2 (not_lt.mpr h1)
  unfold Machine.int
  rw [if_neg e1]

theorem machine_rows (T : Nat → Nat → ℤ) (rc : Nat → ℤ) (n : Nat) (hn : 0 < n) (m0 : Mat ℤ)
    (h0 : Mat.Holds n m0 T)
    (hr : ∀ i j, 1 ≤ i → i < n → j < n →
      (-2 ^ 31 ≤ rc i * T 0 j ∧ rc i * T 0 j < 2 ^ 31) ∧
      (-2 ^ 31 ≤ T i j + rc i * T 0 j ∧ T i j + rc i * T 0 j < 2 ^ 31)) :
    ∃ m, Machine.mixRows rc n m0 = .ok m ∧ Mat.Holds n m (rowStage T rc n) := by
  simp only [Machine.mixRows]
  apply forRange_inv _ (fun i m => Mat.Holds n m (rowStage T rc i)) 1 n _ (by omega)
  · refine h0.congr ?_
    intro a b _ _
    simp only [rowStage]
    split_ifs <;> first | rfl | omega
  · intro i m hi1 hi2 hm
    have inner := forRange_inv (fun j m2 =>
        match m2.get 0 j with
        | .error e => .error e
        | .ok b =>
          match m2.get i j with
          | .error e => .error e
          | .ok a =>
            match Machine.addMul a (rc i) b with
            | .error e => .error e
            | .ok v => m2.set i j v)
      (fun j m2 => Mat.Holds n m2 (rowInnerStage T rc i j)) 0 n m (Nat.zero_le n)
      (hm.congr (by
        intro a b _ _
        simp only [rowInnerStage]
        split_ifs <;> first | rfl | omega))
      (by
        intro j m2 _ hj2 hm2
        have g0 := hm2.get hn hj2
        have g1 := hm2.get hi2 hj2
        have v0 : rowInnerStage T rc i j 0 j = T 0 j := by
          simp only [rowInnerStage, rowStage]
          split_ifs <;> first | rfl | omega
        have v1 : rowInnerStage T rc i j i j = T i j := by
          simp only [rowInnerStage, rowStage]
          split_ifs <;> first | rfl | omega
        obtain ⟨m3, hm3, hh3⟩ := hm2.set hi2 hj2 (T i j + rc i * T 0 j)
        have ha := addMul_ok (hr i j hi1 hi2 hj2).1 (hr i j hi1 hi2 hj2).2
        simp only [g0, g1, v0, v1, ha]
        refine ⟨m3, hm3, hh3.congr ?_⟩
        intro a b _ _
        simp only [rowInnerStage, rowStage]
        split_ifs <;> first | rfl | omega | simp_all)
    obtain ⟨m4, hm4, hh4⟩ := inner
    refine ⟨m4, hm4, hh4.congr ?_⟩
    intro a b _ hb
    simp only [rowInnerStage, rowStage]
    split_ifs <;> first | rfl | omega

theorem machine_cols (R : Nat → Nat → ℤ) (cc : Nat → ℤ) (n : Nat) (hn : 0 < n) (m0 : Mat ℤ)
    (h0 : Mat.Holds n m0 R)
    (hr : ∀ i j, i < n - 1 → j < n →
      (-2 ^ 31 ≤ cc i * R j (n - 1) ∧ cc i * R j (n - 1) < 2 ^ 31) ∧
      (-2 ^ 31 ≤ R j i + cc i * R j (n - 1) ∧ R j i + cc i * R j (n - 1) < 2 ^ 31)) :
    ∃ m, Machine.mixCols cc n m0 = .ok m ∧ Mat.Holds n m (colStage n R cc (n - 1)) := by
  simp only [Machine.mixCols, sizeMinusOne_pos hn]
  apply forRange_inv _ (fun i m => Mat.Holds n m (colStage n R cc i)) 0 (n - 1) _
    (Nat.zero_le _)
  · refine h0.congr ?_
    intro a b _ _
    simp only [colStage]
    split_ifs <;> first | rfl | omega
  · intro i m _ hi2 hm
    have hin : i < n := by omega
    have inner := forRange_inv (fun j m2 =>
        match m2.get j (n - 1) with
        | .error e => .error e
        | .ok b =>
          match m2.get j i with
          | .error e => .error e
          | .ok a =>
            match Machine.addMul a (cc i) b with
            | .error e => .error e
            | .ok v => m2.set j i v)
      (fun j m2 => Mat.Holds n m2 (colInnerStage n R cc i j)) 0 n m (Nat.zero_le n)
      (hm.congr (by
        intro a b _ _
        simp only [colInnerStage]
        split_ifs <;> first | rfl | omega))
      (by
        intro j m2 _ hj2 hm2
        have g0 := hm2.get hj2 (show n - 1 < n by omega)
        have g1 := hm2.get hj2 hin
        have v0 : colInnerStage n R cc i j j (n - 1) = R j (n - 1) := by
          simp only [colInnerStage, colStage]
          split_ifs <;> first | rfl | omega
        have v1 : colInnerStage n R cc i j j i = R j i := by
          simp only [colInnerStage, colStage]
          split_ifs <;> first | rfl | omega
        obtain ⟨m3, hm3, hh3⟩ := hm2.set hj2 hin (R j i + cc i * R j (n - 1))
        have ha := addMul_ok (hr i j hi2 hj2).1 (hr i j hi2 hj2).2
        simp only [g0, g1, v0, v1, ha]
        refine ⟨m3, hm3, hh3.congr ?_⟩
        intro a b _ _
        simp only [colInnerStage, colStage]
        split_ifs <;> first | rfl | omega | simp_all)
    obtain ⟨m4, hm4, hh4⟩ := inner
    refine ⟨m4, hm4, hh4.congr ?_⟩
    intro a b ha _
    simp only [colInnerStage, colStage]
    split_ifs <;> first | rfl | omega

/-- When no operation of the second and third loops leaves the range of `int`, the
generator in 32-bit arithmetic returns the matrix of the final stage. -/
theorem machine_holds (fresh : Nat → ℤ) (U : Nat → Nat → ℤ) (rc cc : Nat → ℤ) (n : Nat)
    (hn : 0 < n) (d : ℤ)
    (hr : ∀ i j, 1 ≤ i → i < n → j < n →
      (-2 ^ 31 ≤ rc i * triangleStage n fresh U d 0 j ∧
        rc i * triangleStage n fresh U d 0 j < 2 ^ 31) ∧
      (-2 ^ 31 ≤ triangleStage n fresh U d i j + rc i * triangleStage n fresh U d 0 j ∧
        triangleStage n fresh U d i j + rc i * triangleStage n fresh U d 0 j < 2 ^ 31))
    (hc : ∀ i j, i < n - 1 → j < n →
      (-2 ^ 31 ≤ cc i * rowStage (triangleStage n fresh U d) rc n j (n - 1) ∧
        cc i * rowStage (triangleStage n fresh U d) rc n j (n - 1) < 2 ^ 31) ∧
      (-2 ^ 31 ≤ rowStage (triangleStage n fresh U d) rc n j i
          + cc i * rowStage (triangleStage n fresh U d) rc n j (n - 1) ∧
        rowStage (triangleStage n fresh U d) rc n j i
          + cc i * rowStage (triangleStage n fresh U d) rc n j (n - 1) < 2 ^ 31)) :
    ∃ m, Machine.randomMatrix fresh U rc cc n d = .ok m ∧
      Mat.Holds n m (colStage n (rowStage (triangleStage n fresh U d) rc n) cc (n - 1)) := by
  have hs := sizeMinusOne_pos hn
  obtain ⟨m1, hm1, hh1⟩ := rndMatr_upper fresh U n hn
  obtain ⟨m2, hm2, hh2⟩ := hh1.set (show n - 1 < n by omega) (show n - 1 < n by omega) d
  have hh2t : Mat.Holds n m2 (triangleStage n fresh U d) := hh2.congr (fun a b _ _ => rfl)
  obtain ⟨m3, hm3, hh3⟩ := machine_rows (triangleStage n fresh U d) rc n hn m2 hh2t hr
  obtain ⟨m4, hm4, hh4⟩ :=
    machine_cols (rowStage (triangleStage n fresh U d) rc n) cc n hn m3 hh3 hc
  refine ⟨m4, ?_, hh4⟩
  simp only [Machine.randomMatrix, Machine.rndMatr, hs, hm1, hm2, hm3, hm4]

/-! ## One iteration of the main loop, and the runs on integer matrices of order three -/

/-- One iteration of the main loop of `fakeGauss` at step `i`: the two exchanges, the
pivot, and either the early return or the state the next iteration starts from. -/
theorem run_step {n : Nat} (D : ℚ) (i : Nat) (st : GaussState) (hi : i < n)
    (hok : EngineOk n st.support st.fakeRows st.fakeCols)
    (hsign : st.sign = 1 ∨ st.sign = -1)
    (hdet : (st.sign : ℚ) * (reduced n i (view st.support st.fakeRows st.fakeCols)).det = D) :
    ∃ (mx1 mx2 : Nat) (rows1 cols2 : List Nat) (sg : ℤ),
      i ≤ mx1 ∧ mx1 < n ∧ i ≤ mx2 ∧ mx2 < n ∧ (sg = 1 ∨ sg = -1) ∧
      (∀ r c, view st.support rows1 cols2 r c
        = view st.support st.fakeRows st.fakeCols (Equiv.swap i mx1 r) (Equiv.swap i mx2 c)) ∧
      (sg : ℚ) * (reduced n i (view st.support rows1 cols2)).det = D ∧
      (view st.support rows1 cols2 i i = 0 → D = 0) ∧
      (|view st.support rows1 cols2 i i| ≤ EPSILON →
        ∀ f, fakeGaussLoop (f + 1) i st
          = .ok (.singular i (view st.support rows1 cols2 i i))) ∧
      (EPSILON < |view st.support rows1 cols2 i i| →
        ∃ sup3, EngineOk n sup3 rows1 cols2 ∧
          (∀ f, fakeGaussLoop (f + 1) i st = fakeGaussLoop f (i + 1) ⟨sg, sup3, rows1, cols2⟩) ∧
          (∀ r c, r < n → c < n → view sup3 rows1 cols2 r c =
            if i < r ∧ i < c then
              view st.support rows1 cols2 r c
                - view st.support rows1 cols2 r i / view st.support rows1 cols2 i i
                  * view st.support rows1 cols2 i c
            else view st.support rows1 cols2 r c) ∧
          (sg : ℚ) * (reduced n (i + 1) (view sup3 rows1 cols2)).det = D) := by
  obtain ⟨mx1, rows1, hsw1, a1, a2, a3, _, hok1, hget1⟩ := fakeSwap_rows_ok hok hi
  obtain ⟨mx2, cols2, hsw2, b1, b2, b3, _, hok2, hget2⟩ := fakeSwap_cols_ok hok1 hi
  have hV1 : ∀ r c, view st.support rows1 st.fakeCols r c
      = view st.support st.fakeRows st.fakeCols (Equiv.swap i mx1 r) c := by
    intro r c; simp only [view, hget1]
  have hV2 : ∀ r c, view st.support rows1 cols2 r c
      = view st.support rows1 st.fakeCols r (Equiv.swap i mx2 c) := by
    intro r c; simp only [view, hget2]
  have hd1 := reduced_swap_rows hi a1 a2 (view st.support st.fakeRows st.fakeCols)
    (view st.support rows1 st.fakeCols) (fun r c _ _ => hV1 r c)
  have hd2 := reduced_swap_cols hi b1 b2 (view st.support rows1 st.fakeCols)
    (view st.support rows1 cols2) (fun r c _ _ => hV2 r c)
  have hpe := elemAt_ok hok2 hi hi
  have hpv : view st.support rows1 cols2 i i = view st.support rows1 st.fakeCols i mx2 := by
    rw [hV2, Equiv.swap_apply_left]
  have hsg : st.sign * (if mx1 = i then 1 else -1) * (if mx2 = i then 1 else -1) = 1 ∨
      st.sign * (if mx1 = i then 1 else -1) * (if mx2 = i then 1 else -1) = -1 := by
    rcases hsign with h | h <;> rw [h] <;> split_ifs <;> simp
  have hD : ((st.sign * (if mx1 = i then 1 else -1) * (if mx2 = i then 1 else -1) : ℤ) : ℚ)
      * (reduced n i (view st.support rows1 cols2)).det = D := by
    rw [hd2, hd1, ← hdet]
    push_cast
    by_cases e1 : mx1 = i <;> by_cases e2 : mx2 = i <;> simp [e1, e2]
  refine ⟨mx1, mx2, rows1, cols2,
    st.sign * (if mx1 = i then 1 else -1) * (if mx2 = i then 1 else -1),
    a1, a2, b1, b2, hsg, ?_, hD, ?_, ?_, ?_⟩
  · intro r c
    rw [hV2, hV1]
  · intro hp0
    have hz : (reduced n i (view st.support rows1 st.fakeCols)).det = 0 := by
      apply reduced_zero_row hi
      intro c hc1 hc2
      have := b3 c hc1 hc2
      rw [← hpv, hp0, abs_zero] at this
      exact abs_eq_zero.1 (le_antisymm this (abs_nonneg _))
    rw [← hdet]
    have h5 := signFactor_sq (mx1 = i)
      ((reduced n i (view st.support st.fakeRows st.fakeCols)).det)
    rw [← hd1, hz, mul_zero] at h5
    rw [← h5, mul_zero]
  · intro hle f
    simp only [fakeGaussLoop, hsw1, hsw2, hpe, hle, if_true]
  · intro hpos
    have hle : ¬ |view st.support rows1 cols2 i i| ≤ EPSILON := not_le.2 hpos
    obtain ⟨sup3, hel, hok3, hV3⟩ := eliminateBelow_ok hok2 hi (view st.support rows1 cols2 i i)
    have hne : view st.support rows1 cols2 i i ≠ 0 := by
      intro h0
      rw [h0, abs_zero] at hpos
      exact absurd hpos (not_lt.2 (le_of_lt EPSILON_pos))
    have hd3 := reduced_eliminate hi (view st.support rows1 cols2) (view sup3 rows1 cols2) hne hV3
    refine ⟨sup3, hok3, ?_, hV3, ?_⟩
    · intro f
      simp only [fakeGaussLoop, hsw1, hsw2, hpe, hle, if_false, hel]
    · rw [hd3]; exact hD

theorem reduced_last (k : Nat) (V : Nat → Nat → ℚ) :
    reduced (k + 1) k V = reduced (k + 1) (k + 1) V := by
  ext r c
  have hr := r.isLt
  simp only [reduced, Matrix.of_apply]
  by_cases h : c.val < k ∧ c.val < r.val
  · have h2 : c.val < k + 1 ∧ c.val < r.val := by omega
    simp only [h, h2, and_self, if_true]
  · have h2 : ¬ (c.val < k + 1 ∧ c.val < r.val) := by omega
    simp only [h, h2, if_false]

theorem int_abs_ge_one {x : ℚ} (z : ℤ) (hx : x = z) (h0 : x ≠ 0) : 1 ≤ |x| := by
  have hz : z ≠ 0 := by
    rintro rfl
    exact h0 (by rw [hx]; simp)
  have h1 : (1 : ℤ) ≤ |z| := Int.one_le_abs hz
  rw [hx, ← Int.cast_abs]
  exact_mod_cast h1

/-- The run of the main loop on a `3 x 3` matrix of integers of absolute value at most
`B` goes through its three iterations when `EPSILON * B < 1` and the determinant exceeds
`EPSILON * 2 * B ^ 2` in absolute value: the first pivot is a nonzero integer, the product
of the first two is a nonzero integer of absolute value at most `2 * B ^ 2`, and the
product of the three is the determinant up to sign. -/
theorem run_completes_three (arr : List ℚ) (hsz : arr.length = 3 * 3) (B : ℚ)
    (hint : ∀ a b, a < 3 → b < 3 →
      ∃ z : ℤ, (⟨3, 3, arr, hsz⟩ : Mat ℚ).entry a b = z ∧
        |(⟨3, 3, arr, hsz⟩ : Mat ℚ).entry a b| ≤ B)
    (h1 : EPSILON * B < 1)
    (h2 : EPSILON * (2 * B ^ 2) < |(⟨3, 3, arr, hsz⟩ : Mat ℚ).mathDet|) :
    ∃ st, fakeGaussRun (⟨3, 3, arr, hsz⟩ : Mat ℚ) = .ok (.completed st) := by
  have hB : 0 ≤ B := le_trans (abs_nonneg _) (hint 0 0 (by decide) (by decide)).choose_spec.2
  have hD0 : (⟨3, 3, arr, hsz⟩ : Mat ℚ).mathDet ≠ 0 := by
    intro h0
    rw [h0, abs_zero] at h2
    have : 0 ≤ EPSILON * (2 * B ^ 2) := by
      have := EPSILON_pos
      positivity
    exact absurd h2 (not_lt.2 this)
  have hok0 := engineOk_init (⟨3, 3, arr, hsz⟩ : Mat ℚ) rfl
  have hdet0 : (((1 : ℤ) : ℚ)) * (reduced 3 0 (view (⟨3, 3, arr, hsz⟩ : Mat ℚ)
      (createFakeRows (⟨3, 3, arr, hsz⟩ : Mat ℚ))
      (createFakeCols (⟨3, 3, arr, hsz⟩ : Mat ℚ)))).det
      = (⟨3, 3, arr, hsz⟩ : Mat ℚ).mathDet := by
    have := reduced_init (⟨3, 3, arr, hsz⟩ : Mat ℚ) rfl
    simp only at this
    rw [this]
    simp [Mat.mathDet]
  have hV0 : ∀ r c, r < 3 → c < 3 → view (⟨3, 3, arr, hsz⟩ : Mat ℚ)
      (createFakeRows (⟨3, 3, arr, hsz⟩ : Mat ℚ))
      (createFakeCols (⟨3, 3, arr, hsz⟩ : Mat ℚ)) r c
      = (⟨3, 3, arr, hsz⟩ : Mat ℚ).entry r c := by
    intro r c hr hc
    simp only [view, Mat.entry]
    rw [createFakeRows_getD (⟨3, 3, arr, hsz⟩ : Mat ℚ) hr,
      createFakeCols_getD (⟨3, 3, arr, hsz⟩ : Mat ℚ) hc]
  -- step 0
  obtain ⟨x1, y1, rowsA, colsA, sgA, hx1, hx1n, hy1, hy1n, hsgA, hWA, hDA, hzA, hsA, hcA⟩ :=
    run_step (n := 3) (⟨3, 3, arr, hsz⟩ : Mat ℚ).mathDet 0
      ⟨1, ⟨3, 3, arr, hsz⟩, createFakeRows (⟨3, 3, arr, hsz⟩ : Mat ℚ),
        createFakeCols (⟨3, 3, arr, hsz⟩ : Mat ℚ)⟩ (by decide) hok0 (Or.inl rfl) hdet0
  simp only at hWA hDA hzA hsA hcA
  have hIA : ∀ r c, r < 3 → c < 3 → ∃ z : ℤ,
      view (⟨3, 3, arr, hsz⟩ : Mat ℚ) rowsA colsA r c = z ∧
        |view (⟨3, 3, arr, hsz⟩ : Mat ℚ) rowsA colsA r c| ≤ B := by
    intro r c hr hc
    rw [hWA, hV0 _ _ (swap_lt (by decide) hx1n hr) (swap_lt (by decide) hy1n hc)]
    exact hint _ _ (swap_lt (by decide) hx1n hr) (swap_lt (by decide) hy1n hc)
  obtain ⟨z1, hz1, hb1⟩ := hIA 0 0 (by decide) (by decide)
  have hp1 : view (⟨3, 3, arr, hsz⟩ : Mat ℚ) rowsA colsA 0 0 ≠ 0 := fun h => hD0 (hzA h)
  have hp1a : 1 ≤ |view (⟨3, 3, arr, hsz⟩ : Mat ℚ) rowsA colsA 0 0| :=
    int_abs_ge_one z1 hz1 hp1
  obtain ⟨supA, hokA, hloopA, hVA, hdetA⟩ := hcA (lt_of_lt_of_le EPSILON_lt_one hp1a)
  -- step 1
  obtain ⟨x2, y2, rowsB, colsB, sgB, hx2, hx2n, hy2, hy2n, hsgB, hWB, hDB, hzB, hsB, hcB⟩ :=
    run_step (n := 3) (⟨3, 3, arr, hsz⟩ : Mat ℚ).mathDet 1 ⟨sgA, supA, rowsA, colsA⟩
      (by decide) hokA hsgA hdetA
  simp only at hWB hDB hzB hsB hcB
  have hp2 : view supA rowsB colsB 1 1 ≠ 0 := fun h => hD0 (hzB h)
  have hp2v : view supA rowsB colsB 1 1
      = view (⟨3, 3, arr, hsz⟩ : Mat ℚ) rowsA colsA x2 y2
        - view (⟨3, 3, arr, hsz⟩ : Mat ℚ) rowsA colsA x2 0
          / view (⟨3, 3, arr, hsz⟩ : Mat ℚ) rowsA colsA 0 0
          * view (⟨3, 3, arr, hsz⟩ : Mat ℚ) rowsA colsA 0 y2 := by
    rw [hWB, Equiv.swap_apply_left, Equiv.swap_apply_left, hVA x2 y2 hx2n hy2n,
      if_pos ⟨by omega, by omega⟩]
  obtain ⟨zab, hzab, hbab⟩ := hIA x2 y2 hx2n hy2n
  obtain ⟨za0, hza0, hba0⟩ := hIA x2 0 hx2n (by decide)
  obtain ⟨z0b, hz0b, hb0b⟩ := hIA 0 y2 (by decide) hy2n
  have hq : view (⟨3, 3, arr, hsz⟩ : Mat ℚ) rowsA colsA 0 0 * view supA rowsB colsB 1 1
      = ((z1 * zab - za0 * z0b : ℤ) : ℚ) := by
    rw [hp2v]
    field_simp
    rw [hz1, hzab, hza0, hz0b]
    ring
  have hqne : ((z1 * zab - za0 * z0b : ℤ) : ℚ) ≠ 0 := by
    rw [← hq]
    exact mul_ne_zero hp1 hp2
  have hq1 : 1 ≤ |view (⟨3, 3, arr, hsz⟩ : Mat ℚ) rowsA colsA 0 0|
      * |view supA rowsB colsB 1 1| := by
    rw [← abs_mul, hq]
    exact int_abs_ge_one (z1 * zab - za0 * z0b) rfl hqne
  have hqB : |view (⟨3, 3, arr, hsz⟩ : Mat ℚ) rowsA colsA 0 0|
      * |view supA rowsB colsB 1 1| ≤ 2 * B ^ 2 := by
    rw [← abs_mul, hq]
    push_cast
    rw [← hz1, ← hzab, ← hza0, ← hz0b]
    calc |view (⟨3, 3, arr, hsz⟩ : Mat ℚ) rowsA colsA 0 0
            * view (⟨3, 3, arr, hsz⟩ : Mat ℚ) rowsA colsA x2 y2
          - view (⟨3, 3, arr, hsz⟩ : Mat ℚ) rowsA colsA x2 0
            * view (⟨3, 3, arr, hsz⟩ : Mat ℚ) rowsA colsA 0 y2|
        ≤ |view (⟨3, 3, arr, hsz⟩ : Mat ℚ) rowsA colsA 0 0
            * view (⟨3, 3, arr, hsz⟩ : Mat ℚ) rowsA colsA x2 y2|
          + |view (⟨3, 3, arr, hsz⟩ : Mat ℚ) rowsA colsA x2 0
            * view (⟨3, 3, arr, hsz⟩ : Mat ℚ) rowsA colsA 0 y2| := abs_sub _ _
      _ ≤ B * B + B * B := by
          rw [abs_mul, abs_mul]
          exact add_le_add (mul_le_mul hb1 hbab (abs_nonneg _) hB)
            (mul_le_mul hba0 hb0b (abs_nonneg _) hB)
      _ = 2 * B ^ 2 := by ring
  have hp1pos : 0 < |view (⟨3, 3, arr, hsz⟩ : Mat ℚ) rowsA colsA 0 0| :=
    lt_of_lt_of_le one_pos hp1a
  have hp2a : EPSILON < |view supA rowsB colsB 1 1| := by
    by_contra hcon
    have hle : |view supA rowsB colsB 1 1| ≤ EPSILON := not_lt.1 hcon
    have : |view (⟨3, 3, arr, hsz⟩ : Mat ℚ) rowsA colsA 0 0| * |view supA rowsB colsB 1 1|
        ≤ B * EPSILON := mul_le_mul hb1 hle (abs_nonneg _) hB
    have h3 : B * EPSILON < 1 := by rw [mul_comm]; exact h1
    exact absurd (lt_of_le_of_lt this h3) (not_lt.2 hq1)
  obtain ⟨supB, hokB, hloopB, hVB, hdetB⟩ := hcB hp2a
  -- step 2
  obtain ⟨x3, y3, rowsC, colsC, sgC, hx3, hx3n, hy3, hy3n, hsgC, hWC, hDC, hzC, hsC, hcC⟩ :=
    run_step (n := 3) (⟨3, 3, arr, hsz⟩ : Mat ℚ).mathDet 2 ⟨sgB, supB, rowsB, colsB⟩
      (by decide) hokB hsgB hdetB
  simp only at hWC hDC hzC hsC hcC
  have e00 : view supB rowsC colsC 0 0 = view (⟨3, 3, arr, hsz⟩ : Mat ℚ) rowsA colsA 0 0 := by
    rw [hWC, swap_fix_lt hx3 (by decide), swap_fix_lt hy3 (by decide),
      hVB 0 0 (by decide) (by decide), if_neg (by omega), hWB,
      swap_fix_lt hx2 (by decide), swap_fix_lt hy2 (by decide),
      hVA 0 0 (by decide) (by decide), if_neg (by omega)]
  have e11 : view supB rowsC colsC 1 1 = view supA rowsB colsB 1 1 := by
    rw [hWC, swap_fix_lt hx3 (by decide), swap_fix_lt hy3 (by decide),
      hVB 1 1 (by decide) (by decide), if_neg (by omega)]
  have hprod : |(⟨3, 3, arr, hsz⟩ : Mat ℚ).mathDet|
      = |view (⟨3, 3, arr, hsz⟩ : Mat ℚ) rowsA colsA 0 0| * |view supA rowsB colsB 1 1|
        * |view supB rowsC colsC 2 2| := by
    rw [← hDC, reduced_last 2, reduced_final, Finset.prod_range_succ, Finset.prod_range_succ,
      Finset.prod_range_one, e00, e11, abs_mul, abs_mul, abs_mul]
    rcases hsgC with h | h <;> rw [h] <;> simp
  have hp3a : EPSILON < |view supB rowsC colsC 2 2| := by
    by_contra hcon
    have hle : |view supB rowsC colsC 2 2| ≤ EPSILON := not_lt.1 hcon
    have : |(⟨3, 3, arr, hsz⟩ : Mat ℚ).mathDet| ≤ 2 * B ^ 2 * EPSILON := by
      rw [hprod]
      exact mul_le_mul hqB hle (abs_nonneg _) (by positivity)
    have h3 : 2 * B ^ 2 * EPSILON < |(⟨3, 3, arr, hsz⟩ : Mat ℚ).mathDet| := by
      rw [mul_comm]; exact h2
    exact absurd (lt_of_le_of_lt this h3) (lt_irrefl _)
  obtain ⟨supC, hokC, hloopC, hVC, hdetC⟩ := hcC hp3a
  refine ⟨⟨sgC, supC, rowsC, colsC⟩, ?_⟩
  show fakeGaussLoop 3 0 ⟨1, ⟨3, 3, arr, hsz⟩, createFakeRows (⟨3, 3, arr, hsz⟩ : Mat ℚ),
    createFakeCols (⟨3, 3, arr, hsz⟩ : Mat ℚ)⟩ = _
  rw [hloopA 2, hloopB 1, hloopC 0]
  rfl

/-! ## Rounding to binary64: the error of one operation -/

theorem pow2_eq_zpow (e : ℤ) : pow2 e = (2 : ℚ) ^ e := by
  unfold pow2
  by_cases h : 0 ≤ e
  · rw [if_pos h]
    obtain ⟨k, rfl⟩ := Int.eq_ofNat_of_zero_le h
    simp
  · rw [if_neg h]
    have h2 : 0 ≤ -e := by omega
    obtain ⟨k, hk⟩ := Int.eq_ofNat_of_zero_le h2
    have he : e = -(k : ℤ) := by omega
    rw [hk, he]
    simp

theorem pow2_pos (e : ℤ) : 0 < pow2 e := by
  rw [pow2_eq_zpow]
  positivity

theorem floorLog2_spec {q : ℚ} (hq : 0 < q) :
    pow2 (floorLog2 q) ≤ q ∧ q < pow2 (floorLog2 q + 1) := by
  unfold floorLog2
  simp only
  split_ifs with h1 h2
  · exact h1
  · refine ⟨h2.1, ?_⟩
    rw [sub_add_cancel]
    exact h2.2
  · rw [pow2_eq_zpow, pow2_eq_zpow]
    exact ⟨by exact_mod_cast Int.zpow_log_le_self (by norm_num) hq,
      by exact_mod_cast Int.lt_zpow_succ_log_self (by norm_num) q⟩

theorem roundHalfEven_err (x : ℚ) : |((roundHalfEven x : ℤ) : ℚ) - x| ≤ 1 / 2 := by
  have h1 := Int.floor_le x
  have h2 := Int.lt_floor_add_one x
  unfold roundHalfEven
  split_ifs with a b c
  · rw [abs_le]; constructor <;> linarith
  · rw [abs_le]; push_cast; constructor <;> linarith
  · rw [abs_le]; constructor <;> linarith
  · rw [abs_le]; push_cast; constructor <;> linarith

theorem roundHalfEven_nonneg {x : ℚ} (hx : 0 ≤ x) : 0 ≤ roundHalfEven x := by
  have h1 : 0 ≤ ⌊x⌋ := Int.floor_nonneg.2 hx
  unfold roundHalfEven
  split_ifs <;> omega

/-- The rounding of a magnitude `q > 0` that is not huge: the result is finite and differs
from `q` by at most `F64.err q`. -/
theorem roundMag_spec {q : ℚ} (hq : 0 < q) (hle : q ≤ 10 ^ 9) :
    ∃ r, roundMag q = some r ∧ 0 ≤ r ∧ |r - q| ≤ F64.err q := by
  unfold F64.err F64.eta
  obtain ⟨hlo, _⟩ := floorLog2_spec hq
  have hQ : 0 < pow2 (max (floorLog2 q) (-1022) - 52) := pow2_pos _
  have herr := roundHalfEven_err (q / pow2 (max (floorLog2 q) (-1022) - 52))
  have hnn := roundHalfEven_nonneg (le_of_lt (div_pos hq hQ))
  have hdiff : |((roundHalfEven (q / pow2 (max (floorLog2 q) (-1022) - 52)) : ℤ) : ℚ)
      * pow2 (max (floorLog2 q) (-1022) - 52) - q|
      ≤ pow2 (max (floorLog2 q) (-1022) - 52) / 2 := by
    have e : ((roundHalfEven (q / pow2 (max (floorLog2 q) (-1022) - 52)) : ℤ) : ℚ)
        * pow2 (max (floorLog2 q) (-1022) - 52) - q
        = (((roundHalfEven (q / pow2 (max (floorLog2 q) (-1022) - 52)) : ℤ) : ℚ)
          - q / pow2 (max (floorLog2 q) (-1022) - 52))
          * pow2 (max (floorLog2 q) (-1022) - 52) := by
      field_simp
    rw [e, abs_mul, abs_of_pos hQ]
    calc _ ≤ 1 / 2 * pow2 (max (floorLog2 q) (-1022) - 52) :=
          mul_le_mul_of_nonneg_right herr (le_of_lt hQ)
      _ = _ := by ring
  have hquant : pow2 (max (floorLog2 q) (-1022) - 52) / 2 ≤ q / 2 ^ 53 + 1 / 2 ^ 1075 := by
    rcases le_total (-1022) (floorLog2 q) with h | h
    · rw [max_eq_left h, pow2_eq_zpow, zpow_sub₀ (by norm_num : (2 : ℚ) ≠ 0)]
      rw [pow2_eq_zpow] at hlo
      have h52 : ((2 : ℚ) ^ (52 : ℤ)) = 2 ^ 52 := by norm_cast
      rw [h52]
      have : (2 : ℚ) ^ floorLog2 q / 2 ^ 52 / 2 ≤ q / 2 ^ 53 := by
        rw [div_div]
        have : (2 : ℚ) ^ 52 * 2 = 2 ^ 53 := by norm_num
        rw [this]
        exact div_le_div_of_nonneg_right hlo (by positivity)
      have h0 : (0 : ℚ) ≤ 1 / 2 ^ 1075 := by positivity
      linarith
    · rw [max_eq_right h, pow2_eq_zpow]
      have e : ((2 : ℚ) ^ ((-1022 : ℤ) - 52)) / 2 = 1 / 2 ^ 1075 := by
        rw [show ((-1022 : ℤ) - 52) = -(1074 : ℕ) by norm_num, zpow_neg, zpow_natCast]
        rw [show (2 : ℚ) ^ 1075 = 2 ^ 1074 * 2 by norm_num]
        field_simp
      rw [e]
      have h0 : (0 : ℚ) ≤ q / 2 ^ 53 := by positivity
      linarith
  have hr := le_trans hdiff hquant
  have hsmall : ¬ pow2 1024 ≤ ((roundHalfEven (q / pow2 (max (floorLog2 q) (-1022) - 52)) : ℤ) : ℚ)
      * pow2 (max (floorLog2 q) (-1022) - 52) := by
    rw [not_le]
    have h1 := (abs_le.1 hr).2
    have h2 : q / 2 ^ 53 ≤ q := div_le_self (le_of_lt hq) (by norm_num)
    have h3 : (1 : ℚ) / 2 ^ 1075 ≤ 1 := by
      rw [div_le_one (by positivity)]
      exact one_le_pow₀ (by norm_num)
    have h4 : (2 * 10 ^ 9 + 1 : ℚ) < pow2 1024 := by
      rw [pow2_eq_zpow]
      norm_num
    linarith
  refine ⟨_, by simp only [roundMag, hsmall, if_false], ?_, hr⟩
  exact mul_nonneg (by exact_mod_cast hnn) (le_of_lt hQ)

theorem F64.eta_pos : 0 < F64.eta := by
  unfold F64.eta; positivity

theorem F64.eta_le : F64.eta ≤ 1 / 10 ^ 30 := by
  unfold F64.eta
  rw [div_le_div_iff₀ (by positivity) (by positivity)]
  norm_num

theorem F64.err_le {q B : ℚ} (h0 : 0 ≤ q) (h : q ≤ B) :
    F64.err q ≤ B / 10 ^ 15 + 1 / 10 ^ 30 := by
  unfold F64.err
  have h1 := F64.eta_le
  have h2 : q / 2 ^ 53 ≤ B / 2 ^ 53 := div_le_div_of_nonneg_right h (by positivity)
  have h3 : B / 2 ^ 53 ≤ B / 10 ^ 15 :=
    div_le_div_of_nonneg_left (le_trans h0 h) (by positivity) (by norm_num)
  linarith

theorem F64.err_nonneg {q : ℚ} (h : 0 ≤ q) : 0 ≤ F64.err q := by
  unfold F64.err
  have := F64.eta_pos
  positivity

theorem le_of_mul_bound {a b c K : ℚ} (h : c ≤ a * b) (ha : a ≤ K) (hb : 0 ≤ b)
    (hK : 0 < K) : c / K ≤ b := by
  rw [div_le_iff₀ hK]
  have := mul_le_mul_of_nonneg_right ha hb
  rw [mul_comm b K]
  exact le_trans h this

theorem abs_div_le {x p X c : ℚ} (hx : |x| ≤ X) (hp : c ≤ |p|) (hc : 0 < c) :
    |x / p| ≤ X / c := by
  rw [abs_div]
  exact div_le_div₀ (le_trans (abs_nonneg _) hx) hx hc hp

theorem roundMag_zero : roundMag 0 = some 0 := by
  have h : ¬ pow2 1024 ≤ (0 : ℚ) := not_le.2 (pow2_pos 1024)
  have hr : roundHalfEven 0 = 0 := by
    simp [roundHalfEven]
  simp only [roundMag, zero_div, hr, Int.cast_zero, zero_mul, h, if_false]

theorem F64.mul_fin (s t : Bool) (a b : ℚ) : F64.mul (.fin s a) (.fin t b) =
    match roundMag (a * b) with
    | none => .inf (xor s t)
    | some r => .fin (xor s t) (if a * b = 0 then 0 else r) := rfl

theorem F64.div_fin (s t : Bool) (a b : ℚ) : F64.div (.fin s a) (.fin t b) =
    if b = 0 then (if a = 0 then .nan else .inf (xor s t))
    else
      match roundMag (a / b) with
      | none => .inf (xor s t)
      | some r => .fin (xor s t) (if a = 0 then 0 else r) := rfl

theorem F64.val_abs (s : Bool) {a : ℚ} (ha : 0 ≤ a) : |F64.val s a| = a := by
  cases s
  · simp [F64.val, abs_of_nonneg ha]
  · simp [F64.val, abs_of_nonneg ha]

theorem F64.val_mul (s t : Bool) (a b : ℚ) :
    F64.val (xor s t) (a * b) = F64.val s a * F64.val t b := by
  cases s <;> cases t <;> simp [F64.val]

theorem F64.ofRat_spec (z : Bool) (q : ℚ) (hq : |q| ≤ 10 ^ 9) :
    (F64.ofRat z q).IsFinite ∧
      |(F64.ofRat z q).toRat - q| ≤ F64.err |q| := by
  unfold F64.ofRat
  by_cases h0 : q = 0
  · rw [if_pos h0, h0]
    refine ⟨le_refl (0 : ℚ), ?_⟩
    cases z <;> simp [F64.toRat, F64.val, F64.err_nonneg]
  · rw [if_neg h0]
    obtain ⟨r, hr, hr0, herr⟩ := roundMag_spec (abs_pos.2 h0) hq
    rw [hr]
    refine ⟨hr0, ?_⟩
    show |F64.val (decide (q < 0)) r - q| ≤ _
    by_cases hneg : q < 0
    · have e : |F64.val (decide (q < 0)) r - q| = |r - (|q|)| := by
        rw [abs_of_neg hneg]
        simp only [F64.val, hneg, decide_True, if_true]
        rw [← abs_neg]
        congr 1
        ring
      rw [e]; exact herr
    · have e : |F64.val (decide (q < 0)) r - q| = |r - (|q|)| := by
        rw [abs_of_nonneg (not_lt.1 hneg)]
        simp [F64.val, hneg]
      rw [e]; exact herr

theorem F64.sub_spec (x y : F64) (hx : x.IsFinite) (hy : y.IsFinite)
    (hb : |x.toRat - y.toRat| ≤ 10 ^ 9) :
    (F64.sub x y).IsFinite ∧
      |(F64.sub x y).toRat - (x.toRat - y.toRat)|
        ≤ F64.err |x.toRat - y.toRat| := by
  cases x with
  | fin s a =>
    cases y with
    | fin t b => exact F64.ofRat_spec _ _ hb
    | inf t => exact absurd hy id
    | nan => exact absurd hy id
  | inf s => exact absurd hx id
  | nan => exact absurd hx id

theorem F64.mul_spec (x y : F64) (hx : x.IsFinite) (hy : y.IsFinite)
    (hb : |x.toRat * y.toRat| ≤ 10 ^ 9) :
    (F64.mul x y).IsFinite ∧
      |(F64.mul x y).toRat - x.toRat * y.toRat|
        ≤ F64.err |x.toRat * y.toRat| := by
  cases x with
  | fin s a =>
    cases y with
    | fin t b =>
      have ha : 0 ≤ a := hx
      have hb0 : 0 ≤ b := hy
      have hab : |F64.val s a * F64.val t b| = a * b := by
        rw [abs_mul, F64.val_abs s ha, F64.val_abs t hb0]
      simp only [F64.toRat] at hb ⊢
      rw [hab] at hb ⊢
      by_cases h0 : a * b = 0
      · rw [F64.mul_fin, h0, roundMag_zero]
        simp only [if_true]
        refine ⟨le_refl (0 : ℚ), ?_⟩
        rw [← F64.val_mul, h0]
        cases (xor s t) <;> simp [F64.toRat, F64.val, F64.err_nonneg]
      · have hpos : 0 < a * b := lt_of_le_of_ne (mul_nonneg ha hb0) (Ne.symm h0)
        obtain ⟨r, hr, hr0, herr⟩ := roundMag_spec hpos hb
        rw [F64.mul_fin, hr]
        simp only [h0, if_false]
        refine ⟨hr0, ?_⟩
        rw [← F64.val_mul]
        show |F64.val (xor s t) r - F64.val (xor s t) (a * b)| ≤ _
        cases (xor s t)
        · simpa [F64.val] using herr
        · simp only [F64.val, if_true]
          rw [show -r - -(a * b) = -(r - a * b) by ring, abs_neg]
          exact herr
    | inf t => exact absurd hy id
    | nan => exact absurd hy id
  | inf s => exact absurd hx id
  | nan => exact absurd hx id

theorem F64.val_div (s t : Bool) (a b : ℚ) :
    F64.val (xor s t) (a / b) = F64.val s a / F64.val t b := by
  cases s <;> cases t <;> simp [F64.val, neg_div, div_neg]

theorem F64.div_spec (x y : F64) (hx : x.IsFinite) (hy : y.IsFinite) (hy0 : y.toRat ≠ 0)
    (hb : |x.toRat / y.toRat| ≤ 10 ^ 9) :
    (F64.div x y).IsFinite ∧
      |(F64.div x y).toRat - x.toRat / y.toRat|
        ≤ F64.err |x.toRat / y.toRat| := by
  cases x with
  | fin s a =>
    cases y with
    | fin t b =>
      have ha : 0 ≤ a := hx
      have hb0 : 0 ≤ b := hy
      have hbne : b ≠ 0 := by
        intro h
        apply hy0
        rw [h]
        cases t <;> simp [F64.toRat, F64.val]
      have hab : |F64.val s a / F64.val t b| = a / b := by
        rw [abs_div, F64.val_abs s ha, F64.val_abs t hb0]
      simp only [F64.toRat] at hb ⊢
      rw [hab] at hb ⊢
      by_cases h0 : a = 0
      · rw [F64.div_fin, if_neg hbne, h0, zero_div, roundMag_zero]
        simp only [if_true]
        refine ⟨le_refl (0 : ℚ), ?_⟩
        have : F64.val s 0 = 0 := by cases s <;> simp [F64.val]
        rw [this, zero_div]
        cases (xor s t) <;> simp [F64.toRat, F64.val, F64.err_nonneg]
      · have hpos : 0 < a / b :=
          div_pos (lt_of_le_of_ne ha (Ne.symm h0)) (lt_of_le_of_ne hb0 (Ne.symm hbne))
        obtain ⟨r, hr, hr0, herr⟩ := roundMag_spec hpos hb
        rw [F64.div_fin, if_neg hbne, hr]
        simp only [h0, if_false]
        refine ⟨hr0, ?_⟩
        rw [← F64.val_div]
        show |F64.val (xor s t) r - F64.val (xor s t) (a / b)| ≤ _
        cases (xor s t)
        · simpa [F64.val] using herr
        · simp only [F64.val, if_true]
          rw [show -r - -(a / b) = -(r - a / b) by ring, abs_neg]
          exact herr
    | inf t => exact absurd hy id
    | nan => exact absurd hy id
  | inf s => exact absurd hx id
  | nan => exact absurd hx id

theorem F64.abs_spec (x : F64) (hx : x.IsFinite) :
    (F64.abs x).IsFinite ∧ (F64.abs x).toRat = |x.toRat| := by
  cases x with
  | fin s a =>
    have ha : 0 ≤ a := hx
    refine ⟨ha, ?_⟩
    show F64.val false a = |F64.val s a|
    rw [F64.val_abs s ha]
    simp [F64.val]
  | inf s => exact absurd hx id
  | nan => exact absurd hx id

theorem F64.neg_spec (x : F64) (hx : x.IsFinite) :
    (F64.neg x).IsFinite ∧ (F64.neg x).toRat = -x.toRat := by
  cases x with
  | fin s a =>
    have ha : 0 ≤ a := hx
    refine ⟨ha, ?_⟩
    cases s <;> simp [F64.neg, F64.toRat, F64.val]
  | inf s => exact absurd hx id
  | nan => exact absurd hx id

theorem F64.lt_spec (x y : F64) (hx : x.IsFinite) (hy : y.IsFinite) :
    F64.lt x y = decide (x.toRat < y.toRat) := by
  cases x with
  | fin s a =>
    cases y with
    | fin t b => rfl
    | inf t => exact absurd hy id
    | nan => exact absurd hy id
  | inf s => exact absurd hx id
  | nan => exact absurd hx id

theorem F64.le_spec (x y : F64) (hx : x.IsFinite) (hy : y.IsFinite) :
    F64.le x y = decide (x.toRat ≤ y.toRat) := by
  cases x with
  | fin s a =>
    cases y with
    | fin t b => rfl
    | inf t => exact absurd hy id
    | nan => exact absurd hy id
  | inf s => exact absurd hx id
  | nan => exact absurd hx id

theorem roundHalfEven_intCast (z : ℤ) : roundHalfEven (z : ℚ) = z := by
  unfold roundHalfEven
  simp

/-- An integer magnitude below `2 ^ 53` is a `double`: its rounding is exact. -/
theorem roundMag_natCast (n : Nat) (h1 : 1 ≤ n) (h2 : n < 2 ^ 53) :
    roundMag (n : ℚ) = some (n : ℚ) := by
  have hq : (0 : ℚ) < n := by exact_mod_cast h1
  obtain ⟨hlo, hhi⟩ := floorLog2_spec hq
  rw [pow2_eq_zpow] at hlo hhi
  have he0 : 0 ≤ floorLog2 (n : ℚ) := by
    by_contra hcon
    have h3 : floorLog2 (n : ℚ) + 1 ≤ 0 := by omega
    have h4 : (2 : ℚ) ^ (floorLog2 (n : ℚ) + 1) ≤ 2 ^ (0 : ℤ) :=
      zpow_le_zpow_right₀ (by norm_num) h3
    have h5 : (1 : ℚ) ≤ n := by exact_mod_cast h1
    rw [zpow_zero] at h4
    linarith
  have he1 : floorLog2 (n : ℚ) < 53 := by
    by_contra hcon
    have h3 : (53 : ℤ) ≤ floorLog2 (n : ℚ) := by omega
    have h4 : (2 : ℚ) ^ (53 : ℤ) ≤ 2 ^ floorLog2 (n : ℚ) :=
      zpow_le_zpow_right₀ (by norm_num) h3
    have h5 : (n : ℚ) < 2 ^ 53 := by exact_mod_cast h2
    have h6 : ((2 : ℚ) ^ (53 : ℤ)) = 2 ^ 53 := by norm_cast
    rw [h6] at h4
    linarith
  obtain ⟨k, hk⟩ := Int.eq_ofNat_of_zero_le he0
  have hk2 : k < 53 := by omega
  have hmax : max (floorLog2 (n : ℚ)) (-1022) = (k : ℤ) := by
    rw [hk]; exact max_eq_left (by omega)
  have hquant : pow2 (max (floorLog2 (n : ℚ)) (-1022) - 52) = 1 / 2 ^ (52 - k) := by
    rw [hmax, pow2_eq_zpow, show ((k : ℤ) - 52) = -((52 - k : ℕ) : ℤ) by omega, zpow_neg,
      zpow_natCast, one_div]
  have hdiv : (n : ℚ) / (1 / 2 ^ (52 - k)) = (((n * 2 ^ (52 - k) : ℕ) : ℤ) : ℚ) := by
    push_cast
    field_simp
  have hsmall : ¬ pow2 1024 ≤ (n : ℚ) := by
    rw [not_le, pow2_eq_zpow]
    have h5 : (n : ℚ) < 2 ^ 53 := by exact_mod_cast h2
    have h7 : ((2 : ℚ) ^ (53 : ℕ)) ≤ 2 ^ (1024 : ℤ) := by
      have : ((2 : ℚ) ^ (53 : ℕ)) = 2 ^ (53 : ℤ) := by norm_cast
      rw [this]
      exact zpow_le_zpow_right₀ (by norm_num) (by norm_num)
    linarith
  have hr : ((roundHalfEven ((n : ℚ) / pow2 (max (floorLog2 (n : ℚ)) (-1022) - 52)) : ℤ) : ℚ)
      * pow2 (max (floorLog2 (n : ℚ)) (-1022) - 52) = n := by
    rw [hquant, hdiv, roundHalfEven_intCast]
    push_cast
    field_simp
  simp only [roundMag, hr, hsmall, if_false]

theorem F64.ofInt_spec (z : ℤ) (hz : |z| < 2 ^ 53) :
    (F64.ofInt z).IsFinite ∧ (F64.ofInt z).toRat = z := by
  unfold F64.ofInt F64.ofRat
  by_cases h0 : z = 0
  · subst h0
    simp [F64.IsFinite, F64.toRat, F64.val]
  · have hq : ((z : ℤ) : ℚ) ≠ 0 := by exact_mod_cast h0
    rw [if_neg hq]
    have habs : |((z : ℤ) : ℚ)| = ((z.natAbs : ℕ) : ℚ) := by
      rw [← Int.cast_abs, Int.abs_eq_natAbs, Int.cast_natCast]
    have h1 : 1 ≤ z.natAbs := Int.natAbs_pos.2 h0
    have h2 : z.natAbs < 2 ^ 53 := by
      have : (z.natAbs : ℤ) < 2 ^ 53 := by rw [← Int.abs_eq_natAbs]; exact hz
      exact_mod_cast this
    rw [habs, roundMag_natCast z.natAbs h1 h2]
    refine ⟨by simp [F64.IsFinite], ?_⟩
    show F64.val (decide (((z : ℤ) : ℚ) < 0)) ((z.natAbs : ℕ) : ℚ) = z
    rw [← habs]
    by_cases hneg : ((z : ℤ) : ℚ) < 0
    · simp only [F64.val, hneg, decide_True, if_true, abs_of_neg hneg, neg_neg]
    · simp only [F64.val, hneg, decide_False, abs_of_nonneg (not_lt.1 hneg)]
      simp

/-! ## The engine in machine arithmetic: access, pivot search, elimination -/

theorem machine_length_arr {n : Nat} {m : Mat F64} {rows cols : List Nat}
    (h : Machine.EngineOk n m rows cols) : m.arr_.length = n * n := by
  rw [m.hsize, h.nrows, h.ncols]

theorem machine_addr_lt {n : Nat} {m : Mat F64} {rows cols : List Nat}
    (h : Machine.EngineOk n m rows cols) {r c : Nat} (hr : r < n) (hc : c < n) :
    rows.getD r 0 + cols.getD c 0 < m.arr_.length := by
  obtain ⟨p, hp, hrp⟩ := h.rows.phys r hr
  rw [machine_length_arr h, hrp]
  exact matrix.index_lt hp (h.cols.bound c hc)

theorem machine_index_eq_iff {n : Nat} {m : Mat F64} {rows cols : List Nat}
    (h : Machine.EngineOk n m rows cols) {r c j k : Nat} (hr : r < n) (hc : c < n)
    (hj : j < n) (hk : k < n) :
    rows.getD j 0 + cols.getD k 0 = rows.getD r 0 + cols.getD c 0 ↔ r = j ∧ c = k := by
  constructor
  · intro he
    obtain ⟨p, _, hrp⟩ := h.rows.phys r hr
    obtain ⟨p2, _, hjp⟩ := h.rows.phys j hj
    rw [hrp, hjp] at he
    obtain ⟨h1, h2⟩ := index_inj (h.cols.bound k hk) (h.cols.bound c hc) he
    refine ⟨h.rows.inj r j hr hj ?_, h.cols.inj c k hc hk h2.symm⟩
    rw [hrp, hjp, h1]
  · rintro ⟨rfl, rfl⟩; rfl

theorem machine_elemAt_ok {n : Nat} {m : Mat F64} {rows cols : List Nat}
    (h : Machine.EngineOk n m rows cols) {r c : Nat} (hr : r < n) (hc : c < n) :
    Machine.elemAt m rows cols r c = .ok (Machine.view m rows cols r c) := by
  have h1 : rawGet rows r = .ok (rows.getD r 0) := rawGet_eq rows r 0 (by rw [h.rows.len]; exact hr)
  have h2 : rawGet cols c = .ok (cols.getD c 0) := rawGet_eq cols c 0 (by rw [h.cols.len]; exact hc)
  simp only [Machine.elemAt, h1, h2, Machine.view]
  exact rawGet_eq _ _ F64.nan (machine_addr_lt h hr hc)

theorem machine_elemSet_ok {n : Nat} {m : Mat F64} {rows cols : List Nat}
    (h : Machine.EngineOk n m rows cols) {j k : Nat} (hj : j < n) (hk : k < n) (v : F64) :
    ∃ m2, Machine.elemSet m rows cols j k v = .ok m2 ∧ Machine.EngineOk n m2 rows cols ∧
      ∀ r c, r < n → c < n →
        Machine.view m2 rows cols r c = if r = j ∧ c = k then v else Machine.view m rows cols r c := by
  have h1 : rawGet rows j = .ok (rows.getD j 0) := rawGet_eq rows j 0 (by rw [h.rows.len]; exact hj)
  have h2 : rawGet cols k = .ok (cols.getD k 0) := rawGet_eq cols k 0 (by rw [h.cols.len]; exact hk)
  have hlt := machine_addr_lt h hj hk
  refine ⟨⟨m.nRows_, m.nCols_, m.arr_.set (rows.getD j 0 + cols.getD k 0) v,
    by rw [List.length_set]; exact m.hsize⟩, ?_, ?_, ?_⟩
  · simp only [Machine.elemSet, h1, h2, Mat.rawSet, hlt, if_true]
  · exact ⟨h.nrows, h.ncols, h.rows, h.cols⟩
  · intro r c hr hc
    simp only [Machine.view, List.getD_eq_getElem?_getD, List.getElem?_set]
    by_cases he : rows.getD j 0 + cols.getD k 0 = rows.getD r 0 + cols.getD c 0
    · obtain ⟨rfl, rfl⟩ := (machine_index_eq_iff h hr hc hj hk).1 he
      have hlt2 := hlt
      simp only [List.getD_eq_getElem?_getD] at hlt2
      simp [hlt2]
    · have hne : ¬ (r = j ∧ c = k) := fun hh => he ((machine_index_eq_iff h hr hc hj hk).2 hh)
      simp only [List.getD_eq_getElem?_getD] at he
      simp [he, hne]

theorem machine_eliminateRow_ok {n : Nat} {m : Mat F64} {rows cols : List Nat}
    (h : Machine.EngineOk n m rows cols) {i j : Nat} (hij : i < j) (hj : j < n) (del : F64) :
    ∃ m2, Machine.eliminateRow rows cols i j del m = .ok m2 ∧ Machine.EngineOk n m2 rows cols ∧
      ∀ r c, r < n → c < n →
        Machine.view m2 rows cols r c =
          if r = j ∧ i < c then F64.sub (Machine.view m rows cols r c) (F64.mul del (Machine.view m rows cols i c))
          else Machine.view m rows cols r c := by
  have key := forRange_inv
    (fun k sup =>
      match Machine.elemAt sup rows cols i k with
      | .error e => .error e
      | .ok b =>
        match Machine.elemAt sup rows cols j k with
        | .error e => .error e
        | .ok a => Machine.elemSet sup rows cols j k (F64.sub a (F64.mul del b)))
    (fun k sup => Machine.EngineOk n sup rows cols ∧
      ∀ r c, r < n → c < n →
        Machine.view sup rows cols r c =
          if r = j ∧ i < c ∧ c < k then F64.sub (Machine.view m rows cols r c) (F64.mul del (Machine.view m rows cols i c))
          else Machine.view m rows cols r c)
    (i + 1) n m (by omega)
    ⟨h, fun r c _ _ => by
      have : ¬ (r = j ∧ i < c ∧ c < i + 1) := by omega
      simp only [this, if_false]⟩
    (by
      rintro k sup hk1 hk2 ⟨hs, hv⟩
      have e1 := machine_elemAt_ok hs (show i < n by omega) hk2
      have e2 := machine_elemAt_ok hs hj hk2
      obtain ⟨m2, hm2, hok, hview⟩ := machine_elemSet_ok hs hj hk2
        (F64.sub (Machine.view sup rows cols j k) (F64.mul del (Machine.view sup rows cols i k)))
      simp only [e1, e2]
      refine ⟨m2, hm2, hok, ?_⟩
      intro r c hr hc
      rw [hview r c hr hc]
      by_cases hrc : r = j ∧ c = k
      · obtain ⟨rfl, rfl⟩ := hrc
        have v1 : Machine.view sup rows cols r c = Machine.view m rows cols r c := by
          rw [hv r c hr hc, if_neg (by omega)]
        have v2 : Machine.view sup rows cols i c = Machine.view m rows cols i c := by
          rw [hv i c (by omega) hc, if_neg (by omega)]
        rw [if_pos ⟨rfl, rfl⟩, if_pos ⟨rfl, by omega, by omega⟩, v1, v2]
      · simp only [hrc, if_false, hv r c hr hc]
        by_cases hc2 : r = j ∧ i < c ∧ c < k
        · have : r = j ∧ i < c ∧ c < k + 1 := ⟨hc2.1, hc2.2.1, by omega⟩
          simp only [hc2, this, and_self, if_true]
        · have : ¬ (r = j ∧ i < c ∧ c < k + 1) := by
            rintro ⟨a, b, c2⟩
            by_cases hck : c = k
            · exact hrc ⟨a, hck⟩
            · exact hc2 ⟨a, b, by omega⟩
          simp only [hc2, this, if_false])
  obtain ⟨m2, hm2, hok, hview⟩ := key
  refine ⟨m2, ?_, hok, ?_⟩
  · simp only [Machine.eliminateRow, h.ncols]; exact hm2
  · intro r c hr hc
    rw [hview r c hr hc]
    by_cases hc2 : r = j ∧ i < c
    · have : r = j ∧ i < c ∧ c < n := ⟨hc2.1, hc2.2, hc⟩
      simp only [hc2, this, and_self, if_true]
    · have : ¬ (r = j ∧ i < c ∧ c < n) := fun hh => hc2 ⟨hh.1, hh.2.1⟩
      simp only [hc2, this, if_false]

theorem machine_eliminateBelow_ok {n : Nat} {m : Mat F64} {rows cols : List Nat}
    (h : Machine.EngineOk n m rows cols) {i : Nat} (hi : i < n) (pivot : F64) :
    ∃ m2, Machine.eliminateBelow rows cols i pivot m = .ok m2 ∧ Machine.EngineOk n m2 rows cols ∧
      ∀ r c, r < n → c < n →
        Machine.view m2 rows cols r c =
          if i < r ∧ i < c then
            F64.sub (Machine.view m rows cols r c)
              (F64.mul (F64.div (Machine.view m rows cols r i) pivot) (Machine.view m rows cols i c))
          else Machine.view m rows cols r c := by
  have key := forRange_inv
    (fun j sup =>
      match Machine.elemAt sup rows cols j i with
      | .error e => .error e
      | .ok x => Machine.eliminateRow rows cols i j (F64.div x pivot) sup)
    (fun j sup => Machine.EngineOk n sup rows cols ∧
      ∀ r c, r < n → c < n →
        Machine.view sup rows cols r c =
          if i < r ∧ r < j ∧ i < c then
            F64.sub (Machine.view m rows cols r c)
              (F64.mul (F64.div (Machine.view m rows cols r i) pivot) (Machine.view m rows cols i c))
          else Machine.view m rows cols r c)
    (i + 1) n m (by omega)
    ⟨h, fun r c _ _ => by
      have : ¬ (i < r ∧ r < i + 1 ∧ i < c) := by omega
      simp only [this, if_false]⟩
    (by
      rintro j sup hj1 hj2 ⟨hs, hv⟩
      have e1 := machine_elemAt_ok hs hj2 hi
      obtain ⟨m2, hm2, hok, hview⟩ := machine_eliminateRow_ok hs (show i < j by omega) hj2
        (F64.div (Machine.view sup rows cols j i) pivot)
      simp only [e1]
      refine ⟨m2, hm2, hok, ?_⟩
      intro r c hr hc
      rw [hview r c hr hc]
      by_cases hrc : r = j ∧ i < c
      · obtain ⟨rfl, hic⟩ := hrc
        have v1 : Machine.view sup rows cols r c = Machine.view m rows cols r c := by
          rw [hv r c hr hc, if_neg (by omega)]
        have v2 : Machine.view sup rows cols r i = Machine.view m rows cols r i := by
          rw [hv r i hr hi, if_neg (by omega)]
        have v3 : Machine.view sup rows cols i c = Machine.view m rows cols i c := by
          rw [hv i c hi hc, if_neg (by omega)]
        rw [if_pos ⟨rfl, hic⟩, if_pos ⟨by omega, by omega, hic⟩, v1, v2, v3]
      · simp only [hrc, if_false, hv r c hr hc]
        by_cases hc2 : i < r ∧ r < j ∧ i < c
        · have : i < r ∧ r < j + 1 ∧ i < c := ⟨hc2.1, by omega, hc2.2.2⟩
          simp only [hc2, this, and_self, if_true]
        · have : ¬ (i < r ∧ r < j + 1 ∧ i < c) := by
            rintro ⟨a, b, c2⟩
            by_cases hck : r = j
            · exact hrc ⟨hck, c2⟩
            · exact hc2 ⟨a, by omega, c2⟩
          simp only [hc2, this, if_false])
  obtain ⟨m2, hm2, hok, hview⟩ := key
  refine ⟨m2, ?_, hok, ?_⟩
  · simp only [Machine.eliminateBelow, h.nrows]; exact hm2
  · intro r c hr hc
    rw [hview r c hr hc]
    by_cases hc2 : i < r ∧ i < c
    · have : i < r ∧ r < n ∧ i < c := ⟨hc2.1, hr, hc2.2⟩
      simp only [hc2, this, and_self, if_true]
    · have : ¬ (i < r ∧ r < n ∧ i < c) := fun hh => hc2 ⟨hh.1, hh.2.2⟩
      simp only [hc2, this, if_false]

theorem F64.lt_abs (x y : F64) (hx : x.IsFinite) (hy : y.IsFinite) :
    F64.lt (F64.abs x) (F64.abs y) = decide (|x.toRat| < |y.toRat|) := by
  obtain ⟨a1, a2⟩ := F64.abs_spec x hx
  obtain ⟨b1, b2⟩ := F64.abs_spec y hy
  rw [F64.lt_spec _ _ a1 b1, a2, b2]

theorem machine_maxSubColElem_ok {n : Nat} {m : Mat F64} {rows cols : List Nat}
    (h : Machine.EngineOk n m rows cols) {i : Nat} (hi : i < n)
    (hfin : ∀ r, r < n → (Machine.view m rows cols r i).IsFinite) :
    ∃ mx, Machine.maxSubColElem m rows cols i = .ok mx ∧ i ≤ mx ∧ mx < n ∧
      ∀ r, i ≤ r → r < n →
        |(Machine.view m rows cols r i).toRat| ≤ |(Machine.view m rows cols mx i).toRat| := by
  have key := forRange_inv
    (fun k maxRow =>
      match Machine.elemAt m rows cols maxRow i with
      | .error e => .error e
      | .ok a =>
        match Machine.elemAt m rows cols k i with
        | .error e => .error e
        | .ok b => .ok (if F64.lt (F64.abs a) (F64.abs b) then k else maxRow))
    (fun k mx => i ≤ mx ∧ mx < k ∧
      (∀ r, i ≤ r → r < k →
        |(Machine.view m rows cols r i).toRat| ≤ |(Machine.view m rows cols mx i).toRat|))
    (i + 1) n i (by omega)
    ⟨le_refl i, by omega, fun r h1 h2 => by
      have : r = i := by omega
      rw [this]⟩
    (by
      rintro k mx hk1 hk2 ⟨h1, h2, h3⟩
      have e1 := machine_elemAt_ok h (show mx < n by omega) hi
      have e2 := machine_elemAt_ok h hk2 hi
      simp only [e1, e2]
      refine ⟨_, rfl, ?_⟩
      rw [F64.lt_abs _ _ (hfin mx (by omega)) (hfin k hk2)]
      by_cases hlt : |(Machine.view m rows cols mx i).toRat|
          < |(Machine.view m rows cols k i).toRat|
      · simp only [hlt, decide_True, if_true]
        refine ⟨by omega, by omega, ?_⟩
        intro r hr1 hr2
        by_cases hrk : r = k
        · rw [hrk]
        · exact le_of_lt (lt_of_le_of_lt (h3 r hr1 (by omega)) hlt)
      · simp only [hlt, decide_False, Bool.false_eq_true, if_false]
        refine ⟨h1, by omega, ?_⟩
        intro r hr1 hr2
        by_cases hrk : r = k
        · rw [hrk]; exact not_lt.1 hlt
        · exact h3 r hr1 (by omega))
  obtain ⟨mx, hmx, h1, h2, h3⟩ := key
  refine ⟨mx, ?_, h1, h2, h3⟩
  simp only [Machine.maxSubColElem, h.nrows]; exact hmx

theorem machine_maxSubRowElem_ok {n : Nat} {m : Mat F64} {rows cols : List Nat}
    (h : Machine.EngineOk n m rows cols) {i : Nat} (hi : i < n)
    (hfin : ∀ c, c < n → (Machine.view m rows cols i c).IsFinite) :
    ∃ mx, Machine.maxSubRowElem m rows cols i = .ok mx ∧ i ≤ mx ∧ mx < n ∧
      ∀ c, i ≤ c → c < n →
        |(Machine.view m rows cols i c).toRat| ≤ |(Machine.view m rows cols i mx).toRat| := by
  have key := forRange_inv
    (fun k maxCol =>
      match Machine.elemAt m rows cols i maxCol with
      | .error e => .error e
      | .ok a =>
        match Machine.elemAt m rows cols i k with
        | .error e => .error e
        | .ok b => .ok (if F64.lt (F64.abs a) (F64.abs b) then k else maxCol))
    (fun k mx => i ≤ mx ∧ mx < k ∧
      (∀ c, i ≤ c → c < k →
        |(Machine.view m rows cols i c).toRat| ≤ |(Machine.view m rows cols i mx).toRat|))
    (i + 1) n i (by omega)
    ⟨le_refl i, by omega, fun r h1 h2 => by
      have : r = i := by omega
      rw [this]⟩
    (by
      rintro k mx hk1 hk2 ⟨h1, h2, h3⟩
      have e1 := machine_elemAt_ok h hi (show mx < n by omega)
      have e2 := machine_elemAt_ok h hi hk2
      simp only [e1, e2]
      refine ⟨_, rfl, ?_⟩
      rw [F64.lt_abs _ _ (hfin mx (by omega)) (hfin k hk2)]
      by_cases hlt : |(Machine.view m rows cols i mx).toRat|
          < |(Machine.view m rows cols i k).toRat|
      · simp only [hlt, decide_True, if_true]
        refine ⟨by omega, by omega, ?_⟩
        intro r hr1 hr2
        by_cases hrk : r = k
        · rw [hrk]
        · exact le_of_lt (lt_of_le_of_lt (h3 r hr1 (by omega)) hlt)
      · simp only [hlt, decide_False, Bool.false_eq_true, if_false]
        refine ⟨h1, by omega, ?_⟩
        intro r hr1 hr2
        by_cases hrk : r = k
        · rw [hrk]; exact not_lt.1 hlt
        · exact h3 r hr1 (by omega))
  obtain ⟨mx, hmx, h1, h2, h3⟩ := key
  refine ⟨mx, ?_, h1, h2, h3⟩
  simp only [Machine.maxSubRowElem, h.ncols]; exact hmx

theorem machine_fakeSwap_rows_ok {n : Nat} {m : Mat F64} {rows cols : List Nat}
    (h : Machine.EngineOk n m rows cols) {i : Nat} (hi : i < n)
    (hfin : ∀ r, r < n → (Machine.view m rows cols r i).IsFinite) :
    ∃ mx rows2, Machine.fakeSwapWithBiggest m rows cols i true
        = .ok ((if mx = i then 1 else -1), rows2, cols) ∧
      i ≤ mx ∧ mx < n ∧
      (∀ r, i ≤ r → r < n →
        |(Machine.view m rows cols r i).toRat| ≤ |(Machine.view m rows cols mx i).toRat|) ∧
      Machine.EngineOk n m rows2 cols ∧
      (∀ r, rows2.getD r 0 = rows.getD (Equiv.swap i mx r) 0) := by
  obtain ⟨mx, hmx, h1, h2, h3⟩ := machine_maxSubColElem_ok h hi hfin
  by_cases he : mx = i
  · refine ⟨mx, rows, ?_, h1, h2, h3, h, ?_⟩
    · simp [Machine.fakeSwapWithBiggest, hmx, he]
    · intro r; rw [he, Equiv.swap_self]; rfl
  · obtain ⟨ys, hys, hlen, hget⟩ := swapEntries_ok h.rows.len hi h2 (j := mx)
    refine ⟨mx, ys, ?_, h1, h2, h3,
      ⟨h.nrows, h.ncols, h.rows.swap_rows hi h2 hlen hget, h.cols⟩, hget⟩
    simp [Machine.fakeSwapWithBiggest, hmx, he, hys]

theorem machine_fakeSwap_cols_ok {n : Nat} {m : Mat F64} {rows cols : List Nat}
    (h : Machine.EngineOk n m rows cols) {i : Nat} (hi : i < n)
    (hfin : ∀ c, c < n → (Machine.view m rows cols i c).IsFinite) :
    ∃ mx cols2, Machine.fakeSwapWithBiggest m rows cols i false
        = .ok ((if mx = i then 1 else -1), rows, cols2) ∧
      i ≤ mx ∧ mx < n ∧
      (∀ c, i ≤ c → c < n →
        |(Machine.view m rows cols i c).toRat| ≤ |(Machine.view m rows cols i mx).toRat|) ∧
      Machine.EngineOk n m rows cols2 ∧
      (∀ c, cols2.getD c 0 = cols.getD (Equiv.swap i mx c) 0) := by
  obtain ⟨mx, hmx, h1, h2, h3⟩ := machine_maxSubRowElem_ok h hi hfin
  by_cases he : mx = i
  · refine ⟨mx, cols, ?_, h1, h2, h3, h, ?_⟩
    · simp [Machine.fakeSwapWithBiggest, hmx, he]
    · intro r; rw [he, Equiv.swap_self]; rfl
  · obtain ⟨ys, hys, hlen, hget⟩ := swapEntries_ok h.cols.len hi h2 (j := mx)
    refine ⟨mx, ys, ?_, h1, h2, h3,
      ⟨h.nrows, h.ncols, h.rows, h.cols.swap_cols hi h2 hlen hget⟩, hget⟩
    simp [Machine.fakeSwapWithBiggest, hmx, he, hys]

/-- One iteration of the main loop of `fakeGauss` in machine arithmetic, on a state whose
elements are finite: the two exchanges, the pivot (the largest of its row from the diagonal
on), and either the early return or the state the next iteration starts from. -/
theorem machine_run_step {n : Nat} (i : Nat) (st : Machine.GaussState) (hi : i < n)
    (hok : Machine.EngineOk n st.support st.fakeRows st.fakeCols)
    (hfin : ∀ r c, r < n → c < n →
      (Machine.view st.support st.fakeRows st.fakeCols r c).IsFinite) :
    ∃ (mx1 mx2 : Nat) (rows1 cols2 : List Nat),
      i ≤ mx1 ∧ mx1 < n ∧ i ≤ mx2 ∧ mx2 < n ∧
      (∀ r c, Machine.view st.support rows1 cols2 r c
        = Machine.view st.support st.fakeRows st.fakeCols
            (Equiv.swap i mx1 r) (Equiv.swap i mx2 c)) ∧
      (∀ c, i ≤ c → c < n → |(Machine.view st.support rows1 cols2 i c).toRat|
        ≤ |(Machine.view st.support rows1 cols2 i i).toRat|) ∧
      (F64.le (F64.abs (Machine.view st.support rows1 cols2 i i)) F64.EPSILON = true →
        ∀ f, Machine.fakeGaussLoop (f + 1) i st
          = .ok (.singular i (Machine.view st.support rows1 cols2 i i))) ∧
      (F64.le (F64.abs (Machine.view st.support rows1 cols2 i i)) F64.EPSILON = false →
        ∃ sup3, Machine.EngineOk n sup3 rows1 cols2 ∧
          (∀ f, Machine.fakeGaussLoop (f + 1) i st = Machine.fakeGaussLoop f (i + 1)
            ⟨st.sign * (if mx1 = i then 1 else -1) * (if mx2 = i then 1 else -1),
              sup3, rows1, cols2⟩) ∧
          (∀ r c, r < n → c < n → Machine.view sup3 rows1 cols2 r c =
            if i < r ∧ i < c then
              F64.sub (Machine.view st.support rows1 cols2 r c)
                (F64.mul (F64.div (Machine.view st.support rows1 cols2 r i)
                  (Machine.view st.support rows1 cols2 i i))
                  (Machine.view st.support rows1 cols2 i c))
            else Machine.view st.support rows1 cols2 r c)) := by
  obtain ⟨mx1, rows1, hsw1, a1, a2, _, hok1, hget1⟩ :=
    machine_fakeSwap_rows_ok hok hi (fun r hr => hfin r i hr hi)
  have hV1 : ∀ r c, Machine.view st.support rows1 st.fakeCols r c
      = Machine.view st.support st.fakeRows st.fakeCols (Equiv.swap i mx1 r) c := by
    intro r c; simp only [Machine.view, hget1]
  obtain ⟨mx2, cols2, hsw2, b1, b2, b3, hok2, hget2⟩ :=
    machine_fakeSwap_cols_ok hok1 hi (fun c hc => by
      rw [hV1]; exact hfin _ c (swap_lt hi a2 hi) hc)
  have hV2 : ∀ r c, Machine.view st.support rows1 cols2 r c
      = Machine.view st.support rows1 st.fakeCols r (Equiv.swap i mx2 c) := by
    intro r c; simp only [Machine.view, hget2]
  have hpe := machine_elemAt_ok hok2 hi hi
  refine ⟨mx1, mx2, rows1, cols2, a1, a2, b1, b2, ?_, ?_, ?_, ?_⟩
  · intro r c
    rw [hV2, hV1]
  · intro c hc1 hc2
    rw [hV2 i c, hV2 i i, Equiv.swap_apply_left]
    rcases Nat.lt_or_ge c n with _ | h
    · by_cases hci : c = i
      · rw [hci, Equiv.swap_apply_left]
      · by_cases hcm : c = mx2
        · rw [hcm, Equiv.swap_apply_right]
          exact b3 i (le_refl i) hi
        · rw [Equiv.swap_apply_of_ne_of_ne hci hcm]
          exact b3 c hc1 hc2
    · omega
  · intro hle f
    simp only [Machine.fakeGaussLoop, hsw1, hsw2, hpe, hle, if_true]
  · intro hle
    obtain ⟨sup3, hel, hok3, hV3⟩ :=
      machine_eliminateBelow_ok hok2 hi (Machine.view st.support rows1 cols2 i i)
    refine ⟨sup3, hok3, ?_, hV3⟩
    intro f
    simp only [Machine.fakeGaussLoop, hsw1, hsw2, hpe, hle, Bool.false_eq_true, if_false, hel]

/-! ## The rounding error of one elimination update -/

theorem F64.err_mono {q B : ℚ} (h : q ≤ B) : F64.err q ≤ F64.err B := by
  unfold F64.err
  have : q / 2 ^ 53 ≤ B / 2 ^ 53 := div_le_div_of_nonneg_right h (by positivity)
  linarith

/-- The update `a - (x / p) * b` of the elimination in `double`, for elements of absolute
value at most `A ≤ 1000` with `|b| ≤ |p|`: the result is finite and within
`(4 * A + 4) / 10 ^ 15` of the exact value. -/
theorem elim_err (a x p b : F64) (A : ℚ) (ha : a.IsFinite) (hx : x.IsFinite)
    (hp : p.IsFinite) (hb : b.IsFinite) (hA : A ≤ 1000)
    (ha1 : |a.toRat| ≤ A) (hx1 : |x.toRat| ≤ A) (hbp : |b.toRat| ≤ |p.toRat|)
    (hb1 : |b.toRat| ≤ A) (hp0 : p.toRat ≠ 0) (hq : |x.toRat / p.toRat| ≤ 10 ^ 9) :
    (F64.sub a (F64.mul (F64.div x p) b)).IsFinite ∧
      |(F64.sub a (F64.mul (F64.div x p) b)).toRat
          - (a.toRat - x.toRat / p.toRat * b.toRat)| ≤ (4 * A + 4) / 10 ^ 15 := by
  have hA0 : 0 ≤ A := le_trans (abs_nonneg _) ha1
  have hppos : 0 < |p.toRat| := abs_pos.2 hp0
  obtain ⟨d1, d2⟩ := F64.div_spec x p hx hp hp0 hq
  have hη := F64.eta_le
  have hη0 := F64.eta_pos
  -- the exact product (x / p) * b
  have hprod : |x.toRat / p.toRat * b.toRat| ≤ A := by
    rw [abs_mul, abs_div]
    calc |x.toRat| / |p.toRat| * |b.toRat| = |x.toRat| * (|b.toRat| / |p.toRat|) := by ring
      _ ≤ |x.toRat| * 1 :=
          mul_le_mul_of_nonneg_left ((div_le_one hppos).2 hbp) (abs_nonneg _)
      _ ≤ A := by rw [mul_one]; exact hx1
  -- the computed quotient times b
  have hdb : |(F64.div x p).toRat * b.toRat - x.toRat / p.toRat * b.toRat|
      ≤ A / 2 ^ 53 + F64.eta * A := by
    rw [← sub_mul, abs_mul]
    calc |(F64.div x p).toRat - x.toRat / p.toRat| * |b.toRat|
        ≤ F64.err |x.toRat / p.toRat| * |b.toRat| :=
          mul_le_mul_of_nonneg_right d2 (abs_nonneg _)
      _ = |x.toRat / p.toRat| * |b.toRat| / 2 ^ 53 + F64.eta * |b.toRat| := by
          unfold F64.err; ring
      _ ≤ A / 2 ^ 53 + F64.eta * A := by
          have e1 : |x.toRat / p.toRat| * |b.toRat| ≤ A := by rw [← abs_mul]; exact hprod
          have e2 : |x.toRat / p.toRat| * |b.toRat| / 2 ^ 53 ≤ A / 2 ^ 53 :=
            div_le_div_of_nonneg_right e1 (by positivity)
          have e3 : F64.eta * |b.toRat| ≤ F64.eta * A :=
            mul_le_mul_of_nonneg_left hb1 (le_of_lt hη0)
          linarith
  have hsmall1 : A / 2 ^ 53 + F64.eta * A ≤ 1 / 10 ^ 12 := by
    have e1 : A / 2 ^ 53 ≤ 1000 / 2 ^ 53 := div_le_div_of_nonneg_right hA (by positivity)
    have e2 : F64.eta * A ≤ 1 / 10 ^ 30 * 1000 :=
      mul_le_mul hη hA hA0 (by positivity)
    have e3 : (1000 : ℚ) / 2 ^ 53 + 1 / 10 ^ 30 * 1000 ≤ 1 / 10 ^ 12 := by norm_num
    linarith
  have hdbabs : |(F64.div x p).toRat * b.toRat| ≤ A + 1 / 10 ^ 12 := by
    have := abs_sub_abs_le_abs_sub ((F64.div x p).toRat * b.toRat)
      (x.toRat / p.toRat * b.toRat)
    linarith
  obtain ⟨m1, m2⟩ := F64.mul_spec (F64.div x p) b d1 hb (by
    have : A + 1 / 10 ^ 12 ≤ (10 : ℚ) ^ 9 := by
      have : (1000 : ℚ) + 1 / 10 ^ 12 ≤ 10 ^ 9 := by norm_num
      linarith
    linarith)
  have hm2 : |(F64.mul (F64.div x p) b).toRat - (F64.div x p).toRat * b.toRat|
      ≤ (A + 1 / 10 ^ 12) / 2 ^ 53 + F64.eta :=
    le_trans m2 (F64.err_mono hdbabs)
  have hsmall2 : (A + 1 / 10 ^ 12) / 2 ^ 53 + F64.eta ≤ 1 / 10 ^ 12 := by
    have e1 : (A + 1 / 10 ^ 12) / 2 ^ 53 ≤ (1000 + 1 / 10 ^ 12) / 2 ^ 53 :=
      div_le_div_of_nonneg_right (by linarith) (by positivity)
    have e3 : ((1000 : ℚ) + 1 / 10 ^ 12) / 2 ^ 53 + 1 / 10 ^ 30 ≤ 1 / 10 ^ 12 := by norm_num
    linarith
  have htabs : |(F64.mul (F64.div x p) b).toRat| ≤ A + 2 / 10 ^ 12 := by
    have := abs_sub_abs_le_abs_sub (F64.mul (F64.div x p) b).toRat
      ((F64.div x p).toRat * b.toRat)
    linarith
  have hdiff : |a.toRat - (F64.mul (F64.div x p) b).toRat| ≤ 2 * A + 2 / 10 ^ 12 := by
    have := abs_sub a.toRat (F64.mul (F64.div x p) b).toRat
    linarith
  obtain ⟨s1, s2⟩ := F64.sub_spec a (F64.mul (F64.div x p) b) ha m1 (by
    have : (2 : ℚ) * 1000 + 2 / 10 ^ 12 ≤ 10 ^ 9 := by norm_num
    linarith)
  have hs2 : |(F64.sub a (F64.mul (F64.div x p) b)).toRat
      - (a.toRat - (F64.mul (F64.div x p) b).toRat)|
      ≤ (2 * A + 2 / 10 ^ 12) / 2 ^ 53 + F64.eta :=
    le_trans s2 (F64.err_mono hdiff)
  refine ⟨s1, ?_⟩
  have htri : |(F64.sub a (F64.mul (F64.div x p) b)).toRat
        - (a.toRat - x.toRat / p.toRat * b.toRat)|
      ≤ |(F64.sub a (F64.mul (F64.div x p) b)).toRat
          - (a.toRat - (F64.mul (F64.div x p) b).toRat)|
        + |(F64.mul (F64.div x p) b).toRat - (F64.div x p).toRat * b.toRat|
        + |(F64.div x p).toRat * b.toRat - x.toRat / p.toRat * b.toRat| := by
    have e : (F64.sub a (F64.mul (F64.div x p) b)).toRat
        - (a.toRat - x.toRat / p.toRat * b.toRat)
        = ((F64.sub a (F64.mul (F64.div x p) b)).toRat
            - (a.toRat - (F64.mul (F64.div x p) b).toRat))
          - ((F64.mul (F64.div x p) b).toRat - (F64.div x p).toRat * b.toRat)
          - ((F64.div x p).toRat * b.toRat - x.toRat / p.toRat * b.toRat) := by ring
    rw [e]
    have t1 := abs_sub (((F64.sub a (F64.mul (F64.div x p) b)).toRat
            - (a.toRat - (F64.mul (F64.div x p) b).toRat))
          - ((F64.mul (F64.div x p) b).toRat - (F64.div x p).toRat * b.toRat))
          ((F64.div x p).toRat * b.toRat - x.toRat / p.toRat * b.toRat)
    have t2 := abs_sub ((F64.sub a (F64.mul (F64.div x p) b)).toRat
            - (a.toRat - (F64.mul (F64.div x p) b).toRat))
          ((F64.mul (F64.div x p) b).toRat - (F64.div x p).toRat * b.toRat)
    linarith
  have hfinal : (2 * A + 2 / 10 ^ 12) / 2 ^ 53 + F64.eta
      + ((A + 1 / 10 ^ 12) / 2 ^ 53 + F64.eta) + (A / 2 ^ 53 + F64.eta * A)
      ≤ (4 * A + 4) / 10 ^ 15 := by
    have e1 : F64.eta * A ≤ 1 / 10 ^ 30 * 1000 := mul_le_mul hη hA hA0 (by positivity)
    have e2 : (2 * A + 2 / 10 ^ 12) / 2 ^ 53 + (A + 1 / 10 ^ 12) / 2 ^ 53 + A / 2 ^ 53
        = (4 * A + 3 / 10 ^ 12) / 2 ^ 53 := by ring
    have e3 : (4 * A + 3 / 10 ^ 12) / 2 ^ 53 ≤ (4 * A + 4) / (9 * 10 ^ 15) :=
      div_le_div₀ (by positivity) (by linarith [show (3 : ℚ) / 10 ^ 12 ≤ 4 by norm_num])
        (by positivity) (by norm_num)
    have e4 : (2 : ℚ) / 10 ^ 30 + 1 / 10 ^ 30 * 1000 ≤ 3 / 10 ^ 15 := by norm_num
    have e5 : (4 * A + 4) / (9 * 10 ^ 15) + 3 / 10 ^ 15 ≤ (4 * A + 4) / 10 ^ 15 := by
      have e6 : (4 * A + 4) / (9 * 10 ^ 15) = (4 * A + 4) / 10 ^ 15 / 9 := by
        rw [div_div, mul_comm (9 : ℚ)]
      have e7 : (4 : ℚ) / 10 ^ 15 ≤ (4 * A + 4) / 10 ^ 15 :=
        div_le_div_of_nonneg_right (by linarith) (by positivity)
      rw [e6]
      linarith
    linarith
  linarith

/-! ## The run of `det ()` in `double` on an integer matrix of order three -/

theorem swap_ge {i mx c : Nat} (h1 : i ≤ mx) (hc : i ≤ c) : i ≤ Equiv.swap i mx c := by
  rw [Equiv.swap_apply_def]
  split_ifs <;> omega

theorem F64.EPSILON_spec : F64.EPSILON.IsFinite ∧ F64.EPSILON.toRat ≤ 1 / 10 ^ 13 := by
  obtain ⟨h1, h2⟩ := F64.ofRat_spec false (10 / 10 ^ 15) (by
    rw [abs_of_pos (by positivity)]
    norm_num)
  refine ⟨h1, ?_⟩
  have h3 := (abs_le.1 h2).2
  have h4 : F64.err |(10 / 10 ^ 15 : ℚ)| ≤ 1 / 10 ^ 15 + 1 / 10 ^ 30 :=
    le_trans (F64.err_le (abs_nonneg _) (by
      rw [abs_of_pos (by positivity)]
      norm_num : |(10 / 10 ^ 15 : ℚ)| ≤ 1)) (by norm_num)
  have h5 : (10 / 10 ^ 15 : ℚ) + (1 / 10 ^ 15 + 1 / 10 ^ 30) ≤ 1 / 10 ^ 13 := by norm_num
  unfold F64.EPSILON
  linarith

/-- A finite pivot of absolute value above `1e-13` passes the tolerance test. -/
theorem pivot_test_false (p : F64) (hp : p.IsFinite) (h : 1 / 10 ^ 13 < |p.toRat|) :
    F64.le (F64.abs p) F64.EPSILON = false := by
  obtain ⟨a1, a2⟩ := F64.abs_spec p hp
  obtain ⟨e1, e2⟩ := F64.EPSILON_spec
  rw [F64.le_spec _ _ a1 e1, a2]
  have : ¬ |p.toRat| ≤ F64.EPSILON.toRat := by
    rw [not_le]
    exact lt_of_le_of_lt e2 h
  simp only [this, decide_False]

theorem abs_mul_sub_mul_le (a b c d : ℚ) :
    |a * b - c * d| ≤ |a - c| * |b| + |c| * |b - d| := by
  have e : a * b - c * d = (a - c) * b + c * (b - d) := by ring
  rw [e]
  calc |(a - c) * b + c * (b - d)| ≤ |(a - c) * b| + |c * (b - d)| := abs_add _ _
    _ = _ := by rw [abs_mul, abs_mul]

/-- Step 0 of the run in `double` on a `3 x 3` matrix whose elements are integers of
absolute value at most 360, with the determinant 10: the pivot is a nonzero integer, the
run continues, and the elements of the next state are within `1e-11` of the exact
elimination `Y`. -/
theorem machine_step_zero (st : Machine.GaussState)
    (hok : Machine.EngineOk 3 st.support st.fakeRows st.fakeCols)
    (hent : ∀ r c, r < 3 → c < 3 →
      (Machine.view st.support st.fakeRows st.fakeCols r c).IsFinite ∧
      (∃ z : ℤ, (Machine.view st.support st.fakeRows st.fakeCols r c).toRat = z) ∧
      |(Machine.view st.support st.fakeRows st.fakeCols r c).toRat| ≤ 360)
    (hsign : st.sign = 1 ∨ st.sign = -1)
    (hdet : (st.sign : ℚ) * (reduced 3 0
      (fun r c => (Machine.view st.support st.fakeRows st.fakeCols r c).toRat)).det = 10) :
    ∃ (stA : Machine.GaussState) (Y : Nat → Nat → ℚ),
      (∀ f, Machine.fakeGaussLoop (f + 1) 0 st = Machine.fakeGaussLoop f 1 stA) ∧
      Machine.EngineOk 3 stA.support stA.fakeRows stA.fakeCols ∧
      (stA.sign = 1 ∨ stA.sign = -1) ∧
      (stA.sign : ℚ) * (reduced 3 1 Y).det = 10 ∧
      (∀ r c, r < 3 → c < 3 →
        (Machine.view stA.support stA.fakeRows stA.fakeCols r c).IsFinite ∧
        |(Machine.view stA.support stA.fakeRows stA.fakeCols r c).toRat - Y r c|
          ≤ 1 / 10 ^ 11) ∧
      (Machine.view stA.support stA.fakeRows stA.fakeCols 0 0).toRat = Y 0 0 ∧
      1 ≤ |Y 0 0| ∧ |Y 0 0| ≤ 360 ∧
      (∀ r c, 1 ≤ r → r < 3 → 1 ≤ c → c < 3 →
        |Y r c| ≤ 720 ∧ ∃ z : ℤ, Y 0 0 * Y r c = z) := by
  obtain ⟨mx1, mx2, rowsA, colsA, a1, a2, b1, b2, hW, hmax, _, hcont⟩ :=
    machine_run_step (n := 3) 0 st (by decide) hok (fun r c hr hc => (hent r c hr hc).1)
  -- the exact values of the exchanged state
  have hX : ∀ r c, (Machine.view st.support rowsA colsA r c).toRat
      = (fun r c => (Machine.view st.support st.fakeRows st.fakeCols r c).toRat)
        (Equiv.swap 0 mx1 r) (Equiv.swap 0 mx2 c) := by
    intro r c; simp only [hW]
  have hentA : ∀ r c, r < 3 → c < 3 →
      (Machine.view st.support rowsA colsA r c).IsFinite ∧
      (∃ z : ℤ, (Machine.view st.support rowsA colsA r c).toRat = z) ∧
      |(Machine.view st.support rowsA colsA r c).toRat| ≤ 360 := by
    intro r c hr hc
    rw [hW]
    exact hent _ _ (swap_lt (by decide) a2 hr) (swap_lt (by decide) b2 hc)
  have hd1 := reduced_swap_rows (n := 3) (i := 0) (by decide) a1 a2
    (fun r c => (Machine.view st.support st.fakeRows st.fakeCols r c).toRat)
    (fun r c => (Machine.view st.support st.fakeRows st.fakeCols (Equiv.swap 0 mx1 r) c).toRat)
    (fun r c _ _ => rfl)
  have hd2 := reduced_swap_cols (n := 3) (i := 0) (by decide) b1 b2
    (fun r c => (Machine.view st.support st.fakeRows st.fakeCols (Equiv.swap 0 mx1 r) c).toRat)
    (fun r c => (Machine.view st.support rowsA colsA r c).toRat)
    (fun r c _ _ => hX r c)
  have hsg : st.sign * (if mx1 = 0 then 1 else -1) * (if mx2 = 0 then 1 else -1) = 1 ∨
      st.sign * (if mx1 = 0 then 1 else -1) * (if mx2 = 0 then 1 else -1) = -1 := by
    rcases hsign with h | h <;> rw [h] <;> split_ifs <;> simp
  have hD : ((st.sign * (if mx1 = 0 then 1 else -1) * (if mx2 = 0 then 1 else -1) : ℤ) : ℚ)
      * (reduced 3 0 (fun r c => (Machine.view st.support rowsA colsA r c).toRat)).det
      = 10 := by
    rw [hd2, hd1, ← hdet]
    push_cast
    by_cases e1 : mx1 = 0 <;> by_cases e2 : mx2 = 0 <;> simp [e1, e2]
  -- the pivot
  have hp1 : (Machine.view st.support rowsA colsA 0 0).toRat ≠ 0 := by
    intro h0
    have hz : (reduced 3 0 (fun r c => (Machine.view st.support rowsA colsA r c).toRat)).det
        = 0 := by
      apply reduced_zero_row (by decide)
      intro c hc1 hc2
      have := hmax c hc1 hc2
      rw [h0, abs_zero] at this
      exact abs_eq_zero.1 (le_antisymm this (abs_nonneg _))
    rw [hz, mul_zero] at hD
    norm_num at hD
  obtain ⟨f00, ⟨z00, hz00⟩, hb00⟩ := hentA 0 0 (by decide) (by decide)
  have hp1a : 1 ≤ |(Machine.view st.support rowsA colsA 0 0).toRat| :=
    int_abs_ge_one z00 hz00 hp1
  obtain ⟨supA, hokA, hloopA, hVA⟩ := hcont (pivot_test_false _ f00
    (lt_of_lt_of_le (by norm_num) hp1a))
  have hppos : 0 < |(Machine.view st.support rowsA colsA 0 0).toRat| :=
    lt_of_lt_of_le one_pos hp1a
  -- the exact elimination
  have hdY := reduced_eliminate (n := 3) (i := 0) (by decide)
    (fun r c => (Machine.view st.support rowsA colsA r c).toRat)
    (fun r c => if 0 < r ∧ 0 < c then
        (Machine.view st.support rowsA colsA r c).toRat
          - (Machine.view st.support rowsA colsA r 0).toRat
            / (Machine.view st.support rowsA colsA 0 0).toRat
            * (Machine.view st.support rowsA colsA 0 c).toRat
      else (Machine.view st.support rowsA colsA r c).toRat)
    hp1 (fun r c _ _ => rfl)
  refine ⟨⟨st.sign * (if mx1 = 0 then 1 else -1) * (if mx2 = 0 then 1 else -1),
      supA, rowsA, colsA⟩,
    (fun r c => if 0 < r ∧ 0 < c then
        (Machine.view st.support rowsA colsA r c).toRat
          - (Machine.view st.support rowsA colsA r 0).toRat
            / (Machine.view st.support rowsA colsA 0 0).toRat
            * (Machine.view st.support rowsA colsA 0 c).toRat
      else (Machine.view st.support rowsA colsA r c).toRat),
    hloopA, hokA, hsg, by rw [hdY]; exact hD, ?_, ?_, ?_, ?_, ?_⟩
  · intro r c hr hc
    show (Machine.view supA rowsA colsA r c).IsFinite ∧
      |(Machine.view supA rowsA colsA r c).toRat - _| ≤ 1 / 10 ^ 11
    rw [hVA r c hr hc]
    by_cases hrc : 0 < r ∧ 0 < c
    · simp only [hrc, and_self, if_true]
      obtain ⟨f1, _, g1⟩ := hentA r c hr hc
      obtain ⟨f2, _, g2⟩ := hentA r 0 hr (by decide)
      obtain ⟨f3, _, g3⟩ := hentA 0 c (by decide) hc
      have hq : |(Machine.view st.support rowsA colsA r 0).toRat
          / (Machine.view st.support rowsA colsA 0 0).toRat| ≤ 10 ^ 9 := by
        exact le_trans (abs_div_le g2 hp1a one_pos) (by norm_num)
      obtain ⟨e1, e2⟩ := elim_err _ _ _ _ 360 f1 f2 f00 f3 (by norm_num) g1 g2
        (hmax c (Nat.zero_le c) hc) g3 hp1 hq
      exact ⟨e1, le_trans e2 (by norm_num)⟩
    · simp only [hrc, if_false]
      refine ⟨(hentA r c hr hc).1, ?_⟩
      rw [sub_self, abs_zero]
      positivity
  · show (Machine.view supA rowsA colsA 0 0).toRat = _
    rw [hVA 0 0 (by decide) (by decide)]
    simp
  · simpa using hp1a
  · simpa using hb00
  · intro r c hr1 hr hc1 hc
    have hrc : 0 < r ∧ 0 < c := ⟨by omega, by omega⟩
    obtain ⟨_, ⟨z1, hz1⟩, g1⟩ := hentA r c hr hc
    obtain ⟨_, ⟨z2, hz2⟩, g2⟩ := hentA r 0 hr (by decide)
    obtain ⟨_, ⟨z3, hz3⟩, g3⟩ := hentA 0 c (by decide) hc
    simp only [hrc, and_self, if_true, lt_self_iff_false, false_and, if_false]
    constructor
    · have hfrac : |(Machine.view st.support rowsA colsA r 0).toRat
          / (Machine.view st.support rowsA colsA 0 0).toRat
          * (Machine.view st.support rowsA colsA 0 c).toRat| ≤ 360 := by
        rw [abs_mul, abs_div]
        calc |(Machine.view st.support rowsA colsA r 0).toRat|
              / |(Machine.view st.support rowsA colsA 0 0).toRat|
              * |(Machine.view st.support rowsA colsA 0 c).toRat|
            = |(Machine.view st.support rowsA colsA r 0).toRat|
              * (|(Machine.view st.support rowsA colsA 0 c).toRat|
                / |(Machine.view st.support rowsA colsA 0 0).toRat|) := by ring
          _ ≤ |(Machine.view st.support rowsA colsA r 0).toRat| * 1 :=
              mul_le_mul_of_nonneg_left
                ((div_le_one hppos).2 (hmax c (Nat.zero_le c) hc)) (abs_nonneg _)
          _ ≤ 360 := by rw [mul_one]; exact g2
      have := abs_sub (Machine.view st.support rowsA colsA r c).toRat
        ((Machine.view st.support rowsA colsA r 0).toRat
          / (Machine.view st.support rowsA colsA 0 0).toRat
          * (Machine.view st.support rowsA colsA 0 c).toRat)
      linarith
    · refine ⟨z00 * z1 - z2 * z3, ?_⟩
      push_cast
      rw [← hz00, ← hz1, ← hz2, ← hz3]
      field_simp
      ring

/-- The arithmetic of step 1: from elements within `1e-11` of the exact ones, a pivot of
absolute value at least `1 / 361` that is the largest of its row, and the last element
within `1e-11` of its exact update, the product of the three pivots is within `1e-3` of
the determinant up to sign, and the last pivot lies between `1 / 40000` and `1443` in
absolute value. -/
theorem arith_step_one (p w11 w12 w21 w22 y11 y12 y21 y22 q s : ℚ)
    (hs : s = 1 ∨ s = -1)
    (hdet : s * (p * (y11 * y22 - y21 * y12)) = 10)
    (hp2 : |p| ≤ 360)
    (hy11 : |y11| ≤ 720) (hy21 : |y21| ≤ 720) (hy22 : |y22| ≤ 720)
    (hw11 : |w11 - y11| ≤ 1 / 10 ^ 11) (hw12 : |w12 - y12| ≤ 1 / 10 ^ 11)
    (hw21 : |w21 - y21| ≤ 1 / 10 ^ 11) (hw22 : |w22 - y22| ≤ 1 / 10 ^ 11)
    (hmax : |w12| ≤ |w11|) (hlow : 1 / 361 ≤ |w11|)
    (hq : |q - (w22 - w21 / w11 * w12)| ≤ 1 / 10 ^ 11) :
    |w11| ≤ 721 ∧ 1 / 40000 ≤ |q| ∧ |q| ≤ 1443 ∧ |p * w11 * q - s * 10| ≤ 1 / 1000 := by
  have b11 : |w11| ≤ 721 := by
    have := abs_sub_abs_le_abs_sub w11 y11
    linarith
  have b12 : |w12| ≤ 721 := by
    have := abs_sub_abs_le_abs_sub w12 y12
    linarith
  have b21 : |w21| ≤ 721 := by
    have := abs_sub_abs_le_abs_sub w21 y21
    linarith
  have b22 : |w22| ≤ 721 := by
    have := abs_sub_abs_le_abs_sub w22 y22
    linarith
  have hpos : 0 < |w11| := lt_of_lt_of_le (by norm_num) hlow
  have hne : w11 ≠ 0 := abs_pos.1 hpos
  -- the two determinants
  have e1 : |w11 * w22 - y11 * y22| ≤ 1441 / 10 ^ 11 := by
    have h := abs_mul_sub_mul_le w11 w22 y11 y22
    have h1 : |w11 - y11| * |w22| ≤ 1 / 10 ^ 11 * 721 :=
      mul_le_mul hw11 b22 (abs_nonneg _) (by norm_num)
    have h2 : |y11| * |w22 - y22| ≤ 720 * (1 / 10 ^ 11) :=
      mul_le_mul hy11 hw22 (abs_nonneg _) (by norm_num)
    linarith
  have e2 : |w21 * w12 - y21 * y12| ≤ 1441 / 10 ^ 11 := by
    have h := abs_mul_sub_mul_le w21 w12 y21 y12
    have h1 : |w21 - y21| * |w12| ≤ 1 / 10 ^ 11 * 721 :=
      mul_le_mul hw21 b12 (abs_nonneg _) (by norm_num)
    have h2 : |y21| * |w12 - y12| ≤ 720 * (1 / 10 ^ 11) :=
      mul_le_mul hy21 hw12 (abs_nonneg _) (by norm_num)
    linarith
  have e3 : |(w11 * w22 - w21 * w12) - (y11 * y22 - y21 * y12)| ≤ 2882 / 10 ^ 11 := by
    have e : (w11 * w22 - w21 * w12) - (y11 * y22 - y21 * y12)
        = (w11 * w22 - y11 * y22) - (w21 * w12 - y21 * y12) := by ring
    rw [e]
    have := abs_sub (w11 * w22 - y11 * y22) (w21 * w12 - y21 * y12)
    linarith
  have e4 : p * (y11 * y22 - y21 * y12) = s * 10 := by
    rcases hs with h | h <;> rw [h] at hdet ⊢ <;> linarith
  have e5 : |p| * |y11 * y22 - y21 * y12| = 10 := by
    rw [← abs_mul, e4, abs_mul]
    rcases hs with h | h <;> rw [h] <;> norm_num
  have e6 : 1 / 36 ≤ |y11 * y22 - y21 * y12| := by
    have := le_of_mul_bound (le_of_eq e5.symm) hp2 (abs_nonneg _) (by norm_num)
    have h2 : (1 : ℚ) / 36 = 10 / 360 := by norm_num
    rw [h2]; exact this
  have e7 : 1 / 40 ≤ |w11 * w22 - w21 * w12| := by
    have := abs_sub_abs_le_abs_sub (y11 * y22 - y21 * y12) (w11 * w22 - w21 * w12)
    have hc := abs_sub_comm (y11 * y22 - y21 * y12) (w11 * w22 - w21 * w12)
    have h2 : (1 : ℚ) / 36 - 2882 / 10 ^ 11 ≥ 1 / 40 := by norm_num
    linarith
  have e8 : w11 * (w22 - w21 / w11 * w12) = w11 * w22 - w21 * w12 := by
    field_simp
    ring
  have e9 : |w11| * |w22 - w21 / w11 * w12| = |w11 * w22 - w21 * w12| := by
    rw [← abs_mul, e8]
  have e10 : 1 / 28840 ≤ |w22 - w21 / w11 * w12| := by
    have h1 : (1 : ℚ) / 40 ≤ |w11| * |w22 - w21 / w11 * w12| := by rw [e9]; exact e7
    have := le_of_mul_bound h1 b11 (abs_nonneg _) (by norm_num)
    have h2 : (1 : ℚ) / 28840 = 1 / 40 / 721 := by norm_num
    rw [h2]; exact this
  have e11 : |w21 / w11 * w12| ≤ 721 := by
    rw [abs_mul, abs_div]
    calc |w21| / |w11| * |w12| = |w21| * (|w12| / |w11|) := by ring
      _ ≤ |w21| * 1 := mul_le_mul_of_nonneg_left ((div_le_one hpos).2 hmax) (abs_nonneg _)
      _ ≤ 721 := by rw [mul_one]; exact b21
  have e12 : |w22 - w21 / w11 * w12| ≤ 1442 := by
    have := abs_sub w22 (w21 / w11 * w12)
    linarith
  refine ⟨b11, ?_, ?_, ?_⟩
  · have := abs_sub_abs_le_abs_sub (w22 - w21 / w11 * w12) q
    have hc := abs_sub_comm (w22 - w21 / w11 * w12) q
    have h2 : (1 : ℚ) / 28840 - 1 / 10 ^ 11 ≥ 1 / 40000 := by norm_num
    linarith
  · have := abs_sub_abs_le_abs_sub q (w22 - w21 / w11 * w12)
    have h2 : (1442 : ℚ) + 1 / 10 ^ 11 ≤ 1443 := by norm_num
    linarith
  · have e : p * w11 * q - s * 10
        = p * w11 * (q - (w22 - w21 / w11 * w12))
          + p * ((w11 * w22 - w21 * w12) - (y11 * y22 - y21 * y12)) := by
      rw [← e4, ← e8]
      ring
    rw [e]
    have t1 : |p * w11 * (q - (w22 - w21 / w11 * w12))| ≤ 360 * 721 * (1 / 10 ^ 11) := by
      rw [abs_mul, abs_mul]
      exact mul_le_mul (mul_le_mul hp2 b11 (abs_nonneg _) (by norm_num)) hq (abs_nonneg _)
        (by norm_num)
    have t2 : |p * ((w11 * w22 - w21 * w12) - (y11 * y22 - y21 * y12))|
        ≤ 360 * (2882 / 10 ^ 11) := by
      rw [abs_mul]
      exact mul_le_mul hp2 e3 (abs_nonneg _) (by norm_num)
    have t3 := abs_add (p * w11 * (q - (w22 - w21 / w11 * w12)))
      (p * ((w11 * w22 - w21 * w12) - (y11 * y22 - y21 * y12)))
    have t4 : (360 : ℚ) * 721 * (1 / 10 ^ 11) + 360 * (2882 / 10 ^ 11) ≤ 1 / 1000 := by
      norm_num
    linarith

/-- Step 1 of the run in `double`: from a state whose elements are within `1e-11` of the
exact elimination `Y` of an integer matrix with the determinant 10, the run continues, and
the three pivots of the next state multiply to the determinant up to sign within `1e-3`. -/
theorem machine_step_one (stA : Machine.GaussState) (Y : Nat → Nat → ℚ)
    (hok : Machine.EngineOk 3 stA.support stA.fakeRows stA.fakeCols)
    (hsign : stA.sign = 1 ∨ stA.sign = -1)
    (hdet : (stA.sign : ℚ) * (reduced 3 1 Y).det = 10)
    (hfin : ∀ r c, r < 3 → c < 3 →
      (Machine.view stA.support stA.fakeRows stA.fakeCols r c).IsFinite ∧
      |(Machine.view stA.support stA.fakeRows stA.fakeCols r c).toRat - Y r c|
        ≤ 1 / 10 ^ 11)
    (h00 : (Machine.view stA.support stA.fakeRows stA.fakeCols 0 0).toRat = Y 0 0)
    (hp1 : 1 ≤ |Y 0 0|) (hp2 : |Y 0 0| ≤ 360)
    (hY : ∀ r c, 1 ≤ r → r < 3 → 1 ≤ c → c < 3 →
      |Y r c| ≤ 720 ∧ ∃ z : ℤ, Y 0 0 * Y r c = z) :
    ∃ stB : Machine.GaussState,
      (∀ f, Machine.fakeGaussLoop (f + 1) 1 stA = Machine.fakeGaussLoop f 2 stB) ∧
      Machine.EngineOk 3 stB.support stB.fakeRows stB.fakeCols ∧
      (stB.sign = 1 ∨ stB.sign = -1) ∧
      (∀ r c, r < 3 → c < 3 →
        (Machine.view stB.support stB.fakeRows stB.fakeCols r c).IsFinite) ∧
      |(Machine.view stB.support stB.fakeRows stB.fakeCols 0 0).toRat| ≤ 360 ∧
      |(Machine.view stB.support stB.fakeRows stB.fakeCols 1 1).toRat| ≤ 721 ∧
      1 / 40000 ≤ |(Machine.view stB.support stB.fakeRows stB.fakeCols 2 2).toRat| ∧
      |(Machine.view stB.support stB.fakeRows stB.fakeCols 2 2).toRat| ≤ 1443 ∧
      |(Machine.view stB.support stB.fakeRows stB.fakeCols 0 0).toRat
          * (Machine.view stB.support stB.fakeRows stB.fakeCols 1 1).toRat
          * (Machine.view stB.support stB.fakeRows stB.fakeCols 2 2).toRat
        - (stB.sign : ℚ) * 10| ≤ 1 / 1000 := by
  obtain ⟨mx1, mx2, rowsB, colsB, a1, a2, b1, b2, hW, hmax, _, hcont⟩ :=
    machine_run_step (n := 3) 1 stA (by decide) hok (fun r c hr hc => (hfin r c hr hc).1)
  -- the exchanged state and its exact counterpart
  have happ : ∀ r c, r < 3 → c < 3 →
      (Machine.view stA.support rowsB colsB r c).IsFinite ∧
      |(Machine.view stA.support rowsB colsB r c).toRat
        - Y (Equiv.swap 1 mx1 r) (Equiv.swap 1 mx2 c)| ≤ 1 / 10 ^ 11 := by
    intro r c hr hc
    rw [hW]
    exact hfin _ _ (swap_lt (by decide) a2 hr) (swap_lt (by decide) b2 hc)
  have hYB : ∀ r c, 1 ≤ r → r < 3 → 1 ≤ c → c < 3 →
      |Y (Equiv.swap 1 mx1 r) (Equiv.swap 1 mx2 c)| ≤ 720 ∧
      ∃ z : ℤ, Y 0 0 * Y (Equiv.swap 1 mx1 r) (Equiv.swap 1 mx2 c) = z := by
    intro r c hr1 hr hc1 hc
    exact hY _ _ (swap_ge a1 hr1) (swap_lt (by decide) a2 hr) (swap_ge b1 hc1)
      (swap_lt (by decide) b2 hc)
  have hd1 := reduced_swap_rows (n := 3) (i := 1) (by decide) a1 a2 Y
    (fun r c => Y (Equiv.swap 1 mx1 r) c) (fun r c _ _ => rfl)
  have hd2 := reduced_swap_cols (n := 3) (i := 1) (by decide) b1 b2
    (fun r c => Y (Equiv.swap 1 mx1 r) c)
    (fun r c => Y (Equiv.swap 1 mx1 r) (Equiv.swap 1 mx2 c)) (fun r c _ _ => rfl)
  have hsg : stA.sign * (if mx1 = 1 then 1 else -1) * (if mx2 = 1 then 1 else -1) = 1 ∨
      stA.sign * (if mx1 = 1 then 1 else -1) * (if mx2 = 1 then 1 else -1) = -1 := by
    rcases hsign with h | h <;> rw [h] <;> split_ifs <;> simp
  have hD : ((stA.sign * (if mx1 = 1 then 1 else -1) * (if mx2 = 1 then 1 else -1) : ℤ) : ℚ)
      * (reduced 3 1 (fun r c => Y (Equiv.swap 1 mx1 r) (Equiv.swap 1 mx2 c))).det = 10 := by
    rw [hd2, hd1, ← hdet]
    push_cast
    by_cases e1 : mx1 = 1 <;> by_cases e2 : mx2 = 1 <;> simp [e1, e2]
  have hp0 : Y 0 0 ≠ 0 := by
    intro h0
    rw [h0, abs_zero] at hp1
    norm_num at hp1
  -- the pivot row is not zero
  have hrow : ∃ c, 1 ≤ c ∧ c < 3 ∧ Y (Equiv.swap 1 mx1 1) (Equiv.swap 1 mx2 c) ≠ 0 := by
    by_contra hcon
    push_neg at hcon
    have hz : (reduced 3 1
        (fun r c => Y (Equiv.swap 1 mx1 r) (Equiv.swap 1 mx2 c))).det = 0 :=
      reduced_zero_row (by decide) _ (fun c hc1 hc2 => hcon c hc1 hc2)
    rw [hz, mul_zero] at hD
    norm_num at hD
  obtain ⟨c0, hc01, hc02, hc0ne⟩ := hrow
  have hlow : 1 / 361 ≤ |(Machine.view stA.support rowsB colsB 1 1).toRat| := by
    obtain ⟨_, z, hz⟩ := hYB 1 c0 (le_refl 1) (by decide) hc01 hc02
    have h1 : 1 ≤ |Y 0 0 * Y (Equiv.swap 1 mx1 1) (Equiv.swap 1 mx2 c0)| :=
      int_abs_ge_one z hz (mul_ne_zero hp0 hc0ne)
    rw [abs_mul] at h1
    have h2 : 1 / 360 ≤ |Y (Equiv.swap 1 mx1 1) (Equiv.swap 1 mx2 c0)| := by
      have := le_of_mul_bound h1 hp2 (abs_nonneg _) (by norm_num)
      exact this
    have h3 := (happ 1 c0 (by decide) hc02).2
    have h4 := abs_sub_abs_le_abs_sub (Y (Equiv.swap 1 mx1 1) (Equiv.swap 1 mx2 c0))
      (Machine.view stA.support rowsB colsB 1 c0).toRat
    have h5 := abs_sub_comm (Y (Equiv.swap 1 mx1 1) (Equiv.swap 1 mx2 c0))
      (Machine.view stA.support rowsB colsB 1 c0).toRat
    have h6 := hmax c0 hc01 hc02
    have h7 : (1 : ℚ) / 360 - 1 / 10 ^ 11 ≥ 1 / 361 := by norm_num
    linarith
  have hpos : 0 < |(Machine.view stA.support rowsB colsB 1 1).toRat| :=
    lt_of_lt_of_le (by norm_num) hlow
  have hne : (Machine.view stA.support rowsB colsB 1 1).toRat ≠ 0 := abs_pos.1 hpos
  obtain ⟨supB, hokB, hloopB, hVB⟩ := hcont (pivot_test_false _
    (happ 1 1 (by decide) (by decide)).1 (lt_of_lt_of_le (by norm_num) hlow))
  -- bounds on the four elements
  have hwb : ∀ r c, 1 ≤ r → r < 3 → 1 ≤ c → c < 3 →
      |(Machine.view stA.support rowsB colsB r c).toRat| ≤ 721 := by
    intro r c hr1 hr hc1 hc
    have h1 := (happ r c hr hc).2
    have h2 := (hYB r c hr1 hr hc1 hc).1
    have h3 := abs_sub_abs_le_abs_sub (Machine.view stA.support rowsB colsB r c).toRat
      (Y (Equiv.swap 1 mx1 r) (Equiv.swap 1 mx2 c))
    linarith
  -- the update of the last element
  have hq : |(Machine.view stA.support rowsB colsB 2 1).toRat
      / (Machine.view stA.support rowsB colsB 1 1).toRat| ≤ 10 ^ 9 := by
    exact le_trans (abs_div_le (hwb 2 1 (by decide) (by decide) (by decide) (by decide))
      hlow (by norm_num)) (by norm_num)
  obtain ⟨e1, e2⟩ := elim_err (Machine.view stA.support rowsB colsB 2 2)
    (Machine.view stA.support rowsB colsB 2 1) (Machine.view stA.support rowsB colsB 1 1)
    (Machine.view stA.support rowsB colsB 1 2) 721
    (happ 2 2 (by decide) (by decide)).1 (happ 2 1 (by decide) (by decide)).1
    (happ 1 1 (by decide) (by decide)).1 (happ 1 2 (by decide) (by decide)).1 (by norm_num)
    (hwb 2 2 (by decide) (by decide) (by decide) (by decide))
    (hwb 2 1 (by decide) (by decide) (by decide) (by decide))
    (hmax 2 (by decide) (by decide))
    (hwb 1 2 (by decide) (by decide) (by decide) (by decide)) hne hq
  have e3 : |(F64.sub (Machine.view stA.support rowsB colsB 2 2)
      (F64.mul (F64.div (Machine.view stA.support rowsB colsB 2 1)
        (Machine.view stA.support rowsB colsB 1 1))
        (Machine.view stA.support rowsB colsB 1 2))).toRat
      - ((Machine.view stA.support rowsB colsB 2 2).toRat
        - (Machine.view stA.support rowsB colsB 2 1).toRat
          / (Machine.view stA.support rowsB colsB 1 1).toRat
          * (Machine.view stA.support rowsB colsB 1 2).toRat)| ≤ 1 / 10 ^ 11 :=
    le_trans e2 (by norm_num)
  -- the elements of the next state
  have v00 : Machine.view supB rowsB colsB 0 0
      = Machine.view stA.support stA.fakeRows stA.fakeCols 0 0 := by
    rw [hVB 0 0 (by decide) (by decide), if_neg (by omega), hW,
      swap_fix_lt a1 (by decide), swap_fix_lt b1 (by decide)]
  have v11 : Machine.view supB rowsB colsB 1 1 = Machine.view stA.support rowsB colsB 1 1 := by
    rw [hVB 1 1 (by decide) (by decide), if_neg (by omega)]
  have v22 : Machine.view supB rowsB colsB 2 2
      = F64.sub (Machine.view stA.support rowsB colsB 2 2)
        (F64.mul (F64.div (Machine.view stA.support rowsB colsB 2 1)
          (Machine.view stA.support rowsB colsB 1 1))
          (Machine.view stA.support rowsB colsB 1 2)) := by
    rw [hVB 2 2 (by decide) (by decide), if_pos ⟨by decide, by decide⟩]
  -- the exact determinant
  have hy11 : Y (Equiv.swap 1 mx1 1) (Equiv.swap 1 mx2 1) ≠ 0 := by
    intro h0
    have h1 := (happ 1 1 (by decide) (by decide)).2
    rw [h0, sub_zero] at h1
    have : (1 : ℚ) / 10 ^ 11 < 1 / 361 := by norm_num
    linarith
  have hdZ := reduced_eliminate (n := 3) (i := 1) (by decide)
    (fun r c => Y (Equiv.swap 1 mx1 r) (Equiv.swap 1 mx2 c))
    (fun r c => if 1 < r ∧ 1 < c then
        Y (Equiv.swap 1 mx1 r) (Equiv.swap 1 mx2 c)
          - Y (Equiv.swap 1 mx1 r) (Equiv.swap 1 mx2 1)
            / Y (Equiv.swap 1 mx1 1) (Equiv.swap 1 mx2 1)
            * Y (Equiv.swap 1 mx1 1) (Equiv.swap 1 mx2 c)
      else Y (Equiv.swap 1 mx1 r) (Equiv.swap 1 mx2 c))
    hy11 (fun r c _ _ => rfl)
  have hdS : ((stA.sign * (if mx1 = 1 then 1 else -1) * (if mx2 = 1 then 1 else -1) : ℤ) : ℚ)
      * (Y 0 0 * (Y (Equiv.swap 1 mx1 1) (Equiv.swap 1 mx2 1)
            * Y (Equiv.swap 1 mx1 2) (Equiv.swap 1 mx2 2)
          - Y (Equiv.swap 1 mx1 2) (Equiv.swap 1 mx2 1)
            * Y (Equiv.swap 1 mx1 1) (Equiv.swap 1 mx2 2))) = 10 := by
    rw [← hD, ← hdZ, reduced_last 2, reduced_final, Finset.prod_range_succ,
      Finset.prod_range_succ, Finset.prod_range_one]
    simp only [lt_self_iff_false, false_and, and_false, if_false, Nat.one_lt_ofNat, and_self,
      if_true, Nat.not_lt_zero]
    rw [swap_fix_lt (t := 0) a1 (by decide), swap_fix_lt (t := 0) b1 (by decide)]
    have hy11b : Y mx1 mx2 ≠ 0 := by simpa using hy11
    congr 1
    field_simp
    ring
  obtain ⟨r1, r2, r3, r4⟩ := arith_step_one (Y 0 0)
    (Machine.view stA.support rowsB colsB 1 1).toRat
    (Machine.view stA.support rowsB colsB 1 2).toRat
    (Machine.view stA.support rowsB colsB 2 1).toRat
    (Machine.view stA.support rowsB colsB 2 2).toRat
    (Y (Equiv.swap 1 mx1 1) (Equiv.swap 1 mx2 1)) (Y (Equiv.swap 1 mx1 1) (Equiv.swap 1 mx2 2))
    (Y (Equiv.swap 1 mx1 2) (Equiv.swap 1 mx2 1)) (Y (Equiv.swap 1 mx1 2) (Equiv.swap 1 mx2 2))
    (Machine.view supB rowsB colsB 2 2).toRat
    ((stA.sign * (if mx1 = 1 then 1 else -1) * (if mx2 = 1 then 1 else -1) : ℤ) : ℚ)
    (by rcases hsg with h | h <;> rw [h] <;> simp)
    hdS hp2
    (hYB 1 1 (by decide) (by decide) (by decide) (by decide)).1
    (hYB 2 1 (by decide) (by decide) (by decide) (by decide)).1
    (hYB 2 2 (by decide) (by decide) (by decide) (by decide)).1
    (happ 1 1 (by decide) (by decide)).2 (happ 1 2 (by decide) (by decide)).2
    (happ 2 1 (by decide) (by decide)).2 (happ 2 2 (by decide) (by decide)).2
    (hmax 2 (by decide) (by decide)) hlow (by rw [v22]; exact e3)
  refine ⟨⟨stA.sign * (if mx1 = 1 then 1 else -1) * (if mx2 = 1 then 1 else -1),
      supB, rowsB, colsB⟩, hloopB, hokB, hsg, ?_, ?_, ?_, r2, r3, ?_⟩
  · intro r c hr hc
    show (Machine.view supB rowsB colsB r c).IsFinite
    rw [hVB r c hr hc]
    by_cases hrc : 1 < r ∧ 1 < c
    · have hr2 : r = 2 := by omega
      have hc2 : c = 2 := by omega
      subst hr2; subst hc2
      rw [if_pos hrc]
      exact e1
    · rw [if_neg hrc]
      exact (happ r c hr hc).1
  · show |(Machine.view supB rowsB colsB 0 0).toRat| ≤ 360
    rw [v00, h00]; exact hp2
  · show |(Machine.view supB rowsB colsB 1 1).toRat| ≤ 721
    rw [v11]; exact r1
  · show |(Machine.view supB rowsB colsB 0 0).toRat * (Machine.view supB rowsB colsB 1 1).toRat
        * (Machine.view supB rowsB colsB 2 2).toRat - _| ≤ 1 / 1000
    rw [v00, h00, v11]
    exact r4

theorem machine_countDet_three {m : Mat F64} {rows cols : List Nat}
    (h : Machine.EngineOk 3 m rows cols) (sign : Int) :
    Machine.countDet m rows cols sign =
      .ok (if sign = 1 then
          F64.mul (F64.mul (Machine.view m rows cols 0 0) (Machine.view m rows cols 1 1))
            (Machine.view m rows cols 2 2)
        else F64.neg
          (F64.mul (F64.mul (Machine.view m rows cols 0 0) (Machine.view m rows cols 1 1))
            (Machine.view m rows cols 2 2))) := by
  have e0 := machine_elemAt_ok h (show 0 < 3 by decide) (show 0 < 3 by decide)
  have e1 := machine_elemAt_ok h (show 1 < 3 by decide) (show 1 < 3 by decide)
  have e2 := machine_elemAt_ok h (show 2 < 3 by decide) (show 2 < 3 by decide)
  simp only [Machine.countDet, e0, h.ncols, forRange, forLoop, e1, e2]

/-- Step 2 of the run in `double` on a `3 x 3` matrix: no exchange, the pivot passes the
tolerance test, and the loop ends with the same elements and sign. -/
theorem machine_step_two (stB : Machine.GaussState)
    (hok : Machine.EngineOk 3 stB.support stB.fakeRows stB.fakeCols)
    (hfin : ∀ r c, r < 3 → c < 3 →
      (Machine.view stB.support stB.fakeRows stB.fakeCols r c).IsFinite)
    (hp : 1 / 40000 ≤ |(Machine.view stB.support stB.fakeRows stB.fakeCols 2 2).toRat|) :
    ∃ stC : Machine.GaussState,
      Machine.fakeGaussLoop 1 2 stB = .ok (.completed stC) ∧
      Machine.EngineOk 3 stC.support stC.fakeRows stC.fakeCols ∧
      stC.sign = stB.sign ∧
      ∀ r c, r < 3 → c < 3 →
        Machine.view stC.support stC.fakeRows stC.fakeCols r c
          = Machine.view stB.support stB.fakeRows stB.fakeCols r c := by
  obtain ⟨mx1, mx2, rowsC, colsC, a1, a2, b1, b2, hW, _, _, hcont⟩ :=
    machine_run_step (n := 3) 2 stB (by decide) hok hfin
  have hm1 : mx1 = 2 := by omega
  have hm2 : mx2 = 2 := by omega
  subst hm1; subst hm2
  have hW2 : ∀ r c, Machine.view stB.support rowsC colsC r c
      = Machine.view stB.support stB.fakeRows stB.fakeCols r c := by
    intro r c
    rw [hW, Equiv.swap_self, Equiv.refl_apply, Equiv.refl_apply]
  obtain ⟨supC, hokC, hloopC, hVC⟩ := hcont (pivot_test_false _
    (by rw [hW2]; exact hfin 2 2 (by decide) (by decide))
    (by rw [hW2]; exact lt_of_lt_of_le (by norm_num) hp))
  refine ⟨⟨stB.sign * (if 2 = 2 then 1 else -1) * (if 2 = 2 then 1 else -1),
    supC, rowsC, colsC⟩, ?_, hokC, by simp, ?_⟩
  · rw [hloopC 0]
    rfl
  · intro r c hr hc
    show Machine.view supC rowsC colsC r c = _
    rw [hVC r c hr hc, if_neg (by omega), hW2]

/-- A finite `double` within `0.01` of 10 is rounded and converted to the `int` 10. -/
theorem round_toInt_ten (d : F64) (hd : d.IsFinite) (h : |d.toRat - 10| ≤ 1 / 100) :
    Machine.toInt (Machine.round d) = .ok 10 := by
  cases d with
  | fin s a =>
    have ha : 0 ≤ a := hd
    cases s with
    | false =>
      have h1 : |a - 10| ≤ 1 / 100 := h
      obtain ⟨l, u⟩ := abs_le.1 h1
      have hf : ⌊a + 1 / 2⌋ = 10 := by
        rw [Int.floor_eq_iff]
        constructor <;> push_cast <;> linarith
      simp only [Machine.round, hf]
      simp [Machine.toInt]
    | true =>
      have h1 : |(-a) - 10| ≤ 1 / 100 := h
      obtain ⟨l, u⟩ := abs_le.1 h1
      linarith
  | inf s => exact absurd hd id
  | nan => exact absurd hd id

theorem machine_engineOk_init (m : Mat F64) (hsq : m.nRows_ = m.nCols_) :
    Machine.EngineOk m.nRows_ m (createFakeRows m) (createFakeCols m) := by
  refine ⟨rfl, hsq.symm, ⟨by simp [createFakeRows], ?_, ?_⟩,
    ⟨by simp [createFakeCols, hsq], ?_, ?_⟩⟩
  · intro r hr
    exact ⟨r, hr, by rw [createFakeRows_getD m hr, hsq]⟩
  · intro r r2 hr hr2 he
    rw [createFakeRows_getD m hr, createFakeRows_getD m hr2] at he
    have hpos : 0 < m.nCols_ := by omega
    exact Nat.eq_of_mul_eq_mul_left hpos he
  · intro c hc
    rw [createFakeCols_getD m (by omega)]; exact hc
  · intro c c2 hc hc2 he
    rw [createFakeCols_getD m (by omega), createFakeCols_getD m (by omega)] at he
    exact he

/-- The product of the three pivots in `double`: two rounded multiplications of finite
values of absolute value at most 360, 721 and 1443. -/
theorem countDet_err (q0 q1 q2 : F64) (h0 : q0.IsFinite) (h1 : q1.IsFinite)
    (h2 : q2.IsFinite) (b0 : |q0.toRat| ≤ 360) (b1 : |q1.toRat| ≤ 721)
    (b2 : |q2.toRat| ≤ 1443) :
    (F64.mul (F64.mul q0 q1) q2).IsFinite ∧
      |(F64.mul (F64.mul q0 q1) q2).toRat - q0.toRat * q1.toRat * q2.toRat| ≤ 1 / 10 ^ 5 := by
  have hb01 : |q0.toRat * q1.toRat| ≤ 259560 := by
    rw [abs_mul]
    calc |q0.toRat| * |q1.toRat| ≤ 360 * 721 := mul_le_mul b0 b1 (abs_nonneg _) (by norm_num)
      _ = 259560 := by norm_num
  obtain ⟨f1, e1⟩ := F64.mul_spec q0 q1 h0 h1 (le_trans hb01 (by norm_num))
  have e1b : |(F64.mul q0 q1).toRat - q0.toRat * q1.toRat| ≤ 1 / 10 ^ 9 :=
    le_trans e1 (le_trans (F64.err_le (abs_nonneg _) hb01) (by norm_num))
  have hm1 : |(F64.mul q0 q1).toRat| ≤ 259561 := by
    have := abs_sub_abs_le_abs_sub (F64.mul q0 q1).toRat (q0.toRat * q1.toRat)
    have h9 : (1 : ℚ) / 10 ^ 9 ≤ 1 := by norm_num
    linarith
  have hb2 : |(F64.mul q0 q1).toRat * q2.toRat| ≤ 374546523 := by
    rw [abs_mul]
    calc |(F64.mul q0 q1).toRat| * |q2.toRat| ≤ 259561 * 1443 :=
          mul_le_mul hm1 b2 (abs_nonneg _) (by norm_num)
      _ = 374546523 := by norm_num
  obtain ⟨f2, e2⟩ := F64.mul_spec (F64.mul q0 q1) q2 f1 h2 (le_trans hb2 (by norm_num))
  have e2b : |(F64.mul (F64.mul q0 q1) q2).toRat - (F64.mul q0 q1).toRat * q2.toRat|
      ≤ 1 / 10 ^ 6 :=
    le_trans e2 (le_trans (F64.err_le (abs_nonneg _) hb2) (by norm_num))
  have e3 : |(F64.mul q0 q1).toRat * q2.toRat - q0.toRat * q1.toRat * q2.toRat|
      ≤ 1 / 10 ^ 9 * 1443 := by
    rw [← sub_mul, abs_mul]
    exact mul_le_mul e1b b2 (abs_nonneg _) (by norm_num)
  refine ⟨f2, ?_⟩
  have e : (F64.mul (F64.mul q0 q1) q2).toRat - q0.toRat * q1.toRat * q2.toRat
      = ((F64.mul (F64.mul q0 q1) q2).toRat - (F64.mul q0 q1).toRat * q2.toRat)
        + ((F64.mul q0 q1).toRat * q2.toRat - q0.toRat * q1.toRat * q2.toRat) := by ring
  rw [e]
  have t := abs_add ((F64.mul (F64.mul q0 q1) q2).toRat - (F64.mul q0 q1).toRat * q2.toRat)
    ((F64.mul q0 q1).toRat * q2.toRat - q0.toRat * q1.toRat * q2.toRat)
  have t2 : (1 : ℚ) / 10 ^ 6 + 1 / 10 ^ 9 * 1443 ≤ 1 / 10 ^ 5 := by norm_num
  linarith

/-- The member `det ()` of `Matrix<int>`, in `double` and 32-bit `int`, on a `3 x 3` matrix
of integers of absolute value at most 360 whose determinant is 10: the run meets no pivot
within `EPSILON`, and the result is 10. -/
theorem machine_detInt_three (fresh : Nat → F64) (arr : List ℤ) (hsz : arr.length = 3 * 3)
    (hB : ∀ r c, r < 3 → c < 3 → |(⟨3, 3, arr, hsz⟩ : Mat ℤ).entry r c| ≤ 360)
    (hdet : (⟨3, 3, arr, hsz⟩ : Mat ℤ).mathDet = 10) :
    (∃ support st, Mat.convert fresh F64.ofInt (⟨3, 3, arr, hsz⟩ : Mat ℤ) = .ok support ∧
      Machine.fakeGaussRun support.copy = .ok (.completed st)) ∧
    Machine.detInt fresh (⟨3, 3, arr, hsz⟩ : Mat ℤ) = .ok 10 := by
  have hconv := Mat.convert_ok fresh F64.ofInt (⟨3, 3, arr, hsz⟩ : Mat ℤ)
  simp only at hconv
  have hok0 := machine_engineOk_init
    (⟨3, 3, arr.map F64.ofInt, by simp [hsz]⟩ : Mat F64) rfl
  simp only at hok0
  have hview : ∀ r c, r < 3 → c < 3 →
      Machine.view (⟨3, 3, arr.map F64.ofInt, by simp [hsz]⟩ : Mat F64)
        (createFakeRows (⟨3, 3, arr.map F64.ofInt, by simp [hsz]⟩ : Mat F64))
        (createFakeCols (⟨3, 3, arr.map F64.ofInt, by simp [hsz]⟩ : Mat F64)) r c
      = F64.ofInt ((⟨3, 3, arr, hsz⟩ : Mat ℤ).entry r c) := by
    intro r c hr hc
    have hlt : 3 * r + c < arr.length := by rw [hsz]; omega
    simp only [Machine.view, Mat.entry]
    rw [createFakeRows_getD (⟨3, 3, arr.map F64.ofInt, by simp [hsz]⟩ : Mat F64) hr,
      createFakeCols_getD (⟨3, 3, arr.map F64.ofInt, by simp [hsz]⟩ : Mat F64) hc]
    simp only [List.getD_eq_getElem?_getD, List.getElem?_map, List.getElem?_eq_getElem hlt,
      Option.map_some', Option.getD_some]
  have hspec : ∀ r c, r < 3 → c < 3 →
      (F64.ofInt ((⟨3, 3, arr, hsz⟩ : Mat ℤ).entry r c)).IsFinite ∧
      (F64.ofInt ((⟨3, 3, arr, hsz⟩ : Mat ℤ).entry r c)).toRat
        = (((⟨3, 3, arr, hsz⟩ : Mat ℤ).entry r c : ℤ) : ℚ) := by
    intro r c hr hc
    exact F64.ofInt_spec _ (lt_of_le_of_lt (hB r c hr hc) (by norm_num))
  have hent : ∀ r c, r < 3 → c < 3 →
      (Machine.view (⟨3, 3, arr.map F64.ofInt, by simp [hsz]⟩ : Mat F64)
        (createFakeRows (⟨3, 3, arr.map F64.ofInt, by simp [hsz]⟩ : Mat F64))
        (createFakeCols (⟨3, 3, arr.map F64.ofInt, by simp [hsz]⟩ : Mat F64)) r c).IsFinite ∧
      (∃ z : ℤ, (Machine.view (⟨3, 3, arr.map F64.ofInt, by simp [hsz]⟩ : Mat F64)
        (createFakeRows (⟨3, 3, arr.map F64.ofInt, by simp [hsz]⟩ : Mat F64))
        (createFakeCols (⟨3, 3, arr.map F64.ofInt, by simp [hsz]⟩ : Mat F64)) r c).toRat = z) ∧
      |(Machine.view (⟨3, 3, arr.map F64.ofInt, by simp [hsz]⟩ : Mat F64)
        (createFakeRows (⟨3, 3, arr.map F64.ofInt, by simp [hsz]⟩ : Mat F64))
        (createFakeCols (⟨3, 3, arr.map F64.ofInt, by simp [hsz]⟩ : Mat F64)) r c).toRat|
        ≤ 360 := by
    intro r c hr hc
    rw [hview r c hr hc]
    obtain ⟨f, e⟩ := hspec r c hr hc
    refine ⟨f, ⟨_, e⟩, ?_⟩
    rw [e, ← Int.cast_abs]
    exact_mod_cast hB r c hr hc
  have hdet0 : (((1 : ℤ) : ℚ)) * (reduced 3 0 (fun r c =>
      (Machine.view (⟨3, 3, arr.map F64.ofInt, by simp [hsz]⟩ : Mat F64)
        (createFakeRows (⟨3, 3, arr.map F64.ofInt, by simp [hsz]⟩ : Mat F64))
        (createFakeCols (⟨3, 3, arr.map F64.ofInt, by simp [hsz]⟩ : Mat F64)) r c).toRat)).det
      = 10 := by
    have hm := mathDet_convert (⟨3, 3, arr, hsz⟩ : Mat ℤ)
    simp only at hm
    have heq : reduced 3 0 (fun r c =>
        (Machine.view (⟨3, 3, arr.map F64.ofInt, by simp [hsz]⟩ : Mat F64)
          (createFakeRows (⟨3, 3, arr.map F64.ofInt, by simp [hsz]⟩ : Mat F64))
          (createFakeCols (⟨3, 3, arr.map F64.ofInt, by simp [hsz]⟩ : Mat F64)) r c).toRat)
        = (⟨3, 3, arr.map (fun z : ℤ => (z : ℚ)), by simp [hsz]⟩ : Mat ℚ).toMatrix := by
      ext r c
      simp only [reduced, Matrix.of_apply, Nat.not_lt_zero, false_and, if_false, Mat.toMatrix]
      rw [hview r.val c.val r.isLt c.isLt, (hspec r.val c.val r.isLt c.isLt).2]
      simp only [Mat.entry, List.getD_eq_getElem?_getD, List.getElem?_map]
      cases arr[3 * r.val + c.val]? <;> simp
    rw [heq]
    have hm2 : (⟨3, 3, arr.map (fun z : ℤ => (z : ℚ)), by simp [hsz]⟩ : Mat ℚ).toMatrix.det
        = (((⟨3, 3, arr, hsz⟩ : Mat ℤ).mathDet : ℤ) : ℚ) := hm
    rw [hm2, hdet]
    norm_num
  obtain ⟨stA, Y, hloopA, hokA, hsA, hdA, hfA, h00, hp1, hp2, hY⟩ :=
    machine_step_zero ⟨1, ⟨3, 3, arr.map F64.ofInt, by simp [hsz]⟩,
      createFakeRows (⟨3, 3, arr.map F64.ofInt, by simp [hsz]⟩ : Mat F64),
      createFakeCols (⟨3, 3, arr.map F64.ofInt, by simp [hsz]⟩ : Mat F64)⟩
      hok0 hent (Or.inl rfl) hdet0
  obtain ⟨stB, hloopB, hokB, hsB, hfB, b0, b1, b2l, b2, hprod⟩ :=
    machine_step_one stA Y hokA hsA hdA hfA h00 hp1 hp2 hY
  obtain ⟨stC, hloopC, hokC, hsC, hvC⟩ := machine_step_two stB hokB hfB b2l
  have hrun : Machine.fakeGaussRun (⟨3, 3, arr.map F64.ofInt, by simp [hsz]⟩ : Mat F64)
      = .ok (.completed stC) := by
    show Machine.fakeGaussLoop 3 0 _ = _
    rw [hloopA 2, hloopB 1, hloopC]
  obtain ⟨fd, ed⟩ := countDet_err _ _ _ (hfB 0 0 (by decide) (by decide))
    (hfB 1 1 (by decide) (by decide)) (hfB 2 2 (by decide) (by decide)) b0 b1 b2
  have hcd := machine_countDet_three hokC stC.sign
  rw [hvC 0 0 (by decide) (by decide), hvC 1 1 (by decide) (by decide),
    hvC 2 2 (by decide) (by decide), hsC] at hcd
  have hfg : ∃ d, Machine.fakeGauss (⟨3, 3, arr.map F64.ofInt, by simp [hsz]⟩ : Mat F64)
      = .ok d ∧ d.IsFinite ∧ |d.toRat - 10| ≤ 1 / 100 := by
    refine ⟨_, by simp only [Machine.fakeGauss, hrun]; rw [hsC]; exact hcd, ?_⟩
    have hsum : |(F64.mul (F64.mul (Machine.view stB.support stB.fakeRows stB.fakeCols 0 0)
        (Machine.view stB.support stB.fakeRows stB.fakeCols 1 1))
        (Machine.view stB.support stB.fakeRows stB.fakeCols 2 2)).toRat
        - (stB.sign : ℚ) * 10| ≤ 1 / 100 := by
      have e : (F64.mul (F64.mul (Machine.view stB.support stB.fakeRows stB.fakeCols 0 0)
          (Machine.view stB.support stB.fakeRows stB.fakeCols 1 1))
          (Machine.view stB.support stB.fakeRows stB.fakeCols 2 2)).toRat
          - (stB.sign : ℚ) * 10
          = ((F64.mul (F64.mul (Machine.view stB.support stB.fakeRows stB.fakeCols 0 0)
              (Machine.view stB.support stB.fakeRows stB.fakeCols 1 1))
              (Machine.view stB.support stB.fakeRows stB.fakeCols 2 2)).toRat
            - (Machine.view stB.support stB.fakeRows stB.fakeCols 0 0).toRat
              * (Machine.view stB.support stB.fakeRows stB.fakeCols 1 1).toRat
              * (Machine.view stB.support stB.fakeRows stB.fakeCols 2 2).toRat)
            + ((Machine.view stB.support stB.fakeRows stB.fakeCols 0 0).toRat
              * (Machine.view stB.support stB.fakeRows stB.fakeCols 1 1).toRat
              * (Machine.view stB.support stB.fakeRows stB.fakeCols 2 2).toRat
              - (stB.sign : ℚ) * 10) := by ring
      rw [e]
      have t := abs_add ((F64.mul (F64.mul (Machine.view stB.support stB.fakeRows stB.fakeCols 0 0)
              (Machine.view stB.support stB.fakeRows stB.fakeCols 1 1))
              (Machine.view stB.support stB.fakeRows stB.fakeCols 2 2)).toRat
            - (Machine.view stB.support stB.fakeRows stB.fakeCols 0 0).toRat
              * (Machine.view stB.support stB.fakeRows stB.fakeCols 1 1).toRat
              * (Machine.view stB.support stB.fakeRows stB.fakeCols 2 2).toRat)
            ((Machine.view stB.support stB.fakeRows stB.fakeCols 0 0).toRat
              * (Machine.view stB.support stB.fakeRows stB.fakeCols 1 1).toRat
              * (Machine.view stB.support stB.fakeRows stB.fakeCols 2 2).toRat
              - (stB.sign : ℚ) * 10)
      have t2 : (1 : ℚ) / 10 ^ 5 + 1 / 1000 ≤ 1 / 100 := by norm_num
      linarith
    rcases hsB with h | h
    · rw [h] at hsum ⊢
      simp only [if_true]
      refine ⟨fd, ?_⟩
      simpa using hsum
    · rw [h] at hsum ⊢
      have hne : ¬ ((-1 : ℤ) = 1) := by decide
      simp only [hne, if_false]
      obtain ⟨n1, n2⟩ := F64.neg_spec _ fd
      refine ⟨n1, ?_⟩
      rw [n2]
      have e : -(F64.mul (F64.mul (Machine.view stB.support stB.fakeRows stB.fakeCols 0 0)
          (Machine.view stB.support stB.fakeRows stB.fakeCols 1 1))
          (Machine.view stB.support stB.fakeRows stB.fakeCols 2 2)).toRat - 10
          = -((F64.mul (F64.mul (Machine.view stB.support stB.fakeRows stB.fakeCols 0 0)
            (Machine.view stB.support stB.fakeRows stB.fakeCols 1 1))
            (Machine.view stB.support stB.fakeRows stB.fakeCols 2 2)).toRat
            - ((-1 : ℤ) : ℚ) * 10) := by push_cast; ring
      rw [e, abs_neg]
      exact hsum
  obtain ⟨d, hd1, hd2, hd3⟩ := hfg
  constructor
  · exact ⟨_, stC, hconv, by rw [Mat.copy_eq]; exact hrun⟩
  · have hns : ¬ ((3 : Nat) ≠ 3) := by decide
    have hdetF : Machine.det (⟨3, 3, arr.map F64.ofInt, by simp [hsz]⟩ : Mat F64) = .ok d := by
      simp only [Machine.det, hns, if_false, Machine.detFalseType, Mat.copy_eq]
      exact hd1
    simp only [Machine.detInt, hns, if_false, Machine.detTrueType, hconv, hdetF]
    exact round_toInt_ten d hd2 hd3

/-! ## A zero row or column in machine arithmetic -/

theorem F64.zero_finite {x : F64} (h : x.IsZero) : x.IsFinite := by
  rcases h with h | h <;> rw [h] <;> exact le_refl (0 : ℚ)

theorem F64.isZero_fin (s : Bool) : (F64.fin s 0).IsZero := by
  cases s
  · exact Or.inl rfl
  · exact Or.inr rfl

theorem F64.isZero_iff (x : F64) : x.IsZero ↔ ∃ s, x = .fin s 0 := by
  constructor
  · rintro (h | h)
    · exact ⟨false, h⟩
    · exact ⟨true, h⟩
  · rintro ⟨s, rfl⟩
    exact F64.isZero_fin s

theorem F64.sub_zero_zero (s t : Bool) : (F64.sub (.fin s 0) (.fin t 0)).IsZero := by
  have : F64.sub (.fin s 0) (.fin t 0)
      = F64.ofRat (s && !t && decide ((0 : ℚ) = 0) && decide ((0 : ℚ) = 0))
        (F64.val s 0 - F64.val t 0) := rfl
  rw [this]
  have hv : F64.val s 0 - F64.val t 0 = 0 := by
    cases s <;> cases t <;> simp [F64.val]
  rw [hv]
  simp only [F64.ofRat, if_true]
  exact F64.isZero_fin _

theorem F64.mul_zero_left (s t : Bool) (b : ℚ) :
    F64.mul (.fin s 0) (.fin t b) = .fin (xor s t) 0 := by
  rw [F64.mul_fin, zero_mul, roundMag_zero]
  simp

theorem F64.mul_zero_right (s t : Bool) (a : ℚ) :
    F64.mul (.fin s a) (.fin t 0) = .fin (xor s t) 0 := by
  rw [F64.mul_fin, mul_zero, roundMag_zero]
  simp

theorem F64.div_zero_left (s t : Bool) {b : ℚ} (hb : b ≠ 0) :
    F64.div (.fin s 0) (.fin t b) = .fin (xor s t) 0 := by
  rw [F64.div_fin, if_neg hb, zero_div, roundMag_zero]
  simp

theorem F64.not_finite_nan : ¬ F64.nan.IsFinite := id

theorem F64.sub_nan (x : F64) : F64.sub x .nan = .nan := by
  cases x <;> rfl

theorem F64.mul_nan_left (x : F64) : F64.mul .nan x = .nan := by
  cases x <;> rfl

theorem F64.div_nan_right (x : F64) : F64.div x .nan = .nan := by
  cases x <;> rfl

theorem F64.mul_fin_inf (s t : Bool) (a : ℚ) :
    F64.mul (.fin s a) (.inf t) = if a = 0 then .nan else .inf (xor s t) := rfl

theorem F64.mul_inf_fin (s t : Bool) (b : ℚ) :
    F64.mul (.inf s) (.fin t b) = if b = 0 then .nan else .inf (xor s t) := rfl

theorem F64.div_fin_inf (s t : Bool) (a : ℚ) :
    F64.div (.fin s a) (.inf t) = .fin (xor s t) 0 := rfl

/-- The product of a zero and `c`, subtracted from a zero: a zero, or else a NaN. -/
theorem F64.sub_mul_zero_left (s t : Bool) (c : F64)
    (hf : (F64.sub (.fin s 0) (F64.mul (.fin t 0) c)).IsFinite) :
    (F64.sub (.fin s 0) (F64.mul (.fin t 0) c)).IsZero := by
  cases c with
  | nan =>
    have hm : F64.mul (.fin t 0) .nan = .nan := rfl
    rw [hm, F64.sub_nan] at hf
    exact absurd hf F64.not_finite_nan
  | inf v =>
    rw [F64.mul_fin_inf, if_pos rfl, F64.sub_nan] at hf
    exact absurd hf F64.not_finite_nan
  | fin v c =>
    rw [F64.mul_zero_left]
    exact F64.sub_zero_zero _ _

/-- The update `a - b / p * c` of the elimination on a zero `a`, with `b` or `c` a zero:
the result is a zero, or else an infinity or a NaN. -/
theorem F64.elim_zero (a b p c : F64) (ha : a.IsZero) (hbc : b.IsZero ∨ c.IsZero)
    (hf : (F64.sub a (F64.mul (F64.div b p) c)).IsFinite) :
    (F64.sub a (F64.mul (F64.div b p) c)).IsZero := by
  obtain ⟨s, rfl⟩ := (F64.isZero_iff a).1 ha
  rcases hbc with hb | hc
  · obtain ⟨t, rfl⟩ := (F64.isZero_iff b).1 hb
    cases p with
    | nan =>
      rw [F64.div_nan_right, F64.mul_nan_left, F64.sub_nan] at hf
      exact absurd hf F64.not_finite_nan
    | inf u =>
      rw [F64.div_fin_inf] at hf ⊢
      exact F64.sub_mul_zero_left s _ c hf
    | fin u p =>
      by_cases hp : p = 0
      · have hd : F64.div (.fin t 0) (.fin u p) = .nan := by
          rw [F64.div_fin, if_pos hp, if_pos rfl]
        rw [hd, F64.mul_nan_left, F64.sub_nan] at hf
        exact absurd hf F64.not_finite_nan
      · rw [F64.div_zero_left t u hp] at hf ⊢
        exact F64.sub_mul_zero_left s _ c hf
  · obtain ⟨t, rfl⟩ := (F64.isZero_iff c).1 hc
    cases hx : F64.div b p with
    | nan =>
      rw [hx, F64.mul_nan_left, F64.sub_nan] at hf
      exact absurd hf F64.not_finite_nan
    | inf v =>
      rw [hx, F64.mul_inf_fin, if_pos rfl, F64.sub_nan] at hf
      exact absurd hf F64.not_finite_nan
    | fin v x =>
      rw [F64.mul_zero_right]
      exact F64.sub_zero_zero _ _

theorem F64.le_zero_EPSILON {x : F64} (h : x.IsZero) :
    F64.le (F64.abs x) F64.EPSILON = true := by
  rcases h with h | h <;> rw [h] <;> decide!

/-- An element the engine addresses is an element of the buffer. -/
theorem machine_view_mem {n : Nat} {m : Mat F64} {rows cols : List Nat}
    (h : Machine.EngineOk n m rows cols) {r c : Nat} (hr : r < n) (hc : c < n) :
    Machine.view m rows cols r c ∈ m.arr_ := by
  have hlt := machine_addr_lt h hr hc
  have he : Machine.view m rows cols r c = m.arr_.get ⟨rows.getD r 0 + cols.getD c 0, hlt⟩ := by
    simp only [Machine.view]
    rw [List.getD_eq_getElem _ _ hlt]
    rfl
  rw [he]
  exact List.get_mem _ _ _

/-- The run in machine arithmetic from step `i` on a state with a zero row among the rows
not yet used as pivot rows: it ends in the early return, unless a state it goes through
holds an infinity or a NaN. -/
theorem machine_zeroRow_run {n : Nat} :
    ∀ (fuel i : Nat) (st : Machine.GaussState), i + fuel = n →
      Machine.EngineOk n st.support st.fakeRows st.fakeCols →
      (∃ z, i ≤ z ∧ z < n ∧ ∀ c, c < n →
        (Machine.view st.support st.fakeRows st.fakeCols z c).IsZero) →
      (∃ j st2 x, j ≤ fuel ∧ Machine.fakeGaussLoop j i st = .ok (.completed st2) ∧
        x ∈ st2.support.arr_ ∧ ¬ x.IsFinite) ∨
      ∃ k p, Machine.fakeGaussLoop fuel i st = .ok (.singular k p) ∧ k < n := by
  intro fuel
  induction fuel with
  | zero =>
    intro i st hn _ hz
    obtain ⟨z, h1, h2, _⟩ := hz
    omega
  | succ f ih =>
    intro i st hn hok hz
    have hi : i < n := by omega
    by_cases hfin : ∀ r c, r < n → c < n →
        (Machine.view st.support st.fakeRows st.fakeCols r c).IsFinite
    · obtain ⟨mx1, mx2, rows1, cols2, a1, a2, b1, b2, hV, _, hsing, hcont⟩ :=
        machine_run_step i st hi hok hfin
      obtain ⟨z, hz1, hz2, hz3⟩ := hz
      have hzrow : ∀ c, c < n →
          (Machine.view st.support rows1 cols2 (Equiv.swap i mx1 z) c).IsZero := by
        intro c hc
        rw [hV, Equiv.swap_apply_self]
        exact hz3 _ (swap_lt hi b2 hc)
      cases hle : F64.le (F64.abs (Machine.view st.support rows1 cols2 i i)) F64.EPSILON with
      | true => exact Or.inr ⟨i, _, hsing hle f, hi⟩
      | false =>
        obtain ⟨sup3, hok3, hunf, hV3⟩ := hcont hle
        have hzi : Equiv.swap i mx1 z ≠ i := by
          intro he
          have h0 := hzrow i hi
          rw [he] at h0
          rw [F64.le_zero_EPSILON h0] at hle
          cases hle
        have hzge : i ≤ Equiv.swap i mx1 z := swap_ge a1 hz1
        have hzlt : Equiv.swap i mx1 z < n := swap_lt hi a2 hz2
        by_cases hfin3 : ∀ r c, r < n → c < n → (Machine.view sup3 rows1 cols2 r c).IsFinite
        · have hz3b : ∀ c, c < n →
              (Machine.view sup3 rows1 cols2 (Equiv.swap i mx1 z) c).IsZero := by
            intro c hc
            have hf := hfin3 _ c hzlt hc
            rw [hV3 _ c hzlt hc] at hf ⊢
            by_cases hcond : i < Equiv.swap i mx1 z ∧ i < c
            · rw [if_pos hcond] at hf ⊢
              exact F64.elim_zero _ _ _ _ (hzrow c hc) (Or.inl (hzrow i hi)) hf
            · rw [if_neg hcond]
              exact hzrow c hc
          rcases ih (i + 1)
            ⟨st.sign * (if mx1 = i then 1 else -1) * (if mx2 = i then 1 else -1),
              sup3, rows1, cols2⟩ (by omega) hok3
            ⟨Equiv.swap i mx1 z, by omega, hzlt, hz3b⟩ with
            ⟨j, st2, x, hj, hrun, hx, hnf⟩ | ⟨k, p, hrun, hk⟩
          · exact Or.inl ⟨j + 1, st2, x, by omega, by rw [hunf j]; exact hrun, hx, hnf⟩
          · exact Or.inr ⟨k, p, by rw [hunf f]; exact hrun, hk⟩
        · push_neg at hfin3
          obtain ⟨r, c, hr, hc, hnf⟩ := hfin3
          refine Or.inl ⟨1, _, _, by omega, hunf 0, machine_view_mem hok3 hr hc, hnf⟩
    · push_neg at hfin
      obtain ⟨r, c, hr, hc, hnf⟩ := hfin
      exact Or.inl ⟨0, st, _, by omega, rfl, machine_view_mem hok hr hc, hnf⟩

/-- The run in machine arithmetic from step `i` on a state with a zero column among the
columns not yet used as pivot columns: it ends in the early return, unless a state it goes
through holds an infinity or a NaN. -/
theorem machine_zeroCol_run {n : Nat} :
    ∀ (fuel i : Nat) (st : Machine.GaussState), i + fuel = n →
      Machine.EngineOk n st.support st.fakeRows st.fakeCols →
      (∃ z, i ≤ z ∧ z < n ∧ ∀ r, r < n →
        (Machine.view st.support st.fakeRows st.fakeCols r z).IsZero) →
      (∃ j st2 x, j ≤ fuel ∧ Machine.fakeGaussLoop j i st = .ok (.completed st2) ∧
        x ∈ st2.support.arr_ ∧ ¬ x.IsFinite) ∨
      ∃ k p, Machine.fakeGaussLoop fuel i st = .ok (.singular k p) ∧ k < n := by
  intro fuel
  induction fuel with
  | zero =>
    intro i st hn _ hz
    obtain ⟨z, h1, h2, _⟩ := hz
    omega
  | succ f ih =>
    intro i st hn hok hz
    have hi : i < n := by omega
    by_cases hfin : ∀ r c, r < n → c < n →
        (Machine.view st.support st.fakeRows st.fakeCols r c).IsFinite
    · obtain ⟨mx1, mx2, rows1, cols2, a1, a2, b1, b2, hV, _, hsing, hcont⟩ :=
        machine_run_step i st hi hok hfin
      obtain ⟨z, hz1, hz2, hz3⟩ := hz
      have hzcol : ∀ r, r < n →
          (Machine.view st.support rows1 cols2 r (Equiv.swap i mx2 z)).IsZero := by
        intro r hr
        rw [hV, Equiv.swap_apply_self]
        exact hz3 _ (swap_lt hi a2 hr)
      cases hle : F64.le (F64.abs (Machine.view st.support rows1 cols2 i i)) F64.EPSILON with
      | true => exact Or.inr ⟨i, _, hsing hle f, hi⟩
      | false =>
        obtain ⟨sup3, hok3, hunf, hV3⟩ := hcont hle
        have hzi : Equiv.swap i mx2 z ≠ i := by
          intro he
          have h0 := hzcol i hi
          rw [he] at h0
          rw [F64.le_zero_EPSILON h0] at hle
          cases hle
        have hzge : i ≤ Equiv.swap i mx2 z := swap_ge b1 hz1
        have hzlt : Equiv.swap i mx2 z < n := swap_lt hi b2 hz2
        by_cases hfin3 : ∀ r c, r < n → c < n → (Machine.view sup3 rows1 cols2 r c).IsFinite
        · have hz3b : ∀ r, r < n →
              (Machine.view sup3 rows1 cols2 r (Equiv.swap i mx2 z)).IsZero := by
            intro r hr
            have hf := hfin3 r _ hr hzlt
            rw [hV3 r _ hr hzlt] at hf ⊢
            by_cases hcond : i < r ∧ i < Equiv.swap i mx2 z
            · rw [if_pos hcond] at hf ⊢
              exact F64.elim_zero _ _ _ _ (hzcol r hr) (Or.inr (hzcol i hi)) hf
            · rw [if_neg hcond]
              exact hzcol r hr
          rcases ih (i + 1)
            ⟨st.sign * (if mx1 = i then 1 else -1) * (if mx2 = i then 1 else -1),
              sup3, rows1, cols2⟩ (by omega) hok3
            ⟨Equiv.swap i mx2 z, by omega, hzlt, hz3b⟩ with
            ⟨j, st2, x, hj, hrun, hx, hnf⟩ | ⟨k, p, hrun, hk⟩
          · exact Or.inl ⟨j + 1, st2, x, by omega, by rw [hunf j]; exact hrun, hx, hnf⟩
          · exact Or.inr ⟨k, p, by rw [hunf f]; exact hrun, hk⟩
        · push_neg at hfin3
          obtain ⟨r, c, hr, hc, hnf⟩ := hfin3
          refine Or.inl ⟨1, _, _, by omega, hunf 0, machine_view_mem hok3 hr hc, hnf⟩
    · push_neg at hfin
      obtain ⟨r, c, hr, hc, hnf⟩ := hfin
      exact Or.inl ⟨0, st, _, by omega, rfl, machine_view_mem hok hr hc, hnf⟩

theorem F64.ofInt_zero : F64.ofInt 0 = .fin false 0 := by
  simp [F64.ofInt, F64.ofRat]

theorem machine_view_init (m : Mat F64) (hsq : m.nRows_ = m.nCols_) {r c : Nat}
    (hr : r < m.nRows_) (hc : c < m.nCols_) :
    Machine.view m (createFakeRows m) (createFakeCols m) r c = m.entry r c := by
  have hlt : m.nCols_ * r + c < m.arr_.length := by
    rw [m.hsize, hsq]
    exact matrix.index_lt (hsq ▸ hr) hc
  simp only [Machine.view, Mat.entry]
  rw [createFakeRows_getD m hr, createFakeCols_getD m hc, List.getD_eq_getElem _ _ hlt,
    List.getD_eq_getElem _ _ hlt]

theorem overflows_of_state (m : Mat F64) {j : Nat} {st : Machine.GaussState} {x : F64}
    (hj : j ≤ m.nRows_)
    (hrun : Machine.fakeGaussLoop j 0 ⟨1, m, createFakeRows m, createFakeCols m⟩
      = .ok (.completed st))
    (hx : x ∈ st.support.arr_) (hnf : ¬ x.IsFinite) : Machine.Overflows m := by
  refine ⟨j, hj, ?_⟩
  simp only [Machine.overflowsAt, hrun, List.any_eq_true]
  exact ⟨x, hx, by simp [hnf]⟩

/-- The function `det ()` of `Matrix<double>` in machine arithmetic on a matrix with a row
of zeros: the run ends in the early return, unless it meets an infinity or a NaN. -/
theorem machine_zero_row (m : Mat F64) (z : Nat) (hsq : m.nRows_ = m.nCols_)
    (hz : z < m.nRows_) (hrow : ∀ c, c < m.nCols_ → (m.entry z c).IsZero)
    (hno : ¬ Machine.Overflows m.copy) :
    Machine.det m = .ok (.fin false 0) ∧
    ∃ k p, Machine.fakeGaussRun m.copy = .ok (.singular k p) ∧ k < m.nRows_ ∧
      F64.le (F64.abs p) F64.EPSILON = true := by
  rcases machine_zeroRow_run m.nRows_ 0 ⟨1, m, createFakeRows m, createFakeCols m⟩
    (by omega) (machine_engineOk_init m hsq)
    ⟨z, Nat.zero_le _, hz, fun c hc => by
      have hc2 : c < m.nCols_ := hsq ▸ hc
      have := machine_view_init m hsq hz hc2
      simp only at this ⊢
      rw [this]
      exact hrow c hc2⟩ with ⟨j, st2, x, hj, hrun, hx, hnf⟩ | ⟨k, p, hrun, hk⟩
  · exact absurd (by rw [Mat.copy_eq]; exact overflows_of_state m hj hrun hx hnf) hno
  · have hrun2 : Machine.fakeGaussRun m.copy = .ok (.singular k p) := by
      rw [Mat.copy_eq]; exact hrun
    obtain ⟨e1, e2⟩ := Machine.det_of_singular m hsq k p hrun2
    exact ⟨e2, k, p, hrun2, hk, e1⟩

/-- The same on a matrix with a column of zeros. -/
theorem machine_zero_col (m : Mat F64) (z : Nat) (hsq : m.nRows_ = m.nCols_)
    (hz : z < m.nCols_) (hcol : ∀ r, r < m.nRows_ → (m.entry r z).IsZero)
    (hno : ¬ Machine.Overflows m.copy) :
    Machine.det m = .ok (.fin false 0) ∧
    ∃ k p, Machine.fakeGaussRun m.copy = .ok (.singular k p) ∧ k < m.nRows_ ∧
      F64.le (F64.abs p) F64.EPSILON = true := by
  rcases machine_zeroCol_run m.nRows_ 0 ⟨1, m, createFakeRows m, createFakeCols m⟩
    (by omega) (machine_engineOk_init m hsq)
    ⟨z, Nat.zero_le _, hsq ▸ hz, fun r hr => by
      have := machine_view_init m hsq hr hz
      simp only at this ⊢
      rw [this]
      exact hcol r hr⟩ with ⟨j, st2, x, hj, hrun, hx, hnf⟩ | ⟨k, p, hrun, hk⟩
  · exact absurd (by rw [Mat.copy_eq]; exact overflows_of_state m hj hrun hx hnf) hno
  · have hrun2 : Machine.fakeGaussRun m.copy = .ok (.singular k p) := by
      rw [Mat.copy_eq]; exact hrun
    obtain ⟨e1, e2⟩ := Machine.det_of_singular m hsq k p hrun2
    exact ⟨e2, k, p, hrun2, hk, e1⟩

/-- The `Matrix<double>` copy that `det ()` of `Matrix<int>` works on, element by
element. -/
theorem machine_convert_entry (fresh : Nat → F64) (m : Mat ℤ) :
    ∃ support, Mat.convert fresh F64.ofInt m = .ok support ∧
      support.nRows_ = m.nRows_ ∧ support.nCols_ = m.nCols_ ∧
      ∀ i j, support.entry i j = F64.ofInt (m.entry i j) := by
  refine ⟨_, Mat.convert_ok fresh _ m, rfl, rfl, ?_⟩
  intro i j
  simp only [Mat.entry, List.getD_eq_getElem?_getD, List.getElem?_map]
  cases m.arr_[m.nCols_ * i + j]? with
  | none => exact F64.ofInt_zero.symm
  | some v => rfl

/-- The function `det ()` of `Matrix<int>` in machine arithmetic on a matrix with a row of
zeros. -/
theorem machine_zero_row_int (fresh : Nat → F64) (m : Mat ℤ) (z : Nat)
    (hsq : m.nRows_ = m.nCols_) (hz : z < m.nRows_)
    (hrow : ∀ c, c < m.nCols_ → m.entry z c = 0) :
    ∃ support, Mat.convert fresh F64.ofInt m = .ok support ∧
      (¬ Machine.Overflows support.copy →
        Machine.detInt fresh m = .ok 0 ∧
        ∃ k p, Machine.fakeGaussRun support.copy = .ok (.singular k p) ∧ k < m.nRows_ ∧
          F64.le (F64.abs p) F64.EPSILON = true) := by
  obtain ⟨support, hc, d1, d2, hent⟩ := machine_convert_entry fresh m
  refine ⟨support, hc, fun hno => ?_⟩
  obtain ⟨_, k, p, hrun, hk, hle⟩ := machine_zero_row support z (by rw [d1, d2]; exact hsq)
    (by rw [d1]; exact hz)
    (fun c hc2 => by
      rw [hent, hrow c (by rw [← d2]; exact hc2), F64.ofInt_zero]
      exact Or.inl rfl) hno
  exact ⟨(Machine.detInt_of_singular fresh m hsq support k p hc hrun).2, k, p, hrun,
    by rw [← d1]; exact hk, hle⟩

/-- The same on a matrix with a column of zeros. -/
theorem machine_zero_col_int (fresh : Nat → F64) (m : Mat ℤ) (z : Nat)
    (hsq : m.nRows_ = m.nCols_) (hz : z < m.nCols_)
    (hcol : ∀ r, r < m.nRows_ → m.entry r z = 0) :
    ∃ support, Mat.convert fresh F64.ofInt m = .ok support ∧
      (¬ Machine.Overflows support.copy →
        Machine.detInt fresh m = .ok 0 ∧
        ∃ k p, Machine.fakeGaussRun support.copy = .ok (.singular k p) ∧ k < m.nRows_ ∧
          F64.le (F64.abs p) F64.EPSILON = true) := by
  obtain ⟨support, hc, d1, d2, hent⟩ := machine_convert_entry fresh m
  refine ⟨support, hc, fun hno => ?_⟩
  obtain ⟨_, k, p, hrun, hk, hle⟩ := machine_zero_col support z (by rw [d1, d2]; exact hsq)
    (by rw [d2]; exact hz)
    (fun r hr2 => by
      rw [hent, hcol r (by rw [← d1]; exact hr2), F64.ofInt_zero]
      exact Or.inl rfl) hno
  exact ⟨(Machine.detInt_of_singular fresh m hsq support k p hc hrun).2, k, p, hrun,
    by rw [← d1]; exact hk, hle⟩

/-- C7, as stated, fails.  On the matrix with the rows `(1e-15 0)`, `(0 0)` the run returns
at step 0 on the pivot `1e-15` of row 0 and column 0, which is not zero: the zero row and the
zero column are never selected (with exact elements and in `double` alike).  In `double`
the value need not be 0 either: on the matrix with the rows `(1.5e308 -1.5e308 -1.5e308)`,
`(1.4e308 1.4e308 1.4e308)`, `(0 0 0)` the first elimination overflows, the zero row becomes
`0 - 0 * inf`, a NaN, and `det ()` returns a NaN: the run meets an infinity or a NaN
(`Machine.Overflows`). -/
theorem det_zero_line_counterexample :
    (fakeGaussRun (mat22 (1 / 10 ^ 15) 0 0 0).copy = .ok (.singular 0 (1 / 10 ^ 15)) ∧
      (1 / 10 ^ 15 : ℚ) ≠ 0 ∧
      view (mat22 (1 / 10 ^ 15) 0 0 0) [0, 2] [0, 1] 0 0 = 1 / 10 ^ 15) ∧
    (Machine.fakeGaussRun (mat22F (F64.lit (1 / 10 ^ 15)) (F64.lit 0) (F64.lit 0)
        (F64.lit 0)).copy = .ok (.singular 0 (F64.lit (1 / 10 ^ 15))) ∧
      F64.lit (1 / 10 ^ 15) ≠ .fin false 0) ∧
    Machine.det (mat33F
      (F64.lit (15 * 10 ^ 307)) (F64.neg (F64.lit (15 * 10 ^ 307)))
        (F64.neg (F64.lit (15 * 10 ^ 307)))
      (F64.lit (14 * 10 ^ 307)) (F64.lit (14 * 10 ^ 307)) (F64.lit (14 * 10 ^ 307))
      (F64.lit 0) (F64.lit 0) (F64.lit 0)) = .ok .nan ∧
    Machine.Overflows (mat33F
      (F64.lit (15 * 10 ^ 307)) (F64.neg (F64.lit (15 * 10 ^ 307)))
        (F64.neg (F64.lit (15 * 10 ^ 307)))
      (F64.lit (14 * 10 ^ 307)) (F64.lit (14 * 10 ^ 307)) (F64.lit (14 * 10 ^ 307))
      (F64.lit 0) (F64.lit 0) (F64.lit 0)).copy := by
  refine ⟨by decide!, ⟨by decide!, by decide!⟩, by decide!, by decide!⟩

/-- C7, amended: for every square matrix with a row of zeros, or with a column of zeros,
`det ()` returns 0, for `Matrix<double>` and for `Matrix<int>`, by the early return of
`fakeGauss` at its first pivot within `EPSILON`: in `double` arithmetic as the program
computes it unless the working copy comes to hold an infinity or a NaN in some state of the
run (the last four parts), and with element arithmetic taken as exact always (the first
four parts).  With exact elements the zero line stays zero in every state of the run, a step
that selects the zero line as its pivot row (column) returns on the pivot `0`, and the last
step does so if no earlier pivot was within `EPSILON`. -/
theorem det_zero_row_or_column :
    (∀ (m : Mat ℚ) (z : Nat), m.nRows_ = m.nCols_ → z < m.nRows_ →
      (∀ c, c < m.nCols_ → m.entry z c = 0) → det m = .ok 0 ∧ ZeroRowRun m.copy z) ∧
    (∀ (m : Mat ℚ) (c : Nat), m.nRows_ = m.nCols_ → c < m.nCols_ →
      (∀ r, r < m.nRows_ → m.entry r c = 0) → det m = .ok 0 ∧ ZeroColRun m.copy c) ∧
    (∀ (fresh : Nat → ℚ) (m : Mat ℤ) (z : Nat), m.nRows_ = m.nCols_ → z < m.nRows_ →
      (∀ c, c < m.nCols_ → m.entry z c = 0) →
      detInt fresh m = .ok 0 ∧
      ∃ support, Mat.convert fresh (fun z : ℤ => (z : ℚ)) m = .ok support ∧
        ZeroRowRun support.copy z) ∧
    (∀ (fresh : Nat → ℚ) (m : Mat ℤ) (c : Nat), m.nRows_ = m.nCols_ → c < m.nCols_ →
      (∀ r, r < m.nRows_ → m.entry r c = 0) →
      detInt fresh m = .ok 0 ∧
      ∃ support, Mat.convert fresh (fun z : ℤ => (z : ℚ)) m = .ok support ∧
        ZeroColRun support.copy c) ∧
    (∀ (m : Mat F64) (z : Nat), m.nRows_ = m.nCols_ → z < m.nRows_ →
      (∀ c, c < m.nCols_ → (m.entry z c).IsZero) → ¬ Machine.Overflows m.copy →
      Machine.det m = .ok (.fin false 0) ∧
      ∃ k p, Machine.fakeGaussRun m.copy = .ok (.singular k p) ∧ k < m.nRows_ ∧
        F64.le (F64.abs p) F64.EPSILON = true) ∧
    (∀ (m : Mat F64) (c : Nat), m.nRows_ = m.nCols_ → c < m.nCols_ →
      (∀ r, r < m.nRows_ → (m.entry r c).IsZero) → ¬ Machine.Overflows m.copy →
      Machine.det m = .ok (.fin false 0) ∧
      ∃ k p, Machine.fakeGaussRun m.copy = .ok (.singular k p) ∧ k < m.nRows_ ∧
        F64.le (F64.abs p) F64.EPSILON = true) ∧
    (∀ (fresh : Nat → F64) (m : Mat ℤ) (z : Nat), m.nRows_ = m.nCols_ → z < m.nRows_ →
      (∀ c, c < m.nCols_ → m.entry z c = 0) →
      ∃ support, Mat.convert fresh F64.ofInt m = .ok support ∧
        (¬ Machine.Overflows support.copy →
          Machine.detInt fresh m = .ok 0 ∧
          ∃ k p, Machine.fakeGaussRun support.copy = .ok (.singular k p) ∧ k < m.nRows_ ∧
            F64.le (F64.abs p) F64.EPSILON = true)) ∧
    (∀ (fresh : Nat → F64) (m : Mat ℤ) (c : Nat), m.nRows_ = m.nCols_ → c < m.nCols_ →
      (∀ r, r < m.nRows_ → m.entry r c = 0) →
      ∃ support, Mat.convert fresh F64.ofInt m = .ok support ∧
        (¬ Machine.Overflows support.copy →
          Machine.detInt fresh m = .ok 0 ∧
          ∃ k p, Machine.fakeGaussRun support.copy = .ok (.singular k p) ∧ k < m.nRows_ ∧
            F64.le (F64.abs p) F64.EPSILON = true)) := by
  have hrow : ∀ (m : Mat ℚ) (z : Nat), m.nRows_ = m.nCols_ → z < m.nRows_ →
      (∀ c, c < m.nCols_ → m.entry z c = 0) → det m = .ok 0 ∧ ZeroRowRun m.copy z := by
    intro m z hsq hz hr
    have hrun := zeroRowRun_of m z hsq hz hr
    refine ⟨?_, by rw [Mat.copy_eq]; exact hrun⟩
    obtain ⟨k, p, h1, _⟩ := hrun
    rw [det_eq_fakeGauss m hsq]
    exact fakeGauss_of_singular m k p h1
  have hcol : ∀ (m : Mat ℚ) (c : Nat), m.nRows_ = m.nCols_ → c < m.nCols_ →
      (∀ r, r < m.nRows_ → m.entry r c = 0) → det m = .ok 0 ∧ ZeroColRun m.copy c := by
    intro m c hsq hc hr
    have hrun := zeroColRun_of m c hsq hc hr
    refine ⟨?_, by rw [Mat.copy_eq]; exact hrun⟩
    obtain ⟨k, p, h1, _⟩ := hrun
    rw [det_eq_fakeGauss m hsq]
    exact fakeGauss_of_singular m k p h1
  refine ⟨hrow, hcol, ?_, ?_, machine_zero_row, machine_zero_col, machine_zero_row_int,
    machine_zero_col_int⟩
  · intro fresh m z hsq hz hr
    have hns : ¬ m.nRows_ ≠ m.nCols_ := fun h => h hsq
    obtain ⟨support, hc, d1, d2, hent⟩ := convert_entry fresh m
    obtain ⟨e1, e2⟩ := hrow support z (by rw [d1, d2]; exact hsq) (by rw [d1]; exact hz)
      (fun c hc2 => by rw [hent, hr c (by rw [← d2]; exact hc2)]; simp)
    refine ⟨?_, support, hc, e2⟩
    simp only [detInt, hns, if_false, detTrueType, hc, e1, round_zero]
  · intro fresh m c hsq hc0 hr
    have hns : ¬ m.nRows_ ≠ m.nCols_ := fun h => h hsq
    obtain ⟨support, hc, d1, d2, hent⟩ := convert_entry fresh m
    obtain ⟨e1, e2⟩ := hcol support c (by rw [d1, d2]; exact hsq) (by rw [d2]; exact hc0)
      (fun r hr2 => by rw [hent, hr r (by rw [← d1]; exact hr2)]; simp)
    refine ⟨?_, support, hc, e2⟩
    simp only [detInt, hns, if_false, detTrueType, hc, e1, round_zero]

/-- C7 amended on the matrix with the rows `(0 0)`, `(3 4)` and on the `Matrix<int>` with
the rows `(5 0)`, `(7 0)`: the first step takes the pivot `4` (`7`), the second selects the
zero line and returns on the pivot `0`; in `double` no state of these runs holds an infinity
or a NaN, and the value is `+0.0` (the `int` 0) there as well. -/
theorem det_zero_row_or_column_witness :
    (fakeGaussRun (mat22 0 0 3 4).copy = .ok (.singular 1 0) ∧
      Machine.fakeGaussRun (mat22F (F64.ofInt 0) (F64.ofInt 0) (F64.ofInt 3)
        (F64.ofInt 4)).copy = .ok (.singular 1 (.fin false 0))) ∧
    (det (mat22 0 0 3 4) = .ok 0 ∧ ZeroRowRun (mat22 0 0 3 4).copy 0) ∧
    (detInt (fun _ => 0) (mat22Int 5 0 7 0) = .ok 0 ∧
      ∃ support, Mat.convert (fun _ => 0) (fun z : ℤ => (z : ℚ)) (mat22Int 5 0 7 0)
        = .ok support ∧ ZeroColRun support.copy 1) ∧
    (¬ Machine.Overflows (mat22F (F64.ofInt 0) (F64.ofInt 0) (F64.ofInt 3)
        (F64.ofInt 4)).copy ∧
      Machine.det (mat22F (F64.ofInt 0) (F64.ofInt 0) (F64.ofInt 3) (F64.ofInt 4))
        = .ok (.fin false 0) ∧
      ∃ k p, Machine.fakeGaussRun (mat22F (F64.ofInt 0) (F64.ofInt 0) (F64.ofInt 3)
          (F64.ofInt 4)).copy = .ok (.singular k p) ∧ k < 2 ∧
        F64.le (F64.abs p) F64.EPSILON = true) ∧
    (∃ support, Mat.convert (fun _ => F64.nan) F64.ofInt (mat22Int 5 0 7 0) = .ok support ∧
      ¬ Machine.Overflows support.copy ∧
      Machine.detInt (fun _ => F64.nan) (mat22Int 5 0 7 0) = .ok 0) :=
  ⟨⟨by decide!, by decide!⟩,
    det_zero_row_or_column.1 (mat22 0 0 3 4) 0 rfl (by decide)
      (fun c hc => by
        have hc2 : c < 2 := hc
        interval_cases c <;> decide!),
    det_zero_row_or_column.2.2.2.1 (fun _ => 0) (mat22Int 5 0 7 0) 1 rfl (by decide)
      (fun r hr => by
        have hr2 : r < 2 := hr
        interval_cases r <;> decide!),
    ⟨by decide!,
      det_zero_row_or_column.2.2.2.2.1
        (mat22F (F64.ofInt 0) (F64.ofInt 0) (F64.ofInt 3) (F64.ofInt 4)) 0 rfl (by decide)
        (fun c hc => by
          have hc2 : c < 2 := hc
          interval_cases c <;> decide!)
        (by decide!)⟩,
    (by
      obtain ⟨support, h1, h2⟩ := det_zero_row_or_column.2.2.2.2.2.2.2 (fun _ => F64.nan)
        (mat22Int 5 0 7 0) 1 rfl (by decide)
        (fun r hr => by
          have hr2 : r < 2 := hr
          interval_cases r <;> decide!)
      have hs : support = mat22F (F64.ofInt 5) (F64.ofInt 0) (F64.ofInt 7) (F64.ofInt 0) := by
        rw [Mat.convert_ok] at h1
        injection h1 with h1
        rw [← h1]
        rfl
      have hno : ¬ Machine.Overflows support.copy := by
        rw [hs]
        decide!
      exact ⟨support, h1, hno, (h2 hno).1⟩)⟩

/-! ## The scenario `randomMatrix (3, 10)` -/

theorem triangle_three_bound (fresh : Nat → ℤ) (U : Nat → Nat → ℤ)
    (hz : ∀ a b, b < a → a < 3 → fresh (3 * a + b) = 0) (hU : ∀ i j, |U i j| ≤ 10)
    (a b : Nat) (ha : a < 3) (hb : b < 3) : |triangleStage 3 fresh U 10 a b| ≤ 10 := by
  simp only [triangleStage, upperStage]
  split_ifs with h1 h2 h3 h4
  · decide
  · decide
  · exact hU a b
  · rw [hz a b (by omega) ha]; decide
  · rw [hz a b (by omega) ha]; decide

theorem rows_three_bound (T : Nat → Nat → ℤ) (rc : Nat → ℤ)
    (hT : ∀ a b, a < 3 → b < 3 → |T a b| ≤ 10) (hrc : ∀ i, |rc i| ≤ 5)
    (a b : Nat) (ha : a < 3) (hb : b < 3) :
    |rc a * T 0 b| ≤ 50 ∧ |T a b + rc a * T 0 b| ≤ 60 ∧ |rowStage T rc 3 a b| ≤ 60 := by
  have h1 : |rc a * T 0 b| ≤ 50 := by
    rw [abs_mul]
    calc |rc a| * |T 0 b| ≤ 5 * 10 :=
          mul_le_mul (hrc a) (hT 0 b (by decide) hb) (abs_nonneg _) (by decide)
      _ = 50 := by decide
  have h2 : |T a b + rc a * T 0 b| ≤ 60 :=
    le_trans (abs_add _ _) (by have := hT a b ha hb; omega)
  refine ⟨h1, h2, ?_⟩
  simp only [rowStage]
  split_ifs
  · exact h2
  · exact le_trans (hT a b ha hb) (by decide)

theorem cols_three_bound (R : Nat → Nat → ℤ) (cc : Nat → ℤ)
    (hR : ∀ a b, a < 3 → b < 3 → |R a b| ≤ 60) (hcc : ∀ i, |cc i| ≤ 5)
    (a b : Nat) (ha : a < 3) (hb : b < 3) :
    |cc b * R a 2| ≤ 300 ∧ |R a b + cc b * R a 2| ≤ 360 ∧ |colStage 3 R cc 2 a b| ≤ 360 := by
  have h1 : |cc b * R a 2| ≤ 300 := by
    rw [abs_mul]
    calc |cc b| * |R a 2| ≤ 5 * 60 :=
          mul_le_mul (hcc b) (hR a 2 ha (by decide)) (abs_nonneg _) (by decide)
      _ = 300 := by decide
  have h2 : |R a b + cc b * R a 2| ≤ 360 :=
    le_trans (abs_add _ _) (by have := hR a b ha hb; omega)
  refine ⟨h1, h2, ?_⟩
  simp only [colStage]
  split_ifs
  · exact h2
  · exact le_trans (hR a b ha hb) (by decide)

theorem int_range_of_abs {z : ℤ} {B : ℤ} (h : |z| ≤ B) (hB : B < 2 ^ 31) :
    -2 ^ 31 ≤ z ∧ z < 2 ^ 31 := by
  obtain ⟨h1, h2⟩ := abs_le.1 h
  constructor <;> omega

/-- The scenario: on a buffer whose slots below the diagonal hold zero, for every outcome
of the draws (those above the diagonal between -10 and 10, the coefficients between -5
and 5), `randomMatrix (3, 10)` meets no overflow and returns a matrix of integers of
absolute value at most 360 with the determinant 10, on which the run of `det ()` meets no
pivot within `EPSILON` and gives 10, in `double` and with exact elements alike. -/
theorem randomMatrix_three_ten (fresh : Nat → ℤ) (U : Nat → Nat → ℤ) (rc cc : Nat → ℤ)
    (hz : ∀ a b, b < a → a < 3 → fresh (3 * a + b) = 0)
    (hU : ∀ i j, |U i j| ≤ 10) (hrc : ∀ i, |rc i| ≤ 5) (hcc : ∀ i, |cc i| ≤ 5)
    (fresh2 : Nat → ℚ) (freshF : Nat → F64) :
    ∃ m, Machine.randomMatrix fresh U rc cc 3 10 = .ok m ∧
      (∀ a b, a < 3 → b < 3 → |m.entry a b| ≤ 360) ∧ m.mathDet = 10 ∧
      ¬ EarlyReturnInt fresh2 m ∧ detInt fresh2 m = .ok 10 ∧
      (∃ support st, Mat.convert freshF F64.ofInt m = .ok support ∧
        Machine.fakeGaussRun support.copy = .ok (.completed st)) ∧
      Machine.detInt freshF m = .ok 10 := by
  have hT := triangle_three_bound fresh U hz hU
  have hR := fun a b ha hb =>
    (rows_three_bound (triangleStage 3 fresh U 10) rc hT hrc a b ha hb).2.2
  obtain ⟨m, hm, hh⟩ := machine_holds fresh U rc cc 3 (by decide) 10
    (by
      intro i j _ hi hj
      obtain ⟨b1, b2, _⟩ := rows_three_bound (triangleStage 3 fresh U 10) rc hT hrc i j hi hj
      exact ⟨int_range_of_abs b1 (by decide), int_range_of_abs b2 (by decide)⟩)
    (by
      intro i j hi hj
      obtain ⟨b1, b2, _⟩ := cols_three_bound (rowStage (triangleStage 3 fresh U 10) rc 3) cc
        hR hcc j i hj (by omega)
      exact ⟨int_range_of_abs b1 (by decide), int_range_of_abs b2 (by decide)⟩)
  have hent : ∀ a b, a < 3 → b < 3 → |m.entry a b| ≤ 360 := by
    intro a b ha hb
    rw [hh.2.2 a b ha hb]
    exact (cols_three_bound (rowStage (triangleStage 3 fresh U 10) rc 3) cc hR hcc a b ha hb).2.2
  have hex : randomMatrix fresh U rc cc 3 10 = .ok m := by
    rcases randomMatrix_refine fresh U rc cc 3 10 with h | h
    · rw [← h]; exact hm
    · rw [h] at hm; cases hm
  have hdet : m.mathDet = 10 := by
    obtain ⟨m2, hm2, _, _, hd⟩ := randomMatrix_det_of_zero_lower fresh U rc cc 3 (by decide) 10 hz
    have e : m = m2 := Except.ok.inj (hex.symm.trans hm2)
    rw [e]; exact hd
  obtain ⟨nr, nc, arr, hsz⟩ := m
  obtain ⟨d1, d2, _⟩ := hh
  simp only at d1 d2
  subst d1; subst d2
  have hrun := run_completes_three (arr.map (fun z : ℤ => (z : ℚ))) (by simp [hsz]) 360
    (by
      intro a b ha hb
      have he : (⟨3, 3, arr.map (fun z : ℤ => (z : ℚ)), by simp [hsz]⟩ : Mat ℚ).entry a b
          = (((⟨3, 3, arr, hsz⟩ : Mat ℤ).entry a b : ℤ) : ℚ) := by
        simp only [Mat.entry, List.getD_eq_getElem?_getD, List.getElem?_map]
        cases arr[3 * a + b]? <;> simp
      refine ⟨(⟨3, 3, arr, hsz⟩ : Mat ℤ).entry a b, he, ?_⟩
      rw [he, ← Int.cast_abs]
      exact_mod_cast hent a b ha hb)
    (by unfold EPSILON; norm_num)
    (by
      have := mathDet_convert (⟨3, 3, arr, hsz⟩ : Mat ℤ)
      simp only at this
      rw [this, hdet]
      unfold EPSILON; norm_num)
  obtain ⟨st, hst⟩ := hrun
  have hne : ¬ EarlyReturnInt fresh2 (⟨3, 3, arr, hsz⟩ : Mat ℤ) := by
    rintro ⟨support, hc, k, p, hk, _⟩
    rw [Mat.convert_ok] at hc
    injection hc with hc
    subst hc
    rw [Mat.copy_eq] at hk
    simp only at hk
    rw [hst] at hk
    cases hk
  obtain ⟨hm1, hm2⟩ := machine_detInt_three freshF arr hsz hent hdet
  refine ⟨_, hm, hent, hdet, hne, ?_, hm1, hm2⟩
  have := ((detInt_outcome fresh2 (⟨3, 3, arr, hsz⟩ : Mat ℤ) rfl (Nat.succ_pos 2)).2 hne).1
  rw [this, hdet]

/-! ## The determinant of the generated matrix -/

/-- C8, as stated, fails, in four ways.  (1) The tolerance: on a zeroed buffer
`randomMatrix (5, 100000)` with every draw above the diagonal equal to 100000 and all
coefficients 0 returns the triangular matrix with ones on the diagonal and 100000 in the
last place; the elimination meets the pivot `1 / 99999^3` within `EPSILON` at its last
step, and `det ()` returns 0, in `double` as with exact elements.  (2) Rounding: on a
zeroed buffer `randomMatrix (2, 50000000)` with the draw 45681943 and both coefficients 3
returns the matrix with the rows `(137045830 45681943)`, `(561137490 187045829)`, of
determinant 50000000, on which `det ()` returns 50000003 in `double`.  (3) Overflow:
`randomMatrix (2, 2000000000)` with the draw 2000000000 and the row coefficient 1 adds
2000000000 to 2000000000 in `int`.  (4) The uninitialised buffer: `randomMatrix (3, 10)`
on a buffer whose slot `[1][0]` holds 1, with every draw 1 and all coefficients 0, returns
a matrix with two equal rows, and `det ()` returns 0. -/
theorem det_randomMatrix_counterexample :
    ((Machine.randomMatrix (fun _ => 0) (fun _ _ => 100000) (fun _ => 0) (fun _ => 0)
        5 100000).map (fun m => m.arr_)
      = .ok [1, 100000, 100000, 100000, 100000,
             0, 1, 100000, 100000, 100000,
             0, 0, 1, 100000, 100000,
             0, 0, 0, 1, 100000,
             0, 0, 0, 0, 100000] ∧
    (match Machine.randomMatrix (fun _ => 0) (fun _ _ => 100000) (fun _ => 0) (fun _ => 0)
        5 100000 with
      | .ok m => Machine.detInt (fun _ => F64.nan) m
      | .error e => .error e) = .ok 0 ∧
    (match Machine.randomMatrix (fun _ => 0) (fun _ _ => 100000) (fun _ => 0) (fun _ => 0)
        5 100000 with
      | .ok m => detInt (fun _ => 0) m
      | .error e => .error e) = .ok 0 ∧
    (match Machine.randomMatrix (fun _ => 0) (fun _ _ => 100000) (fun _ => 0) (fun _ => 0)
        5 100000 with
      | .ok m =>
        (match Mat.convert (fun _ => 0) (fun z : ℤ => (z : ℚ)) m with
          | .ok support => fakeGaussRun support.copy
          | .error e => .error e)
      | .error e => .error e) = .ok (.singular 4 (1 / 99999 ^ 3))) ∧
    ((Machine.randomMatrix (fun _ => 0) (fun _ _ => 45681943) (fun _ => 3) (fun _ => 3)
        2 50000000).map (fun m => m.arr_)
      = .ok [137045830, 45681943, 561137490, 187045829] ∧
    (mat22Int 137045830 45681943 561137490 187045829).mathDet = 50000000 ∧
    Machine.detInt (fun _ => F64.nan) (mat22Int 137045830 45681943 561137490 187045829)
      = .ok 50000003 ∧
    detInt (fun _ => 0) (mat22Int 137045830 45681943 561137490 187045829)
      = .ok 50000000) ∧
    Machine.randomMatrix (fun _ => 0) (fun _ _ => 2000000000) (fun _ => 1) (fun _ => 0)
        2 2000000000 = .error .intOverflow ∧
    ((Machine.randomMatrix (fun k => if k = 3 then 1 else 0) (fun _ _ => 1) (fun _ => 0)
        (fun _ => 0) 3 10).map (fun m => m.arr_)
      = .ok [1, 1, 1, 1, 1, 1, 0, 0, 10] ∧
    (match Machine.randomMatrix (fun k => if k = 3 then 1 else 0) (fun _ _ => 1) (fun _ => 0)
        (fun _ => 0) 3 10 with
      | .ok m => Machine.detInt (fun _ => F64.nan) m
      | .error e => .error e) = .ok 0) := by
  refine ⟨by decide!, ⟨by decide!, ?_, by decide!, by decide!⟩, by decide!, by decide!⟩
  simp [Mat.mathDet, Mat.toMatrix, Matrix.det_fin_two, Mat.entry, mat22Int]

/-- C8, amended.  Let the slots below the diagonal of the new buffer hold zero and let
`size ≥ 1`.  For every target `d` and every outcome of the draws, `randomMatrix (size, d)`
either meets an overflow of `int` or returns a `size x size` matrix of determinant `d`;
with the element arithmetic of `det ()` taken as exact, `det ()` of that matrix is 0 when
the elimination meets a pivot within `EPSILON` and `d` otherwise, and it is 0 when `d = 0`.
In particular for `size = 3`, `d = 10`, for every outcome of the draws (those above the
diagonal between -10 and 10, the coefficients between -5 and 5), there is no overflow, the
elimination meets no pivot within `EPSILON`, and the result is 10: in `double`, as the
program computes it, and with exact elements alike. -/
theorem det_randomMatrix_zero_lower (fresh : Nat → ℤ) (U : Nat → Nat → ℤ)
    (rc cc : Nat → ℤ) (n : Nat) (hn : 0 < n) (d : ℤ)
    (hz : ∀ a b, b < a → a < n → fresh (n * a + b) = 0) (fresh2 : Nat → ℚ)
    (freshF : Nat → F64) :
    (Machine.randomMatrix fresh U rc cc n d = .error .intOverflow ∨
      ∃ m, Machine.randomMatrix fresh U rc cc n d = .ok m ∧
        m.nRows_ = n ∧ m.nCols_ = n ∧ m.mathDet = d ∧
        (EarlyReturnInt fresh2 m → detInt fresh2 m = .ok 0) ∧
        (¬ EarlyReturnInt fresh2 m → detInt fresh2 m = .ok d) ∧
        (d = 0 → detInt fresh2 m = .ok 0)) ∧
    (n = 3 → d = 10 → (∀ i j, |U i j| ≤ 10) → (∀ i, |rc i| ≤ 5) → (∀ i, |cc i| ≤ 5) →
      ∃ m, Machine.randomMatrix fresh U rc cc n d = .ok m ∧
        (∃ support st, Mat.convert freshF F64.ofInt m = .ok support ∧
          Machine.fakeGaussRun support.copy = .ok (.completed st)) ∧
        Machine.detInt freshF m = .ok 10 ∧
        ¬ EarlyReturnInt fresh2 m ∧ detInt fresh2 m = .ok 10) := by
  constructor
  · obtain ⟨m, hm, h1, h2, h3⟩ := randomMatrix_det_of_zero_lower fresh U rc cc n hn d hz
    rcases randomMatrix_refine fresh U rc cc n d with h | h
    · right
      obtain ⟨o1, o2⟩ := detInt_outcome fresh2 m (h1.trans h2.symm) (by rw [h1]; exact hn)
      have o3 : ¬ EarlyReturnInt fresh2 m → detInt fresh2 m = .ok d := by
        intro hne
        rw [(o2 hne).1, h3]
      refine ⟨m, h.trans hm, h1, h2, h3, o1, o3, ?_⟩
      intro hd
      by_cases he : EarlyReturnInt fresh2 m
      · exact o1 he
      · rw [o3 he, hd]
    · exact Or.inl h
  · intro hn3 hd hU hrc hcc
    subst hn3
    subst hd
    obtain ⟨m, hm, _, _, hne, hv, hm1, hm2⟩ :=
      randomMatrix_three_ten fresh U rc cc hz hU hrc hcc fresh2 freshF
    exact ⟨m, hm, hm1, hm2, hne, hv⟩

/-- The witness of C8 amended: size 3, target 10, on a zeroed buffer, with every draw above
the diagonal 3, the row coefficients 2 and the column coefficients -1; the matrix returned
has the rows `(-2 0 3)`, `(-7 -2 9)`, `(-14 -10 16)`, and `det ()` gives 10 on it. -/
theorem det_randomMatrix_zero_lower_witness :
    ((Machine.randomMatrix (fun _ => 0) (fun _ _ => 3) (fun _ => 2) (fun _ => -1) 3 10).map
        (fun m => m.arr_) = .ok [-2, 0, 3, -7, -2, 9, -14, -10, 16] ∧
    (match Machine.randomMatrix (fun _ => 0) (fun _ _ => 3) (fun _ => 2) (fun _ => -1) 3 10 with
      | .ok m => Machine.detInt (fun _ => F64.nan) m
      | .error e => .error e) = .ok 10) ∧
    ((Machine.randomMatrix (fun _ => 0) (fun _ _ => 3) (fun _ => 2) (fun _ => -1) 3 10
        = .error .intOverflow ∨
      ∃ m, Machine.randomMatrix (fun _ => 0) (fun _ _ => 3) (fun _ => 2) (fun _ => -1) 3 10
          = .ok m ∧
        m.nRows_ = 3 ∧ m.nCols_ = 3 ∧ m.mathDet = 10 ∧
        (EarlyReturnInt (fun _ => 0) m → detInt (fun _ => 0) m = .ok 0) ∧
        (¬ EarlyReturnInt (fun _ => 0) m → detInt (fun _ => 0) m = .ok 10) ∧
        ((10 : ℤ) = 0 → detInt (fun _ => 0) m = .ok 0)) ∧
    (3 = 3 → (10 : ℤ) = 10 → (∀ i j : Nat, |(fun _ _ => (3 : ℤ)) i j| ≤ 10) →
      (∀ i : Nat, |(fun _ => (2 : ℤ)) i| ≤ 5) → (∀ i : Nat, |(fun _ => (-1 : ℤ)) i| ≤ 5) →
      ∃ m, Machine.randomMatrix (fun _ => 0) (fun _ _ => 3) (fun _ => 2) (fun _ => -1) 3 10
          = .ok m ∧
        (∃ support st, Mat.convert (fun _ => F64.nan) F64.ofInt m = .ok support ∧
          Machine.fakeGaussRun support.copy = .ok (.completed st)) ∧
        Machine.detInt (fun _ => F64.nan) m = .ok 10 ∧
        ¬ EarlyReturnInt (fun _ => 0) m ∧ detInt (fun _ => 0) m = .ok 10)) :=
  ⟨⟨by decide!, by decide!⟩,
    det_randomMatrix_zero_lower (fun _ => 0) (fun _ _ => 3) (fun _ => 2) (fun _ => -1) 3
      (by decide) 10 (fun _ _ _ _ => rfl) (fun _ => 0) (fun _ => F64.nan)⟩

end matrix
